import Mathlib

/-!
# SFS: a flat inode file system on a block device

A shallow embedding of `src/src/library/fs.cpp` and `src/include/sfs/fs.h`.

* A block is the 4096 bytes of `union Block`; the typed views of the union
  (`Super`, `Inodes`, `Pointers`) read and write the little-endian 32-bit words
  of those bytes, so a block written through one view can be read through another.
* `uint32_t` stores are reduced modulo `2^32`.  `size_t` values (`length`,
  `offset`, `inumber`) are natural numbers below `2^64`; the sums `length + offset`
  that `read` and `i_read` form are reduced modulo `2^64`.  In `i_write` the sum
  `offset + length` is not reduced: when it reaches `2^64` the code copies `length`
  bytes into a 4096-byte block and does not return.
* C arrays (`inode_table`, `free_block_map`, the device blocks, the caller's
  buffer) are total functions on `Nat`; the handle records next to `inode_table` and
  `free_block_map` the number of elements `mount` allocated for them.
* A `for` loop is a structurally recursive function whose first numeric argument
  counts the iterations that remain.
-/

namespace SFS

/-! ## Constants (fs.h) -/

/-- The block size `Disk::BLOCK_SIZE`. -/
def BLOCK_SIZE : Nat := 4096

/-- The constant `FileSystem::MAGIC_NUMBER`. -/
def MAGIC_NUMBER : Nat := 0xf0f03410

/-- The constant `FileSystem::INODES_PER_BLOCK`. -/
def INODES_PER_BLOCK : Nat := 128

/-- The constant `FileSystem::POINTERS_PER_INODE`. -/
def POINTERS_PER_INODE : Nat := 5

/-- The constant `FileSystem::POINTERS_PER_BLOCK`. -/
def POINTERS_PER_BLOCK : Nat := 1024

/-- Conversion to `uint32_t`. -/
def u32 (x : Nat) : Nat := x % 4294967296

/-- Conversion to `size_t`, which has 64 bits. -/
def usize (x : Nat) : Nat := x % 18446744073709551616

/-! ## Bytes, buffers and array updates -/

/-- One `char` of a block or of a caller buffer. -/
abbrev Byte := Fin 256

/-- The low byte of a number. -/
def byteOf (x : Nat) : Byte := ⟨x % 256, Nat.mod_lt x (by decide)⟩

/-- Memory reached through a `char *`: the bytes at non-negative offsets from it. -/
abbrev Buffer := Nat → Byte

/-- The bytes `char Data[Disk::BLOCK_SIZE]` of a `union Block`. -/
abbrev Block := Nat → Byte

/-- Assignment `a[i] = v` to one cell of an array. -/
def upd {α : Type} (a : Nat → α) (i : Nat) (v : α) : Nat → α :=
  fun j => if j = i then v else a j

/-- The call `memcpy(dst + dstOff, src + srcOff, n)`. -/
def memcpy (dst : Buffer) (dstOff : Nat) (src : Buffer) (srcOff n : Nat) : Buffer :=
  fun j => if dstOff ≤ j ∧ j < dstOff + n then src (srcOff + (j - dstOff)) else dst j

/-- A block after `memset(block.Data, 0, Disk::BLOCK_SIZE)`, also `Block block = {0}`. -/
def zeroBlock : Block := fun _ => 0

/-- The pointer `data + k`. -/
def shift (data : Buffer) (k : Nat) : Buffer := fun i => data (k + i)

/-! ## The typed views of `union Block` -/

/-- The little-endian 32-bit word number `i` of a block. -/
def getWord (b : Block) (i : Nat) : Nat :=
  (b (4 * i)).val + 256 * (b (4 * i + 1)).val + 65536 * (b (4 * i + 2)).val
    + 16777216 * (b (4 * i + 3)).val

/-- Store of a 32-bit word into word number `i` of a block. -/
def setWord (b : Block) (i w : Nat) : Block :=
  fun j =>
    if j = 4 * i then byteOf w
    else if j = 4 * i + 1 then byteOf (w / 256)
    else if j = 4 * i + 2 then byteOf (w / 65536)
    else if j = 4 * i + 3 then byteOf (w / 16777216)
    else b j

/-- The record `struct SuperBlock`. -/
structure SuperBlock where
  MagicNumber : Nat
  Blocks : Nat
  InodeBlocks : Nat
  Inodes : Nat

/-- The record `struct Inode`; `Direct` is the array `Direct[POINTERS_PER_INODE]`. -/
structure Inode where
  Valid : Nat
  Size : Nat
  Direct : Nat → Nat
  Indirect : Nat

/-- An inode after `memset(&inode, 0, sizeof(Inode))`. -/
def Inode.zero : Inode := ⟨0, 0, fun _ => 0, 0⟩

/-- The view `block.Super`. -/
def Block.Super (b : Block) : SuperBlock :=
  ⟨getWord b 0, getWord b 1, getWord b 2, getWord b 3⟩

/-- Assignment of the four fields of `block.Super`. -/
def Block.setSuper (b : Block) (s : SuperBlock) : Block :=
  setWord (setWord (setWord (setWord b 0 s.MagicNumber) 1 s.Blocks) 2 s.InodeBlocks) 3 s.Inodes

/-- The view `block.Inodes[i]`: eight words from word `8 * i` on. -/
def Block.Inodes (b : Block) (i : Nat) : Inode :=
  { Valid := getWord b (8 * i)
    Size := getWord b (8 * i + 1)
    Direct := fun k => if k < POINTERS_PER_INODE then getWord b (8 * i + 2 + k) else 0
    Indirect := getWord b (8 * i + 7) }

/-- The copy `memcpy(&block.Inodes[i], node, sizeof(Inode))`. -/
def Block.setInodes (b : Block) (i : Nat) (node : Inode) : Block :=
  setWord (setWord (setWord (setWord (setWord (setWord (setWord (setWord b
    (8 * i) node.Valid) (8 * i + 1) node.Size) (8 * i + 2) (node.Direct 0))
    (8 * i + 3) (node.Direct 1)) (8 * i + 4) (node.Direct 2)) (8 * i + 5) (node.Direct 3))
    (8 * i + 6) (node.Direct 4)) (8 * i + 7) node.Indirect

/-- The view `block.Pointers`. -/
def Block.Pointers (b : Block) : Nat → Nat := fun k => getWord b k

/-- The block whose `Pointers` array holds the words `p` (each stored as `uint32_t`);
bytes past the end of the array are those of `b`. -/
def Block.setPointers (b : Block) (p : Nat → Nat) : Block :=
  fun j => if j < BLOCK_SIZE then byteOf (p (j / 4) / 256 ^ (j % 4)) else b j

/-! ## The block device -/

/-- Modelled from the spec: the block device `Disk` of `sfs/disk.h`, which is not among
the sources.  The spec gives it fixed-size blocks indexed by non-negative integers, a
block count, a mounted flag, and the operations `size`, `read`, `write`, `mount`,
`mounted`.  `addr` stands for the address of the object, which `mount` compares, and
`log` records the block numbers passed to `write` so far, oldest first (the spec has the
writes synchronous and issued in order). -/
structure Disk where
  addr : Nat
  Blocks : Nat
  Mounted : Bool
  data : Nat → Block
  log : List Nat

/-- Modelled from the spec: `Disk::size`. -/
def Disk.size (d : Disk) : Nat := d.Blocks

/-- Modelled from the spec: `Disk::mounted`. -/
def Disk.mounted (d : Disk) : Bool := d.Mounted

/-- Modelled from the spec: `Disk::mount`. -/
def Disk.mount (d : Disk) : Disk := { d with Mounted := true }

/-- Modelled from the spec: `Disk::read`, the block stored at `bnum`. -/
def Disk.read (d : Disk) (bnum : Nat) : Block := d.data bnum

/-- Modelled from the spec: `Disk::write`, which replaces the block stored at `bnum`. -/
def Disk.write (d : Disk) (bnum : Nat) (blk : Block) : Disk :=
  { d with data := upd d.data bnum blk, log := d.log ++ [bnum] }

/-! ## Geometry -/

/-- The numerator of the double nearest to `0.1`, which is `3602879701896397 / 2^55`. -/
def TENTH : Nat := 3602879701896397

/-- The number of binary digits of `x`, for `x < 2 ^ fuel`. -/
def bitLength : Nat → Nat → Nat
  | 0, _ => 0
  | fuel + 1, x => if x = 0 then 0 else bitLength fuel (x / 2) + 1

/-- The double product `(double)n * 0.1` for `n < 2^53`, as a multiple of `2^-55`: the
exact product is rounded to 53 significant bits, ties to even. -/
def mulTenth (n : Nat) : Nat :=
  let x := TENTH * n
  let s := bitLength 128 x - 53
  let q := x / 2 ^ s
  let r := x % 2 ^ s
  (if 2 ^ s < 2 * r ∨ (2 * r = 2 ^ s ∧ q % 2 = 1) then q + 1 else q) * 2 ^ s

/-- The expression `ceil((double)n * 0.1)`: the number of inode blocks of an `n`-block
volume. -/
def INODE_BLOCKS (n : Nat) : Nat := (2 ^ 55 - 1 + mulTenth n) / 2 ^ 55

/-! ## The file system handle -/

/-- The member variables of `class FileSystem`; `none` is the `NULL` pointer.
`inode_table_len` and `free_block_map_len` are the numbers of elements of the arrays
that `inode_table` and `free_block_map` point to, as passed to `malloc` by `mount`. -/
structure FileSystem where
  currMountedDisk : Option Disk
  inode_table : Option (Nat → Inode)
  free_block_map : Option (Nat → Nat)
  inode_table_len : Nat
  free_block_map_len : Nat

/-- The three objects behind the member pointers of a handle when none of them is
`NULL`, with the numbers of elements of the two arrays; the helper functions of the class
act on these. -/
structure Mounted where
  disk : Disk
  inode_table : Nat → Inode
  free_block_map : Nat → Nat
  inode_table_len : Nat
  free_block_map_len : Nat

/-- The handle whose member pointers point to the objects of `m`. -/
def Mounted.toFS (m : Mounted) : FileSystem :=
  ⟨some m.disk, some m.inode_table, some m.free_block_map, m.inode_table_len,
    m.free_block_map_len⟩

/-- A handle before any `mount`: all member pointers are `NULL`. -/
def FileSystem.fresh : FileSystem := ⟨none, none, none, 0, 0⟩

/-- The value `(size_t)ceil((double)currMountedDisk->size() * 0.1) * INODES_PER_BLOCK`. -/
def Mounted.inodes (m : Mounted) : Nat := INODE_BLOCKS m.disk.size * INODES_PER_BLOCK

/-! ## format -/

/-- The loop `for(; bnum >= 1; bnum--) disk->write(bnum, block.Data)` of `format`. -/
def format_clear (blk : Block) : Nat → Disk → Disk
  | 0, disk => disk
  | bnum + 1, disk => format_clear blk bnum (disk.write (bnum + 1) blk)

/-- The function `FileSystem::format`. -/
def format (disk : Disk) : Bool × Disk :=
  if disk.mounted then (false, disk)
  else
    let Blocks := u32 disk.size
    let InodeBlocks := u32 (INODE_BLOCKS Blocks)
    let Inodes := u32 (INODES_PER_BLOCK * InodeBlocks)
    let disk1 := disk.write 0 (zeroBlock.setSuper ⟨MAGIC_NUMBER, Blocks, InodeBlocks, Inodes⟩)
    (true, format_clear zeroBlock (u32 ((18446744073709551615 + disk1.size) % 18446744073709551616)) disk1)

/-! ## mount -/

/-- The function `FileSystem::set_free_block_map`, acting on the bitmap `map`. -/
def set_free_block_map (map : Nat → Nat) (pointer : Nat → Nat) : Nat → Nat → Nat → Nat
  | 0, _ => map
  | i + 1, value =>
    let map1 := set_free_block_map map pointer i value
    if pointer i ≠ 0 then upd map1 (pointer i) value else map1

/-- The inner loop of `mount` over the first `i` inodes of inode block `ibnum`; the
running counter `uint32_t inum` is `(ibnum - 1) * INODES_PER_BLOCK + i` modulo `2^32`. -/
def mount_inodes (disk : Disk) (inodeBlock : Block) (ibnum : Nat) :
    Nat → (Nat → Inode) × (Nat → Nat) → (Nat → Inode) × (Nat → Nat)
  | 0, s => s
  | i + 1, s =>
    let s1 := mount_inodes disk inodeBlock ibnum i s
    let inode := inodeBlock.Inodes i
    if inode.Valid ≠ 0 ∧ inode.Size > 0 then
      let table := upd s1.1 (u32 ((ibnum - 1) * INODES_PER_BLOCK + i)) inode
      let map1 := set_free_block_map s1.2 inode.Direct POINTERS_PER_INODE 1
      let map2 := set_free_block_map map1 (fun _ => inode.Indirect) 1 1
      if inode.Indirect ≠ 0 then
        (table, set_free_block_map map2 (disk.read inode.Indirect).Pointers POINTERS_PER_BLOCK 1)
      else (table, map2)
    else s1

/-- The outer loop of `mount` over the inode blocks `1 .. ibnum`. -/
def mount_blocks (disk : Disk) :
    Nat → (Nat → Inode) × (Nat → Nat) → (Nat → Inode) × (Nat → Nat)
  | 0, s => s
  | ibnum + 1, s =>
    let s1 := mount_blocks disk ibnum s
    mount_inodes disk (disk.read (ibnum + 1)) (ibnum + 1) INODES_PER_BLOCK
      (s1.1, upd s1.2 (ibnum + 1) 1)

/-- The function `FileSystem::mount`. -/
def FileSystem.mount (fs : FileSystem) (disk : Disk) : Bool × FileSystem :=
  if fs.currMountedDisk.map Disk.addr = some disk.addr then (false, fs)
  else
    let superblock := (disk.read 0).Super
    if superblock.MagicNumber ≠ MAGIC_NUMBER ∨ superblock.Blocks ≠ disk.size
        ∨ superblock.InodeBlocks ≠ u32 (INODE_BLOCKS superblock.Blocks)
        ∨ superblock.Inodes ≠ u32 (superblock.InodeBlocks * INODES_PER_BLOCK) then (false, fs)
    else
      let disk1 := disk.mount
      let s := mount_blocks disk1 superblock.InodeBlocks (fun _ => Inode.zero, upd (fun _ => 0) 0 1)
      (true, ⟨some disk1, some s.1, some s.2, superblock.Inodes, superblock.Blocks⟩)

/-! ## Inode access -/

/-- The function `FileSystem::save_inode`. -/
def save_inode (m : Mounted) (inumber : Nat) (node : Inode) : Bool × Mounted :=
  if inumber ≥ m.inodes then (false, m)
  else
    let ibnum := 1 + inumber / INODES_PER_BLOCK
    let index := inumber % INODES_PER_BLOCK
    let inodeBlock := m.disk.read ibnum
    (true, { m with disk := m.disk.write ibnum (inodeBlock.setInodes index node) })

/-- The function `FileSystem::load_inode`; `node` is the value the out-parameter holds
before the call, returned unchanged when the call fails. -/
def load_inode (m : Mounted) (inumber : Nat) (node : Inode) : Bool × Inode :=
  if inumber ≥ m.inodes then (false, node)
  else
    let ibnum := 1 + inumber / INODES_PER_BLOCK
    let index := inumber % INODES_PER_BLOCK
    (true, (m.disk.read ibnum).Inodes index)

/-! ## create, remove, stat -/

/-- The scan `for(; inum < inodes; inum++) if(!inode_table[inum].Valid) break;` of
`create`: the value of `inum` when the loop ends. -/
def create_scan (table : Nat → Inode) : Nat → Nat → Nat
  | 0, inum => inum
  | k + 1, inum => if (table inum).Valid = 0 then inum else create_scan table k (inum + 1)

/-- The `int` value `(int)ceil((double)size * 0.1) * INODES_PER_BLOCK` of `create`: the
product is formed in `unsigned int` and converted to `int`. -/
def create_inodes (size : Nat) : Int :=
  let p := u32 (INODE_BLOCKS size * INODES_PER_BLOCK)
  if p < 2147483648 then (p : Int) else -((4294967296 - p : Nat) : Int)

/-- The body of `FileSystem::create` once the member pointers are known not to be
`NULL`.  The call `load_inode(0, &inode)` only fills a local that is never read. -/
def Mounted.create (m : Mounted) : Int × Mounted :=
  let inodes := create_inodes m.disk.size
  let inum := create_scan m.inode_table inodes.toNat 0
  if (inum : Int) < inodes then
    let inode : Inode := { Inode.zero with Valid := 1 }
    let m1 : Mounted := { m with inode_table := upd m.inode_table inum inode }
    let r := save_inode m1 inum inode
    if r.1 then ((inum : Int), r.2) else (-1, r.2)
  else (-1, m)

/-- The function `FileSystem::create`. -/
def FileSystem.create (fs : FileSystem) : Int × FileSystem :=
  match fs.currMountedDisk, fs.free_block_map, fs.inode_table with
  | some disk, some map, some table =>
    let r := Mounted.create ⟨disk, table, map, fs.inode_table_len, fs.free_block_map_len⟩
    (r.1, r.2.toFS)
  | _, _, _ => (-1, fs)

/-- The body of `FileSystem::remove` once the member pointers are known not to be
`NULL`. -/
def Mounted.remove (m : Mounted) (inumber : Nat) : Bool × Mounted :=
  if inumber ≥ m.inodes then (false, m)
  else
    let removeInode := (load_inode m inumber (m.inode_table inumber)).2
    if removeInode.Valid = 0 then (false, m)
    else
      let map1 := set_free_block_map m.free_block_map removeInode.Direct POINTERS_PER_INODE 0
      let map2 := set_free_block_map map1 (fun _ => removeInode.Indirect) 1 0
      let map3 :=
        if removeInode.Indirect ≠ 0 then
          set_free_block_map map2 (m.disk.read removeInode.Indirect).Pointers POINTERS_PER_BLOCK 0
        else map2
      let m1 : Mounted :=
        { m with free_block_map := map3, inode_table := upd m.inode_table inumber Inode.zero }
      save_inode m1 inumber Inode.zero

/-- The function `FileSystem::remove`. -/
def FileSystem.remove (fs : FileSystem) (inumber : Nat) : Bool × FileSystem :=
  match fs.currMountedDisk, fs.free_block_map, fs.inode_table with
  | some disk, some map, some table =>
    let r := Mounted.remove ⟨disk, table, map, fs.inode_table_len, fs.free_block_map_len⟩ inumber
    (r.1, r.2.toFS)
  | _, _, _ => (false, fs)

/-- The body of `FileSystem::stat` once the member pointers are known not to be
`NULL`. -/
def Mounted.stat (m : Mounted) (inumber : Nat) : Int × Mounted :=
  if inumber ≥ m.inodes then (-1, m)
  else
    let inode := (load_inode m inumber (m.inode_table inumber)).2
    if inode.Valid = 0 then (-1, m) else ((inode.Size : Int), m)

/-- The function `FileSystem::stat`. -/
def FileSystem.stat (fs : FileSystem) (inumber : Nat) : Int × FileSystem :=
  match fs.currMountedDisk, fs.free_block_map, fs.inode_table with
  | some disk, some map, some table =>
    let r := Mounted.stat ⟨disk, table, map, fs.inode_table_len, fs.free_block_map_len⟩ inumber
    (r.1, r.2.toFS)
  | _, _, _ => (-1, fs)

/-! ## read -/

/-- The loop of `FileSystem::i_read` with `k` iterations left, at slot `d`, with
`readBytes` bytes copied so far.  The destination pointer is `data + base`. -/
def i_read_loop (m : Mounted) (blockPointer : Nat → Nat) (length offset base : Nat) :
    Nat → Nat → Nat → Buffer → Nat × Buffer
  | 0, _, readBytes, data => (readBytes, data)
  | k + 1, d, readBytes, data =>
    if blockPointer d ≠ 0 then
      let bnum := blockPointer d
      if offset ≥ (d + 1) * BLOCK_SIZE then
        i_read_loop m blockPointer length offset base k (d + 1) readBytes data
      else if offset ≤ d * BLOCK_SIZE ∧ length - readBytes > BLOCK_SIZE then
        i_read_loop m blockPointer length offset base k (d + 1) (readBytes + BLOCK_SIZE)
          (memcpy data (base + readBytes) (m.disk.read bnum) 0 BLOCK_SIZE)
      else if offset ≤ d * BLOCK_SIZE then
        (length, memcpy data (base + readBytes) (m.disk.read bnum) 0 (length - readBytes))
      else if usize (offset + length) ≤ (d + 1) * BLOCK_SIZE then
        (length, memcpy data (base + readBytes) (m.disk.read bnum) (offset % BLOCK_SIZE) length)
      else
        i_read_loop m blockPointer length offset base k (d + 1)
          (readBytes + (BLOCK_SIZE - offset % BLOCK_SIZE))
          (memcpy data (base + readBytes) (m.disk.read bnum) (offset % BLOCK_SIZE)
            (BLOCK_SIZE - offset % BLOCK_SIZE))
    else i_read_loop m blockPointer length offset base k (d + 1) readBytes data

/-- The function `FileSystem::i_read`, called with the destination `data + base`: the
number of bytes it returns and the caller's buffer afterwards. -/
def i_read (m : Mounted) (blockPointer : Nat → Nat) (blockNumber length : Nat)
    (data : Buffer) (base offset : Nat) : Nat × Buffer :=
  i_read_loop m blockPointer length offset base blockNumber 0 0 data

/-- The body of `FileSystem::read` once the member pointers are known not to be `NULL`:
the returned value, the caller's buffer afterwards, and the state. -/
def Mounted.read (m : Mounted) (inumber : Nat) (data : Buffer) (length offset : Nat) :
    Int × Buffer × Mounted :=
  if inumber ≥ m.inodes then (-1, data, m)
  else
    let readInode := (load_inode m inumber Inode.zero).2
    if readInode.Valid = 0 ∨ offset ≥ readInode.Size then (-1, data, m)
    else
      let length1 :=
        if usize (length + offset) > readInode.Size then readInode.Size - offset else length
      if length1 = 0 then (0, data, m)
      else
        let r1 := i_read m readInode.Direct POINTERS_PER_INODE length1 data 0 offset
        if r1.1 = length1 then ((length1 : Int), r1.2, m)
        else
          let readInode1 := (load_inode m inumber readInode).2
          if readInode1.Indirect = 0 then (-1, r1.2, m)
          else
            let offset1 :=
              if offset ≤ POINTERS_PER_INODE * BLOCK_SIZE then 0
              else offset - POINTERS_PER_INODE * BLOCK_SIZE
            let pointersBlock := m.disk.read readInode1.Indirect
            let r2 := i_read m pointersBlock.Pointers POINTERS_PER_BLOCK (length1 - r1.1)
              r1.2 r1.1 offset1
            if r1.1 + r2.1 < length1 then (-1, r2.2, m) else ((length1 : Int), r2.2, m)

/-- The function `FileSystem::read`. -/
def FileSystem.read (fs : FileSystem) (inumber : Nat) (data : Buffer) (length offset : Nat) :
    Int × Buffer × FileSystem :=
  match fs.currMountedDisk, fs.free_block_map, fs.inode_table with
  | some disk, some map, some table =>
    let r := Mounted.read ⟨disk, table, map, fs.inode_table_len, fs.free_block_map_len⟩ inumber data length offset
    (r.1, r.2.1, r.2.2.toFS)
  | _, _, _ => (-1, data, fs)

/-! ## write -/

/-- The scan of `allocate_free_block` from block `bnum` with `k` candidates left: the
first block whose bitmap cell is 0. -/
def allocate_scan (map : Nat → Nat) : Nat → Nat → Option Nat
  | 0, _ => none
  | k + 1, bnum => if map bnum = 0 then some bnum else allocate_scan map k (bnum + 1)

/-- The function `FileSystem::allocate_free_block`; `none` is the result `-1`. -/
def allocate_free_block (m : Mounted) : Option Nat × Mounted :=
  let first := INODE_BLOCKS m.disk.size + 1
  match allocate_scan m.free_block_map (m.disk.size - first) first with
  | some bnum => (some bnum, { m with free_block_map := upd m.free_block_map bnum 1 })
  | none => (none, m)

/-- The loop of `FileSystem::i_write` with `k` iterations left, at slot `d`, with
`writtenBytes` bytes written so far: the returned count, the pointer array and the
state afterwards.  The sum `offset + length` in the test of the unaligned branch is not
reduced modulo `2^64`: when the `size_t` sum wraps, the test succeeds in the code, which
then copies `length > 2^64 - 2^32` bytes into the 4096-byte block and does not return;
every call that returns agrees with this function. -/
def i_write_loop (length : Nat) (data : Buffer) (offset : Nat) :
    Nat → Nat → Nat → (Nat → Nat) → Mounted → Nat × (Nat → Nat) × Mounted
  | 0, _, writtenBytes, bnumPointer, m => (writtenBytes, bnumPointer, m)
  | k + 1, d, writtenBytes, bnumPointer, m =>
    if offset ≥ (d + 1) * BLOCK_SIZE then
      i_write_loop length data offset k (d + 1) writtenBytes bnumPointer m
    else
      let got : Option (Block × (Nat → Nat) × Mounted) :=
        if bnumPointer d ≠ 0 then some (m.disk.read (bnumPointer d), bnumPointer, m)
        else
          match allocate_free_block m with
          | (none, _) => none
          | (some newBnum, m1) =>
            some (m1.disk.read newBnum, upd bnumPointer d (u32 newBnum), m1)
      match got with
      | none => (writtenBytes, bnumPointer, m)
      | some (block, bnumPointer1, m1) =>
        if offset ≤ d * BLOCK_SIZE ∧ length - writtenBytes > BLOCK_SIZE then
          let block1 := memcpy block 0 data writtenBytes BLOCK_SIZE
          i_write_loop length data offset k (d + 1) (writtenBytes + BLOCK_SIZE) bnumPointer1
            { m1 with disk := m1.disk.write (bnumPointer1 d) block1 }
        else if offset ≤ d * BLOCK_SIZE then
          let block1 := memcpy block 0 data writtenBytes (length - writtenBytes)
          (length, bnumPointer1, { m1 with disk := m1.disk.write (bnumPointer1 d) block1 })
        else if offset + length ≤ (d + 1) * BLOCK_SIZE then
          let block1 := memcpy block (offset % BLOCK_SIZE) data writtenBytes length
          (length, bnumPointer1, { m1 with disk := m1.disk.write (bnumPointer1 d) block1 })
        else
          let block1 := memcpy block (offset % BLOCK_SIZE) data writtenBytes
            (BLOCK_SIZE - offset % BLOCK_SIZE)
          i_write_loop length data offset k (d + 1)
            (writtenBytes + (BLOCK_SIZE - offset % BLOCK_SIZE)) bnumPointer1
            { m1 with disk := m1.disk.write (bnumPointer1 d) block1 }

/-- The function `FileSystem::i_write`. -/
def i_write (m : Mounted) (bnumPointer : Nat → Nat) (bnumNumber length : Nat) (data : Buffer)
    (offset : Nat) : Nat × (Nat → Nat) × Mounted :=
  i_write_loop length data offset bnumNumber 0 0 bnumPointer m

/-- The three statements that end `write`: set `Size`, copy the inode into the cache,
and `save_inode`. -/
def update_inode (m : Mounted) (inumber : Nat) (writeInode : Inode) (size : Nat) : Mounted :=
  let node : Inode := { writeInode with Size := u32 size }
  (save_inode { m with inode_table := upd m.inode_table inumber node } inumber node).2

/-- The body of `FileSystem::write` once the member pointers are known not to be
`NULL`. -/
def Mounted.write (m : Mounted) (inumber : Nat) (data : Buffer) (length offset : Nat) :
    Int × Mounted :=
  if inumber ≥ m.inodes then (-1, m)
  else if length = 0 then (0, m)
  else
    let writeInode := (load_inode m inumber Inode.zero).2
    if writeInode.Valid = 0 ∨ offset > writeInode.Size then (-1, m)
    else
      let r1 := i_write m writeInode.Direct POINTERS_PER_INODE length data offset
      let writeInode1 : Inode := { writeInode with Direct := r1.2.1 }
      if r1.1 = length then ((length : Int), update_inode r1.2.2 inumber writeInode1 (offset + length))
      else
        let got : Option (Block × Inode × Mounted) :=
          if writeInode1.Indirect = 0 then
            match allocate_free_block r1.2.2 with
            | (none, _) => none
            | (some pointerBnum, m2) =>
              some (zeroBlock, { writeInode1 with Indirect := u32 pointerBnum }, m2)
          else some (r1.2.2.disk.read writeInode1.Indirect, writeInode1, r1.2.2)
        match got with
        | none => ((r1.1 : Int), update_inode r1.2.2 inumber writeInode1 (offset + r1.1))
        | some (pointersBlock, writeInode2, m2) =>
          let newOffset :=
            if offset > POINTERS_PER_INODE * BLOCK_SIZE then
              offset - POINTERS_PER_INODE * BLOCK_SIZE
            else 0
          let r2 := i_write m2 pointersBlock.Pointers POINTERS_PER_BLOCK (length - r1.1)
            (shift data r1.1) newOffset
          let writtenBytes := r1.1 + r2.1
          let m3 := update_inode r2.2.2 inumber writeInode2 (offset + writtenBytes)
          let pointersBlock1 := pointersBlock.setPointers r2.2.1
          ((writtenBytes : Int), { m3 with disk := m3.disk.write writeInode2.Indirect pointersBlock1 })

/-- The function `FileSystem::write`. -/
def FileSystem.write (fs : FileSystem) (inumber : Nat) (data : Buffer) (length offset : Nat) :
    Int × FileSystem :=
  match fs.currMountedDisk, fs.free_block_map, fs.inode_table with
  | some disk, some map, some table =>
    let r := Mounted.write ⟨disk, table, map, fs.inode_table_len, fs.free_block_map_len⟩ inumber data length offset
    (r.1, r.2.toFS)
  | _, _, _ => (-1, fs)

/-! ## Views of a mounted state, invariants and reachable states -/

/-- The on-disk inode `inumber`: what `load_inode` reads. -/
def Mounted.inode (m : Mounted) (inumber : Nat) : Inode :=
  (m.disk.read (1 + inumber / INODES_PER_BLOCK)).Inodes (inumber % INODES_PER_BLOCK)

/-- The inode `inumber` is valid on disk. -/
def Mounted.valid (m : Mounted) (inumber : Nat) : Prop :=
  inumber < m.inodes ∧ (m.inode inumber).Valid ≠ 0

/-- The places of an inode that hold a block number: `Direct[k]`, `Indirect`, and
entry `k` of the indirect pointer block. -/
inductive Slot where
  | direct (k : Nat)
  | indirect
  | entry (k : Nat)

/-- The slots that exist: `k < POINTERS_PER_INODE` direct pointers and
`k < POINTERS_PER_BLOCK` entries. -/
def Slot.inRange : Slot → Prop
  | .direct k => k < POINTERS_PER_INODE
  | .indirect => True
  | .entry k => k < POINTERS_PER_BLOCK

/-- The block number held in a slot of the on-disk inode `inumber`; an inode without an
indirect block has no entries, which reads as 0. -/
def Mounted.pointer (m : Mounted) (inumber : Nat) : Slot → Nat
  | .direct k => (m.inode inumber).Direct k
  | .indirect => (m.inode inumber).Indirect
  | .entry k =>
    if (m.inode inumber).Indirect = 0 then 0
    else (m.disk.read (m.inode inumber).Indirect).Pointers k

/-- The slot of logical block `k` of a file: direct for `k < 5`, else entry `k - 5`. -/
def logical (k : Nat) : Slot :=
  if k < POINTERS_PER_INODE then .direct k else .entry (k - POINTERS_PER_INODE)

/-- Byte `p` of file `inumber`: the byte at `p % BLOCK_SIZE` of its logical block
`p / BLOCK_SIZE`. -/
def Mounted.fileByte (m : Mounted) (inumber p : Nat) : Byte :=
  m.disk.read (m.pointer inumber (logical (p / BLOCK_SIZE))) (p % BLOCK_SIZE)

/-- Block `b` is referenced: it is the nonzero content of a slot of a valid inode. -/
def Mounted.referenced (m : Mounted) (b : Nat) : Prop :=
  ∃ n s, m.valid n ∧ Slot.inRange s ∧ m.pointer n s = b ∧ b ≠ 0

/-- The invariant kept by every call on a volume made by `format` and `mount`. -/
structure Inv (m : Mounted) : Prop where
  small : m.disk.size < 4294967296
  cache : ∀ n, n < m.inodes → ((m.inode_table n).Valid = 0 ↔ (m.inode n).Valid = 0)
  range : ∀ n s, m.valid n → Slot.inRange s → m.pointer n s ≠ 0 →
    INODE_BLOCKS m.disk.size < m.pointer n s ∧ m.pointer n s < m.disk.size
  exact : ∀ b, m.free_block_map b = 1 ↔ (b ≤ INODE_BLOCKS m.disk.size ∨ m.referenced b)
  noalias : ∀ n s n' s', m.valid n → m.valid n' → Slot.inRange s → Slot.inRange s' →
    m.pointer n s = m.pointer n' s' → m.pointer n s ≠ 0 → n = n' ∧ s = s'
  covered : ∀ n k, m.valid n → k * BLOCK_SIZE < (m.inode n).Size →
    m.pointer n (logical k) ≠ 0
  direct_full : ∀ n, m.valid n → (m.inode n).Indirect ≠ 0 →
    ∀ k, k < POINTERS_PER_INODE → (m.inode n).Direct k ≠ 0
  size_le : ∀ n, m.valid n →
    (m.inode n).Size ≤ (POINTERS_PER_INODE + POINTERS_PER_BLOCK) * BLOCK_SIZE

/-- One call of the API, with its arguments. -/
inductive Call where
  | create
  | remove (inumber : Nat)
  | stat (inumber : Nat)
  | read (inumber : Nat) (data : Buffer) (length offset : Nat)
  | write (inumber : Nat) (data : Buffer) (length offset : Nat)

/-- The handle after a call. -/
def FileSystem.call (fs : FileSystem) : Call → FileSystem
  | .create => fs.create.2
  | .remove inumber => (fs.remove inumber).2
  | .stat inumber => (fs.stat inumber).2
  | .read inumber data length offset => (fs.read inumber data length offset).2.2
  | .write inumber data length offset => (fs.write inumber data length offset).2

/-- The handles reachable from `format` and `mount`: a device of at least two blocks (a
superblock and an inode block) is formatted and then mounted on a fresh handle, and any
sequence of `create`, `remove`, `stat`, `read` and `write` calls follows. -/
inductive Reachable : FileSystem → Prop where
  | init (disk : Disk) (fs : FileSystem) (h2 : 2 ≤ disk.size) (hf : (format disk).1 = true)
      (hm : FileSystem.fresh.mount (format disk).2 = (true, fs)) : Reachable fs
  | call (fs : FileSystem) (c : Call) (h : Reachable fs) : Reachable (fs.call c)

/-- The pointer array of a slot walk is usable: every nonzero entry among the first
`count` is marked in the bitmap, and no two of them are equal. -/
def PtrsOK (count : Nat) (ptrs : Nat → Nat) (map : Nat → Nat) : Prop :=
  (∀ j, j < count → ptrs j ≠ 0 → map (ptrs j) ≠ 0) ∧
  (∀ i j, i < count → j < count → ptrs i = ptrs j → ptrs i ≠ 0 → i = j)

/-- What a slot walk of `i_write` over the slots `lo ≤ j < count` may change, from the
pointer array `ptrs` and state `m` to `ptrs1` and `m1`. -/
structure Walk (count off lo : Nat) (ptrs : Nat → Nat) (m : Mounted) (ptrs1 : Nat → Nat)
    (m1 : Mounted) : Prop where
  table : m1.inode_table = m.inode_table
  blocks : m1.disk.Blocks = m.disk.Blocks
  old : ∀ j, ptrs j ≠ 0 → ptrs1 j = ptrs j
  outside : ∀ j, (j < lo ∨ count ≤ j) → ptrs1 j = ptrs j
  fresh : ∀ j, ptrs j = 0 → ptrs1 j ≠ 0 →
    INODE_BLOCKS m.disk.size < ptrs1 j ∧ ptrs1 j < m.disk.size ∧
      m.free_block_map (ptrs1 j) = 0 ∧ m1.free_block_map (ptrs1 j) = 1
  map : ∀ b, m1.free_block_map b = m.free_block_map b ∨
    (m.free_block_map b = 0 ∧ m1.free_block_map b = 1 ∧
      ∃ j, lo ≤ j ∧ j < count ∧ ptrs j = 0 ∧ ptrs1 j = b ∧ b ≠ 0)
  data : ∀ b, m1.disk.data b = m.disk.data b ∨
    (b ≠ 0 ∧ ∃ j, lo ≤ j ∧ j < count ∧ off < (j + 1) * BLOCK_SIZE ∧ ptrs1 j = b)
  keep : PtrsOK count ptrs m.free_block_map → PtrsOK count ptrs1 m1.free_block_map

/-- The slot acquisition at the head of the loop body of `i_write`: the pointer array
and state once slot `d` holds a block, or `none` when the allocator fails. -/
def acquire (bnumPointer : Nat → Nat) (d : Nat) (m : Mounted) :
    Option ((Nat → Nat) × Mounted) :=
  if bnumPointer d ≠ 0 then some (bnumPointer, m)
  else
    match allocate_free_block m with
    | (none, _) => none
    | (some newBnum, m1) => some (upd bnumPointer d newBnum, m1)

/-- The state after the loop body of `i_write` has read block `b`, copied `n` bytes of
`data + w` to offset `o` of it and written it back. -/
def put_block (m : Mounted) (b o : Nat) (data : Buffer) (w n : Nat) : Mounted :=
  { m with disk := m.disk.write b (memcpy (m.disk.read b) o data w n) }

/-- The slots of one inode are usable: every nonzero pointer is marked in the bitmap and
no two slots hold the same nonzero pointer. -/
def SlotsOK (C : Slot → Nat) (map : Nat → Nat) : Prop :=
  (∀ s, Slot.inRange s → C s ≠ 0 → map (C s) ≠ 0) ∧
  (∀ s t, Slot.inRange s → Slot.inRange t → C s = C t → C s ≠ 0 → s = t)

/-- How `write` may change the slots `C` of its inode and the bitmap `map`: nonzero
pointers stay, a new pointer is a block in `(I, N)` that was free and is now marked, and
the bitmap `bm` changes nowhere else. -/
structure Grow (I N : Nat) (C : Slot → Nat) (bm : Nat → Nat) (C1 : Slot → Nat)
    (bm1 : Nat → Nat) : Prop where
  old : ∀ s, Slot.inRange s → C s ≠ 0 → C1 s = C s
  fresh : ∀ s, Slot.inRange s → C s = 0 → C1 s ≠ 0 →
    I < C1 s ∧ C1 s < N ∧ bm (C1 s) = 0 ∧ bm1 (C1 s) = 1
  map : ∀ b, bm1 b = bm b ∨
    (bm b = 0 ∧ bm1 b = 1 ∧ ∃ s, Slot.inRange s ∧ C s = 0 ∧ C1 s = b ∧ b ≠ 0)
  keep : SlotsOK C bm → SlotsOK C1 bm1

/-- What a `write(n, data, _, off)` that returns `w` leaves behind: the invariant holds,
the set of valid inodes is the same, the size of `n` is `off + w`, the file holds the
first `w` bytes of `data` from `off` on, and the bytes before `off` are as before. -/
def WriteOK (m : Mounted) (n : Nat) (data : Buffer) (off w : Nat) (m1 : Mounted) : Prop :=
  Inv m1 ∧ m1.disk.size = m.disk.size ∧ (∀ n1, m1.valid n1 ↔ m.valid n1) ∧
  (m1.inode n).Size = off + w ∧
  (∀ i, i < w → m1.fileByte n (off + i) = data i) ∧
  (∀ p, p < off → m1.fileByte n p = m.fileByte n p)

/-- What a `write` to inode `n` leaves alone: the other inode records and cache entries,
and every block that is neither the inode block of `n` nor held in a slot of `n`
afterwards; the cache entry of `n` is the inode record written to disk. -/
def WriteFrame (m : Mounted) (n : Nat) (m1 : Mounted) : Prop :=
  (∀ n1, n1 ≠ n → n1 < m.inodes → m1.inode n1 = m.inode n1) ∧
  (∀ n1, n1 ≠ n → m1.inode_table n1 = m.inode_table n1) ∧
  m1.inode_table n = m1.inode n ∧
  (∀ b, m1.disk.data b = m.disk.data b ∨ b = 1 + n / INODES_PER_BLOCK ∨
    ∃ s, Slot.inRange s ∧ m1.pointer n s = b ∧ b ≠ 0)

/-- The device writes of a `write(n, _, len, off)` call, in order: writes of blocks of
the data region, then the inode block of `n`, then at most one more write, of the
indirect pointer block, which is issued when the call goes through the indirect
phase. -/
def WriteLog (m : Mounted) (n len off : Nat) (m1 : Mounted) : Prop :=
  ∃ pre post, m1.disk.log = m.disk.log ++ pre ++ (1 + n / INODES_PER_BLOCK) :: post ∧
    (∀ b, b ∈ pre → INODE_BLOCKS m.disk.size < b ∧ b < m.disk.size) ∧
    (post = [] ∨ post = [(m1.inode n).Indirect]) ∧
    (POINTERS_PER_INODE * BLOCK_SIZE < off + len → (m1.inode n).Indirect ≠ 0 →
      post = [(m1.inode n).Indirect])

/-- What a `write(n, _, _, off)` that returns `w` leaves in the blocks of the file past
the bytes it wrote: a byte at position `k * BLOCK_SIZE + q ≥ off + w` of the file is the
byte that the block holding it afterwards had on the device before the call. -/
def WriteKeep (m : Mounted) (n off w : Nat) (m1 : Mounted) : Prop :=
  ∀ k, k < POINTERS_PER_INODE + POINTERS_PER_BLOCK → m1.pointer n (logical k) ≠ 0 →
    ∀ q, q < BLOCK_SIZE → off + w ≤ k * BLOCK_SIZE + q →
      m1.disk.data (m1.pointer n (logical k)) q = m.disk.data (m1.pointer n (logical k)) q

/-- The slots of an inode whose direct pointers, indirect pointer and pointer-block
entries are `D`, `ib` and `E`. -/
def slotsOf (D : Nat → Nat) (ib : Nat) (E : Nat → Nat) : Slot → Nat
  | .direct k => D k
  | .indirect => ib
  | .entry k => E k

/-! ## States after `mount`, and example volumes -/

/-- The state that `mount` builds for a handle bound to `disk`: the device marked
mounted, and the inode cache and bitmap that the scan of the inode blocks yields. -/
def mountState (disk : Disk) : Mounted :=
  let s := mount_blocks disk.mount (disk.read 0).Super.InodeBlocks (fun _ => Inode.zero, upd (fun _ => 0) 0 1)
  ⟨disk.mount, s.1, s.2, (disk.read 0).Super.Inodes, (disk.read 0).Super.Blocks⟩

/-- The handle after `k` appends of one block each, `write(0, buf, 4096, j * 4096)` for
`j = 0, .., k - 1`. -/
def appendBlocks (fs : FileSystem) (buf : Buffer) : Nat → FileSystem
  | 0 => fs
  | k + 1 => ((appendBlocks fs buf k).write 0 buf BLOCK_SIZE (k * BLOCK_SIZE)).2

/-- An unmounted device of `blocks` blocks, every byte of which is 7. -/
def rawDisk (blocks : Nat) : Disk := ⟨0, blocks, false, fun _ _ => 7, []⟩

/-- The bytes of `"hello"`. -/
def hello : Buffer := fun i =>
  if i = 0 then 104 else if i = 1 then 101 else if i = 2 then 108 else if i = 3 then 108 else 111

/-- A buffer of bytes `0xAA`. -/
def bytesAA : Buffer := fun _ => 170

/-- A buffer of bytes `0xBB`. -/
def bytesBB : Buffer := fun _ => 187

/-- A ten-block volume after `format` and `mount`. -/
def vol0 : Mounted := mountState (format (rawDisk 10)).2

/-- The volume `vol0` after `create()`, which makes inode 0. -/
def vol1 : Mounted := vol0.create.2

/-- The volume `vol1` after `write(0, "hello", 5, 0)`. -/
def vol2 : Mounted := (vol1.write 0 hello 5 0).2

/-- A device image of 335544320 blocks whose superblock holds the geometry of that
size as 32-bit words: `InodeBlocks = 33554432`, and `Inodes = 0`, which is
`33554432 * 128` reduced modulo `2^32`. -/
def wrapImage : Disk :=
  ⟨0, 335544320, false, upd (fun _ => zeroBlock) 0 (zeroBlock.setSuper ⟨MAGIC_NUMBER, 335544320, 33554432, 0⟩), []⟩

/-- A formatted ten-block device whose magic number was overwritten with 0. -/
def flippedDisk : Disk :=
  { (format (rawDisk 10)).2 with data := upd (format (rawDisk 10)).2.data 0 (setWord ((format (rawDisk 10)).2.data 0) 0 0) }

/-- A hundred-block volume after `format` and `mount`. -/
def big0 : Mounted := mountState (format (rawDisk 100)).2

/-- The volume `big0` after `create()`, which makes inode 0. -/
def big1 : Mounted := big0.create.2

/-- The volume `big1` after a write of `5 * 4096 + 10` bytes to inode 0. -/
def big2 : Mounted := (big1.write 0 bytesAA (5 * 4096 + 10) 0).2

/-- The ten-block volume after a block of `0xAA` bytes was written to inode 0, the inode
was removed, and `create()` made inode 0 again. -/
def stale : Mounted := ((vol1.write 0 bytesAA 4096 0).2.remove 0).2.create.2

/-- The volume of `N` blocks on which inode 0 is the only file and holds `j` blocks
written by `j` appends of one block each: the allocator has handed out the blocks after
`I` in order, the direct blocks `I + 1 ..`, then the pointer block `I + 6`, then the
blocks `I + 7 ..` of the entries. -/
def Filled (N j : Nat) (m : Mounted) : Prop :=
  m.disk.size = N ∧
  (∀ b, m.free_block_map b = if b ≤ INODE_BLOCKS N + j + (if 5 < j then 1 else 0) then 1 else 0) ∧
  (m.inode 0).Valid ≠ 0 ∧ (m.inode 0).Size = j * 4096 ∧
  (∀ k, k < 5 → (m.inode 0).Direct k = if k < j then INODE_BLOCKS N + 1 + k else 0) ∧
  (m.inode 0).Indirect = (if 5 < j then INODE_BLOCKS N + 6 else 0) ∧
  (5 < j → ∀ k, k < 1024 →
    (m.disk.read (INODE_BLOCKS N + 6)).Pointers k = if k + 5 < j then INODE_BLOCKS N + 7 + k else 0)

/-! ## The indices the calls use -/

/-- One use of an index by the code: a block number passed to `Disk::read` or to
`Disk::write`, an index into `free_block_map`, or an index into `inode_table`. -/
inductive Access where
  | devRead (bnum : Nat)
  | devWrite (bnum : Nat)
  | bitmap (i : Nat)
  | cache (i : Nat)
  deriving DecidableEq

/-- The index is in bounds on a device of `N` blocks, with a bitmap of `N` cells and an
inode cache of `T` entries. -/
def Access.inBounds (N T : Nat) : Access → Prop
  | .devRead bnum => bnum < N
  | .devWrite bnum => bnum < N
  | .bitmap i => i < N
  | .cache i => i < T

instance (N T : Nat) (a : Access) : Decidable (a.inBounds N T) := by
  cases a <;> (unfold Access.inBounds; infer_instance)

/-- The indices `FileSystem::load_inode` uses: one `read` of the inode block. -/
def load_inode_uses (m : Mounted) (inumber : Nat) : List Access :=
  if inumber ≥ m.inodes then []
  else [.devRead (1 + inumber / INODES_PER_BLOCK)]

/-- The indices `FileSystem::save_inode` uses: a `read` and a `write` of the inode
block. -/
def save_inode_uses (m : Mounted) (inumber : Nat) : List Access :=
  if inumber ≥ m.inodes then []
  else [.devRead (1 + inumber / INODES_PER_BLOCK), .devWrite (1 + inumber / INODES_PER_BLOCK)]

/-- The indices `FileSystem::set_free_block_map` uses: `free_block_map[pointer[i]]` for
each nonzero `pointer[i]`, `i < length`. -/
def set_free_block_map_uses (pointer : Nat → Nat) : Nat → List Access
  | 0 => []
  | i + 1 =>
    set_free_block_map_uses pointer i ++ (if pointer i ≠ 0 then [.bitmap (pointer i)] else [])

/-- The indices the scan of `create` uses: `inode_table[inum]` in each iteration. -/
def create_scan_uses (table : Nat → Inode) : Nat → Nat → List Access
  | 0, _ => []
  | k + 1, inum =>
    .cache inum :: (if (table inum).Valid = 0 then [] else create_scan_uses table k (inum + 1))

/-- The indices `FileSystem::create` uses: those of `load_inode(0, &inode)`, of the scan,
and, when an inode is found, `inode_table[inum]` in the `memset`, in the store of `Valid`
and in the argument of `save_inode`, and then those of `save_inode`. -/
def Mounted.create_uses (m : Mounted) : List Access :=
  let inodes := create_inodes m.disk.size
  let inum := create_scan m.inode_table inodes.toNat 0
  load_inode_uses m 0 ++ create_scan_uses m.inode_table inodes.toNat 0 ++
    (if (inum : Int) < inodes then
      let inode : Inode := { Inode.zero with Valid := 1 }
      let m1 : Mounted := { m with inode_table := upd m.inode_table inum inode }
      [.cache inum, .cache inum, .cache inum] ++ save_inode_uses m1 inum
    else [])

/-- The indices `FileSystem::remove` uses. -/
def Mounted.remove_uses (m : Mounted) (inumber : Nat) : List Access :=
  if inumber ≥ m.inodes then []
  else
    let removeInode := (load_inode m inumber (m.inode_table inumber)).2
    .cache inumber :: load_inode_uses m inumber ++
      (if removeInode.Valid = 0 then []
      else
        let map1 := set_free_block_map m.free_block_map removeInode.Direct POINTERS_PER_INODE 0
        let map2 := set_free_block_map map1 (fun _ => removeInode.Indirect) 1 0
        let map3 :=
          if removeInode.Indirect ≠ 0 then
            set_free_block_map map2 (m.disk.read removeInode.Indirect).Pointers POINTERS_PER_BLOCK 0
          else map2
        let m1 : Mounted :=
          { m with free_block_map := map3, inode_table := upd m.inode_table inumber Inode.zero }
        set_free_block_map_uses removeInode.Direct POINTERS_PER_INODE ++
          set_free_block_map_uses (fun _ => removeInode.Indirect) 1 ++
          (if removeInode.Indirect ≠ 0 then
            .devRead removeInode.Indirect ::
              set_free_block_map_uses (m.disk.read removeInode.Indirect).Pointers POINTERS_PER_BLOCK
          else []) ++
          [.cache inumber, .cache inumber] ++ save_inode_uses m1 inumber)

/-- The indices `FileSystem::stat` uses. -/
def Mounted.stat_uses (m : Mounted) (inumber : Nat) : List Access :=
  if inumber ≥ m.inodes then []
  else .cache inumber :: load_inode_uses m inumber

/-- The indices the loop of `FileSystem::i_read` uses, with `k` iterations left, at slot
`d`, with `readBytes` bytes copied so far: one `read` for each slot it copies from. -/
def i_read_loop_uses (blockPointer : Nat → Nat) (length offset : Nat) :
    Nat → Nat → Nat → List Access
  | 0, _, _ => []
  | k + 1, d, readBytes =>
    if blockPointer d ≠ 0 then
      let bnum := blockPointer d
      if offset ≥ (d + 1) * BLOCK_SIZE then
        i_read_loop_uses blockPointer length offset k (d + 1) readBytes
      else if offset ≤ d * BLOCK_SIZE ∧ length - readBytes > BLOCK_SIZE then
        .devRead bnum ::
          i_read_loop_uses blockPointer length offset k (d + 1) (readBytes + BLOCK_SIZE)
      else if offset ≤ d * BLOCK_SIZE then [.devRead bnum]
      else if usize (offset + length) ≤ (d + 1) * BLOCK_SIZE then [.devRead bnum]
      else
        .devRead bnum ::
          i_read_loop_uses blockPointer length offset k (d + 1)
            (readBytes + (BLOCK_SIZE - offset % BLOCK_SIZE))
    else i_read_loop_uses blockPointer length offset k (d + 1) readBytes

/-- The indices `FileSystem::i_read` uses. -/
def i_read_uses (blockPointer : Nat → Nat) (blockNumber length offset : Nat) : List Access :=
  i_read_loop_uses blockPointer length offset blockNumber 0 0

/-- The indices `FileSystem::read` uses. -/
def Mounted.read_uses (m : Mounted) (inumber : Nat) (data : Buffer) (length offset : Nat) :
    List Access :=
  if inumber ≥ m.inodes then []
  else
    let readInode := (load_inode m inumber Inode.zero).2
    load_inode_uses m inumber ++
      (if readInode.Valid = 0 ∨ offset ≥ readInode.Size then []
      else
        let length1 :=
          if usize (length + offset) > readInode.Size then readInode.Size - offset else length
        if length1 = 0 then []
        else
          let r1 := i_read m readInode.Direct POINTERS_PER_INODE length1 data 0 offset
          i_read_uses readInode.Direct POINTERS_PER_INODE length1 offset ++
            (if r1.1 = length1 then []
            else
              let readInode1 := (load_inode m inumber readInode).2
              load_inode_uses m inumber ++
                (if readInode1.Indirect = 0 then []
                else
                  let offset1 :=
                    if offset ≤ POINTERS_PER_INODE * BLOCK_SIZE then 0
                    else offset - POINTERS_PER_INODE * BLOCK_SIZE
                  let pointersBlock := m.disk.read readInode1.Indirect
                  .devRead readInode1.Indirect ::
                    i_read_uses pointersBlock.Pointers POINTERS_PER_BLOCK (length1 - r1.1)
                      offset1)))

/-- The indices the scan of `allocate_free_block` uses from block `bnum` with `k`
candidates left: `free_block_map[bnum]` in each test, and once more in the store that
marks the block found. -/
def allocate_scan_uses (map : Nat → Nat) : Nat → Nat → List Access
  | 0, _ => []
  | k + 1, bnum =>
    if map bnum = 0 then [.bitmap bnum, .bitmap bnum]
    else .bitmap bnum :: allocate_scan_uses map k (bnum + 1)

/-- The indices `FileSystem::allocate_free_block` uses. -/
def allocate_free_block_uses (m : Mounted) : List Access :=
  let first := INODE_BLOCKS m.disk.size + 1
  allocate_scan_uses m.free_block_map (m.disk.size - first) first

/-- The indices the loop of `FileSystem::i_write` uses, with `k` iterations left, at slot
`d`: in each iteration that is not skipped, the `read` of the block of the slot (after
the uses of `allocate_free_block` when the slot is empty) and the `write` of
`bnumPointer[d]`. -/
def i_write_loop_uses (length : Nat) (data : Buffer) (offset : Nat) :
    Nat → Nat → Nat → (Nat → Nat) → Mounted → List Access
  | 0, _, _, _, _ => []
  | k + 1, d, writtenBytes, bnumPointer, m =>
    if offset ≥ (d + 1) * BLOCK_SIZE then
      i_write_loop_uses length data offset k (d + 1) writtenBytes bnumPointer m
    else
      let got : Option (List Access × Block × (Nat → Nat) × Mounted) :=
        if bnumPointer d ≠ 0 then
          some ([.devRead (bnumPointer d)], m.disk.read (bnumPointer d), bnumPointer, m)
        else
          match allocate_free_block m with
          | (none, _) => none
          | (some newBnum, m1) =>
            some (allocate_free_block_uses m ++ [.devRead newBnum], m1.disk.read newBnum,
              upd bnumPointer d (u32 newBnum), m1)
      match got with
      | none => allocate_free_block_uses m
      | some (uses, block, bnumPointer1, m1) =>
        if offset ≤ d * BLOCK_SIZE ∧ length - writtenBytes > BLOCK_SIZE then
          let block1 := memcpy block 0 data writtenBytes BLOCK_SIZE
          uses ++ .devWrite (bnumPointer1 d) ::
            i_write_loop_uses length data offset k (d + 1) (writtenBytes + BLOCK_SIZE)
              bnumPointer1 { m1 with disk := m1.disk.write (bnumPointer1 d) block1 }
        else if offset ≤ d * BLOCK_SIZE then uses ++ [.devWrite (bnumPointer1 d)]
        else if offset + length ≤ (d + 1) * BLOCK_SIZE then uses ++ [.devWrite (bnumPointer1 d)]
        else
          let block1 := memcpy block (offset % BLOCK_SIZE) data writtenBytes
            (BLOCK_SIZE - offset % BLOCK_SIZE)
          uses ++ .devWrite (bnumPointer1 d) ::
            i_write_loop_uses length data offset k (d + 1)
              (writtenBytes + (BLOCK_SIZE - offset % BLOCK_SIZE)) bnumPointer1
              { m1 with disk := m1.disk.write (bnumPointer1 d) block1 }

/-- The indices `FileSystem::i_write` uses. -/
def i_write_uses (m : Mounted) (bnumPointer : Nat → Nat) (bnumNumber length : Nat)
    (data : Buffer) (offset : Nat) : List Access :=
  i_write_loop_uses length data offset bnumNumber 0 0 bnumPointer m

/-- The indices the three statements that end `write` use: `inode_table[inumber]` and
those of `save_inode`. -/
def update_inode_uses (m : Mounted) (inumber : Nat) : List Access :=
  .cache inumber :: save_inode_uses m inumber

/-- The indices `FileSystem::write` uses. -/
def Mounted.write_uses (m : Mounted) (inumber : Nat) (data : Buffer) (length offset : Nat) :
    List Access :=
  if inumber ≥ m.inodes then []
  else if length = 0 then []
  else
    let writeInode := (load_inode m inumber Inode.zero).2
    load_inode_uses m inumber ++
      (if writeInode.Valid = 0 ∨ offset > writeInode.Size then []
      else
        let r1 := i_write m writeInode.Direct POINTERS_PER_INODE length data offset
        let u1 := i_write_uses m writeInode.Direct POINTERS_PER_INODE length data offset
        let writeInode1 : Inode := { writeInode with Direct := r1.2.1 }
        if r1.1 = length then u1 ++ update_inode_uses r1.2.2 inumber
        else
          let got : Option (List Access × Block × Inode × Mounted) :=
            if writeInode1.Indirect = 0 then
              match allocate_free_block r1.2.2 with
              | (none, _) => none
              | (some pointerBnum, m2) =>
                some (allocate_free_block_uses r1.2.2, zeroBlock,
                  { writeInode1 with Indirect := u32 pointerBnum }, m2)
            else
              some ([.devRead writeInode1.Indirect], r1.2.2.disk.read writeInode1.Indirect,
                writeInode1, r1.2.2)
          match got with
          | none => u1 ++ allocate_free_block_uses r1.2.2 ++ update_inode_uses r1.2.2 inumber
          | some (u, pointersBlock, writeInode2, m2) =>
            let newOffset :=
              if offset > POINTERS_PER_INODE * BLOCK_SIZE then
                offset - POINTERS_PER_INODE * BLOCK_SIZE
              else 0
            let r2 := i_write m2 pointersBlock.Pointers POINTERS_PER_BLOCK (length - r1.1)
              (shift data r1.1) newOffset
            let u2 := i_write_uses m2 pointersBlock.Pointers POINTERS_PER_BLOCK (length - r1.1)
              (shift data r1.1) newOffset
            u1 ++ u ++ u2 ++ update_inode_uses r2.2.2 inumber ++
              [.devWrite writeInode2.Indirect])

/-- The indices a call on a handle uses; a handle that is not mounted returns before it
uses any. -/
def FileSystem.uses (fs : FileSystem) (c : Call) : List Access :=
  match fs.currMountedDisk, fs.free_block_map, fs.inode_table with
  | some disk, some map, some table =>
    match c with
    | .create => Mounted.create_uses ⟨disk, table, map, fs.inode_table_len, fs.free_block_map_len⟩
    | .remove inumber => Mounted.remove_uses ⟨disk, table, map, fs.inode_table_len, fs.free_block_map_len⟩ inumber
    | .stat inumber => Mounted.stat_uses ⟨disk, table, map, fs.inode_table_len, fs.free_block_map_len⟩ inumber
    | .read inumber data length offset =>
      Mounted.read_uses ⟨disk, table, map, fs.inode_table_len, fs.free_block_map_len⟩ inumber data length offset
    | .write inumber data length offset =>
      Mounted.write_uses ⟨disk, table, map, fs.inode_table_len, fs.free_block_map_len⟩ inumber data length offset
  | _, _, _ => []

/-- The block numbers of the device writes among the uses, in order. -/
def writesOf : List Access → List Nat
  | [] => []
  | .devWrite bnum :: rest => bnum :: writesOf rest
  | .devRead _ :: rest => writesOf rest
  | .bitmap _ :: rest => writesOf rest
  | .cache _ :: rest => writesOf rest

/-! ## Arrays and words -/

@[simp] theorem upd_same {α : Type} (a : Nat → α) (i : Nat) (v : α) : upd a i v i = v := by
  simp [upd]

theorem upd_other {α : Type} (a : Nat → α) (i j : Nat) (v : α) (h : j ≠ i) :
    upd a i v j = a j := by
  simp [upd, h]

theorem upd_apply {α : Type} (a : Nat → α) (i j : Nat) (v : α) :
    upd a i v j = if j = i then v else a j := rfl

theorem byteOf_val (x : Nat) : (byteOf x).val = x % 256 := rfl

theorem u32_of_lt {x : Nat} (h : x < 4294967296) : u32 x = x := Nat.mod_eq_of_lt h

theorem u32_lt (x : Nat) : u32 x < 4294967296 := Nat.mod_lt x (by decide)

theorem getWord_lt (b : Block) (i : Nat) : getWord b i < 4294967296 := by
  unfold getWord
  have h0 := (b (4 * i)).isLt
  have h1 := (b (4 * i + 1)).isLt
  have h2 := (b (4 * i + 2)).isLt
  have h3 := (b (4 * i + 3)).isLt
  omega

theorem getWord_setWord_same (b : Block) (i w : Nat) : getWord (setWord b i w) i = u32 w := by
  simp [getWord, setWord, byteOf_val, u32]
  omega

theorem getWord_setWord_other (b : Block) (i j w : Nat) (h : j ≠ i) :
    getWord (setWord b i w) j = getWord b j := by
  have h0 : 4 * j ≠ 4 * i := by omega
  have h1 : 4 * j ≠ 4 * i + 1 := by omega
  have h2 : 4 * j ≠ 4 * i + 2 := by omega
  have h3 : 4 * j ≠ 4 * i + 3 := by omega
  have h4 : 4 * j + 1 ≠ 4 * i := by omega
  have h5 : 4 * j + 1 ≠ 4 * i + 2 := by omega
  have h6 : 4 * j + 1 ≠ 4 * i + 3 := by omega
  have h7 : 4 * j + 2 ≠ 4 * i := by omega
  have h8 : 4 * j + 2 ≠ 4 * i + 1 := by omega
  have h9 : 4 * j + 2 ≠ 4 * i + 3 := by omega
  have h10 : 4 * j + 3 ≠ 4 * i := by omega
  have h11 : 4 * j + 3 ≠ 4 * i + 1 := by omega
  have h12 : 4 * j + 3 ≠ 4 * i + 2 := by omega
  have h13 : j ≠ i := h
  simp [getWord, setWord, h0, h1, h2, h3, h4, h5, h6, h7, h8, h9, h10, h11, h12, h13]

theorem getWord_setWord (b : Block) (i j w : Nat) :
    getWord (setWord b i w) j = if j = i then u32 w else getWord b j := by
  by_cases h : j = i
  · subst h; simp [getWord_setWord_same]
  · simp [h, getWord_setWord_other b i j w h]

theorem getWord_zeroBlock (i : Nat) : getWord zeroBlock i = 0 := by
  simp [getWord, zeroBlock]

theorem getWord_setPointers (b : Block) (p : Nat → Nat) (k : Nat) (hk : k < POINTERS_PER_BLOCK) :
    getWord (b.setPointers p) k = u32 (p k) := by
  have hk' : k < 1024 := hk
  have e0 : (4 * k) / 4 = k := by omega
  have e1 : (4 * k + 1) / 4 = k := by omega
  have e2 : (4 * k + 2) / 4 = k := by omega
  have e3 : (4 * k + 3) / 4 = k := by omega
  have r0 : (4 * k) % 4 = 0 := by omega
  have r1 : (4 * k + 1) % 4 = 1 := by omega
  have r2 : (4 * k + 2) % 4 = 2 := by omega
  have r3 : (4 * k + 3) % 4 = 3 := by omega
  have l0 : 4 * k < 4096 := by omega
  have l1 : 4 * k + 1 < 4096 := by omega
  have l2 : 4 * k + 2 < 4096 := by omega
  have l3 : 4 * k + 3 < 4096 := by omega
  simp only [getWord, Block.setPointers, BLOCK_SIZE, l0, l1, l2, l3, if_true, e0, e1, e2, e3,
    r0, r1, r2, r3, byteOf_val, u32]
  norm_num
  omega

/-! ## The geometry computed in double precision -/

theorem bitLength_spec : ∀ fuel x : Nat, x < 2 ^ fuel →
    x < 2 ^ bitLength fuel x ∧ (x ≠ 0 → 2 ^ (bitLength fuel x - 1) ≤ x) := by
  intro fuel
  induction fuel with
  | zero => intro x hx; simp at hx; subst hx; simp [bitLength]
  | succ f ih =>
    intro x hx
    unfold bitLength
    by_cases h0 : x = 0
    · subst h0; simp
    · simp only [h0, if_false]
      have hx2 : x / 2 < 2 ^ f := by
        rw [pow_succ] at hx; omega
      obtain ⟨h1, h2⟩ := ih (x / 2) hx2
      refine ⟨?_, fun _ => ?_⟩
      · rw [pow_succ]; omega
      · simp only [Nat.add_sub_cancel]
        by_cases h3 : x / 2 = 0
        · have : bitLength f (x / 2) = 0 := by
            rw [h3]; cases f <;> simp [bitLength]
          rw [this]; simp; omega
        · have h4 := h2 h3
          have h5 : bitLength f (x / 2) ≠ 0 := by
            intro h6; rw [h6] at h1; simp at h1; exact h3 h1
          obtain ⟨c, hc⟩ := Nat.exists_eq_succ_of_ne_zero h5
          rw [hc] at h4 ⊢
          simp only [Nat.succ_sub_one] at h4
          rw [Nat.succ_eq_add_one, pow_succ]; omega

theorem bitLength_le (fuel x : Nat) : bitLength fuel x ≤ fuel := by
  induction fuel generalizing x with
  | zero => simp [bitLength]
  | succ f ih =>
    unfold bitLength
    split
    · omega
    · have := ih (x / 2); omega

theorem ceil_tenth (n P K : Nat) (hn : n < 4294967296)
    (hPK : P * K = 36028797018963968) (hPm : P ≤ 3602879701896397)
    (hhi : n * 3602879701896397 < 9007199254740992 * P) :
    ((if P < 2 * (n * 3602879701896397 % P) ∨
          (2 * (n * 3602879701896397 % P) = P ∧ n * 3602879701896397 / P % 2 = 1)
        then n * 3602879701896397 / P + 1 else n * 3602879701896397 / P) * P
      + 36028797018963967) / 36028797018963968 = (n + 9) / 10 := by
  have hP : 0 < P := by
    rcases Nat.eq_zero_or_pos P with h | h
    · rw [h] at hPK; simp at hPK
    · exact h
  generalize hx : n * 3602879701896397 = x at *
  have hdm : P * (x / P) + x % P = x := Nat.div_add_mod x P
  have hr : x % P < P := Nat.mod_lt x hP
  generalize hq : x / P = q at *
  generalize hrr : x % P = r at *
  have haM : (n / 10 * K) * P = n / 10 * 36028797018963968 := by
    rw [Nat.mul_assoc, Nat.mul_comm K P, hPK]
  by_cases hb : n % 10 = 0
  · -- the product is within a quarter ulp of the integer n / 10
    have h4 : 4 * (n / 10) < P := by omega
    have hxa : x = P * (n / 10 * K) + 2 * (n / 10) := by
      rw [Nat.mul_comm P, haM]; omega
    have hqa : q = n / 10 * K := by
      have h5 : P * q + r = P * (n / 10 * K) + 2 * (n / 10) := by omega
      have h6 : 2 * (n / 10) < P := by omega
      by_contra hne
      rcases Nat.lt_or_gt_of_ne hne with hlt | hgt
      · have : P * (q + 1) ≤ P * (n / 10 * K) := Nat.mul_le_mul_left P hlt
        rw [Nat.mul_add] at this; omega
      · have : P * (n / 10 * K + 1) ≤ P * q := Nat.mul_le_mul_left P hgt
        rw [Nat.mul_add] at this; omega
    have hra : r = 2 * (n / 10) := by
      rw [hqa] at hdm; omega
    have hc : ¬ (P < 2 * r ∨ (2 * r = P ∧ q % 2 = 1)) := by omega
    rw [if_neg hc, hqa, haM]
    omega
  · have hlow : (n / 10 * K + 1) ≤ q := by
      rw [← hq]
      apply (Nat.le_div_iff_mul_le hP).mpr
      rw [Nat.add_mul, haM]; omega
    have hupp : q < (n / 10 + 1) * K := by
      rw [← hq]
      apply (Nat.div_lt_iff_lt_mul hP).mpr
      have : (n / 10 + 1) * K * P = (n / 10 + 1) * 36028797018963968 := by
        rw [Nat.mul_assoc, Nat.mul_comm K P, hPK]
      rw [this]; omega
    generalize hq' : (if P < 2 * r ∨ (2 * r = P ∧ q % 2 = 1) then q + 1 else q) = q'
    have h1 : q ≤ q' ∧ q' ≤ q + 1 := by
      rw [← hq']; split_ifs <;> omega
    have hR1 : (n / 10 * K + 1) * P ≤ q' * P := Nat.mul_le_mul_right P (by omega)
    have hR2 : q' * P ≤ (n / 10 + 1) * K * P := Nat.mul_le_mul_right P (by omega)
    have e2 : (n / 10 + 1) * K * P = (n / 10 + 1) * 36028797018963968 := by
      rw [Nat.mul_assoc, Nat.mul_comm K P, hPK]
    rw [Nat.add_mul, haM] at hR1
    rw [e2] at hR2
    omega

theorem INODE_BLOCKS_eq (n : Nat) (hn : n < 4294967296) : INODE_BLOCKS n = (n + 9) / 10 := by
  have hx : n * 3602879701896397 < 2 ^ 84 := by
    have h2 : (4294967296 : Nat) * 3602879701896397 < 2 ^ 84 := by norm_num
    omega
  have hx128 : n * 3602879701896397 < 2 ^ 128 :=
    lt_of_lt_of_le hx (Nat.pow_le_pow_right (by decide) (by decide))
  obtain ⟨h1, h2⟩ := bitLength_spec 128 (n * 3602879701896397) hx128
  have hL : bitLength 128 (n * 3602879701896397) ≤ 84 := by
    by_contra hc
    push_neg at hc
    have h3 : n * 3602879701896397 ≠ 0 := by
      intro h0; rw [h0] at hc; simp [bitLength] at hc
    have h4 := h2 h3
    have h5 : (2:Nat) ^ 84 ≤ 2 ^ (bitLength 128 (n * 3602879701896397) - 1) :=
      Nat.pow_le_pow_right (by decide) (by omega)
    omega
  unfold INODE_BLOCKS mulTenth TENTH
  simp only []
  rw [Nat.mul_comm 3602879701896397 n, Nat.add_comm (2 ^ 55 - 1)]
  generalize bitLength 128 (n * 3602879701896397) = L at h1 h2 hL ⊢
  have hs : L - 53 ≤ 31 := by omega
  have hPK : 2 ^ (L - 53) * 2 ^ (55 - (L - 53)) = 36028797018963968 := by
    rw [← pow_add]
    have : L - 53 + (55 - (L - 53)) = 55 := by omega
    rw [this]; norm_num
  have hPm : 2 ^ (L - 53) ≤ 3602879701896397 := by
    have : (2:Nat) ^ (L - 53) ≤ 2 ^ 31 := Nat.pow_le_pow_right (by decide) hs
    have h31 : (2:Nat) ^ 31 ≤ 3602879701896397 := by norm_num
    omega
  have hhi : n * 3602879701896397 < 9007199254740992 * 2 ^ (L - 53) := by
    have h53 : (9007199254740992 : Nat) = 2 ^ 53 := by norm_num
    rw [h53, ← pow_add]
    exact lt_of_lt_of_le h1 (Nat.pow_le_pow_right (by decide) (by omega))
  have key := ceil_tenth n (2 ^ (L - 53)) (2 ^ (55 - (L - 53))) hn hPK hPm hhi
  have e55 : (2:Nat) ^ 55 - 1 = 36028797018963967 := by norm_num
  have e55b : (2:Nat) ^ 55 = 36028797018963968 := by norm_num
  rw [e55, e55b]
  exact key

theorem INODE_BLOCKS_lt (n : Nat) (h2 : 2 ≤ n) (hn : n < 4294967296) : INODE_BLOCKS n < n := by
  rw [INODE_BLOCKS_eq n hn]; omega

/-! ## Inode records inside a block -/

theorem getWord_setInodes_other (b : Block) (i : Nat) (node : Inode) (w : Nat)
    (h : w / 8 ≠ i) : getWord (b.setInodes i node) w = getWord b w := by
  unfold Block.setInodes
  rw [getWord_setWord_other _ _ _ _ (by omega), getWord_setWord_other _ _ _ _ (by omega),
    getWord_setWord_other _ _ _ _ (by omega), getWord_setWord_other _ _ _ _ (by omega),
    getWord_setWord_other _ _ _ _ (by omega), getWord_setWord_other _ _ _ _ (by omega),
    getWord_setWord_other _ _ _ _ (by omega), getWord_setWord_other _ _ _ _ (by omega)]

theorem Inodes_setInodes_other (b : Block) (i j : Nat) (node : Inode) (h : j ≠ i) :
    (b.setInodes i node).Inodes j = b.Inodes j := by
  unfold Block.Inodes
  have e0 := getWord_setInodes_other b i node (8 * j) (by omega)
  have e1 := getWord_setInodes_other b i node (8 * j + 1) (by omega)
  have e7 := getWord_setInodes_other b i node (8 * j + 7) (by omega)
  have ed : ∀ k, k < POINTERS_PER_INODE →
      getWord (b.setInodes i node) (8 * j + 2 + k) = getWord b (8 * j + 2 + k) := by
    intro k hk
    have hk' : k < 5 := hk
    exact getWord_setInodes_other b i node (8 * j + 2 + k) (by omega)
  rw [e0, e1, e7]
  congr 1
  funext k
  by_cases hk : k < POINTERS_PER_INODE
  · simp [hk, ed k hk]
  · simp [hk]

theorem Inodes_setInodes_Valid (b : Block) (i : Nat) (node : Inode) :
    ((b.setInodes i node).Inodes i).Valid = u32 node.Valid := by
  simp only [Block.Inodes, Block.setInodes]
  rw [getWord_setWord_other _ _ _ _ (by omega), getWord_setWord_other _ _ _ _ (by omega),
    getWord_setWord_other _ _ _ _ (by omega), getWord_setWord_other _ _ _ _ (by omega),
    getWord_setWord_other _ _ _ _ (by omega), getWord_setWord_other _ _ _ _ (by omega),
    getWord_setWord_other _ _ _ _ (by omega), getWord_setWord_same]

theorem Inodes_setInodes_Size (b : Block) (i : Nat) (node : Inode) :
    ((b.setInodes i node).Inodes i).Size = u32 node.Size := by
  simp only [Block.Inodes, Block.setInodes]
  rw [getWord_setWord_other _ _ _ _ (by omega), getWord_setWord_other _ _ _ _ (by omega),
    getWord_setWord_other _ _ _ _ (by omega), getWord_setWord_other _ _ _ _ (by omega),
    getWord_setWord_other _ _ _ _ (by omega), getWord_setWord_other _ _ _ _ (by omega),
    getWord_setWord_same]

theorem Inodes_setInodes_Indirect (b : Block) (i : Nat) (node : Inode) :
    ((b.setInodes i node).Inodes i).Indirect = u32 node.Indirect := by
  simp only [Block.Inodes, Block.setInodes]
  rw [getWord_setWord_same]

theorem Inodes_setInodes_Direct (b : Block) (i : Nat) (node : Inode) (k : Nat) :
    ((b.setInodes i node).Inodes i).Direct k =
      if k < POINTERS_PER_INODE then u32 (node.Direct k) else 0 := by
  simp only [Block.Inodes, Block.setInodes]
  by_cases hk : k < POINTERS_PER_INODE
  · simp only [hk, if_true]
    have hk' : k < 5 := hk
    have hcases : k = 0 ∨ k = 1 ∨ k = 2 ∨ k = 3 ∨ k = 4 := by omega
    rcases hcases with h | h | h | h | h <;> subst h <;>
      simp [getWord_setWord, u32]
  · simp [hk]

theorem Inodes_Direct_ge (b : Block) (i k : Nat) (hk : POINTERS_PER_INODE ≤ k) :
    (b.Inodes i).Direct k = 0 := by
  have : ¬ k < POINTERS_PER_INODE := by omega
  simp [Block.Inodes, this]

theorem Inodes_lt (b : Block) (i : Nat) :
    (b.Inodes i).Valid < 4294967296 ∧ (b.Inodes i).Size < 4294967296 ∧
      (b.Inodes i).Indirect < 4294967296 ∧ ∀ k, (b.Inodes i).Direct k < 4294967296 := by
  refine ⟨getWord_lt _ _, getWord_lt _ _, getWord_lt _ _, ?_⟩
  intro k
  simp only [Block.Inodes]
  split
  · exact getWord_lt _ _
  · decide

theorem Inodes_zeroBlock_Valid (i : Nat) : (zeroBlock.Inodes i).Valid = 0 := by
  simp [Block.Inodes, getWord_zeroBlock]

/-! ## Loading and saving inodes -/

theorem load_inode_eq (m : Mounted) (n : Nat) (node : Inode) (h : n < m.inodes) :
    (load_inode m n node).2 = m.inode n := by
  have : ¬ n ≥ m.inodes := by omega
  simp [load_inode, this, Mounted.inode]

theorem save_inode_eq (m : Mounted) (n : Nat) (node : Inode) (h : n < m.inodes) :
    (save_inode m n node).2 =
      { m with disk := m.disk.write (1 + n / INODES_PER_BLOCK) ((m.disk.read (1 + n / INODES_PER_BLOCK)).setInodes (n % INODES_PER_BLOCK) node) } := by
  have : ¬ n ≥ m.inodes := by omega
  simp [save_inode, this]

theorem save_inode_fst (m : Mounted) (n : Nat) (node : Inode) (h : n < m.inodes) :
    (save_inode m n node).1 = true := by
  have : ¬ n ≥ m.inodes := by omega
  simp [save_inode, this]

theorem inodes_block_le (m : Mounted) (n : Nat) (h : n < m.inodes) :
    1 + n / INODES_PER_BLOCK ≤ INODE_BLOCKS m.disk.size := by
  unfold Mounted.inodes INODES_PER_BLOCK at h
  unfold INODES_PER_BLOCK
  omega

/-- The on-disk inode `n1` after block `b` is overwritten, when `b` is not its inode
block. -/
theorem inode_write_other (m : Mounted) (b : Nat) (blk : Block) (n1 : Nat)
    (h : b ≠ 1 + n1 / INODES_PER_BLOCK) :
    Mounted.inode { m with disk := m.disk.write b blk } n1 = m.inode n1 := by
  simp only [Mounted.inode, Disk.read, Disk.write]
  rw [upd_other _ _ _ _ (Ne.symm h)]

theorem inode_save_other (m : Mounted) (n n1 : Nat) (node : Inode) (h : n < m.inodes)
    (hne : n1 ≠ n) : (save_inode m n node).2.inode n1 = m.inode n1 := by
  rw [save_inode_eq m n node h]
  by_cases hb : 1 + n / INODES_PER_BLOCK = 1 + n1 / INODES_PER_BLOCK
  · simp only [Mounted.inode, Disk.read, Disk.write]
    rw [← hb, upd_same]
    apply Inodes_setInodes_other
    unfold INODES_PER_BLOCK at *
    omega
  · exact inode_write_other m _ _ n1 hb

theorem inode_save_same (m : Mounted) (n : Nat) (node : Inode) (h : n < m.inodes) :
    ((save_inode m n node).2.inode n).Valid = u32 node.Valid ∧
    ((save_inode m n node).2.inode n).Size = u32 node.Size ∧
    ((save_inode m n node).2.inode n).Indirect = u32 node.Indirect ∧
    ∀ k, ((save_inode m n node).2.inode n).Direct k =
      if k < POINTERS_PER_INODE then u32 (node.Direct k) else 0 := by
  rw [save_inode_eq m n node h]
  simp only [Mounted.inode, Disk.read, Disk.write, upd_same]
  exact ⟨Inodes_setInodes_Valid _ _ _, Inodes_setInodes_Size _ _ _,
    Inodes_setInodes_Indirect _ _ _, fun k => Inodes_setInodes_Direct _ _ _ k⟩

theorem save_inode_ge (m : Mounted) (n : Nat) (node : Inode) (h : n ≥ m.inodes) :
    save_inode m n node = (false, m) := by
  simp [save_inode, h]

theorem save_inode_data_other (m : Mounted) (n : Nat) (node : Inode) (b : Nat)
    (hb : b ≠ 1 + n / INODES_PER_BLOCK) :
    (save_inode m n node).2.disk.data b = m.disk.data b := by
  by_cases h : n < m.inodes
  · rw [save_inode_eq m n node h]
    simp only [Disk.write]
    rw [upd_other _ _ _ _ hb]
  · rw [save_inode_ge m n node (by omega)]

theorem save_inode_frame (m : Mounted) (n : Nat) (node : Inode) :
    (save_inode m n node).2.inode_table = m.inode_table ∧
    (save_inode m n node).2.free_block_map = m.free_block_map ∧
    (save_inode m n node).2.disk.Blocks = m.disk.Blocks ∧
    (save_inode m n node).2.disk.addr = m.disk.addr ∧
    (save_inode m n node).2.disk.Mounted = m.disk.Mounted := by
  by_cases h : n < m.inodes
  · rw [save_inode_eq m n node h]
    simp [Disk.write]
  · rw [save_inode_ge m n node (by omega)]
    simp

/-! ## The allocator -/

theorem allocate_scan_some (map : Nat → Nat) : ∀ k bnum b, allocate_scan map k bnum = some b →
    bnum ≤ b ∧ b < bnum + k ∧ map b = 0 := by
  intro k
  induction k with
  | zero => intro bnum b h; simp [allocate_scan] at h
  | succ k ih =>
    intro bnum b h
    unfold allocate_scan at h
    split at h
    · simp at h; subst h; omega
    · have := ih _ _ h; omega

theorem allocate_scan_none (map : Nat → Nat) : ∀ k bnum, allocate_scan map k bnum = none →
    ∀ b, bnum ≤ b → b < bnum + k → map b ≠ 0 := by
  intro k
  induction k with
  | zero => intro bnum _ b h1 h2; omega
  | succ k ih =>
    intro bnum h b h1 h2
    unfold allocate_scan at h
    split at h
    · simp at h
    · rename_i hne
      by_cases hb : b = bnum
      · subst hb; exact hne
      · exact ih _ h b (by omega) (by omega)

theorem allocate_some (m : Mounted) (b : Nat) (m1 : Mounted)
    (h : allocate_free_block m = (some b, m1)) :
    INODE_BLOCKS m.disk.size < b ∧ b < m.disk.size ∧ m.free_block_map b = 0 ∧
      m1 = { m with free_block_map := upd m.free_block_map b 1 } := by
  unfold allocate_free_block at h
  simp only [] at h
  split at h
  · rename_i bnum hs
    have := allocate_scan_some _ _ _ _ hs
    simp only [Prod.mk.injEq, Option.some.injEq] at h
    obtain ⟨h1, h2⟩ := h
    subst h1
    refine ⟨by omega, by omega, this.2.2, h2.symm⟩
  · simp at h

theorem allocate_none (m : Mounted) (h : (allocate_free_block m).1 = none) :
    allocate_free_block m = (none, m) ∧
      ∀ b, INODE_BLOCKS m.disk.size < b → b < m.disk.size → m.free_block_map b ≠ 0 := by
  unfold allocate_free_block at h ⊢
  simp only [] at h ⊢
  split at h
  · simp at h
  · rename_i hs
    refine ⟨rfl, ?_⟩
    intro b h1 h2
    exact allocate_scan_none _ _ _ hs b (by omega) (by omega)

theorem allocate_cases (m : Mounted) :
    (allocate_free_block m = (none, m) ∧
      ∀ b, INODE_BLOCKS m.disk.size < b → b < m.disk.size → m.free_block_map b ≠ 0) ∨
    ∃ b, INODE_BLOCKS m.disk.size < b ∧ b < m.disk.size ∧ m.free_block_map b = 0 ∧
      allocate_free_block m = (some b, { m with free_block_map := upd m.free_block_map b 1 }) := by
  rcases hr : allocate_free_block m with ⟨r, m1⟩
  cases r with
  | none =>
    left
    have := allocate_none m (by rw [hr])
    rw [hr] at this
    exact this
  | some b =>
    right
    have := allocate_some m b m1 hr
    exact ⟨b, this.1, this.2.1, this.2.2.1, by rw [this.2.2.2]⟩

/-- The slot acquisition either keeps a nonzero pointer, installs a fresh block, or
fails because no block is free. -/
theorem acquire_cases (ptrs : Nat → Nat) (d : Nat) (m : Mounted) :
    (ptrs d ≠ 0 ∧ acquire ptrs d m = some (ptrs, m)) ∨
    (ptrs d = 0 ∧ acquire ptrs d m = none ∧ allocate_free_block m = (none, m) ∧
      ∀ b, INODE_BLOCKS m.disk.size < b → b < m.disk.size → m.free_block_map b ≠ 0) ∨
    (ptrs d = 0 ∧ ∃ b, INODE_BLOCKS m.disk.size < b ∧ b < m.disk.size ∧
      m.free_block_map b = 0 ∧
      acquire ptrs d m = some (upd ptrs d b, { m with free_block_map := upd m.free_block_map b 1 })) := by
  by_cases h : ptrs d ≠ 0
  · left; exact ⟨h, by simp [acquire, h]⟩
  · right
    push_neg at h
    rcases allocate_cases m with ⟨h1, h2⟩ | ⟨b, h1, h2, h3, h4⟩
    · left; exact ⟨h, by simp [acquire, h, h1], h1, h2⟩
    · right; exact ⟨h, b, h1, h2, h3, by simp [acquire, h, h4]⟩

/-! ## The loop body of `i_write` in normal form -/

/-- One iteration of the slot walk of `i_write`.  When the position `offset + w` is
`max offset (d * BLOCK_SIZE)`, the four copy branches of the body are one: write
`min ((d + 1) * BLOCK_SIZE - (offset + w)) (length - w)` bytes at the current position,
and return when these are the last; otherwise go on with slot `d + 1`. -/
theorem i_write_loop_succ (len : Nat) (data : Buffer) (off k d w : Nat) (ptrs : Nat → Nat)
    (m : Mounted) (hN : m.disk.size ≤ 4294967296)
    (hpos : off + w = max off (d * BLOCK_SIZE)) (hw : w < len) :
    i_write_loop len data off (k + 1) d w ptrs m =
      if off ≥ (d + 1) * BLOCK_SIZE then i_write_loop len data off k (d + 1) w ptrs m
      else
        match acquire ptrs d m with
        | none => (w, ptrs, m)
        | some (p1, m1) =>
          if len - w ≤ (d + 1) * BLOCK_SIZE - (off + w) then
            (len, p1, put_block m1 (p1 d) (off + w - d * BLOCK_SIZE) data w (len - w))
          else
            i_write_loop len data off k (d + 1) (w + ((d + 1) * BLOCK_SIZE - (off + w))) p1
              (put_block m1 (p1 d) (off + w - d * BLOCK_SIZE) data w
                ((d + 1) * BLOCK_SIZE - (off + w))) := by
  rw [i_write_loop]
  have hpos' : off + w = max off (d * 4096) := hpos
  have hmax : (off ≤ d * 4096 ∧ off + w = d * 4096) ∨ (d * 4096 < off ∧ w = 0) := by
    rcases Nat.le_total off (d * 4096) with h | h
    · left; rw [Nat.max_eq_right h] at hpos'; exact ⟨h, hpos'⟩
    · rcases Nat.eq_or_lt_of_le h with h' | h'
      · left; rw [Nat.max_eq_left h] at hpos'; omega
      · right; rw [Nat.max_eq_left h] at hpos'; omega
  clear hpos hpos'
  simp only [BLOCK_SIZE]
  by_cases hskip : off ≥ (d + 1) * 4096
  · simp only [hskip, if_true]
  · simp only [hskip, if_false]
    rcases acquire_cases ptrs d m with ⟨hp, ha⟩ | ⟨hp, ha, hal, _⟩ | ⟨hp, b, hb1, hb2, hb3, ha⟩
    · rw [ha]
      simp only [hp, ne_eq, not_false_eq_true, if_true]
      by_cases h1 : off ≤ d * 4096
      · have e0 : off + w - d * 4096 = 0 := by omega
        have e1 : (d + 1) * 4096 - (off + w) = 4096 := by omega
        by_cases h2 : len - w > 4096
        · have h3 : ¬ len - w ≤ 4096 := by omega
          simp only [h1, h2, and_self, if_true, e0, e1, h3, if_false, put_block]
        · have h3 : len - w ≤ 4096 := by omega
          simp only [h1, h2, and_false, if_false, if_true, e0, e1, h3, put_block]
      · have hw0 : w = 0 := by omega
        subst hw0
        have e0 : off + 0 - d * 4096 = off % 4096 := by omega
        have e1 : (d + 1) * 4096 - (off + 0) = 4096 - off % 4096 := by omega
        by_cases h2 : off + len ≤ (d + 1) * 4096
        · have h3 : len ≤ 4096 - off % 4096 := by omega
          simp only [h1, false_and, if_false, h2, if_true, e0, e1, h3, put_block, Nat.sub_zero]
        · have h3 : ¬ len ≤ 4096 - off % 4096 := by omega
          simp only [h1, false_and, if_false, h2, e0, e1, h3, put_block, Nat.zero_add,
            Nat.sub_zero]
    · rw [ha, hal]
      simp only [hp, ne_eq, not_true_eq_false, if_false]
    · rw [ha]
      have hal : allocate_free_block m =
          (some b, { m with free_block_map := upd m.free_block_map b 1 }) := by
        unfold acquire at ha
        simp only [hp, ne_eq, not_true_eq_false, if_false] at ha
        rcases allocate_cases m with ⟨h1, _⟩ | ⟨b', _, _, _, h4⟩
        · rw [h1] at ha; simp at ha
        · rw [h4] at ha ⊢
          simp only [Option.some.injEq, Prod.mk.injEq] at ha
          have hbb : b' = b := by
            have := congrFun ha.1 d
            simpa [upd] using this
          rw [hbb]
      rw [hal]
      have hu : u32 b = b := u32_of_lt (by omega)
      simp only [hp, ne_eq, not_true_eq_false, if_false, hu, upd_same]
      by_cases h1 : off ≤ d * 4096
      · have e0 : off + w - d * 4096 = 0 := by omega
        have e1 : (d + 1) * 4096 - (off + w) = 4096 := by omega
        by_cases h2 : len - w > 4096
        · have h3 : ¬ len - w ≤ 4096 := by omega
          simp only [h1, h2, and_self, if_true, e0, e1, h3, if_false, put_block]
        · have h3 : len - w ≤ 4096 := by omega
          simp only [h1, h2, and_false, if_false, if_true, e0, e1, h3, put_block]
      · have hw0 : w = 0 := by omega
        subst hw0
        have e0 : off + 0 - d * 4096 = off % 4096 := by omega
        have e1 : (d + 1) * 4096 - (off + 0) = 4096 - off % 4096 := by omega
        by_cases h2 : off + len ≤ (d + 1) * 4096
        · have h3 : len ≤ 4096 - off % 4096 := by omega
          simp only [h1, false_and, if_false, h2, if_true, e0, e1, h3, put_block, Nat.sub_zero]
        · have h3 : ¬ len ≤ 4096 - off % 4096 := by omega
          simp only [h1, false_and, if_false, h2, e0, e1, h3, put_block, Nat.zero_add,
            Nat.sub_zero]

/-! ## What a slot walk of `i_write` may change -/

theorem Walk.wrefl (count off lo : Nat) (ptrs : Nat → Nat) (m : Mounted) :
    Walk count off lo ptrs m ptrs m where
  table := rfl
  blocks := rfl
  old := fun _ _ => rfl
  outside := fun _ _ => rfl
  fresh := fun _ h0 h1 => absurd h0 h1
  map := fun _ => Or.inl rfl
  data := fun _ => Or.inl rfl
  keep := fun h => h

theorem Walk.mono {count off lo lo1 : Nat} {ptrs ptrs1 : Nat → Nat} {m m1 : Mounted}
    (h : Walk count off lo1 ptrs m ptrs1 m1) (hlo : lo ≤ lo1) :
    Walk count off lo ptrs m ptrs1 m1 where
  table := h.table
  blocks := h.blocks
  old := h.old
  outside := fun j hj => h.outside j (by omega)
  fresh := h.fresh
  map := fun b => by
    rcases h.map b with h1 | ⟨h1, h2, j, h3, h4, h5⟩
    · exact Or.inl h1
    · exact Or.inr ⟨h1, h2, j, by omega, h4, h5⟩
  data := fun b => by
    rcases h.data b with h1 | ⟨h0, j, h3, h4, h5⟩
    · exact Or.inl h1
    · exact Or.inr ⟨h0, j, by omega, h4, h5⟩
  keep := h.keep

theorem Walk.wtrans {count off lo : Nat} {p p1 p2 : Nat → Nat} {m m1 m2 : Mounted}
    (h1 : Walk count off lo p m p1 m1) (h2 : Walk count off lo p1 m1 p2 m2) :
    Walk count off lo p m p2 m2 where
  table := h2.table.trans h1.table
  blocks := h2.blocks.trans h1.blocks
  old := fun j hj => by
    have e1 := h1.old j hj
    have e2 := h2.old j (by rw [e1]; exact hj)
    rw [e2, e1]
  outside := fun j hj => by rw [h2.outside j hj, h1.outside j hj]
  fresh := fun j h0 hne => by
    have hsz : m1.disk.size = m.disk.size := h1.blocks
    by_cases hp1 : p1 j = 0
    · obtain ⟨a1, a2, a3, a4⟩ := h2.fresh j hp1 hne
      rw [hsz] at a1 a2
      refine ⟨a1, a2, ?_, a4⟩
      rcases h1.map (p2 j) with e | ⟨e, _, _⟩
      · rw [← e]; exact a3
      · exact e
    · obtain ⟨a1, a2, a3, a4⟩ := h1.fresh j h0 hp1
      have e2 := h2.old j hp1
      rw [e2]
      refine ⟨a1, a2, a3, ?_⟩
      rcases h2.map (p1 j) with e | ⟨e, _, _⟩
      · rw [e]; exact a4
      · rw [a4] at e; exact absurd e (by decide)
  map := fun b => by
    rcases h2.map b with e2 | ⟨e2, e2', j, hj1, hj2, hj3, hj4, hb⟩
    · rcases h1.map b with e1 | ⟨e1, e1', j, hj1, hj2, hj3, hj4, hb⟩
      · exact Or.inl (e2.trans e1)
      · refine Or.inr ⟨e1, e2.trans e1', j, hj1, hj2, hj3, ?_, hb⟩
        rw [h2.old j (by rw [hj4]; exact hb), hj4]
    · rcases h1.map b with e1 | ⟨_, e1', _⟩
      · refine Or.inr ⟨e1 ▸ e2, e2', j, hj1, hj2, ?_, hj4, hb⟩
        by_contra hne
        have := h1.old j hne
        rw [this] at hj3
        exact hne hj3
      · rw [e1'] at e2; exact absurd e2 (by decide)
  data := fun b => by
    rcases h2.data b with e2 | e2
    · rcases h1.data b with e1 | ⟨hb, j, hj1, hj2, hj3, hj4⟩
      · exact Or.inl (e2.trans e1)
      · refine Or.inr ⟨hb, j, hj1, hj2, hj3, ?_⟩
        rw [h2.old j (by rw [hj4]; exact hb), hj4]
    · exact Or.inr e2
  keep := fun h => h2.keep (h1.keep h)

/-- Acquiring slot `d` is a walk step. -/
theorem Walk.of_acquire {count off lo d : Nat} {ptrs p1 : Nat → Nat} {m m1 : Mounted}
    (hd : lo ≤ d ∧ d < count) (ha : acquire ptrs d m = some (p1, m1)) :
    Walk count off lo ptrs m p1 m1 := by
  rcases acquire_cases ptrs d m with ⟨_, ha'⟩ | ⟨_, ha', _⟩ | ⟨hp, b, hb1, hb2, hb3, ha'⟩
  · rw [ha'] at ha
    simp only [Option.some.injEq, Prod.mk.injEq] at ha
    obtain ⟨e1, e2⟩ := ha
    subst e1; subst e2
    exact Walk.wrefl _ _ _ _ _
  · rw [ha'] at ha; simp at ha
  · rw [ha'] at ha
    simp only [Option.some.injEq, Prod.mk.injEq] at ha
    obtain ⟨e1, e2⟩ := ha
    subst e1; subst e2
    have hb0 : b ≠ 0 := by omega
    refine ⟨rfl, rfl, ?_, ?_, ?_, ?_, fun _ => Or.inl rfl, ?_⟩
    · intro j hj
      have : j ≠ d := fun e => hj (e ▸ hp)
      exact upd_other _ _ _ _ this
    · intro j hj
      exact upd_other _ _ _ _ (by omega)
    · intro j hj0 hj1
      by_cases hjd : j = d
      · subst hjd
        simp only [upd_same] at hj1 ⊢
        exact ⟨hb1, hb2, hb3, trivial⟩
      · rw [upd_other _ _ _ _ hjd] at hj1
        exact absurd hj0 hj1
    · intro c
      by_cases hc : c = b
      · subst hc
        exact Or.inr ⟨hb3, upd_same _ _ _, d, hd.1, hd.2, hp, upd_same _ _ _, hb0⟩
      · exact Or.inl (upd_other _ _ _ _ hc)
    · intro hok
      obtain ⟨hmark, hinj⟩ := hok
      constructor
      · intro j hj hne
        simp only []
        by_cases hjd : j = d
        · subst hjd; simp [upd]
        · rw [upd_other _ _ _ _ hjd] at hne ⊢
          rw [upd_apply]
          split
          · decide
          · exact hmark j hj hne
      · intro i j hi hj hij hne
        by_cases hid : i = d
        · by_cases hjd : j = d
          · omega
          · exfalso
            rw [hid, upd_same, upd_other _ _ _ _ hjd] at hij
            exact hmark j hj (by rw [← hij]; exact hb0) (by rw [← hij]; exact hb3)
        · by_cases hjd : j = d
          · exfalso
            rw [hjd, upd_same, upd_other _ _ _ _ hid] at hij
            rw [upd_other _ _ _ _ hid] at hne
            exact hmark i hi hne (by rw [hij]; exact hb3)
          · rw [upd_other _ _ _ _ hid, upd_other _ _ _ _ hjd] at hij
            rw [upd_other _ _ _ _ hid] at hne
            exact hinj i j hi hj hij hne

/-- Writing back the block of slot `d` is a walk step. -/
theorem Walk.of_put {count off lo d : Nat} (ptrs : Nat → Nat) (m : Mounted)
    (hd : lo ≤ d ∧ d < count) (hoff : off < (d + 1) * BLOCK_SIZE) (hp : ptrs d ≠ 0)
    (o : Nat) (data : Buffer) (w n : Nat) :
    Walk count off lo ptrs m ptrs (put_block m (ptrs d) o data w n) where
  table := rfl
  blocks := rfl
  old := fun _ _ => rfl
  outside := fun _ _ => rfl
  fresh := fun _ h0 h1 => absurd h0 h1
  map := fun _ => Or.inl rfl
  data := fun b => by
    by_cases hb : b = ptrs d
    · exact Or.inr ⟨by rw [hb]; exact hp, d, hd.1, hd.2, hoff, hb.symm⟩
    · left
      simp only [put_block, Disk.write]
      exact upd_other _ _ _ _ hb
  keep := fun h => h

theorem acquire_ne_zero {ptrs p1 : Nat → Nat} {d : Nat} {m m1 : Mounted}
    (ha : acquire ptrs d m = some (p1, m1)) : p1 d ≠ 0 := by
  rcases acquire_cases ptrs d m with ⟨hp, ha'⟩ | ⟨_, ha', _⟩ | ⟨hp, b, hb1, hb2, hb3, ha'⟩
  · rw [ha'] at ha
    simp only [Option.some.injEq, Prod.mk.injEq] at ha
    rw [← ha.1]; exact hp
  · rw [ha'] at ha; simp at ha
  · rw [ha'] at ha
    simp only [Option.some.injEq, Prod.mk.injEq] at ha
    rw [← ha.1, upd_same]; omega

theorem acquire_size {ptrs p1 : Nat → Nat} {d : Nat} {m m1 : Mounted}
    (ha : acquire ptrs d m = some (p1, m1)) : m1.disk = m.disk := by
  rcases acquire_cases ptrs d m with ⟨hp, ha'⟩ | ⟨_, ha', _⟩ | ⟨hp, b, hb1, hb2, hb3, ha'⟩
  · rw [ha'] at ha
    simp only [Option.some.injEq, Prod.mk.injEq] at ha
    rw [← ha.2]
  · rw [ha'] at ha; simp at ha
  · rw [ha'] at ha
    simp only [Option.some.injEq, Prod.mk.injEq] at ha
    rw [← ha.2]

/-- The slot walk of `i_write` from slot `d` is a walk over the slots `d ≤ j < d + k`. -/
theorem i_write_loop_walk (len : Nat) (data : Buffer) (off : Nat) :
    ∀ k d w ptrs m, m.disk.size ≤ 4294967296 → off + w = max off (d * BLOCK_SIZE) → w < len →
      Walk (d + k) off d ptrs m (i_write_loop len data off k d w ptrs m).2.1
        (i_write_loop len data off k d w ptrs m).2.2 := by
  intro k
  induction k with
  | zero =>
    intro d w ptrs m _ _ _
    simp only [i_write_loop]
    exact Walk.wrefl _ _ _ _ _
  | succ k ih =>
    intro d w ptrs m hN hpos hw
    rw [i_write_loop_succ len data off k d w ptrs m hN hpos hw]
    have hpos' : off + w = max off (d * 4096) := hpos
    by_cases hskip : off ≥ (d + 1) * BLOCK_SIZE
    · simp only [hskip, if_true]
      have hskip' : off ≥ (d + 1) * 4096 := hskip
      have hp2 : off + w = max off ((d + 1) * BLOCK_SIZE) := by
        show off + w = max off ((d + 1) * 4096)
        rw [Nat.max_eq_left (by omega)] at hpos'
        rw [Nat.max_eq_left (by omega)]
        exact hpos'
      have := ih (d + 1) w ptrs m hN hp2 hw
      have e : d + (k + 1) = d + 1 + k := by omega
      rw [e]
      exact this.mono (by omega)
    · simp only [hskip, if_false]
      have hskip' : ¬ off ≥ (d + 1) * 4096 := hskip
      cases ha : acquire ptrs d m with
      | none => simp only []; exact Walk.wrefl _ _ _ _ _
      | some r =>
        obtain ⟨p1, m1⟩ := r
        simp only []
        have hd : d ≤ d ∧ d < d + (k + 1) := by omega
        have w1 : Walk (d + (k + 1)) off d ptrs m p1 m1 := Walk.of_acquire hd ha
        have hp1 : p1 d ≠ 0 := acquire_ne_zero ha
        have hoff : off < (d + 1) * BLOCK_SIZE := by
          show off < (d + 1) * 4096
          omega
        by_cases hlast : len - w ≤ (d + 1) * BLOCK_SIZE - (off + w)
        · simp only [hlast, if_true]
          exact w1.wtrans (Walk.of_put p1 m1 hd hoff hp1 _ _ _ _)
        · simp only [hlast, if_false]
          have hlast' : ¬ len - w ≤ (d + 1) * 4096 - (off + w) := hlast
          have w2 : Walk (d + (k + 1)) off d p1 m1 p1 (put_block m1 (p1 d)
              (off + w - d * BLOCK_SIZE) data w ((d + 1) * BLOCK_SIZE - (off + w))) :=
            Walk.of_put p1 m1 hd hoff hp1 _ _ _ _
          have hN2 : (put_block m1 (p1 d) (off + w - d * BLOCK_SIZE) data w
              ((d + 1) * BLOCK_SIZE - (off + w))).disk.size ≤ 4294967296 := by
            have := acquire_size ha
            simp only [put_block, Disk.write, Disk.size] at this ⊢
            rw [this]; exact hN
          have hp2 : off + (w + ((d + 1) * BLOCK_SIZE - (off + w)))
              = max off ((d + 1) * BLOCK_SIZE) := by
            show off + (w + ((d + 1) * 4096 - (off + w))) = max off ((d + 1) * 4096)
            rw [Nat.max_eq_right (by omega)]
            have : off + w ≤ (d + 1) * 4096 := by
              rcases Nat.le_total off (d * 4096) with h | h
              · rw [Nat.max_eq_right h] at hpos'; omega
              · rw [Nat.max_eq_left h] at hpos'; omega
            omega
          have hw2 : w + ((d + 1) * BLOCK_SIZE - (off + w)) < len := by
            show w + ((d + 1) * 4096 - (off + w)) < len
            omega
          have w3 := ih (d + 1) _ p1 _ hN2 hp2 hw2
          have e : d + (k + 1) = d + 1 + k := by omega
          rw [e] at w1 w2 ⊢
          exact (w1.wtrans w2).wtrans (w3.mono (by omega))

/-! ## How far a slot walk of `i_write` gets -/

/-- The count returned by the slot walk: it never exceeds `length`, the position never
passes the end of the pointer array, and the walk stops short only at the end of the
array or when the allocator fails on an empty slot. -/
theorem i_write_loop_count (len : Nat) (data : Buffer) (off : Nat) :
    ∀ k d w ptrs m, m.disk.size ≤ 4294967296 → off + w = max off (d * BLOCK_SIZE) → w < len →
      w ≤ (i_write_loop len data off k d w ptrs m).1 ∧
      (i_write_loop len data off k d w ptrs m).1 ≤ len ∧
      off + (i_write_loop len data off k d w ptrs m).1 ≤ max off ((d + k) * BLOCK_SIZE) ∧
      ((i_write_loop len data off k d w ptrs m).1 = len ∨
        off + (i_write_loop len data off k d w ptrs m).1 = max off ((d + k) * BLOCK_SIZE) ∨
        ((allocate_free_block (i_write_loop len data off k d w ptrs m).2.2).1 = none ∧
          ∃ dF, d ≤ dF ∧ dF < d + k ∧ ptrs dF = 0)) := by
  intro k
  induction k with
  | zero =>
    intro d w ptrs m _ hpos hw
    simp only [i_write_loop, BLOCK_SIZE] at *
    omega
  | succ k ih =>
    intro d w ptrs m hN hpos hw
    rw [i_write_loop_succ len data off k d w ptrs m hN hpos hw]
    by_cases hskip : off ≥ (d + 1) * BLOCK_SIZE
    · simp only [hskip, if_true]
      have hp2 : off + w = max off ((d + 1) * BLOCK_SIZE) := by
        simp only [BLOCK_SIZE] at *; omega
      obtain ⟨a1, a2, a3, a4⟩ := ih (d + 1) w ptrs m hN hp2 hw
      have e : d + 1 + k = d + (k + 1) := by omega
      rw [e] at a3 a4
      refine ⟨a1, a2, a3, ?_⟩
      rcases a4 with h | h | ⟨h, dF, h1, h2, h3⟩
      · exact Or.inl h
      · exact Or.inr (Or.inl h)
      · exact Or.inr (Or.inr ⟨h, dF, by omega, h2, h3⟩)
    · simp only [hskip, if_false]
      rcases acquire_cases ptrs d m with ⟨hp, ha⟩ | ⟨hp, ha, hal, _⟩ | ⟨hp, b, hb1, hb2, hb3, ha⟩
      · rw [ha]
        simp only []
        by_cases hlast : len - w ≤ (d + 1) * BLOCK_SIZE - (off + w)
        · simp only [hlast, if_true]
          simp only [BLOCK_SIZE] at *
          exact ⟨by omega, le_refl _, by omega, Or.inl trivial⟩
        · simp only [hlast, if_false]
          have hp2 : off + (w + ((d + 1) * BLOCK_SIZE - (off + w)))
              = max off ((d + 1) * BLOCK_SIZE) := by
            simp only [BLOCK_SIZE] at *; omega
          have hw2 : w + ((d + 1) * BLOCK_SIZE - (off + w)) < len := by
            simp only [BLOCK_SIZE] at *; omega
          obtain ⟨a1, a2, a3, a4⟩ := ih (d + 1) _ ptrs
            (put_block m (ptrs d) (off + w - d * BLOCK_SIZE) data w
              ((d + 1) * BLOCK_SIZE - (off + w))) hN hp2 hw2
          have e : d + 1 + k = d + (k + 1) := by omega
          rw [e] at a3 a4
          refine ⟨by omega, a2, a3, ?_⟩
          rcases a4 with h | h | ⟨h, dF, h1, h2, h3⟩
          · exact Or.inl h
          · exact Or.inr (Or.inl h)
          · exact Or.inr (Or.inr ⟨h, dF, by omega, h2, h3⟩)
      · rw [ha]
        simp only []
        refine ⟨le_refl _, by omega, ?_, Or.inr (Or.inr ⟨by rw [hal], d, le_refl _, by omega, hp⟩)⟩
        simp only [BLOCK_SIZE] at *
        omega
      · rw [ha]
        simp only []
        by_cases hlast : len - w ≤ (d + 1) * BLOCK_SIZE - (off + w)
        · simp only [hlast, if_true]
          simp only [BLOCK_SIZE] at *
          exact ⟨by omega, le_refl _, by omega, Or.inl trivial⟩
        · simp only [hlast, if_false]
          have hp2 : off + (w + ((d + 1) * BLOCK_SIZE - (off + w)))
              = max off ((d + 1) * BLOCK_SIZE) := by
            simp only [BLOCK_SIZE] at *; omega
          have hw2 : w + ((d + 1) * BLOCK_SIZE - (off + w)) < len := by
            simp only [BLOCK_SIZE] at *; omega
          obtain ⟨a1, a2, a3, a4⟩ := ih (d + 1) _ (upd ptrs d b)
            (put_block { m with free_block_map := upd m.free_block_map b 1 } (upd ptrs d b d)
              (off + w - d * BLOCK_SIZE) data w ((d + 1) * BLOCK_SIZE - (off + w))) hN hp2 hw2
          have e : d + 1 + k = d + (k + 1) := by omega
          rw [e] at a3 a4
          refine ⟨by omega, a2, a3, ?_⟩
          rcases a4 with h | h | ⟨h, dF, h1, h2, h3⟩
          · exact Or.inl h
          · exact Or.inr (Or.inl h)
          · refine Or.inr (Or.inr ⟨h, dF, by omega, h2, ?_⟩)
            rw [upd_other _ _ _ _ (by omega)] at h3
            exact h3

/-! ## The bytes a slot walk of `i_write` leaves on the device -/

theorem put_block_data (m : Mounted) (b o : Nat) (data : Buffer) (w n c j : Nat) :
    (put_block m b o data w n).disk.data c j =
      if c = b then (if o ≤ j ∧ j < o + n then data (w + (j - o)) else m.disk.data b j)
      else m.disk.data c j := by
  simp only [put_block, Disk.write, Disk.read, upd_apply, memcpy]
  split <;> rfl

theorem put_block_frame (m : Mounted) (b o : Nat) (data : Buffer) (w n : Nat) :
    (put_block m b o data w n).free_block_map = m.free_block_map ∧
    (put_block m b o data w n).inode_table = m.inode_table ∧
    (put_block m b o data w n).disk.size = m.disk.size := ⟨rfl, rfl, rfl⟩

/-- The bytes copied by one iteration are on the device afterwards. -/
theorem put_block_new (m : Mounted) (b : Nat) (data : Buffer) (off w n d pos : Nat)
    (hdo : d * 4096 ≤ off + w) (hn : off + w + n ≤ (d + 1) * 4096)
    (h1 : off + w ≤ pos) (h2 : pos < off + w + n) :
    (put_block m b (off + w - d * 4096) data w n).disk.data b (pos % 4096) = data (pos - off) := by
  rw [put_block_data]
  have hc : off + w - d * 4096 ≤ pos % 4096 ∧ pos % 4096 < off + w - d * 4096 + n := by omega
  simp only [if_true, hc, and_self]
  congr 1
  omega

/-- One iteration leaves the bytes before the current position as they were. -/
theorem put_block_old (m : Mounted) (b : Nat) (data : Buffer) (off w n d pos c : Nat)
    (hdo : d * 4096 ≤ off + w) (h1 : pos < off + w) (hc : c = b → pos / 4096 = d) :
    (put_block m b (off + w - d * 4096) data w n).disk.data c (pos % 4096)
      = m.disk.data c (pos % 4096) := by
  rw [put_block_data]
  by_cases hcb : c = b
  · have := hc hcb
    have hc : ¬ (off + w - d * 4096 ≤ pos % 4096 ∧ pos % 4096 < off + w - d * 4096 + n) := by
      omega
    simp only [hcb, if_true, hc, if_false]
  · simp only [hcb, if_false]

/-- After the slot walk, every byte position it passed lies in an allocated slot whose
block holds the caller's byte there, and the bytes of the file before the starting
position are unchanged. -/
theorem i_write_loop_bytes (len : Nat) (data : Buffer) (off : Nat) :
    ∀ k d w ptrs m, m.disk.size ≤ 4294967296 → off + w = max off (d * BLOCK_SIZE) → w < len →
      PtrsOK (d + k) ptrs m.free_block_map →
      (∀ pos, off + w ≤ pos → pos < off + (i_write_loop len data off k d w ptrs m).1 →
        pos / BLOCK_SIZE < d + k ∧
        (i_write_loop len data off k d w ptrs m).2.1 (pos / BLOCK_SIZE) ≠ 0 ∧
        (i_write_loop len data off k d w ptrs m).2.2.disk.data
          ((i_write_loop len data off k d w ptrs m).2.1 (pos / BLOCK_SIZE)) (pos % BLOCK_SIZE)
          = data (pos - off)) ∧
      (∀ pos, pos < off + w → pos / BLOCK_SIZE < d + k → ptrs (pos / BLOCK_SIZE) ≠ 0 →
        (i_write_loop len data off k d w ptrs m).2.2.disk.data (ptrs (pos / BLOCK_SIZE))
          (pos % BLOCK_SIZE) = m.disk.data (ptrs (pos / BLOCK_SIZE)) (pos % BLOCK_SIZE)) := by
  intro k
  induction k with
  | zero =>
    intro d w ptrs m _ hpos hw _
    simp only [i_write_loop]
    exact ⟨fun pos h1 h2 => by omega, fun _ _ _ _ => trivial⟩
  | succ k ih =>
    intro d w ptrs m hN hpos hw hok
    rw [i_write_loop_succ len data off k d w ptrs m hN hpos hw]
    by_cases hskip : off ≥ (d + 1) * BLOCK_SIZE
    · simp only [hskip, if_true]
      have hp2 : off + w = max off ((d + 1) * BLOCK_SIZE) := by
        simp only [BLOCK_SIZE] at *; omega
      have e : d + 1 + k = d + (k + 1) := by omega
      have := ih (d + 1) w ptrs m hN hp2 hw (by rw [e]; exact hok)
      rw [e] at this
      exact this
    · simp only [hskip, if_false]
      cases ha : acquire ptrs d m with
      | none =>
        simp only []
        exact ⟨fun pos h1 h2 => by omega, fun _ _ _ _ => trivial⟩
      | some r =>
        obtain ⟨p1, m1⟩ := r
        simp only []
        have hd : d ≤ d ∧ d < d + (k + 1) := by omega
        have w1 : Walk (d + (k + 1)) off d ptrs m p1 m1 := Walk.of_acquire hd ha
        have hp1 : p1 d ≠ 0 := acquire_ne_zero ha
        have hdisk : m1.disk = m.disk := acquire_size ha
        have hok1 : PtrsOK (d + (k + 1)) p1 m1.free_block_map := w1.keep hok
        have hdo : d * 4096 ≤ off + w := by simp only [BLOCK_SIZE] at *; omega
        have hlt : off + w < (d + 1) * 4096 := by simp only [BLOCK_SIZE] at *; omega
        -- the bytes before the current position survive the write of block `p1 d`
        have hold : ∀ n pos, pos < off + w → pos / 4096 < d + (k + 1) → ptrs (pos / 4096) ≠ 0 →
            (put_block m1 (p1 d) (off + w - d * 4096) data w n).disk.data (ptrs (pos / 4096))
              (pos % 4096) = m.disk.data (ptrs (pos / 4096)) (pos % 4096) := by
          intro n pos h1 h2 h3
          rw [put_block_old m1 (p1 d) data off w n d pos _ hdo h1, hdisk]
          intro hc
          have e1 : p1 (pos / 4096) = ptrs (pos / 4096) := w1.old _ h3
          exact hok1.2 (pos / 4096) d h2 hd.2 (by rw [e1]; exact hc) (by rw [e1]; exact h3)
        by_cases hlast : len - w ≤ (d + 1) * BLOCK_SIZE - (off + w)
        · simp only [hlast, if_true]
          simp only [BLOCK_SIZE] at hlast ⊢
          refine ⟨fun pos h1 h2 => ?_, fun pos h1 h2 h3 => hold _ pos h1 h2 h3⟩
          have hq : pos / 4096 = d := by omega
          rw [hq]
          refine ⟨hd.2, hp1, ?_⟩
          exact put_block_new m1 (p1 d) data off w (len - w) d pos hdo (by omega) h1 (by omega)
        · simp only [hlast, if_false]
          simp only [BLOCK_SIZE] at hlast ih ⊢
          have hN2 : (put_block m1 (p1 d) (off + w - d * 4096) data w
              ((d + 1) * 4096 - (off + w))).disk.size ≤ 4294967296 := by
            rw [(put_block_frame _ _ _ _ _ _).2.2, hdisk]; exact hN
          have hp2 : off + (w + ((d + 1) * 4096 - (off + w))) = max off ((d + 1) * 4096) := by
            omega
          have hw2 : w + ((d + 1) * 4096 - (off + w)) < len := by omega
          have e : d + 1 + k = d + (k + 1) := by omega
          have hok2 : PtrsOK (d + 1 + k) p1 (put_block m1 (p1 d) (off + w - d * 4096) data w
              ((d + 1) * 4096 - (off + w))).free_block_map := by
            rw [e]; exact hok1
          obtain ⟨i1, i2⟩ := ih (d + 1) _ p1 _ hN2 hp2 hw2 hok2
          have w3 := i_write_loop_walk len data off k (d + 1) _ p1 _ hN2 hp2 hw2
          rw [e] at i1 i2
          constructor
          · intro pos h1 h2
            by_cases hpd : pos < (d + 1) * 4096
            · have hq : pos / 4096 = d := by omega
              have hfd := w3.outside d (Or.inl (by omega))
              have := i2 pos (by omega) (by omega) (by rw [hq]; exact hp1)
              rw [hq] at this ⊢
              rw [hfd]
              refine ⟨hd.2, hp1, ?_⟩
              rw [this]
              exact put_block_new m1 (p1 d) data off w _ d pos hdo (by omega) h1 (by omega)
            · exact i1 pos (by omega) h2
          · intro pos h1 h2 h3
            have e1 : p1 (pos / 4096) = ptrs (pos / 4096) := w1.old _ h3
            have := i2 pos (by omega) h2 (by rw [e1]; exact h3)
            rw [e1] at this
            rw [this]
            exact hold _ pos h1 h2 h3

/-! ## The slot walk of `i_read` -/

/-- One iteration of the slot walk of `i_read` in normal form: an empty or passed slot is
skipped; otherwise `min ((d + 1) * BLOCK_SIZE - (offset + r)) (length - r)` bytes are
copied from the current position. -/
theorem i_read_loop_succ (m : Mounted) (ptrs : Nat → Nat) (len off base k d r : Nat)
    (out : Buffer) (hpos : off + r = max off (d * BLOCK_SIZE)) (hr : r < len)
    (hsum : off + len < 18446744073709551616) :
    i_read_loop m ptrs len off base (k + 1) d r out =
      if ptrs d = 0 ∨ off ≥ (d + 1) * BLOCK_SIZE then
        i_read_loop m ptrs len off base k (d + 1) r out
      else if len - r ≤ (d + 1) * BLOCK_SIZE - (off + r) then
        (len, memcpy out (base + r) (m.disk.read (ptrs d)) (off + r - d * BLOCK_SIZE) (len - r))
      else
        i_read_loop m ptrs len off base k (d + 1) (r + ((d + 1) * BLOCK_SIZE - (off + r)))
          (memcpy out (base + r) (m.disk.read (ptrs d)) (off + r - d * BLOCK_SIZE)
            ((d + 1) * BLOCK_SIZE - (off + r))) := by
  rw [i_read_loop]
  have hu : usize (off + len) = off + len := Nat.mod_eq_of_lt hsum
  rw [hu]
  simp only [BLOCK_SIZE] at *
  by_cases hp : ptrs d = 0
  · simp only [hp, ne_eq, not_true_eq_false, if_false, true_or, if_true]
  · simp only [hp, ne_eq, not_false_eq_true, if_true, false_or]
    by_cases hskip : off ≥ (d + 1) * 4096
    · simp only [hskip, if_true]
    · simp only [hskip, if_false]
      by_cases h1 : off ≤ d * 4096
      · have e0 : off + r - d * 4096 = 0 := by omega
        have e1 : (d + 1) * 4096 - (off + r) = 4096 := by omega
        by_cases h2 : len - r > 4096
        · have h3 : ¬ len - r ≤ 4096 := by omega
          simp only [h1, h2, and_self, if_true, e0, e1, h3, if_false]
        · have h3 : len - r ≤ 4096 := by omega
          simp only [h1, h2, and_false, if_false, if_true, e0, e1, h3]
      · have hr0 : r = 0 := by omega
        subst hr0
        have e0 : off + 0 - d * 4096 = off % 4096 := by omega
        have e1 : (d + 1) * 4096 - (off + 0) = 4096 - off % 4096 := by omega
        by_cases h2 : off + len ≤ (d + 1) * 4096
        · have h3 : len ≤ 4096 - off % 4096 := by omega
          simp only [h1, false_and, if_false, h2, if_true, e0, e1, h3, Nat.sub_zero]
        · have h3 : ¬ len ≤ 4096 - off % 4096 := by omega
          simp only [h1, false_and, if_false, h2, e0, e1, h3, Nat.zero_add, Nat.sub_zero]

theorem memcpy_apply (dst : Buffer) (dstOff : Nat) (src : Buffer) (srcOff n j : Nat) :
    memcpy dst dstOff src srcOff n j =
      if dstOff ≤ j ∧ j < dstOff + n then src (srcOff + (j - dstOff)) else dst j := rfl

/-- When every slot the byte range needs is nonzero, the slot walk of `i_read` returns
`length` if the range ends inside the pointer array and the bytes up to the end of the
array otherwise; it copies exactly the bytes of the blocks at those positions to
`base + r ..` and leaves the rest of the buffer alone. -/
theorem i_read_loop_spec (m : Mounted) (ptrs : Nat → Nat) (len off base : Nat)
    (hsum : off + len < 18446744073709551616) :
    ∀ k d r out, off + r = max off (d * BLOCK_SIZE) → r < len →
      (∀ pos, off + r ≤ pos → pos < off + len → pos / BLOCK_SIZE < d + k →
        ptrs (pos / BLOCK_SIZE) ≠ 0) →
      (off + len ≤ (d + k) * BLOCK_SIZE → (i_read_loop m ptrs len off base k d r out).1 = len) ∧
      ((d + k) * BLOCK_SIZE < off + len →
        off + (i_read_loop m ptrs len off base k d r out).1 = max off ((d + k) * BLOCK_SIZE)) ∧
      (∀ j, (i_read_loop m ptrs len off base k d r out).2 j =
        if base + r ≤ j ∧ j < base + (i_read_loop m ptrs len off base k d r out).1 then
          m.disk.data (ptrs ((off + (j - base)) / BLOCK_SIZE)) ((off + (j - base)) % BLOCK_SIZE)
        else out j) := by
  intro k
  induction k with
  | zero =>
    intro d r out hpos hr _
    simp only [i_read_loop, BLOCK_SIZE] at *
    refine ⟨fun h => by omega, fun h => by omega, fun j => ?_⟩
    have : ¬ (base + r ≤ j ∧ j < base + r) := by omega
    simp only [this, if_false]
  | succ k ih =>
    intro d r out hpos hr hcov
    rw [i_read_loop_succ m ptrs len off base k d r out hpos hr hsum]
    have e : d + 1 + k = d + (k + 1) := by omega
    by_cases hskip : ptrs d = 0 ∨ off ≥ (d + 1) * BLOCK_SIZE
    · simp only [hskip, if_true]
      have hoff : off ≥ (d + 1) * BLOCK_SIZE := by
        rcases hskip with h | h
        · by_contra hlt
          simp only [BLOCK_SIZE] at *
          exact hcov (off + r) (le_refl _) (by omega) (by omega)
            (by rw [show (off + r) / 4096 = d by omega]; exact h)
        · exact h
      have hp2 : off + r = max off ((d + 1) * BLOCK_SIZE) := by
        simp only [BLOCK_SIZE] at *; omega
      have := ih (d + 1) r out hp2 hr (by rw [e]; exact hcov)
      rw [e] at this
      exact this
    · simp only [hskip, if_false]
      push_neg at hskip
      obtain ⟨hp, hlt⟩ := hskip
      simp only [BLOCK_SIZE] at hpos hlt hcov ih ⊢
      by_cases hlast : len - r ≤ (d + 1) * 4096 - (off + r)
      · simp only [hlast, if_true]
        refine ⟨fun _ => trivial, fun h => by omega, fun j => ?_⟩
        rw [memcpy_apply, Disk.read]
        by_cases hj : base + r ≤ j ∧ j < base + len
        · have hj2 : base + r ≤ j ∧ j < base + r + (len - r) := by omega
          simp only [hj, hj2, and_self, if_true]
          have q1 : (off + (j - base)) / 4096 = d := by omega
          have q2 : (off + (j - base)) % 4096 = off + r - d * 4096 + (j - (base + r)) := by omega
          rw [q1, q2]
        · have hj2 : ¬ (base + r ≤ j ∧ j < base + r + (len - r)) := by omega
          simp only [hj, hj2, if_false]
      · simp only [hlast, if_false]
        have hp2 : off + (r + ((d + 1) * 4096 - (off + r))) = max off ((d + 1) * 4096) := by
          omega
        have hr2 : r + ((d + 1) * 4096 - (off + r)) < len := by omega
        obtain ⟨i1, i2, i3⟩ := ih (d + 1) (r + ((d + 1) * 4096 - (off + r)))
          (memcpy out (base + r) (m.disk.read (ptrs d)) (off + r - d * 4096)
            ((d + 1) * 4096 - (off + r))) hp2 hr2
          (fun pos h1 h2 h3 => hcov pos (by omega) h2 (by omega))
        rw [e] at i1 i2
        refine ⟨i1, i2, fun j => ?_⟩
        rw [i3 j]
        have hge : r + ((d + 1) * 4096 - (off + r)) ≤
            (i_read_loop m ptrs len off base k (d + 1) (r + ((d + 1) * 4096 - (off + r)))
              (memcpy out (base + r) (m.disk.read (ptrs d)) (off + r - d * 4096)
                ((d + 1) * 4096 - (off + r)))).1 := by
          by_cases hc : off + len ≤ (d + (k + 1)) * 4096
          · rw [i1 hc]; omega
          · have := i2 (by omega)
            omega
        generalize (i_read_loop m ptrs len off base k (d + 1) (r + ((d + 1) * 4096 - (off + r)))
              (memcpy out (base + r) (m.disk.read (ptrs d)) (off + r - d * 4096)
                ((d + 1) * 4096 - (off + r)))).1 = res at hge ⊢
        rw [memcpy_apply, Disk.read]
        have piece : base + r ≤ j ∧ j < base + r + ((d + 1) * 4096 - (off + r)) →
            m.disk.data (ptrs d) (off + r - d * 4096 + (j - (base + r))) =
            m.disk.data (ptrs ((off + (j - base)) / 4096)) ((off + (j - base)) % 4096) := by
          intro hj3
          have q1 : (off + (j - base)) / 4096 = d := by omega
          have q2 : (off + (j - base)) % 4096 = off + r - d * 4096 + (j - (base + r)) := by
            omega
          rw [q1, q2]
        split_ifs with c1 c2 c3 c4 c5
        · rfl
        · omega
        · exact piece c3
        · omega
        · omega
        · rfl

/-! ## read -/

theorem pointer_logical_direct (m : Mounted) (n k : Nat) (hk : k < 5) :
    m.pointer n (logical k) = (m.inode n).Direct k := by
  simp only [logical, POINTERS_PER_INODE, hk, if_true, Mounted.pointer]

theorem pointer_logical_entry (m : Mounted) (n k : Nat) (hk : 5 ≤ k) :
    m.pointer n (logical k) = m.pointer n (.entry (k - 5)) := by
  have : ¬ k < 5 := by omega
  simp only [logical, POINTERS_PER_INODE, this, if_false]

theorem pointer_entry_of_ne (m : Mounted) (n k : Nat) (h : (m.inode n).Indirect ≠ 0) :
    m.pointer n (.entry k) = (m.disk.data (m.inode n).Indirect).Pointers k := by
  simp only [Mounted.pointer, h, if_false, Disk.read]

theorem indirect_ne_of_entry (m : Mounted) (n k : Nat) (h : m.pointer n (.entry k) ≠ 0) :
    (m.inode n).Indirect ≠ 0 := by
  intro h0
  apply h
  simp only [Mounted.pointer, h0, if_true]

theorem fileByte_direct (m : Mounted) (n p : Nat) (hp : p / 4096 < 5) :
    m.fileByte n p = m.disk.data ((m.inode n).Direct (p / 4096)) (p % 4096) := by
  simp only [Mounted.fileByte, BLOCK_SIZE, Disk.read]
  rw [pointer_logical_direct m n _ hp]

theorem fileByte_entry (m : Mounted) (n p : Nat) (hp : 5 ≤ p / 4096)
    (h : (m.inode n).Indirect ≠ 0) :
    m.fileByte n p =
      m.disk.data ((m.disk.data (m.inode n).Indirect).Pointers (p / 4096 - 5)) (p % 4096) := by
  simp only [Mounted.fileByte, BLOCK_SIZE, Disk.read]
  rw [pointer_logical_entry m n _ hp, pointer_entry_of_ne m n _ h]

/-- On a state that satisfies the invariant, `read` of a valid inode at an offset inside
the file returns the clamped length, copies exactly the bytes of the file at those
offsets, and changes nothing else. -/
theorem read_spec (m : Mounted) (hI : Inv m) (n : Nat) (hv : m.valid n) (buf : Buffer)
    (len off : Nat) (hoff : off < (m.inode n).Size)
    (hsum : len + off < 18446744073709551616) :
    (m.read n buf len off).1 = ((min len ((m.inode n).Size - off) : Nat) : Int) ∧
    (m.read n buf len off).2.2 = m ∧
    ∀ j, (m.read n buf len off).2.1 j =
      if j < min len ((m.inode n).Size - off) then m.fileByte n (off + j) else buf j := by
  obtain ⟨hn, hval⟩ := hv
  have hv : m.valid n := ⟨hn, hval⟩
  have h0 : ¬ n ≥ m.inodes := by omega
  have hsz := hI.size_le n hv
  have hcov := hI.covered n
  simp only [POINTERS_PER_INODE, POINTERS_PER_BLOCK, BLOCK_SIZE] at hsz hcov
  unfold Mounted.read
  simp only [h0, if_false, load_inode_eq m n _ hn]
  have h1 : ¬ ((m.inode n).Valid = 0 ∨ off ≥ (m.inode n).Size) := by
    push_neg; exact ⟨hval, hoff⟩
  simp only [h1, if_false]
  generalize hS : (m.inode n).Size = S at *
  have hL : (if usize (len + off) > S then S - off else len) = min len (S - off) := by
    have hu : usize (len + off) = len + off := Nat.mod_eq_of_lt hsum
    rw [hu]
    split <;> omega
  rw [hL]
  generalize hLL : min len (S - off) = L at *
  by_cases hL0 : L = 0
  · subst hL0
    simp only [if_true]
    refine ⟨by first | trivial | rfl, by first | trivial | rfl, fun j => ?_⟩
    simp
  · simp only [hL0, if_false]
    have hLpos : 0 < L := Nat.pos_of_ne_zero hL0
    have hLS : off + L ≤ S := by omega
    -- the direct phase
    have hcov1 : ∀ pos, off + 0 ≤ pos → pos < off + L → pos / BLOCK_SIZE < 0 + 5 →
        (m.inode n).Direct (pos / BLOCK_SIZE) ≠ 0 := by
      intro pos _ h2 h3
      simp only [BLOCK_SIZE] at h3 ⊢
      have := hcov (pos / 4096) hv (by omega)
      rw [pointer_logical_direct m n _ (by omega)] at this
      exact this
    obtain ⟨d1, d2, d3⟩ := i_read_loop_spec m (m.inode n).Direct L off 0 (by omega) 5 0 0 buf
      (by simp) hLpos hcov1
    simp only [i_read, POINTERS_PER_INODE, POINTERS_PER_BLOCK, BLOCK_SIZE]
    simp only [BLOCK_SIZE, Nat.zero_add, Nat.sub_zero] at d1 d2 d3
    by_cases hdir : off + L ≤ 5 * 4096
    · have e1 := d1 hdir
      simp only [e1, if_true]
      refine ⟨by first | trivial | rfl, by first | trivial | rfl, fun j => ?_⟩
      rw [d3 j, e1]
      by_cases hj : j < L
      · have hj' : 0 ≤ j ∧ j < L := ⟨Nat.zero_le _, hj⟩
        rw [if_pos hj', if_pos hj, fileByte_direct m n _ (by omega)]
      · have hj' : ¬ (0 ≤ j ∧ j < L) := by omega
        rw [if_neg hj', if_neg hj]
    · have e1 := d2 (by omega)
      generalize hr1 : (i_read_loop m (m.inode n).Direct L off 0 5 0 0 buf).1 = r1 at *
      generalize hb1 : (i_read_loop m (m.inode n).Direct L off 0 5 0 0 buf).2 = buf1 at *
      have hne : ¬ r1 = L := by omega
      simp only [hne, if_false]
      have hind : (m.inode n).Indirect ≠ 0 := by
        have := hcov ((off + L - 1) / 4096) hv (by omega)
        rw [pointer_logical_entry m n _ (by omega)] at this
        exact indirect_ne_of_entry m n _ this
      simp only [hind, if_false]
      generalize ho1 : (if off ≤ 5 * 4096 then 0 else off - 5 * 4096) = off1
      have ho1' : 5 * 4096 + off1 = off + r1 := by
        rw [← ho1]; split <;> omega
      have hcov2 : ∀ pos, off1 + 0 ≤ pos → pos < off1 + (L - r1) → pos / BLOCK_SIZE < 0 + 1024 →
          (m.disk.read (m.inode n).Indirect).Pointers (pos / BLOCK_SIZE) ≠ 0 := by
        intro pos _ h2 h3
        simp only [BLOCK_SIZE] at h3 ⊢
        have := hcov (5 + pos / 4096) hv (by omega)
        rw [pointer_logical_entry m n _ (by omega), pointer_entry_of_ne m n _ hind] at this
        simp only [Nat.add_sub_cancel_left] at this
        exact this
      obtain ⟨f1, f2, f3⟩ := i_read_loop_spec m (m.disk.read (m.inode n).Indirect).Pointers
        (L - r1) off1 r1 (by omega) 1024 0 0 buf1 (by simp) (by omega) hcov2
      simp only [BLOCK_SIZE, Nat.zero_add, Nat.sub_zero, Nat.add_zero] at f1 f2 f3
      have e2 := f1 (by omega)
      have hnl : ¬ r1 + (i_read_loop m (m.disk.read (m.inode n).Indirect).Pointers (L - r1) off1 r1
          1024 0 0 buf1).1 < L := by
        rw [e2]; omega
      simp only [hnl, if_false]
      refine ⟨by first | trivial | rfl, by first | trivial | rfl, fun j => ?_⟩
      rw [f3 j, e2, d3 j]
      by_cases hj : j < L
      · rw [if_pos hj]
        by_cases hj1 : j < r1
        · have c1 : ¬ (r1 ≤ j ∧ j < r1 + (L - r1)) := by omega
          have c2 : 0 ≤ j ∧ j < r1 := ⟨Nat.zero_le _, hj1⟩
          rw [if_neg c1, if_pos c2, fileByte_direct m n _ (by omega)]
        · have c1 : r1 ≤ j ∧ j < r1 + (L - r1) := by omega
          rw [if_pos c1, fileByte_entry m n _ (by omega) hind]
          have q1 : (off + j) / 4096 - 5 = (off1 + (j - r1)) / 4096 := by omega
          have q2 : (off + j) % 4096 = (off1 + (j - r1)) % 4096 := by omega
          rw [q1, q2, Disk.read]
      · have c1 : ¬ (r1 ≤ j ∧ j < r1 + (L - r1)) := by omega
        have c2 : ¬ (0 ≤ j ∧ j < r1) := by omega
        rw [if_neg hj, if_neg c1, if_neg c2]

/-! ## Growth of the slots of one inode -/

theorem Grow.grefl (I N : Nat) (C : Slot → Nat) (map : Nat → Nat) : Grow I N C map C map where
  old := fun _ _ _ => rfl
  fresh := fun _ _ h0 h1 => absurd h0 h1
  map := fun _ => Or.inl rfl
  keep := fun h => h

theorem Grow.gtrans {I N : Nat} {C C1 C2 : Slot → Nat} {map map1 map2 : Nat → Nat}
    (h1 : Grow I N C map C1 map1) (h2 : Grow I N C1 map1 C2 map2) : Grow I N C map C2 map2 where
  old := fun s hs hne => by
    have e1 := h1.old s hs hne
    rw [h2.old s hs (by rw [e1]; exact hne), e1]
  fresh := fun s hs h0 hne => by
    by_cases hp1 : C1 s = 0
    · obtain ⟨a1, a2, a3, a4⟩ := h2.fresh s hs hp1 hne
      refine ⟨a1, a2, ?_, a4⟩
      rcases h1.map (C2 s) with e | ⟨e, _, _⟩
      · rw [← e]; exact a3
      · exact e
    · obtain ⟨a1, a2, a3, a4⟩ := h1.fresh s hs h0 hp1
      rw [h2.old s hs hp1]
      refine ⟨a1, a2, a3, ?_⟩
      rcases h2.map (C1 s) with e | ⟨e, _, _⟩
      · rw [e]; exact a4
      · rw [a4] at e; exact absurd e (by decide)
  map := fun b => by
    rcases h2.map b with e2 | ⟨e2, e2', s, hs, hj3, hj4, hb⟩
    · rcases h1.map b with e1 | ⟨e1, e1', s, hs, hj3, hj4, hb⟩
      · exact Or.inl (e2.trans e1)
      · refine Or.inr ⟨e1, e2.trans e1', s, hs, hj3, ?_, hb⟩
        rw [h2.old s hs (by rw [hj4]; exact hb), hj4]
    · rcases h1.map b with e1 | ⟨_, e1', _⟩
      · refine Or.inr ⟨e1 ▸ e2, e2', s, hs, ?_, hj4, hb⟩
        by_contra hne
        have := h1.old s hs hne
        rw [this] at hj3
        exact hne hj3
      · rw [e1'] at e2; exact absurd e2 (by decide)
  keep := fun h => h2.keep (h1.keep h)

/-- Pointwise equal slot functions and bitmaps grow alike. -/
theorem Grow.congr {I N : Nat} {C C1 D D1 : Slot → Nat} {map map1 : Nat → Nat}
    (h : Grow I N C map C1 map1) (hC : ∀ s, Slot.inRange s → D s = C s)
    (hC1 : ∀ s, Slot.inRange s → D1 s = C1 s) : Grow I N D map D1 map1 where
  old := fun s hs hne => by
    rw [hC s hs] at hne ⊢
    rw [hC1 s hs]; exact h.old s hs hne
  fresh := fun s hs h0 hne => by
    rw [hC s hs] at h0
    rw [hC1 s hs] at hne ⊢
    exact h.fresh s hs h0 hne
  map := fun b => by
    rcases h.map b with e | ⟨e1, e2, s, hs, h3, h4, hb⟩
    · exact Or.inl e
    · exact Or.inr ⟨e1, e2, s, hs, by rw [hC s hs]; exact h3, by rw [hC1 s hs]; exact h4, hb⟩
  keep := fun hok => by
    have hok' : SlotsOK C map := by
      refine ⟨fun s hs hne => ?_, fun s t hs ht hst hne => ?_⟩
      · have := hok.1 s hs (by rw [hC s hs]; exact hne)
        rw [hC s hs] at this; exact this
      · exact hok.2 s t hs ht (by rw [hC s hs, hC t ht]; exact hst) (by rw [hC s hs]; exact hne)
    obtain ⟨k1, k2⟩ := h.keep hok'
    refine ⟨fun s hs hne => ?_, fun s t hs ht hst hne => ?_⟩
    · rw [hC1 s hs] at hne ⊢; exact k1 s hs hne
    · rw [hC1 s hs] at hne
      rw [hC1 s hs, hC1 t ht] at hst
      exact k2 s t hs ht hst hne

/-- A slot walk over the pointer array that the slots `emb 0, emb 1, ..` hold grows the
slots of the inode. -/
theorem Grow.of_walk {count off : Nat} {p p1 : Nat → Nat} {m m1 : Mounted}
    (W : Walk count off 0 p m p1 m1) (emb : Nat → Slot)
    (hinj : ∀ i j, emb i = emb j → i = j)
    (hrange : ∀ j, Slot.inRange (emb j) ↔ j < count)
    (C C1 : Slot → Nat) (hC : ∀ j, C (emb j) = p j) (hC1 : ∀ j, C1 (emb j) = p1 j)
    (hrest : ∀ s, (∀ j, s ≠ emb j) → C1 s = C s) :
    Grow (INODE_BLOCKS m.disk.size) m.disk.size C m.free_block_map C1 m1.free_block_map := by
  have hcase : ∀ s, (∃ j, s = emb j) ∨ (∀ j, s ≠ emb j) := by
    intro s
    by_cases h : ∃ j, s = emb j
    · exact Or.inl h
    · right; push_neg at h; exact h
  refine ⟨?_, ?_, ?_, ?_⟩
  · intro s hs hne
    rcases hcase s with ⟨j, rfl⟩ | h
    · rw [hC] at hne ⊢; rw [hC1]; exact W.old j hne
    · exact hrest s h
  · intro s hs h0 hne
    rcases hcase s with ⟨j, rfl⟩ | h
    · rw [hC] at h0; rw [hC1] at hne ⊢
      exact W.fresh j h0 hne
    · rw [hrest s h] at hne; exact absurd h0 hne
  · intro b
    rcases W.map b with e | ⟨e1, e2, j, _, hj, h3, h4, hb⟩
    · exact Or.inl e
    · exact Or.inr ⟨e1, e2, emb j, (hrange j).mpr hj, by rw [hC]; exact h3,
        by rw [hC1]; exact h4, hb⟩
  · intro hok
    obtain ⟨hmark, hin⟩ := hok
    have hpok : PtrsOK count p m.free_block_map := by
      refine ⟨fun j hj hne => ?_, fun i j hi hj hij hne => ?_⟩
      · have := hmark (emb j) ((hrange j).mpr hj) (by rw [hC]; exact hne)
        rw [hC] at this; exact this
      · exact hinj i j (hin (emb i) (emb j) ((hrange i).mpr hi) ((hrange j).mpr hj)
          (by rw [hC, hC]; exact hij) (by rw [hC]; exact hne))
    obtain ⟨k1, k2⟩ := W.keep hpok
    have hkeepmark : ∀ b, m.free_block_map b ≠ 0 → m1.free_block_map b ≠ 0 := by
      intro b hb
      rcases W.map b with e | ⟨e1, _, _⟩
      · rw [e]; exact hb
      · exact absurd e1 hb
    -- a new pointer of the walk differs from every pointer outside the walk
    have hcross : ∀ j t, j < count → (∀ i, t ≠ emb i) → Slot.inRange t → p1 j = C t →
        p1 j ≠ 0 → False := by
      intro j t hj ht htr hjt hne
      by_cases hpj : p j = 0
      · have hf := W.fresh j hpj hne
        have := hmark t htr (by rw [← hjt]; exact hne)
        rw [← hjt] at this
        exact this hf.2.2.1
      · have e := W.old j hpj
        have := hin (emb j) t ((hrange j).mpr hj) htr (by rw [hC, ← e]; exact hjt)
          (by rw [hC]; exact hpj)
        exact ht j this.symm
    refine ⟨fun s hs hne => ?_, fun s t hs ht hst hne => ?_⟩
    · rcases hcase s with ⟨j, rfl⟩ | h
      · rw [hC1] at hne ⊢
        exact k1 j ((hrange j).mp hs) hne
      · rw [hrest s h] at hne ⊢
        exact hkeepmark _ (hmark s hs hne)
    · rcases hcase s with ⟨i, rfl⟩ | h
      · rcases hcase t with ⟨j, rfl⟩ | h'
        · rw [hC1, hC1] at hst
          rw [hC1] at hne
          rw [k2 i j ((hrange i).mp hs) ((hrange j).mp ht) hst hne]
        · exfalso
          rw [hC1, hrest t h'] at hst
          rw [hC1] at hne
          exact hcross i t ((hrange i).mp hs) h' ht hst hne
      · rcases hcase t with ⟨j, rfl⟩ | h'
        · exfalso
          rw [hC1, hrest s h] at hst
          rw [hrest s h] at hne
          exact hcross j s ((hrange j).mp ht) h hs hst.symm (by rw [← hst]; exact hne)
        · rw [hrest s h, hrest t h'] at hst
          rw [hrest s h] at hne
          exact hin s t hs ht hst hne

/-- Allocating the indirect block grows the slots of the inode. -/
theorem Grow.of_indirect (I N : Nat) (C : Slot → Nat) (map : Nat → Nat) (b : Nat)
    (hC : C .indirect = 0) (hb1 : I < b) (hb2 : b < N) (hb3 : map b = 0)
    (C1 : Slot → Nat) (hC1 : C1 .indirect = b)
    (hrest : ∀ s, s ≠ .indirect → C1 s = C s) :
    Grow I N C map C1 (upd map b 1) := by
  have hb0 : b ≠ 0 := by omega
  refine ⟨?_, ?_, ?_, ?_⟩
  · intro s hs hne
    by_cases h : s = .indirect
    · subst h; exact absurd hC hne
    · exact hrest s h
  · intro s hs h0 hne
    by_cases h : s = .indirect
    · subst h; rw [hC1]
      exact ⟨hb1, hb2, hb3, upd_same _ _ _⟩
    · rw [hrest s h] at hne; exact absurd h0 hne
  · intro c
    by_cases hc : c = b
    · subst hc
      exact Or.inr ⟨hb3, upd_same _ _ _, .indirect, trivial, hC, hC1, hb0⟩
    · exact Or.inl (upd_other _ _ _ _ hc)
  · intro hok
    obtain ⟨hmark, hin⟩ := hok
    refine ⟨fun s hs hne => ?_, fun s t hs ht hst hne => ?_⟩
    · rw [upd_apply]
      split
      · decide
      · by_cases h : s = .indirect
        · subst h; rw [hC1] at *; rename_i hh; exact absurd rfl hh
        · rw [hrest s h] at hne ⊢; exact hmark s hs hne
    · by_cases h : s = .indirect
      · by_cases h' : t = .indirect
        · rw [h, h']
        · exfalso
          subst h
          rw [hC1, hrest t h'] at hst
          have := hmark t ht (by rw [← hst]; exact hb0)
          rw [← hst] at this
          exact this hb3
      · by_cases h' : t = .indirect
        · exfalso
          subst h'
          rw [hC1, hrest s h] at hst
          have := hmark s hs (by rw [hst]; exact hb0)
          rw [hst] at this
          exact this hb3
        · rw [hrest s h, hrest t h'] at hst
          rw [hrest s h] at hne
          exact hin s t hs ht hst hne

/-! ## Rebuilding the invariant after a change to one inode -/

theorem Inv.slotsOK {m : Mounted} (hI : Inv m) {n : Nat} (hv : m.valid n) :
    SlotsOK (m.pointer n) m.free_block_map := by
  refine ⟨fun s hs hne => ?_, fun s t hs ht hst hne => ?_⟩
  · have : m.free_block_map (m.pointer n s) = 1 :=
      (hI.exact _).mpr (Or.inr ⟨n, s, hv, hs, rfl, hne⟩)
    rw [this]; decide
  · exact (hI.noalias n s n t hv hv hs ht hst hne).2

theorem inodes_congr {m m1 : Mounted} (h : m1.disk.size = m.disk.size) :
    m1.inodes = m.inodes := by
  unfold Mounted.inodes
  rw [h]

/-- The slots of an inode depend only on the inode record and on its pointer block. -/
theorem pointer_congr {m m1 : Mounted} {n : Nat} (hino : m1.inode n = m.inode n)
    (hblk : (m.inode n).Indirect ≠ 0 →
      m1.disk.data (m.inode n).Indirect = m.disk.data (m.inode n).Indirect) (s : Slot) :
    m1.pointer n s = m.pointer n s := by
  cases s with
  | direct k => simp only [Mounted.pointer, hino]
  | indirect => simp only [Mounted.pointer, hino]
  | entry k =>
    simp only [Mounted.pointer, hino, Disk.read]
    by_cases h : (m.inode n).Indirect = 0
    · simp only [h, if_true]
    · simp only [h, if_false, hblk h]

/-- The invariant after a call that changed the inode `n` only: its slots grew, the
other inode records are as before, and every block whose content changed is an inode
block or is held in a slot of `n`. -/
theorem Inv.rebuild {m m1 : Mounted} (hI : Inv m) {n : Nat} (hv : m.valid n)
    (hsize : m1.disk.size = m.disk.size)
    (htab : ∀ n1, n1 < m.inodes →
      ((m1.inode_table n1).Valid = 0 ↔ (m.inode_table n1).Valid = 0))
    (hino : ∀ n1, n1 ≠ n → n1 < m.inodes → m1.inode n1 = m.inode n1)
    (hvaln : (m1.inode n).Valid ≠ 0)
    (hgrow : Grow (INODE_BLOCKS m.disk.size) m.disk.size (m.pointer n) m.free_block_map
      (m1.pointer n) m1.free_block_map)
    (hdata : ∀ b, m1.disk.data b = m.disk.data b ∨ b ≤ INODE_BLOCKS m.disk.size ∨
      ∃ s, Slot.inRange s ∧ m1.pointer n s = b ∧ b ≠ 0)
    (hcov : ∀ k, k * BLOCK_SIZE < (m1.inode n).Size → m1.pointer n (logical k) ≠ 0)
    (hfull : (m1.inode n).Indirect ≠ 0 →
      ∀ k, k < POINTERS_PER_INODE → (m1.inode n).Direct k ≠ 0)
    (hsz : (m1.inode n).Size ≤ (POINTERS_PER_INODE + POINTERS_PER_BLOCK) * BLOCK_SIZE) :
    Inv m1 := by
  have hT : m1.inodes = m.inodes := inodes_congr hsize
  have hvalid : ∀ n1, m1.valid n1 ↔ m.valid n1 := by
    intro n1
    unfold Mounted.valid
    rw [hT]
    by_cases h : n1 = n
    · subst h
      exact ⟨fun _ => hv, fun h => ⟨h.1, hvaln⟩⟩
    · constructor
      · intro ⟨h1, h2⟩
        rw [hino n1 h h1] at h2
        exact ⟨h1, h2⟩
      · intro ⟨h1, h2⟩
        rw [← hino n1 h h1] at h2
        exact ⟨h1, h2⟩
  have hok := hI.slotsOK hv
  have hok1 := hgrow.keep hok
  -- a block referenced by another inode is not held in a slot of `n` afterwards
  have hforeign : ∀ n1 s t, n1 ≠ n → m.valid n1 → Slot.inRange s → Slot.inRange t →
      m.pointer n1 s ≠ 0 → m1.pointer n t ≠ m.pointer n1 s := by
    intro n1 s t hne hv1 hs ht hp heq
    by_cases h0 : m.pointer n t = 0
    · have hf := hgrow.fresh t ht h0 (by rw [heq]; exact hp)
      have : m.free_block_map (m.pointer n1 s) = 1 :=
        (hI.exact _).mpr (Or.inr ⟨n1, s, hv1, hs, rfl, hp⟩)
      rw [heq, this] at hf
      exact absurd hf.2.2.1 (by decide)
    · have e := hgrow.old t ht h0
      rw [e] at heq
      exact hne (hI.noalias n t n1 s hv hv1 ht hs heq h0).1.symm
  have hother : ∀ n1 s, n1 ≠ n → m.valid n1 → m1.pointer n1 s = m.pointer n1 s := by
    intro n1 s hne hv1
    apply pointer_congr (hino n1 hne hv1.1)
    intro hind
    rcases hdata (m.inode n1).Indirect with h | h | ⟨t, ht, h1, h2⟩
    · exact h
    · have := (hI.range n1 .indirect hv1 trivial hind).1
      simp only [Mounted.pointer] at this
      omega
    · exact absurd h1 (hforeign n1 .indirect t hne hv1 trivial ht hind)
  have hptr : ∀ n1 s, m.valid n1 → Slot.inRange s → m.pointer n1 s ≠ 0 →
      m1.pointer n1 s = m.pointer n1 s := by
    intro n1 s hv1 hs hp
    by_cases h : n1 = n
    · subst h; exact hgrow.old s hs hp
    · exact hother n1 s h hv1
  refine ⟨by rw [hsize]; exact hI.small, ?_, ?_, ?_, ?_, ?_, ?_, ?_⟩
  · intro n1 h1
    rw [hT] at h1
    rw [htab n1 h1, hI.cache n1 h1]
    by_cases h : n1 = n
    · subst h
      exact ⟨fun h0 => absurd h0 hv.2, fun h0 => absurd h0 hvaln⟩
    · rw [hino n1 h h1]
  · intro n1 s hv1 hs hp
    rw [hsize]
    have hv1' := (hvalid n1).mp hv1
    by_cases h : n1 = n
    · subst h
      by_cases h0 : m.pointer n1 s = 0
      · have := hgrow.fresh s hs h0 hp
        exact ⟨this.1, this.2.1⟩
      · rw [hgrow.old s hs h0]
        exact hI.range n1 s hv1' hs h0
    · rw [hother n1 s h hv1'] at hp ⊢
      exact hI.range n1 s hv1' hs hp
  · intro b
    rw [hsize]
    constructor
    · intro hb
      rcases hgrow.map b with e | ⟨_, _, s, hs, h3, h4, hb0⟩
      · rw [e] at hb
        rcases (hI.exact b).mp hb with h | ⟨n1, s, hv1, hs, h1, h2⟩
        · exact Or.inl h
        · right
          refine ⟨n1, s, (hvalid n1).mpr hv1, hs, ?_, h2⟩
          rw [hptr n1 s hv1 hs (by rw [h1]; exact h2), h1]
      · exact Or.inr ⟨n, s, (hvalid n).mpr hv, hs, h4, hb0⟩
    · intro hb
      have hmono : m.free_block_map b = 1 → m1.free_block_map b = 1 := by
        intro h
        rcases hgrow.map b with e | ⟨e, _, _⟩
        · rw [e]; exact h
        · rw [h] at e; exact absurd e (by decide)
      rcases hb with h | ⟨n1, s, hv1, hs, h1, h2⟩
      · exact hmono ((hI.exact b).mpr (Or.inl h))
      · have hv1' := (hvalid n1).mp hv1
        by_cases h : n1 = n
        · subst h
          by_cases h0 : m.pointer n1 s = 0
          · have := hgrow.fresh s hs h0 (by rw [h1]; exact h2)
            rw [h1] at this
            exact this.2.2.2
          · rw [hgrow.old s hs h0] at h1
            exact hmono ((hI.exact b).mpr (Or.inr ⟨n1, s, hv1', hs, h1, h2⟩))
        · rw [hother n1 s h hv1'] at h1
          exact hmono ((hI.exact b).mpr (Or.inr ⟨n1, s, hv1', hs, h1, h2⟩))
  · intro n1 s n2 t hv1 hv2 hs ht hst hp
    have hv1' := (hvalid n1).mp hv1
    have hv2' := (hvalid n2).mp hv2
    by_cases h1 : n1 = n
    · by_cases h2 : n2 = n
      · subst h1; subst h2
        exact ⟨rfl, hok1.2 s t hs ht hst hp⟩
      · exfalso
        subst h1
        rw [hother n2 t h2 hv2'] at hst
        exact hforeign n2 t s h2 hv2' ht hs (by rw [← hst]; exact hp) hst
    · by_cases h2 : n2 = n
      · exfalso
        subst h2
        rw [hother n1 s h1 hv1'] at hst hp
        exact hforeign n1 s t h1 hv1' hs ht hp hst.symm
      · rw [hother n1 s h1 hv1', hother n2 t h2 hv2'] at hst
        rw [hother n1 s h1 hv1'] at hp
        exact hI.noalias n1 s n2 t hv1' hv2' hs ht hst hp
  · intro n1 k hv1 hk
    have hv1' := (hvalid n1).mp hv1
    by_cases h : n1 = n
    · subst h; exact hcov k hk
    · rw [hino n1 h hv1'.1] at hk
      rw [hother n1 _ h hv1']
      exact hI.covered n1 k hv1' hk
  · intro n1 hv1 hind k hk
    have hv1' := (hvalid n1).mp hv1
    by_cases h : n1 = n
    · subst h; exact hfull hind k hk
    · rw [hino n1 h hv1'.1] at hind ⊢
      exact hI.direct_full n1 hv1' hind k hk
  · intro n1 hv1
    have hv1' := (hvalid n1).mp hv1
    by_cases h : n1 = n
    · subst h; exact hsz
    · rw [hino n1 h hv1'.1]
      exact hI.size_le n1 hv1'

/-! ## The end of `write`: `update_inode` -/

theorem update_inode_eq (m : Mounted) (n : Nat) (node : Inode) (size : Nat) :
    update_inode m n node size =
      (save_inode { m with inode_table := upd m.inode_table n { node with Size := u32 size } } n
        { node with Size := u32 size }).2 := rfl

theorem update_inode_frame (m : Mounted) (n : Nat) (node : Inode) (size : Nat) :
    (update_inode m n node size).free_block_map = m.free_block_map ∧
    (update_inode m n node size).inode_table = upd m.inode_table n { node with Size := u32 size } ∧
    (update_inode m n node size).disk.size = m.disk.size := by
  rw [update_inode_eq]
  have := save_inode_frame
    { m with inode_table := upd m.inode_table n { node with Size := u32 size } } n
    { node with Size := u32 size }
  exact ⟨this.2.1, this.1, this.2.2.1⟩

theorem update_inode_data (m : Mounted) (n : Nat) (node : Inode) (size b : Nat)
    (hb : b ≠ 1 + n / INODES_PER_BLOCK) :
    (update_inode m n node size).disk.data b = m.disk.data b := by
  rw [update_inode_eq]
  exact save_inode_data_other _ n _ b hb

theorem inode_eq_of_data {m m1 : Mounted} (n : Nat)
    (h : m1.disk.data (1 + n / INODES_PER_BLOCK) = m.disk.data (1 + n / INODES_PER_BLOCK)) :
    m1.inode n = m.inode n := by
  simp only [Mounted.inode, Disk.read, h]

theorem update_inode_other (m : Mounted) (n n1 : Nat) (node : Inode) (size : Nat)
    (hn : n < m.inodes) (hne : n1 ≠ n) :
    (update_inode m n node size).inode n1 = m.inode n1 := by
  rw [update_inode_eq]
  have := inode_save_other
    { m with inode_table := upd m.inode_table n { node with Size := u32 size } } n n1
    { node with Size := u32 size } hn hne
  rw [this]
  rfl

theorem update_inode_same (m : Mounted) (n : Nat) (node : Inode) (size : Nat)
    (hn : n < m.inodes) :
    ((update_inode m n node size).inode n).Valid = u32 node.Valid ∧
    ((update_inode m n node size).inode n).Size = u32 size ∧
    ((update_inode m n node size).inode n).Indirect = u32 node.Indirect ∧
    ∀ k, ((update_inode m n node size).inode n).Direct k =
      if k < POINTERS_PER_INODE then u32 (node.Direct k) else 0 := by
  rw [update_inode_eq]
  obtain ⟨h1, h2, h3, h4⟩ := inode_save_same
    { m with inode_table := upd m.inode_table n { node with Size := u32 size } } n
    { node with Size := u32 size } hn
  refine ⟨h1, ?_, h3, h4⟩
  rw [h2]
  show u32 (u32 size) = u32 size
  unfold u32
  omega

theorem inode_lt (m : Mounted) (n : Nat) :
    (m.inode n).Valid < 4294967296 ∧ (m.inode n).Size < 4294967296 ∧
      (m.inode n).Indirect < 4294967296 ∧ ∀ k, (m.inode n).Direct k < 4294967296 :=
  Inodes_lt _ _

theorem inode_Direct_ge (m : Mounted) (n k : Nat) (hk : 5 ≤ k) : (m.inode n).Direct k = 0 :=
  Inodes_Direct_ge _ _ _ hk

theorem valid_congr {m m1 : Mounted} {n : Nat} (hv : m.valid n)
    (hsize : m1.disk.size = m.disk.size)
    (hino : ∀ n1, n1 ≠ n → n1 < m.inodes → m1.inode n1 = m.inode n1)
    (hvaln : (m1.inode n).Valid ≠ 0) (n1 : Nat) : m1.valid n1 ↔ m.valid n1 := by
  unfold Mounted.valid
  rw [inodes_congr hsize]
  by_cases h : n1 = n
  · subst h
    exact ⟨fun _ => hv, fun h => ⟨h.1, hvaln⟩⟩
  · constructor
    · intro ⟨h1, h2⟩
      rw [hino n1 h h1] at h2
      exact ⟨h1, h2⟩
    · intro ⟨h1, h2⟩
      rw [← hino n1 h h1] at h2
      exact ⟨h1, h2⟩

theorem logical_inRange (k : Nat) (hk : k < 5 + 1024) : Slot.inRange (logical k) := by
  unfold logical
  by_cases h : k < POINTERS_PER_INODE
  · simp only [h, if_true]; exact h
  · simp only [h, if_false]
    show k - POINTERS_PER_INODE < POINTERS_PER_BLOCK
    simp only [POINTERS_PER_INODE, POINTERS_PER_BLOCK] at *
    omega

/-- The words of a walked pointer array fit in 32 bits when those of the array it
started from do. -/
theorem Walk.lt_u32 {count off lo : Nat} {p p1 : Nat → Nat} {m m1 : Mounted}
    (W : Walk count off lo p m p1 m1) (hN : m.disk.size ≤ 4294967296)
    (hp : ∀ j, p j < 4294967296) (j : Nat) : p1 j < 4294967296 := by
  by_cases h0 : p j = 0
  · by_cases h1 : p1 j = 0
    · rw [h1]; decide
    · have := W.fresh j h0 h1
      omega
  · rw [W.old j h0]; exact hp j

/-- A slot walk changes no block at or below the inode blocks when its pointers lie
above them. -/
theorem Walk.data_low {count off lo : Nat} {p p1 : Nat → Nat} {m m1 : Mounted}
    (W : Walk count off lo p m p1 m1)
    (hp : ∀ j, j < count → p j ≠ 0 → INODE_BLOCKS m.disk.size < p j) (b : Nat)
    (hb : b ≤ INODE_BLOCKS m.disk.size) : m1.disk.data b = m.disk.data b := by
  rcases W.data b with h | ⟨hb0, j, _, hj, _, hjb⟩
  · exact h
  · exfalso
    by_cases h0 : p j = 0
    · have := W.fresh j h0 (by rw [hjb]; exact hb0)
      omega
    · have := hp j hj h0
      rw [← W.old j h0, hjb] at this
      omega

/-! ## A `write` that ends in the direct pointers -/

theorem fileByte_eq (m : Mounted) (n p : Nat) :
    m.fileByte n p = m.disk.data (m.pointer n (logical (p / 4096))) (p % 4096) := rfl

theorem slot_range_of_grow {m : Mounted} (hI : Inv m) {n : Nat} (hv : m.valid n)
    {C1 : Slot → Nat} {bm1 : Nat → Nat}
    (G : Grow (INODE_BLOCKS m.disk.size) m.disk.size (m.pointer n) m.free_block_map C1 bm1)
    (s : Slot) (hs : Slot.inRange s) (hne : C1 s ≠ 0) :
    INODE_BLOCKS m.disk.size < C1 s ∧ C1 s < m.disk.size := by
  by_cases h0 : m.pointer n s = 0
  · have := G.fresh s hs h0 hne
    exact ⟨this.1, this.2.1⟩
  · rw [G.old s hs h0]
    exact hI.range n s hv hs h0

theorem inode_ext {a b : Inode} (h1 : a.Valid = b.Valid) (h2 : a.Size = b.Size)
    (h3 : ∀ k, a.Direct k = b.Direct k) (h4 : a.Indirect = b.Indirect) : a = b := by
  cases a
  cases b
  simp only [Inode.mk.injEq] at *
  exact ⟨h1, h2, funext h3, h4⟩

/-- The state `write` leaves when it stops after the direct phase (all bytes written,
or no free block for the indirect pointer block). -/
theorem write_finish1 (m : Mounted) (hI : Inv m) (n : Nat) (hv : m.valid n) (data : Buffer)
    (off w : Nat) (D1 : Nat → Nat) (m1 : Mounted)
    (W1 : Walk 5 off 0 (m.inode n).Direct m D1 m1)
    (hoff : off ≤ (m.inode n).Size)
    (hbound : off + w ≤ max off (5 * 4096))
    (hnew : ∀ pos, off ≤ pos → pos < off + w → pos / 4096 < 5 ∧ D1 (pos / 4096) ≠ 0 ∧
      m1.disk.data (D1 (pos / 4096)) (pos % 4096) = data (pos - off))
    (hpre : ∀ pos, pos < off → pos / 4096 < 5 → (m.inode n).Direct (pos / 4096) ≠ 0 →
      m1.disk.data ((m.inode n).Direct (pos / 4096)) (pos % 4096)
        = m.disk.data ((m.inode n).Direct (pos / 4096)) (pos % 4096))
    (htie : ∀ b q, m1.disk.data b q = m.disk.data b q ∨
      ∃ pos, off ≤ pos ∧ pos < off + w ∧ b = D1 (pos / 4096) ∧ q = pos % 4096) :
    WriteOK m n data off w (update_inode m1 n { m.inode n with Direct := D1 } (off + w)) ∧
    WriteFrame m n (update_inode m1 n { m.inode n with Direct := D1 } (off + w)) ∧
    (∀ j, j < 5 → D1 j ≠ 0 → INODE_BLOCKS m.disk.size < D1 j ∧ D1 j < m.disk.size) ∧
    ((update_inode m1 n { m.inode n with Direct := D1 } (off + w)).inode n).Indirect
      = (m.inode n).Indirect ∧
    WriteKeep m n off w (update_inode m1 n { m.inode n with Direct := D1 } (off + w)) := by
  obtain ⟨hn, hval⟩ := hv
  have hv : m.valid n := ⟨hn, hval⟩
  have hsz1 : m1.disk.size = m.disk.size := W1.blocks
  have hn1 : n < m1.inodes := by rw [inodes_congr hsz1]; exact hn
  have hsmall := hI.small
  have hSize := hI.size_le n hv
  simp only [POINTERS_PER_INODE, POINTERS_PER_BLOCK, BLOCK_SIZE] at hSize
  have hcovold := hI.covered n
  simp only [BLOCK_SIZE] at hcovold
  have hok := hI.slotsOK hv
  have hlt := inode_lt m n
  -- the slots after the walk
  have G : Grow (INODE_BLOCKS m.disk.size) m.disk.size (m.pointer n) m.free_block_map
      (slotsOf D1 (m.inode n).Indirect (fun k => m.pointer n (.entry k))) m1.free_block_map :=
    Grow.of_walk W1 Slot.direct (fun i j h => by injection h) (fun j => Iff.rfl) _ _
      (fun j => rfl) (fun j => rfl)
      (fun s hs => by
        cases s with
        | direct k => exact absurd rfl (hs k)
        | indirect => rfl
        | entry k => rfl)
  have hokf := G.keep hok
  have hrangef := slot_range_of_grow hI hv G
  -- the inode records
  obtain ⟨hmapf, htabf, hsizef⟩ :=
    update_inode_frame m1 n { m.inode n with Direct := D1 } (off + w)
  have hlow : ∀ b, b ≤ INODE_BLOCKS m.disk.size → m1.disk.data b = m.disk.data b := by
    intro b hb
    refine W1.data_low (fun j hj hne => ?_) b hb
    exact (hI.range n (.direct j) hv hj hne).1
  have hino1 : ∀ n1, n1 < m.inodes → m1.inode n1 = m.inode n1 := fun n1 h1 =>
    inode_eq_of_data n1 (hlow _ (inodes_block_le m n1 h1))
  have hino : ∀ n1, n1 ≠ n → n1 < m.inodes →
      (update_inode m1 n { m.inode n with Direct := D1 } (off + w)).inode n1 = m.inode n1 := by
    intro n1 hne h1
    rw [update_inode_other m1 n n1 _ _ hn1 hne, hino1 n1 h1]
  obtain ⟨sV, sS, sI, sD⟩ := update_inode_same m1 n { m.inode n with Direct := D1 } (off + w) hn1
  simp only [] at sV sI sD
  have hDlt : ∀ k, D1 k < 4294967296 := W1.lt_u32 (by omega) hlt.2.2.2
  have hD5 : ∀ k, 5 ≤ k → D1 k = 0 := by
    intro k hk
    rw [W1.outside k (Or.inr hk)]
    exact inode_Direct_ge m n k hk
  have hDir : ∀ k, ((update_inode m1 n { m.inode n with Direct := D1 } (off + w)).inode n).Direct k
      = D1 k := by
    intro k
    rw [sD k]
    by_cases hk : k < POINTERS_PER_INODE
    · simp only [hk, if_true]; exact u32_of_lt (hDlt k)
    · simp only [hk, if_false]
      exact (hD5 k (by simp only [POINTERS_PER_INODE] at hk; omega)).symm
  have hInd : ((update_inode m1 n { m.inode n with Direct := D1 } (off + w)).inode n).Indirect
      = (m.inode n).Indirect := by
    rw [sI]; exact u32_of_lt hlt.2.2.1
  have hValid : ((update_inode m1 n { m.inode n with Direct := D1 } (off + w)).inode n).Valid
      = (m.inode n).Valid := by
    rw [sV]; exact u32_of_lt hlt.1
  have hSz : ((update_inode m1 n { m.inode n with Direct := D1 } (off + w)).inode n).Size
      = off + w := by
    rw [sS]; exact u32_of_lt (by omega)
  have hdataf : ∀ b, INODE_BLOCKS m.disk.size < b →
      (update_inode m1 n { m.inode n with Direct := D1 } (off + w)).disk.data b
        = m1.disk.data b := by
    intro b hb
    apply update_inode_data
    have := inodes_block_le m n hn
    omega
  -- a block held in a slot other than a direct one is not touched by the walk
  have hkeep : ∀ s, Slot.inRange s → (∀ j, s ≠ .direct j) →
      slotsOf D1 (m.inode n).Indirect (fun k => m.pointer n (.entry k)) s ≠ 0 →
      m1.disk.data (slotsOf D1 (m.inode n).Indirect (fun k => m.pointer n (.entry k)) s)
        = m.disk.data (slotsOf D1 (m.inode n).Indirect (fun k => m.pointer n (.entry k)) s) := by
    intro s hs hnd hne
    rcases W1.data (slotsOf D1 (m.inode n).Indirect (fun k => m.pointer n (.entry k)) s)
      with h | ⟨_, j, _, hj, _, hjb⟩
    · exact h
    · exact absurd (hokf.2 (.direct j) s hj hs hjb (by show D1 j ≠ 0; rw [hjb]; exact hne)).symm (hnd j)
  have hblk : (m.inode n).Indirect ≠ 0 →
      (update_inode m1 n { m.inode n with Direct := D1 } (off + w)).disk.data (m.inode n).Indirect
        = m.disk.data (m.inode n).Indirect := by
    intro hind
    rw [hdataf (m.inode n).Indirect (hrangef .indirect trivial hind).1]
    exact hkeep .indirect trivial (fun j h => by injection h) hind
  have hCf : ∀ s, (update_inode m1 n { m.inode n with Direct := D1 } (off + w)).pointer n s
      = slotsOf D1 (m.inode n).Indirect (fun k => m.pointer n (.entry k)) s := by
    intro s
    cases s with
    | direct k => exact hDir k
    | indirect => exact hInd
    | entry k =>
      simp only [Mounted.pointer, slotsOf, hInd, Disk.read]
      by_cases h : (m.inode n).Indirect = 0
      · simp only [h, if_true]
      · simp only [h, if_false, hblk h]
  have G1 : Grow (INODE_BLOCKS m.disk.size) m.disk.size (m.pointer n) m.free_block_map
      ((update_inode m1 n { m.inode n with Direct := D1 } (off + w)).pointer n)
      (update_inode m1 n { m.inode n with Direct := D1 } (off + w)).free_block_map := by
    rw [hmapf]
    exact G.congr (fun s _ => rfl) (fun s _ => hCf s)
  have hsize : (update_inode m1 n { m.inode n with Direct := D1 } (off + w)).disk.size
      = m.disk.size := hsizef.trans hsz1
  have hvaln : ((update_inode m1 n { m.inode n with Direct := D1 } (off + w)).inode n).Valid ≠ 0 := by
    rw [hValid]; exact hval
  have hInv : Inv (update_inode m1 n { m.inode n with Direct := D1 } (off + w)) := by
    refine Inv.rebuild hI hv hsize ?_ hino hvaln G1 ?_ ?_ ?_ ?_
    · intro n1 h1
      rw [htabf, W1.table]
      by_cases h : n1 = n
      · subst h
        simp only [upd_same]
        rw [hI.cache n1 h1]
      · rw [upd_other _ _ _ _ h]
    · intro b
      by_cases hb : b ≤ INODE_BLOCKS m.disk.size
      · exact Or.inr (Or.inl hb)
      · rw [hdataf b (by omega)]
        rcases W1.data b with h | ⟨hb0, j, _, hj, _, hjb⟩
        · exact Or.inl h
        · exact Or.inr (Or.inr ⟨.direct j, hj, by rw [hCf]; exact hjb, hb0⟩)
    · intro k hk
      rw [hSz] at hk
      simp only [BLOCK_SIZE] at hk
      by_cases hko : k * 4096 < off
      · have h0 := hcovold k hv (by omega)
        rw [G1.old _ (logical_inRange k (by omega)) h0]
        exact h0
      · obtain ⟨h1, h2, _⟩ := hnew (k * 4096) (by omega) hk
        have hq : k * 4096 / 4096 = k := by omega
        rw [hq] at h1 h2
        rw [pointer_logical_direct _ n k h1, hDir]
        exact h2
    · intro hind k hk
      rw [hInd] at hind
      rw [hDir, W1.old k (hI.direct_full n hv hind k hk)]
      exact hI.direct_full n hv hind k hk
    · rw [hSz]
      simp only [POINTERS_PER_INODE, POINTERS_PER_BLOCK, BLOCK_SIZE]
      omega
  have hframe : WriteFrame m n (update_inode m1 n { m.inode n with Direct := D1 } (off + w)) := by
    refine ⟨hino, ?_, ?_, ?_⟩
    · intro n1 hne
      rw [htabf, upd_other _ _ _ _ hne, W1.table]
    · rw [htabf, upd_same]
      exact inode_ext hValid.symm sS.symm (fun k => (hDir k).symm) hInd.symm
    · intro b
      by_cases hb : b = 1 + n / INODES_PER_BLOCK
      · exact Or.inr (Or.inl hb)
      · rw [update_inode_data m1 n _ _ b hb]
        rcases W1.data b with h | ⟨hb0, j, _, hj, _, hjb⟩
        · exact Or.inl h
        · exact Or.inr (Or.inr ⟨.direct j, hj, by rw [hCf]; exact hjb, hb0⟩)
  have hkeepW : WriteKeep m n off w
      (update_inode m1 n { m.inode n with Direct := D1 } (off + w)) := by
    intro k hk hne q hq hge
    simp only [POINTERS_PER_INODE, POINTERS_PER_BLOCK, BLOCK_SIZE] at hk hq hge
    have hr := logical_inRange k hk
    rw [hCf] at hne ⊢
    rw [hdataf _ (hrangef _ hr hne).1]
    by_cases hd : k < 5
    · have hl : logical k = .direct k := by
        simp only [logical, POINTERS_PER_INODE, hd, if_true]
      rw [hl] at hne ⊢
      rcases htie (D1 k) q with h | ⟨pos, p1, p2, p3, p4⟩
      · exact h
      · exfalso
        have := hokf.2 (.direct k) (.direct (pos / 4096)) hd (hnew pos p1 p2).1 p3 hne
        injection this with this
        omega
    · have hl : logical k = .entry (k - 5) := by
        simp only [logical, POINTERS_PER_INODE, hd, if_false]
      rw [hl] at hr hne ⊢
      rw [hkeep _ hr (fun j h => by injection h) hne]
  refine ⟨⟨hInv, hsize, valid_congr hv hsize hino hvaln, hSz, ?_, ?_⟩, hframe,
    fun j hj hne => hrangef (.direct j) hj hne, hInd, hkeepW⟩
  · intro i hi
    obtain ⟨h1, h2, h3⟩ := hnew (off + i) (by omega) (by omega)
    rw [fileByte_eq, pointer_logical_direct _ n _ h1, hDir,
      hdataf (D1 ((off + i) / 4096)) (hrangef (.direct ((off + i) / 4096)) h1 h2).1, h3]
    congr 1
    omega
  · intro p hp
    have hk : p / 4096 < 5 + 1024 := by omega
    have h0 := hcovold (p / 4096) hv (by omega)
    have hr := logical_inRange _ hk
    have e := G1.old _ hr h0
    rw [fileByte_eq, fileByte_eq, e]
    have hrg := hI.range n _ hv hr h0
    rw [hdataf _ hrg.1]
    by_cases hd : p / 4096 < 5
    · rw [pointer_logical_direct m n _ hd] at h0 ⊢
      exact hpre p hp hd h0
    · have e2 : m.pointer n (logical (p / 4096))
          = slotsOf D1 (m.inode n).Indirect (fun k => m.pointer n (.entry k))
              (logical (p / 4096)) := by
        rw [← hCf, e]
      have hl : logical (p / 4096) = .entry (p / 4096 - 5) := by
        have : ¬ p / 4096 < 5 := hd
        simp only [logical, POINTERS_PER_INODE, this, if_false]
      rw [e2, hkeep _ hr (by rw [hl]; intro j h; injection h) (by rw [← e2]; exact h0)]

/-! ## A `write` that goes through the indirect pointer block -/

/-- The state `write` leaves after the indirect phase.  `ib` is the indirect pointer
(kept, or newly allocated with a zeroed pointer block `pblk`), `E2` the entries after
the second slot walk. -/
theorem write_finish2 (m : Mounted) (hI : Inv m) (n : Nat) (hv : m.valid n) (data : Buffer)
    (off w1 w2 : Nat) (D1 : Nat → Nat) (m1 : Mounted)
    (W1 : Walk 5 off 0 (m.inode n).Direct m D1 m1)
    (hoff : off ≤ (m.inode n).Size)
    (hexh : off + w1 = max off (5 * 4096))
    (hnew1 : ∀ pos, off ≤ pos → pos < off + w1 → pos / 4096 < 5 ∧ D1 (pos / 4096) ≠ 0 ∧
      m1.disk.data (D1 (pos / 4096)) (pos % 4096) = data (pos - off))
    (hpre1 : ∀ pos, pos < off → pos / 4096 < 5 → (m.inode n).Direct (pos / 4096) ≠ 0 →
      m1.disk.data ((m.inode n).Direct (pos / 4096)) (pos % 4096)
        = m.disk.data ((m.inode n).Direct (pos / 4096)) (pos % 4096))
    (hdfull : ∀ k, k < 5 → D1 k ≠ 0)
    (ib : Nat) (pblk : Block) (m2 : Mounted)
    (hib : ((m.inode n).Indirect ≠ 0 ∧ ib = (m.inode n).Indirect ∧ pblk = m1.disk.data ib ∧
        m2 = m1) ∨
      ((m.inode n).Indirect = 0 ∧ INODE_BLOCKS m.disk.size < ib ∧ ib < m.disk.size ∧
        m1.free_block_map ib = 0 ∧ pblk = zeroBlock ∧
        m2 = { m1 with free_block_map := upd m1.free_block_map ib 1 }))
    (inode2 : Inode) (hi2V : inode2.Valid = (m.inode n).Valid) (hi2D : inode2.Direct = D1)
    (hi2I : inode2.Indirect = ib)
    (newOff : Nat) (hnewOff : 5 * 4096 + newOff = off + w1)
    (E2 : Nat → Nat) (m3 : Mounted)
    (W2 : Walk 1024 newOff 0 pblk.Pointers m2 E2 m3)
    (hbound2 : newOff + w2 ≤ max newOff (1024 * 4096))
    (hB2 : PtrsOK 1024 pblk.Pointers m2.free_block_map →
      (∀ pos, newOff ≤ pos → pos < newOff + w2 → pos / 4096 < 1024 ∧
        E2 (pos / 4096) ≠ 0 ∧
        m3.disk.data (E2 (pos / 4096)) (pos % 4096) = data (w1 + (pos - newOff))) ∧
      (∀ pos, pos < newOff → pos / 4096 < 1024 → pblk.Pointers (pos / 4096) ≠ 0 →
        m3.disk.data (pblk.Pointers (pos / 4096)) (pos % 4096)
          = m2.disk.data (pblk.Pointers (pos / 4096)) (pos % 4096)))
    (m4 mF : Mounted) (hm4 : m4 = update_inode m3 n inode2 (off + (w1 + w2)))
    (hmF : mF = { m4 with disk := m4.disk.write ib (pblk.setPointers E2) })
    (htie1 : ∀ b q, m1.disk.data b q = m.disk.data b q ∨
      ∃ pos, off ≤ pos ∧ pos < off + w1 ∧ b = D1 (pos / 4096) ∧ q = pos % 4096)
    (htie2 : ∀ b q, m3.disk.data b q = m2.disk.data b q ∨
      ∃ pos, newOff ≤ pos ∧ pos < newOff + w2 ∧ b = E2 (pos / 4096) ∧ q = pos % 4096) :
    WriteOK m n data off (w1 + w2) mF ∧ WriteFrame m n mF ∧
    (∀ j, j < 5 → D1 j ≠ 0 → INODE_BLOCKS m.disk.size < D1 j ∧ D1 j < m.disk.size) ∧
    (∀ j, j < 1024 → E2 j ≠ 0 → INODE_BLOCKS m.disk.size < E2 j ∧ E2 j < m.disk.size) ∧
    (INODE_BLOCKS m.disk.size < ib ∧ ib < m.disk.size) ∧
    (mF.inode n).Indirect = ib ∧
    WriteKeep m n off (w1 + w2) mF := by
  obtain ⟨hn, hval⟩ := hv
  have hv : m.valid n := ⟨hn, hval⟩
  have hsz1 : m1.disk.size = m.disk.size := W1.blocks
  have hsmall := hI.small
  have hSize := hI.size_le n hv
  simp only [POINTERS_PER_INODE, POINTERS_PER_BLOCK, BLOCK_SIZE] at hSize
  have hcovold := hI.covered n
  simp only [BLOCK_SIZE] at hcovold
  have hok := hI.slotsOK hv
  have hlt := inode_lt m n
  -- the slots after the first walk
  have G1 : Grow (INODE_BLOCKS m.disk.size) m.disk.size (m.pointer n) m.free_block_map
      (slotsOf D1 (m.inode n).Indirect (fun k => m.pointer n (.entry k))) m1.free_block_map :=
    Grow.of_walk W1 Slot.direct (fun i j h => by injection h) (fun j => Iff.rfl) _ _
      (fun j => rfl) (fun j => rfl)
      (fun s hs => by
        cases s with
        | direct k => exact absurd rfl (hs k)
        | indirect => rfl
        | entry k => rfl)
  have hok1 := G1.keep hok
  have hm2 : m2.disk = m1.disk ∧ m2.inode_table = m1.inode_table := by
    rcases hib with ⟨_, _, _, h⟩ | ⟨_, _, _, _, _, h⟩
    · rw [h]; exact ⟨rfl, rfl⟩
    · rw [h]; exact ⟨rfl, rfl⟩
  have hsz2 : m2.disk.size = m.disk.size := by rw [hm2.1]; exact hsz1
  have hsz3 : m3.disk.size = m.disk.size := (W2.blocks).trans hsz2
  have hn3 : n < m3.inodes := by rw [inodes_congr hsz3]; exact hn
  -- the pointer block the second walk starts from holds the old entries
  have hEold : ∀ k, pblk.Pointers k = m.pointer n (.entry k) := by
    intro k
    rcases hib with ⟨h0, h1, h2, _⟩ | ⟨h0, _, _, _, h2, _⟩
    · rw [pointer_entry_of_ne m n k h0, h2, h1]
      have : m1.disk.data (m.inode n).Indirect = m.disk.data (m.inode n).Indirect := by
        rcases W1.data (m.inode n).Indirect with h | ⟨_, j, _, hj, _, hjb⟩
        · exact h
        · have := hok1.2 (.direct j) .indirect hj trivial hjb (by show D1 j ≠ 0; rw [hjb]; exact h0)
          injection this
      rw [this]
    · rw [h2]
      simp only [Mounted.pointer, h0, if_true, Block.Pointers, getWord_zeroBlock]
  have G2 : Grow (INODE_BLOCKS m.disk.size) m.disk.size
      (slotsOf D1 (m.inode n).Indirect (fun k => m.pointer n (.entry k))) m1.free_block_map
      (slotsOf D1 ib (fun k => m.pointer n (.entry k))) m2.free_block_map := by
    rcases hib with ⟨_, h1, _, h3⟩ | ⟨h0, h1, h2, h3, _, h5⟩
    · rw [h1, h3]; exact Grow.grefl _ _ _ _
    · rw [h5]
      exact Grow.of_indirect _ _ _ _ ib h0 h1 h2 h3 _ rfl
        (fun s hs => by
          cases s with
          | direct k => rfl
          | indirect => exact absurd rfl hs
          | entry k => rfl)
  have hok2 := (G1.gtrans G2).keep hok
  obtain ⟨hnew2, hpre2⟩ := hB2
    ⟨fun j hj hne => by
      have := hok2.1 (.entry j) hj (by show m.pointer n (.entry j) ≠ 0; rw [← hEold j]; exact hne)
      rw [hEold j]
      exact this,
     fun i j hi hj he hne => by
      have := hok2.2 (.entry i) (.entry j) hi hj
        (by show m.pointer n (.entry i) = m.pointer n (.entry j); rw [← hEold i, ← hEold j]; exact he)
        (by show m.pointer n (.entry i) ≠ 0; rw [← hEold i]; exact hne)
      injection this⟩
  have G3 : Grow (INODE_BLOCKS m.disk.size) m.disk.size
      (slotsOf D1 ib (fun k => m.pointer n (.entry k))) m2.free_block_map
      (slotsOf D1 ib E2) m3.free_block_map := by
    have := Grow.of_walk W2 Slot.entry (fun i j h => by injection h) (fun j => Iff.rfl)
      (slotsOf D1 ib (fun k => m.pointer n (.entry k))) (slotsOf D1 ib E2)
      (fun j => (hEold j).symm) (fun j => rfl)
      (fun s hs => by
        cases s with
        | direct k => rfl
        | indirect => rfl
        | entry k => exact absurd rfl (hs k))
    rw [hsz2] at this
    exact this
  have G := (G1.gtrans G2).gtrans G3
  have hokf := G.keep hok
  have hrangef := slot_range_of_grow hI hv G
  have hib0 : ib ≠ 0 := by
    rcases hib with ⟨h0, h1, _, _⟩ | ⟨_, h1, _⟩
    · rw [h1]; exact h0
    · omega
  have hibr : INODE_BLOCKS m.disk.size < ib ∧ ib < m.disk.size := hrangef .indirect trivial hib0
  -- the final state
  obtain ⟨hmap4, htab4, hsize4⟩ := update_inode_frame m3 n inode2 (off + (w1 + w2))
  rw [← hm4] at hmap4 htab4 hsize4
  have hmapF : mF.free_block_map = m3.free_block_map := by rw [hmF]; exact hmap4
  have htabF : mF.inode_table
      = upd m3.inode_table n { inode2 with Size := u32 (off + (w1 + w2)) } := by
    rw [hmF]; exact htab4
  have hsize : mF.disk.size = m.disk.size := by
    rw [hmF]; exact hsize4.trans hsz3
  have hdataF : ∀ b, b ≠ ib → INODE_BLOCKS m.disk.size < b → mF.disk.data b = m3.disk.data b := by
    intro b hb1 hb2
    rw [hmF]
    simp only [Disk.write]
    rw [upd_other _ _ _ _ hb1, hm4]
    apply update_inode_data
    have := inodes_block_le m n hn
    omega
  have hdataib : mF.disk.data ib = pblk.setPointers E2 := by
    rw [hmF]
    simp only [Disk.write, upd_same]
  have hlow : ∀ b, b ≤ INODE_BLOCKS m.disk.size → m3.disk.data b = m.disk.data b := by
    intro b hb
    have h2 : m3.disk.data b = m2.disk.data b := by
      refine W2.data_low (fun j hj hne => ?_) b (by rw [hsz2]; exact hb)
      rw [hsz2]
      rw [hEold j] at hne ⊢
      exact (hI.range n (.entry j) hv hj hne).1
    have h1 : m1.disk.data b = m.disk.data b := by
      refine W1.data_low (fun j hj hne => ?_) b hb
      exact (hI.range n (.direct j) hv hj hne).1
    rw [h2, hm2.1, h1]
  have hinoF : ∀ n1, n1 < m.inodes → mF.inode n1 = m4.inode n1 := by
    intro n1 h1
    apply inode_eq_of_data
    rw [hmF]
    simp only [Disk.write]
    apply upd_other
    have := inodes_block_le m n1 h1
    omega
  have hino3 : ∀ n1, n1 < m.inodes → m3.inode n1 = m.inode n1 := fun n1 h1 =>
    inode_eq_of_data n1 (hlow _ (inodes_block_le m n1 h1))
  have hino : ∀ n1, n1 ≠ n → n1 < m.inodes → mF.inode n1 = m.inode n1 := by
    intro n1 hne h1
    rw [hinoF n1 h1, hm4, update_inode_other m3 n n1 _ _ hn3 hne, hino3 n1 h1]
  obtain ⟨sV, sS, sI, sD⟩ := update_inode_same m3 n inode2 (off + (w1 + w2)) hn3
  rw [← hm4, ← hinoF n hn] at sV sS sI sD
  rw [hi2V] at sV
  rw [hi2I] at sI
  rw [hi2D] at sD
  have hDlt : ∀ k, D1 k < 4294967296 := W1.lt_u32 (by omega) hlt.2.2.2
  have hElt : ∀ k, E2 k < 4294967296 :=
    W2.lt_u32 (by rw [hsz2]; omega) (fun j => getWord_lt _ _)
  have hD5 : ∀ k, 5 ≤ k → D1 k = 0 := by
    intro k hk
    rw [W1.outside k (Or.inr hk)]
    exact inode_Direct_ge m n k hk
  have hDir : ∀ k, (mF.inode n).Direct k = D1 k := by
    intro k
    rw [sD k]
    by_cases hk : k < POINTERS_PER_INODE
    · simp only [hk, if_true]; exact u32_of_lt (hDlt k)
    · simp only [hk, if_false]
      exact (hD5 k (by simp only [POINTERS_PER_INODE] at hk; omega)).symm
  have hInd : (mF.inode n).Indirect = ib := by
    rw [sI]; exact u32_of_lt (by omega)
  have hValid : (mF.inode n).Valid = (m.inode n).Valid := by
    rw [sV]; exact u32_of_lt hlt.1
  have hSz : (mF.inode n).Size = off + (w1 + w2) := by
    rw [sS]; exact u32_of_lt (by omega)
  have hCf : ∀ s, Slot.inRange s → mF.pointer n s = slotsOf D1 ib E2 s := by
    intro s hs
    cases s with
    | direct k => exact hDir k
    | indirect => exact hInd
    | entry k =>
      simp only [Mounted.pointer, slotsOf, hInd, hib0, if_false, Disk.read, hdataib,
        Block.Pointers]
      rw [getWord_setPointers _ _ _ hs]
      exact u32_of_lt (hElt k)
  have GF : Grow (INODE_BLOCKS m.disk.size) m.disk.size (m.pointer n) m.free_block_map
      (mF.pointer n) mF.free_block_map := by
    rw [hmapF]
    exact G.congr (fun s _ => rfl) hCf
  have hvaln : (mF.inode n).Valid ≠ 0 := by rw [hValid]; exact hval
  -- blocks held in the final slots keep what the walks wrote
  have hkeepD : ∀ j, j < 5 → D1 j ≠ 0 → mF.disk.data (D1 j) = m1.disk.data (D1 j) := by
    intro j hj hne
    have hr := hrangef (.direct j) hj hne
    have hneib : D1 j ≠ ib := by
      intro h
      have := hokf.2 (.direct j) .indirect hj trivial h hne
      injection this
    rw [hdataF _ hneib hr.1, ← hm2.1]
    rcases W2.data (D1 j) with h | ⟨_, j2, _, hj2, _, hjb⟩
    · exact h
    · have := hokf.2 (.entry j2) (.direct j) hj2 hj hjb (by show E2 j2 ≠ 0; rw [hjb]; exact hne)
      injection this
  have hkeepE : ∀ j, j < 1024 → E2 j ≠ 0 → mF.disk.data (E2 j) = m3.disk.data (E2 j) := by
    intro j hj hne
    have hr := hrangef (.entry j) hj hne
    have hneib : E2 j ≠ ib := by
      intro h
      have := hokf.2 (.entry j) .indirect hj trivial h hne
      injection this
    exact hdataF _ hneib hr.1
  have hInv : Inv mF := by
    refine Inv.rebuild hI hv hsize ?_ hino hvaln GF ?_ ?_ ?_ ?_
    · intro n1 h1
      rw [htabF, W2.table, hm2.2, W1.table]
      by_cases h : n1 = n
      · subst h
        simp only [upd_same]
        rw [hI.cache n1 h1, hi2V]
      · rw [upd_other _ _ _ _ h]
    · intro b
      by_cases hb : b ≤ INODE_BLOCKS m.disk.size
      · exact Or.inr (Or.inl hb)
      · by_cases hbib : b = ib
        · exact Or.inr (Or.inr ⟨.indirect, trivial, by rw [hbib]; exact hInd, by rw [hbib]; exact hib0⟩)
        · rw [hdataF b hbib (by omega)]
          rcases W2.data b with h | ⟨hb0, j, _, hj, _, hjb⟩
          · rw [h, hm2.1]
            rcases W1.data b with h | ⟨hb0, j, _, hj, _, hjb⟩
            · exact Or.inl h
            · exact Or.inr (Or.inr ⟨.direct j, hj, by rw [hCf (.direct j) hj]; exact hjb, hb0⟩)
          · exact Or.inr (Or.inr ⟨.entry j, hj, by rw [hCf (.entry j) hj]; exact hjb, hb0⟩)
    · intro k hk
      rw [hSz] at hk
      simp only [BLOCK_SIZE] at hk
      by_cases hko : k * 4096 < off
      · have h0 := hcovold k hv (by omega)
        rw [GF.old _ (logical_inRange k (by omega)) h0]
        exact h0
      · by_cases hk1 : k * 4096 < off + w1
        · obtain ⟨h1, h2, _⟩ := hnew1 (k * 4096) (by omega) hk1
          have hq : k * 4096 / 4096 = k := by omega
          rw [hq] at h1 h2
          rw [pointer_logical_direct _ n k h1, hDir]
          exact h2
        · obtain ⟨h1, h2, _⟩ := hnew2 (k * 4096 - 5 * 4096) (by omega) (by omega)
          have hq : (k * 4096 - 5 * 4096) / 4096 = k - 5 := by omega
          rw [hq] at h1 h2
          rw [pointer_logical_entry _ n k (by omega), hCf (.entry (k - 5)) h1]
          exact h2
    · intro _ k hk
      rw [hDir]
      exact hdfull k hk
    · rw [hSz]
      simp only [POINTERS_PER_INODE, POINTERS_PER_BLOCK, BLOCK_SIZE]
      omega
  have hframe : WriteFrame m n mF := by
    refine ⟨hino, ?_, ?_, ?_⟩
    · intro n1 hne
      rw [htabF, upd_other _ _ _ _ hne, W2.table, hm2.2, W1.table]
    · rw [htabF, upd_same]
      refine inode_ext ?_ sS.symm (fun k => ?_) ?_
      · rw [hValid]; exact hi2V
      · rw [hDir k, hi2D]
      · rw [hInd]; exact hi2I
    · intro b
      by_cases hb : b = 1 + n / INODES_PER_BLOCK
      · exact Or.inr (Or.inl hb)
      · by_cases hbib : b = ib
        · exact Or.inr (Or.inr ⟨.indirect, trivial, by rw [hbib]; exact hInd, by rw [hbib]; exact hib0⟩)
        · have e1 : mF.disk.data b = m3.disk.data b := by
            rw [hmF]
            simp only [Disk.write]
            rw [upd_other _ _ _ _ hbib, hm4]
            exact update_inode_data m3 n _ _ b hb
          rw [e1]
          rcases W2.data b with h | ⟨hb0, j, _, hj, _, hjb⟩
          · rw [h, hm2.1]
            rcases W1.data b with h | ⟨hb0, j, _, hj, _, hjb⟩
            · exact Or.inl h
            · exact Or.inr (Or.inr ⟨.direct j, hj, by rw [hCf (.direct j) hj]; exact hjb, hb0⟩)
          · exact Or.inr (Or.inr ⟨.entry j, hj, by rw [hCf (.entry j) hj]; exact hjb, hb0⟩)
  have hkeepW : WriteKeep m n off (w1 + w2) mF := by
    intro k hk hne q hq hge
    simp only [POINTERS_PER_INODE, POINTERS_PER_BLOCK, BLOCK_SIZE] at hk hq hge
    have hr := logical_inRange k hk
    rw [hCf _ hr] at hne ⊢
    by_cases hd : k < 5
    · have hl : logical k = .direct k := by
        simp only [logical, POINTERS_PER_INODE, hd, if_true]
      rw [hl] at hne ⊢
      have hne1 : D1 k ≠ 0 := hne
      show mF.disk.data (D1 k) q = m.disk.data (D1 k) q
      rw [hkeepD k hd hne1]
      rcases htie1 (D1 k) q with h | ⟨pos, p1, p2, p3, p4⟩
      · exact h
      · exfalso
        have := hokf.2 (.direct k) (.direct (pos / 4096)) hd (hnew1 pos p1 p2).1 p3 hne1
        injection this with this
        omega
    · have hl : logical k = .entry (k - 5) := by
        simp only [logical, POINTERS_PER_INODE, hd, if_false]
      rw [hl] at hr hne ⊢
      have hr1 : k - 5 < 1024 := hr
      have hne1 : E2 (k - 5) ≠ 0 := hne
      show mF.disk.data (E2 (k - 5)) q = m.disk.data (E2 (k - 5)) q
      rw [hkeepE _ hr1 hne1]
      rcases htie2 (E2 (k - 5)) q with h | ⟨pos, p1, p2, p3, p4⟩
      · rw [h, hm2.1]
        rcases W1.data (E2 (k - 5)) with h | ⟨_, j, _, hj1, _, hjb⟩
        · rw [h]
        · exfalso
          have := hokf.2 (.direct j) (.entry (k - 5)) hj1 hr1 hjb
            (by show D1 j ≠ 0; rw [hjb]; exact hne1)
          injection this
      · exfalso
        have := hokf.2 (.entry (k - 5)) (.entry (pos / 4096)) hr1 (hnew2 pos p1 p2).1 p3 hne1
        injection this with this
        omega
  refine ⟨⟨hInv, hsize, valid_congr hv hsize hino hvaln, hSz, ?_, ?_⟩, hframe,
    fun j hj hne => hrangef (.direct j) hj hne, fun j hj hne => hrangef (.entry j) hj hne,
    hibr, hInd, hkeepW⟩
  · intro i hi
    by_cases hi1 : i < w1
    · obtain ⟨h1, h2, h3⟩ := hnew1 (off + i) (by omega) (by omega)
      rw [fileByte_eq, pointer_logical_direct _ n _ h1, hDir, hkeepD _ h1 h2, h3]
      congr 1
      omega
    · obtain ⟨h1, h2, h3⟩ := hnew2 (off + i - 5 * 4096) (by omega) (by omega)
      have q1 : (off + i) / 4096 - 5 = (off + i - 5 * 4096) / 4096 := by omega
      have q2 : (off + i) % 4096 = (off + i - 5 * 4096) % 4096 := by omega
      rw [fileByte_eq, pointer_logical_entry _ n _ (by omega), q1, q2, hCf (.entry ((off + i - 5 * 4096) / 4096)) h1]
      show mF.disk.data (E2 ((off + i - 5 * 4096) / 4096)) ((off + i - 5 * 4096) % 4096) = data i
      rw [hkeepE _ h1 h2, h3]
      congr 1
      omega
  · intro p hp
    have hk : p / 4096 < 5 + 1024 := by omega
    have h0 := hcovold (p / 4096) hv (by omega)
    have hr := logical_inRange _ hk
    have e := GF.old _ hr h0
    rw [fileByte_eq, fileByte_eq, e]
    by_cases hd : p / 4096 < 5
    · rw [pointer_logical_direct m n _ hd] at h0 ⊢
      have e1 : D1 (p / 4096) = (m.inode n).Direct (p / 4096) := W1.old _ h0
      have := hkeepD _ hd (by rw [e1]; exact h0)
      rw [e1] at this
      rw [this]
      exact hpre1 p hp hd h0
    · rw [pointer_logical_entry m n _ (by omega)] at h0 ⊢
      have hj : p / 4096 - 5 < 1024 := by omega
      have e0 : pblk.Pointers (p / 4096 - 5) = m.pointer n (.entry (p / 4096 - 5)) := hEold _
      have e1 : E2 (p / 4096 - 5) = pblk.Pointers (p / 4096 - 5) :=
        W2.old _ (by rw [e0]; exact h0)
      have hE : E2 (p / 4096 - 5) ≠ 0 := by rw [e1, e0]; exact h0
      have k1 := hkeepE _ hj hE
      rw [e1, e0] at k1
      rw [k1]
      have q1 : p / 4096 - 5 = (p - 5 * 4096) / 4096 := by omega
      have q2 : p % 4096 = (p - 5 * 4096) % 4096 := by omega
      have k2 := hpre2 (p - 5 * 4096) (by omega) (by omega) (by rw [← q1, e0]; exact h0)
      rw [← q1, ← q2, e0, hm2.1] at k2
      rw [k2]
      -- the first walk does not touch a block held in an entry
      rcases W1.data (m.pointer n (.entry (p / 4096 - 5))) with h | ⟨_, j, _, hj1, _, hjb⟩
      · rw [h]
      · exfalso
        have := hokf.2 (.direct j) (.entry (p / 4096 - 5)) hj1 hj
          (by show D1 j = E2 (p / 4096 - 5); rw [hjb, e1, e0])
          (by show D1 j ≠ 0; rw [hjb]; exact h0)
        injection this

/-! ## The device writes of a slot walk -/

theorem put_block_log (m : Mounted) (b o : Nat) (data : Buffer) (w n : Nat) :
    (put_block m b o data w n).disk.log = m.disk.log ++ [b] := rfl

/-- The slot walk of `i_write` appends to the device log one write for each slot it
fills, and the block written is the one the slot holds at the end. -/
theorem i_write_loop_log (len : Nat) (data : Buffer) (off : Nat) :
    ∀ k d w ptrs m, m.disk.size ≤ 4294967296 → off + w = max off (d * BLOCK_SIZE) → w < len →
      ∃ pre, (i_write_loop len data off k d w ptrs m).2.2.disk.log = m.disk.log ++ pre ∧
        ∀ b, b ∈ pre → ∃ j, d ≤ j ∧ j < d + k ∧
          (i_write_loop len data off k d w ptrs m).2.1 j = b ∧ b ≠ 0 := by
  intro k
  induction k with
  | zero =>
    intro d w ptrs m _ _ _
    exact ⟨[], by simp [i_write_loop], fun b hb => absurd hb (List.not_mem_nil b)⟩
  | succ k ih =>
    intro d w ptrs m hN hpos hw
    rw [i_write_loop_succ len data off k d w ptrs m hN hpos hw]
    by_cases hskip : off ≥ (d + 1) * BLOCK_SIZE
    · rw [if_pos hskip]
      have hp2 : off + w = max off ((d + 1) * BLOCK_SIZE) := by
        simp only [BLOCK_SIZE] at *; omega
      obtain ⟨pre, h1, h2⟩ := ih (d + 1) w ptrs m hN hp2 hw
      refine ⟨pre, h1, fun b hb => ?_⟩
      obtain ⟨j, j1, j2, j3⟩ := h2 b hb
      exact ⟨j, by omega, by omega, j3⟩
    · rw [if_neg hskip]
      cases hacq : acquire ptrs d m with
      | none => exact ⟨[], by simp, fun b hb => absurd hb (List.not_mem_nil b)⟩
      | some r =>
        obtain ⟨p1, m1⟩ := r
        have hne := acquire_ne_zero hacq
        have hdisk := acquire_size hacq
        simp only []
        by_cases hlast : len - w ≤ (d + 1) * BLOCK_SIZE - (off + w)
        · rw [if_pos hlast]
          refine ⟨[p1 d], by rw [put_block_log, hdisk], fun b hb => ?_⟩
          rw [List.mem_singleton] at hb
          exact ⟨d, le_refl _, by omega, hb.symm, by rw [hb]; exact hne⟩
        · rw [if_neg hlast]
          have hp2 : off + (w + ((d + 1) * BLOCK_SIZE - (off + w)))
              = max off ((d + 1) * BLOCK_SIZE) := by
            simp only [BLOCK_SIZE] at *; omega
          have hw2 : w + ((d + 1) * BLOCK_SIZE - (off + w)) < len := by
            simp only [BLOCK_SIZE] at *; omega
          have hN1 : (put_block m1 (p1 d) (off + w - d * BLOCK_SIZE) data w
              ((d + 1) * BLOCK_SIZE - (off + w))).disk.size ≤ 4294967296 := by
            show m1.disk.size ≤ 4294967296
            rw [hdisk]; exact hN
          obtain ⟨pre, h1, h2⟩ := ih (d + 1) _ p1 _ hN1 hp2 hw2
          have W := i_write_loop_walk len data off k (d + 1) _ p1 _ hN1 hp2 hw2
          refine ⟨p1 d :: pre, ?_, fun b hb => ?_⟩
          · rw [h1, put_block_log, hdisk, List.append_assoc]
            rfl
          · rcases List.mem_cons.mp hb with hb | hb
            · refine ⟨d, le_refl _, by omega, ?_, by rw [hb]; exact hne⟩
              rw [hb]
              exact W.outside d (Or.inl (by omega))
            · obtain ⟨j, j1, j2, j3⟩ := h2 b hb
              exact ⟨j, by omega, by omega, j3⟩

/-- After the slot walk of `i_write`, every byte of the device is the byte it was before
the walk or a byte of the caller's data copied by the walk. -/
theorem i_write_loop_prior (len : Nat) (data : Buffer) (off : Nat) :
    ∀ k d w ptrs m, m.disk.size ≤ 4294967296 → off + w = max off (d * BLOCK_SIZE) → w < len →
      ∀ b q, (i_write_loop len data off k d w ptrs m).2.2.disk.data b q = m.disk.data b q ∨
        ∃ pos, off + w ≤ pos ∧ pos < off + (i_write_loop len data off k d w ptrs m).1 ∧
          q = pos % BLOCK_SIZE ∧
          (i_write_loop len data off k d w ptrs m).2.2.disk.data b q = data (pos - off) := by
  intro k
  induction k with
  | zero =>
    intro d w ptrs m _ _ _ b q
    exact Or.inl rfl
  | succ k ih =>
    intro d w ptrs m hN hpos hw b q
    rw [i_write_loop_succ len data off k d w ptrs m hN hpos hw]
    have hpos' : off + w = max off (d * 4096) := hpos
    by_cases hskip : off ≥ (d + 1) * BLOCK_SIZE
    · rw [if_pos hskip]
      have hp2 : off + w = max off ((d + 1) * BLOCK_SIZE) := by
        simp only [BLOCK_SIZE] at *; omega
      exact ih (d + 1) w ptrs m hN hp2 hw b q
    · rw [if_neg hskip]
      have hskip' : ¬ off ≥ (d + 1) * 4096 := hskip
      cases hacq : acquire ptrs d m with
      | none => exact Or.inl rfl
      | some r =>
        obtain ⟨p1, m1⟩ := r
        have hdisk := acquire_size hacq
        simp only []
        have hone : ∀ n, off + w + n ≤ (d + 1) * 4096 →
            (put_block m1 (p1 d) (off + w - d * 4096) data w n).disk.data b q = m.disk.data b q ∨
            ∃ pos, off + w ≤ pos ∧ pos < off + w + n ∧ q = pos % 4096 ∧
              (put_block m1 (p1 d) (off + w - d * 4096) data w n).disk.data b q
                = data (pos - off) := by
          intro n hn
          rw [put_block_data]
          by_cases hb : b = p1 d
          · rw [if_pos hb]
            by_cases hq : off + w - d * 4096 ≤ q ∧ q < off + w - d * 4096 + n
            · rw [if_pos hq]
              right
              refine ⟨d * 4096 + q, by omega, by omega, by omega, ?_⟩
              congr 1
              omega
            · rw [if_neg hq, ← hb, hdisk]
              exact Or.inl rfl
          · rw [if_neg hb, hdisk]
            exact Or.inl rfl
        by_cases hlast : len - w ≤ (d + 1) * BLOCK_SIZE - (off + w)
        · rw [if_pos hlast]
          have hlast' : len - w ≤ (d + 1) * 4096 - (off + w) := hlast
          rcases hone (len - w) (by omega) with h | ⟨pos, h1, h2, h3, h4⟩
          · exact Or.inl h
          · exact Or.inr ⟨pos, h1, by show pos < off + len; omega, h3, h4⟩
        · rw [if_neg hlast]
          have hlast' : ¬ len - w ≤ (d + 1) * 4096 - (off + w) := hlast
          have hp2 : off + (w + ((d + 1) * BLOCK_SIZE - (off + w)))
              = max off ((d + 1) * BLOCK_SIZE) := by
            simp only [BLOCK_SIZE] at *; omega
          have hw2 : w + ((d + 1) * BLOCK_SIZE - (off + w)) < len := by
            simp only [BLOCK_SIZE] at *; omega
          have hN1 : (put_block m1 (p1 d) (off + w - d * BLOCK_SIZE) data w
              ((d + 1) * BLOCK_SIZE - (off + w))).disk.size ≤ 4294967296 := by
            show m1.disk.size ≤ 4294967296
            rw [hdisk]; exact hN
          have C := (i_write_loop_count len data off k (d + 1) _ p1 _ hN1 hp2 hw2).1
          rcases ih (d + 1) _ p1 _ hN1 hp2 hw2 b q with h | ⟨pos, h1, h2, h3, h4⟩
          · rw [h]
            rcases hone ((d + 1) * 4096 - (off + w)) (by omega) with h' | ⟨pos, h1, h2, h3, h4⟩
            · exact Or.inl h'
            · refine Or.inr ⟨pos, h1, ?_, h3, h4⟩
              have : w + ((d + 1) * 4096 - (off + w)) ≤ _ := C
              omega
          · exact Or.inr ⟨pos, by omega, h2, h3, h4⟩

/-- After the slot walk of `i_write`, a byte of the device that differs from the byte
before the walk lies in the block that the walk leaves in the slot of a position it
wrote, at that position's offset in the block. -/
theorem i_write_loop_tied (len : Nat) (data : Buffer) (off : Nat) :
    ∀ k d w ptrs m, m.disk.size ≤ 4294967296 → off + w = max off (d * BLOCK_SIZE) → w < len →
      ∀ b q, (i_write_loop len data off k d w ptrs m).2.2.disk.data b q = m.disk.data b q ∨
        ∃ pos, off + w ≤ pos ∧ pos < off + (i_write_loop len data off k d w ptrs m).1 ∧
          b = (i_write_loop len data off k d w ptrs m).2.1 (pos / BLOCK_SIZE) ∧
          q = pos % BLOCK_SIZE := by
  intro k
  induction k with
  | zero =>
    intro d w ptrs m _ _ _ b q
    exact Or.inl rfl
  | succ k ih =>
    intro d w ptrs m hN hpos hw b q
    rw [i_write_loop_succ len data off k d w ptrs m hN hpos hw]
    have hpos' : off + w = max off (d * 4096) := hpos
    by_cases hskip : off ≥ (d + 1) * BLOCK_SIZE
    · rw [if_pos hskip]
      have hp2 : off + w = max off ((d + 1) * BLOCK_SIZE) := by
        simp only [BLOCK_SIZE] at *; omega
      exact ih (d + 1) w ptrs m hN hp2 hw b q
    · rw [if_neg hskip]
      have hskip' : ¬ off ≥ (d + 1) * 4096 := hskip
      cases hacq : acquire ptrs d m with
      | none => exact Or.inl rfl
      | some r =>
        obtain ⟨p1, m1⟩ := r
        have hdisk := acquire_size hacq
        simp only []
        have hone : ∀ n, off + w + n ≤ (d + 1) * 4096 →
            (put_block m1 (p1 d) (off + w - d * 4096) data w n).disk.data b q = m.disk.data b q ∨
            ∃ pos, off + w ≤ pos ∧ pos < off + w + n ∧ pos / 4096 = d ∧ b = p1 d ∧
              q = pos % 4096 := by
          intro n hn
          rw [put_block_data]
          by_cases hb : b = p1 d
          · rw [if_pos hb]
            by_cases hq : off + w - d * 4096 ≤ q ∧ q < off + w - d * 4096 + n
            · right
              exact ⟨d * 4096 + q, by omega, by omega, by omega, hb, by omega⟩
            · rw [if_neg hq, ← hb, hdisk]
              exact Or.inl rfl
          · rw [if_neg hb, hdisk]
            exact Or.inl rfl
        by_cases hlast : len - w ≤ (d + 1) * BLOCK_SIZE - (off + w)
        · rw [if_pos hlast]
          have hlast' : len - w ≤ (d + 1) * 4096 - (off + w) := hlast
          rcases hone (len - w) (by omega) with h | ⟨pos, h1, h2, h3, h4, h5⟩
          · exact Or.inl h
          · refine Or.inr ⟨pos, h1, by show pos < off + len; omega, ?_, h5⟩
            have e : pos / BLOCK_SIZE = d := h3
            rw [e]
            exact h4
        · rw [if_neg hlast]
          have hlast' : ¬ len - w ≤ (d + 1) * 4096 - (off + w) := hlast
          have hp2 : off + (w + ((d + 1) * BLOCK_SIZE - (off + w)))
              = max off ((d + 1) * BLOCK_SIZE) := by
            simp only [BLOCK_SIZE] at *; omega
          have hw2 : w + ((d + 1) * BLOCK_SIZE - (off + w)) < len := by
            simp only [BLOCK_SIZE] at *; omega
          have hN1 : (put_block m1 (p1 d) (off + w - d * BLOCK_SIZE) data w
              ((d + 1) * BLOCK_SIZE - (off + w))).disk.size ≤ 4294967296 := by
            show m1.disk.size ≤ 4294967296
            rw [hdisk]; exact hN
          have C := (i_write_loop_count len data off k (d + 1) _ p1 _ hN1 hp2 hw2).1
          have W := i_write_loop_walk len data off k (d + 1) _ p1 _ hN1 hp2 hw2
          rcases ih (d + 1) _ p1 _ hN1 hp2 hw2 b q with h | ⟨pos, h1, h2, h3, h4⟩
          · rw [h]
            rcases hone ((d + 1) * 4096 - (off + w)) (by omega) with h' | ⟨pos, h1, h2, h3, h4, h5⟩
            · exact Or.inl h'
            · refine Or.inr ⟨pos, h1, ?_, ?_, h5⟩
              · have : w + ((d + 1) * 4096 - (off + w)) ≤ _ := C
                omega
              · have e : pos / BLOCK_SIZE = d := h3
                rw [e, W.outside d (Or.inl (by omega))]
                exact h4
          · exact Or.inr ⟨pos, by omega, h2, h3, h4⟩

/-! ## The specification of `write` -/

theorem ptrsOK_direct {m : Mounted} (hI : Inv m) {n : Nat} (hv : m.valid n) :
    PtrsOK 5 (m.inode n).Direct m.free_block_map := by
  have hok := hI.slotsOK hv
  refine ⟨fun j hj hne => hok.1 (.direct j) hj hne, fun i j hi hj he hne => ?_⟩
  have := hok.2 (.direct i) (.direct j) hi hj he hne
  injection this

theorem update_inode_log (m : Mounted) (n : Nat) (node : Inode) (size : Nat)
    (hn : n < m.inodes) :
    (update_inode m n node size).disk.log = m.disk.log ++ [1 + n / INODES_PER_BLOCK] := by
  rw [update_inode_eq, save_inode_eq _ n _ (by show n < m.inodes; exact hn)]
  rfl

/-- The specification of `write` together with what it leaves in the blocks of the file
past the bytes written: on a state that satisfies the invariant, `write` to a valid inode
at an offset not past the end of the file returns some count `w ≤ length`; the file then
has size `offset + w` and holds the first `w` bytes of `data` from `offset` on, and every
byte of a block of the file at a position `≥ offset + w` is the byte the device held in
that block before the call. -/
theorem write_spec_full (m : Mounted) (hI : Inv m) (n : Nat) (hv : m.valid n) (data : Buffer)
    (len off : Nat) (hlen : len ≠ 0) (hoff : off ≤ (m.inode n).Size) :
    ∃ w : Nat, (m.write n data len off).1 = (w : Int) ∧ w ≤ len ∧
      WriteOK m n data off w (m.write n data len off).2 ∧
      WriteFrame m n (m.write n data len off).2 ∧
      WriteLog m n len off (m.write n data len off).2 ∧
      WriteKeep m n off w (m.write n data len off).2 := by
  obtain ⟨hn, hval⟩ := hv
  have hv : m.valid n := ⟨hn, hval⟩
  have hN : m.disk.size ≤ 4294967296 := Nat.le_of_lt hI.small
  have hw0 : 0 < len := Nat.pos_of_ne_zero hlen
  have hpos0 : off + 0 = max off (0 * BLOCK_SIZE) := by simp
  have W1 := i_write_loop_walk len data off 5 0 0 (m.inode n).Direct m hN hpos0 hw0
  have C1 := i_write_loop_count len data off 5 0 0 (m.inode n).Direct m hN hpos0 hw0
  have B1 := i_write_loop_bytes len data off 5 0 0 (m.inode n).Direct m hN hpos0 hw0
    (by rw [Nat.zero_add]; exact ptrsOK_direct hI hv)
  have L1 := i_write_loop_log len data off 5 0 0 (m.inode n).Direct m hN hpos0 hw0
  have T1 := i_write_loop_tied len data off 5 0 0 (m.inode n).Direct m hN hpos0 hw0
  simp only [Nat.zero_add, Nat.add_zero, BLOCK_SIZE] at W1 C1 B1 L1 T1
  obtain ⟨-, c2, c3, c4⟩ := C1
  obtain ⟨hnew1, hpre1⟩ := B1
  unfold Mounted.write
  have h0 : ¬ n ≥ m.inodes := by omega
  have h1 : ¬ ((m.inode n).Valid = 0 ∨ off > (m.inode n).Size) := by
    intro h; rcases h with h | h
    · exact hval h
    · omega
  simp only [h0, if_false, hlen, load_inode_eq m n _ hn, h1, i_write, POINTERS_PER_INODE,
    POINTERS_PER_BLOCK, BLOCK_SIZE]
  generalize hr1 : i_write_loop len data off 5 0 0 (m.inode n).Direct m = r1 at *
  obtain ⟨w1, D1, m1⟩ := r1
  simp only at W1 c2 c3 c4 hnew1 hpre1 L1 T1 ⊢
  obtain ⟨pre1, hl1, hp1⟩ := L1
  have hsz1 : m1.disk.size = m.disk.size := W1.blocks
  have hn1 : n < m1.inodes := by rw [inodes_congr hsz1]; exact hn
  have hmax : off ≤ 5 * 4096 ∧ max off (5 * 4096) = 5 * 4096 ∨
      5 * 4096 < off ∧ max off (5 * 4096) = off := by
    rcases Nat.lt_or_ge (5 * 4096) off with h | h
    · exact Or.inr ⟨h, Nat.max_eq_left (Nat.le_of_lt h)⟩
    · exact Or.inl ⟨h, Nat.max_eq_right h⟩
  have hcovold := hI.covered n
  simp only [BLOCK_SIZE] at hcovold
  -- a call that ends after the direct phase
  have phase1 : ∀ w, off + w ≤ max off (5 * 4096) →
      (∀ pos, off ≤ pos → pos < off + w → pos / 4096 < 5 ∧ D1 (pos / 4096) ≠ 0 ∧
        m1.disk.data (D1 (pos / 4096)) (pos % 4096) = data (pos - off)) →
      (∀ b q, m1.disk.data b q = m.disk.data b q ∨
        ∃ pos, off ≤ pos ∧ pos < off + w ∧ b = D1 (pos / 4096) ∧ q = pos % 4096) →
      (w = len ∨ (m.inode n).Indirect = 0) →
      WriteOK m n data off w (update_inode m1 n { m.inode n with Direct := D1 } (off + w)) ∧
      WriteFrame m n (update_inode m1 n { m.inode n with Direct := D1 } (off + w)) ∧
      WriteLog m n len off (update_inode m1 n { m.inode n with Direct := D1 } (off + w)) ∧
      WriteKeep m n off w (update_inode m1 n { m.inode n with Direct := D1 } (off + w)) := by
    intro w hb hnew htie hcase
    obtain ⟨f1, f2, f3, f4, f5⟩ :=
      write_finish1 m hI n hv data off w D1 m1 W1 hoff hb hnew hpre1 htie
    refine ⟨f1, f2, ⟨pre1, [], ?_, ?_, Or.inl rfl, ?_⟩, f5⟩
    · rw [update_inode_log _ _ _ _ hn1, hl1]
    · intro b hb
      obtain ⟨j, _, hj, hjb, hb0⟩ := hp1 b hb
      rw [← hjb]
      exact f3 j hj (by rw [hjb]; exact hb0)
    · intro hbig hne
      exfalso
      rcases hcase with h | h
      · simp only [POINTERS_PER_INODE, BLOCK_SIZE] at hbig
        omega
      · rw [f4] at hne
        exact hne h
  -- the indirect phase
  have phase2 : ∀ (ib : Nat) (pblk : Block) (m2 : Mounted),
      (((m.inode n).Indirect ≠ 0 ∧ ib = (m.inode n).Indirect ∧ pblk = m1.disk.data ib ∧
          m2 = m1) ∨
        ((m.inode n).Indirect = 0 ∧ INODE_BLOCKS m.disk.size < ib ∧ ib < m.disk.size ∧
          m1.free_block_map ib = 0 ∧ pblk = zeroBlock ∧
          m2 = { m1 with free_block_map := upd m1.free_block_map ib 1 })) →
      off + w1 = max off (5 * 4096) → w1 < len →
      ∀ newOff, 5 * 4096 + newOff = off + w1 →
      ∀ r2, i_write_loop (len - w1) (shift data w1) newOff 1024 0 0 pblk.Pointers m2 = r2 →
        w1 + r2.1 ≤ len ∧
        WriteOK m n data off (w1 + r2.1)
          { update_inode r2.2.2 n { m.inode n with Direct := D1, Indirect := ib }
              (off + (w1 + r2.1)) with
            disk := (update_inode r2.2.2 n { m.inode n with Direct := D1, Indirect := ib }
              (off + (w1 + r2.1))).disk.write ib (pblk.setPointers r2.2.1) } ∧
        WriteFrame m n
          { update_inode r2.2.2 n { m.inode n with Direct := D1, Indirect := ib }
              (off + (w1 + r2.1)) with
            disk := (update_inode r2.2.2 n { m.inode n with Direct := D1, Indirect := ib }
              (off + (w1 + r2.1))).disk.write ib (pblk.setPointers r2.2.1) } ∧
        WriteLog m n len off
          { update_inode r2.2.2 n { m.inode n with Direct := D1, Indirect := ib }
              (off + (w1 + r2.1)) with
            disk := (update_inode r2.2.2 n { m.inode n with Direct := D1, Indirect := ib }
              (off + (w1 + r2.1))).disk.write ib (pblk.setPointers r2.2.1) } ∧
        WriteKeep m n off (w1 + r2.1)
          { update_inode r2.2.2 n { m.inode n with Direct := D1, Indirect := ib }
              (off + (w1 + r2.1)) with
            disk := (update_inode r2.2.2 n { m.inode n with Direct := D1, Indirect := ib }
              (off + (w1 + r2.1))).disk.write ib (pblk.setPointers r2.2.1) } := by
    intro ib pblk m2 hib hexh hlt newOff hno r2 hr2
    have hm2 : m2.disk = m1.disk := by
      rcases hib with ⟨_, _, _, h⟩ | ⟨_, _, _, _, _, h⟩
      · rw [h]
      · rw [h]
    have hN2 : m2.disk.size ≤ 4294967296 := by
      rw [hm2]
      omega
    have hposn : newOff + 0 = max newOff (0 * BLOCK_SIZE) := by simp
    have hwn : 0 < len - w1 := by omega
    have W2 := i_write_loop_walk (len - w1) (shift data w1) _ 1024 0 0 pblk.Pointers m2 hN2
      hposn hwn
    have C2 := i_write_loop_count (len - w1) (shift data w1) _ 1024 0 0 pblk.Pointers m2 hN2
      hposn hwn
    have B2 := i_write_loop_bytes (len - w1) (shift data w1) _ 1024 0 0 pblk.Pointers m2 hN2
      hposn hwn
    have L2 := i_write_loop_log (len - w1) (shift data w1) _ 1024 0 0 pblk.Pointers m2 hN2
      hposn hwn
    have T2 := i_write_loop_tied (len - w1) (shift data w1) _ 1024 0 0 pblk.Pointers m2 hN2
      hposn hwn
    rw [hr2] at W2 C2 B2 L2 T2
    simp only [Nat.zero_add, Nat.add_zero, BLOCK_SIZE] at W2 C2 B2 L2 T2
    obtain ⟨w2, E2, m3⟩ := r2
    obtain ⟨pre2, hl2, hp2⟩ := L2
    simp only at hl2 hp2
    have hn3 : n < m3.inodes := by
      have : m3.disk.size = m2.disk.size := W2.blocks
      rw [inodes_congr this]
      show INODE_BLOCKS m2.disk.size * INODES_PER_BLOCK > n
      rw [hm2]
      exact hn1
    refine ⟨by have := C2.2.1; simp only at this ⊢; omega, ?_⟩
    obtain ⟨f1, f2, f3, f4, f5, f6, f7⟩ :=
      write_finish2 m hI n hv data off w1 w2 D1 m1 W1 hoff hexh hnew1 hpre1
        (by
          intro k hk
          by_cases hko : k * 4096 < off
          · have h0 := hcovold k hv (by omega)
            rw [pointer_logical_direct m n k hk] at h0
            rw [W1.old k h0]
            exact h0
          · have := (hnew1 (k * 4096) (by omega) (by omega)).2.1
            have hq : k * 4096 / 4096 = k := by omega
            rw [hq] at this
            exact this)
        ib pblk m2 hib
        { m.inode n with Direct := D1, Indirect := ib } rfl rfl rfl newOff hno E2 m3 W2 C2.2.2.1 B2
        _ _ rfl rfl T1 T2
    refine ⟨f1, f2, ⟨pre1 ++ pre2, [ib], ?_, ?_, Or.inr (by rw [f6]), fun _ _ => by rw [f6]⟩,
      f7⟩
    · show ((update_inode m3 n _ _).disk.write ib _).log = _
      show (update_inode m3 n _ _).disk.log ++ [ib] = _
      rw [update_inode_log _ _ _ _ hn3, hl2, hm2, hl1]
      simp only [List.append_assoc, List.singleton_append]
    · intro b hb
      rcases List.mem_append.mp hb with hb | hb
      · obtain ⟨j, _, hj, hjb, hb0⟩ := hp1 b hb
        rw [← hjb]
        exact f3 j hj (by rw [hjb]; exact hb0)
      · obtain ⟨j, _, hj, hjb, hb0⟩ := hp2 b hb
        rw [← hjb]
        exact f4 j hj (by rw [hjb]; exact hb0)
  have hno : off + w1 = max off (5 * 4096) →
      5 * 4096 + (if off > 5 * 4096 then off - 5 * 4096 else 0) = off + w1 := by
    intro h
    split_ifs <;> omega
  by_cases hfull : w1 = len
  · simp only [hfull, if_true]
    refine ⟨len, rfl, le_refl _, ?_⟩
    rw [hfull] at c3 hnew1 T1
    exact phase1 len c3 hnew1 T1 (Or.inl rfl)
  · simp only [hfull, if_false]
    have hlt : w1 < len := by omega
    by_cases hind : (m.inode n).Indirect = 0
    · rw [if_pos hind]
      rcases allocate_cases m1 with ⟨hnone, _⟩ | ⟨b, hb1, hb2, hb3, hsome⟩
      · rw [hnone]
        simp only []
        exact ⟨w1, rfl, c2, phase1 w1 c3 hnew1 T1 (Or.inr hind)⟩
      · rw [hsome]
        have hub : u32 b = b := u32_of_lt (by omega)
        simp only [hub]
        have hexh : off + w1 = max off (5 * 4096) := by
          rcases c4 with h | h | ⟨h, _⟩
          · exact absurd h hfull
          · exact h
          · rw [hsome] at h; exact absurd h (by simp)
        have := phase2 b zeroBlock _ (Or.inr ⟨hind, by rw [← hsz1]; exact hb1, by rw [← hsz1]; exact hb2, hb3, rfl, rfl⟩) hexh hlt _ (hno hexh) _ rfl
        exact ⟨_, rfl, this.1, this.2⟩
    · rw [if_neg hind]
      simp only []
      have hexh : off + w1 = max off (5 * 4096) := by
        rcases c4 with h | h | ⟨_, dF, _, h1, h2⟩
        · exact absurd h hfull
        · exact h
        · exact absurd h2 (hI.direct_full n hv hind dF h1)
      have := phase2 (m.inode n).Indirect _ m1 (Or.inl ⟨hind, rfl, rfl, rfl⟩) hexh hlt _ (hno hexh) _ rfl
      exact ⟨_, rfl, this.1, this.2⟩

/-- On a state that satisfies the invariant, `write` to a valid inode at an offset not
past the end of the file returns some count `w ≤ length` and leaves a state in which the
invariant holds, the file has size `offset + w` and holds the first `w` bytes of `data`
from `offset` on; the other files are left alone, and the device writes come in the
order data blocks, inode block, indirect pointer block. -/
theorem write_spec (m : Mounted) (hI : Inv m) (n : Nat) (hv : m.valid n) (data : Buffer)
    (len off : Nat) (hlen : len ≠ 0) (hoff : off ≤ (m.inode n).Size) :
    ∃ w : Nat, (m.write n data len off).1 = (w : Int) ∧ w ≤ len ∧
      WriteOK m n data off w (m.write n data len off).2 ∧
      WriteFrame m n (m.write n data len off).2 ∧
      WriteLog m n len off (m.write n data len off).2 := by
  obtain ⟨w, h1, h2, h3, h4, h5, _⟩ := write_spec_full m hI n hv data len off hlen hoff
  exact ⟨w, h1, h2, h3, h4, h5⟩

/-! ## The invariant across `create` and `remove` -/

/-- The invariant carries over to a state in which every valid inode is either an
unchanged valid inode of the old state, or an empty inode without pointers. -/
theorem Inv.transfer {m m1 : Mounted} (hI : Inv m) (hsize : m1.disk.size = m.disk.size)
    (hcache : ∀ n1, n1 < m.inodes →
      ((m1.inode_table n1).Valid = 0 ↔ (m1.inode n1).Valid = 0))
    (hsub : ∀ n1, m1.valid n1 →
      (m.valid n1 ∧ m1.inode n1 = m.inode n1 ∧ ∀ s, m1.pointer n1 s = m.pointer n1 s) ∨
      ((m1.inode n1).Size = 0 ∧ ∀ s, m1.pointer n1 s = 0))
    (hexact : ∀ b, m1.free_block_map b = 1 ↔
      (b ≤ INODE_BLOCKS m.disk.size ∨ m1.referenced b)) : Inv m1 := by
  have hT : m1.inodes = m.inodes := inodes_congr hsize
  refine ⟨by rw [hsize]; exact hI.small, ?_, ?_, ?_, ?_, ?_, ?_, ?_⟩
  · intro n1 h1
    rw [hT] at h1
    exact hcache n1 h1
  · intro n1 s hv1 hs hne
    rw [hsize]
    rcases hsub n1 hv1 with ⟨hv, _, hp⟩ | ⟨_, hp⟩
    · rw [hp s] at hne ⊢
      exact hI.range n1 s hv hs hne
    · exact absurd (hp s) hne
  · intro b
    rw [hsize]
    exact hexact b
  · intro n1 s n2 s2 hv1 hv2 hs hs2 he hne
    rcases hsub n1 hv1 with ⟨hv, _, hp⟩ | ⟨_, hp⟩
    · rcases hsub n2 hv2 with ⟨hv', _, hp'⟩ | ⟨_, hp'⟩
      · rw [hp s, hp' s2] at he
        rw [hp s] at hne
        exact hI.noalias n1 s n2 s2 hv hv' hs hs2 he hne
      · rw [he, hp' s2] at hne
        exact absurd rfl hne
    · exact absurd (hp s) hne
  · intro n1 k hv1 hk
    rcases hsub n1 hv1 with ⟨hv, hi, hp⟩ | ⟨h0, _⟩
    · rw [hp]
      rw [hi] at hk
      exact hI.covered n1 k hv hk
    · rw [h0] at hk
      exact absurd hk (Nat.not_lt_zero _)
  · intro n1 hv1 hind
    rcases hsub n1 hv1 with ⟨hv, hi, _⟩ | ⟨_, hp⟩
    · rw [hi] at hind ⊢
      exact hI.direct_full n1 hv hind
    · exact absurd (hp .indirect) hind
  · intro n1 hv1
    rcases hsub n1 hv1 with ⟨hv, hi, _⟩ | ⟨h0, _⟩
    · rw [hi]
      exact hI.size_le n1 hv
    · rw [h0]
      exact Nat.zero_le _

/-- A call that rewrites only the inode record `n` leaves the slots of every other
valid inode as they were. -/
theorem pointer_frame {m m1 : Mounted} (hI : Inv m) {n : Nat} (hn : n < m.inodes)
    (hino : ∀ n1, n1 ≠ n → n1 < m.inodes → m1.inode n1 = m.inode n1)
    (hdata : ∀ b, b ≠ 1 + n / INODES_PER_BLOCK → m1.disk.data b = m.disk.data b)
    (n1 : Nat) (hne : n1 ≠ n) (hv1 : m.valid n1) (s : Slot) :
    m1.pointer n1 s = m.pointer n1 s := by
  apply pointer_congr (hino n1 hne hv1.1)
  intro hind
  apply hdata
  have := (hI.range n1 .indirect hv1 trivial hind).1
  have h2 := inodes_block_le m n hn
  have : INODE_BLOCKS m.disk.size < (m.inode n1).Indirect := this
  omega

/-! ### `set_free_block_map` -/

theorem set_free_block_map_cases (map p : Nat → Nat) (v b : Nat) : ∀ cnt,
    set_free_block_map map p cnt v b = v ∨ set_free_block_map map p cnt v b = map b := by
  intro cnt
  induction cnt with
  | zero => exact Or.inr rfl
  | succ i ih =>
    simp only [set_free_block_map]
    by_cases h : p i ≠ 0
    · rw [if_pos h]
      by_cases hb : b = p i
      · left; rw [hb, upd_same]
      · rw [upd_other _ _ _ _ hb]; exact ih
    · rw [if_neg h]; exact ih

theorem set_free_block_map_hit (map p : Nat → Nat) (v b : Nat) : ∀ cnt,
    (∃ i, i < cnt ∧ p i ≠ 0 ∧ p i = b) → set_free_block_map map p cnt v b = v := by
  intro cnt
  induction cnt with
  | zero => intro ⟨i, hi, _⟩; exact absurd hi (Nat.not_lt_zero _)
  | succ c ih =>
    intro ⟨i, hi, hne, he⟩
    simp only [set_free_block_map]
    by_cases h : p c ≠ 0
    · rw [if_pos h]
      by_cases hb : b = p c
      · rw [hb, upd_same]
      · rw [upd_other _ _ _ _ hb]
        apply ih
        refine ⟨i, ?_, hne, he⟩
        rcases Nat.lt_or_ge i c with h1 | h1
        · exact h1
        · have : i = c := by omega
          subst this
          exact absurd he.symm hb
    · rw [if_neg h]
      apply ih
      refine ⟨i, ?_, hne, he⟩
      rcases Nat.lt_or_ge i c with h1 | h1
      · exact h1
      · have : i = c := by omega
        subst this
        exact absurd hne h

theorem set_free_block_map_miss (map p : Nat → Nat) (v b : Nat) : ∀ cnt,
    (∀ i, i < cnt → p i ≠ 0 → p i ≠ b) → set_free_block_map map p cnt v b = map b := by
  intro cnt
  induction cnt with
  | zero => intro _; rfl
  | succ c ih =>
    intro hm
    simp only [set_free_block_map]
    have ih1 := ih (fun i hi => hm i (Nat.lt_succ_of_lt hi))
    by_cases h : p c ≠ 0
    · rw [if_pos h]
      rw [upd_other _ _ _ _ (Ne.symm (hm c (Nat.lt_succ_self c) h))]
      exact ih1
    · rw [if_neg h]
      exact ih1

theorem set_free_block_map_keep (map p : Nat → Nat) (v b cnt : Nat) (h : map b = v) :
    set_free_block_map map p cnt v b = v := by
  rcases set_free_block_map_cases map p v b cnt with h1 | h1
  · exact h1
  · rw [h1, h]

/-! ### create -/

theorem create_scan_spec (table : Nat → Inode) : ∀ k inum,
    inum ≤ create_scan table k inum ∧ create_scan table k inum ≤ inum + k ∧
      (create_scan table k inum < inum + k → (table (create_scan table k inum)).Valid = 0) := by
  intro k
  induction k with
  | zero => intro inum; simp [create_scan]
  | succ k ih =>
    intro inum
    simp only [create_scan]
    by_cases h : (table inum).Valid = 0
    · rw [if_pos h]
      exact ⟨le_refl _, by omega, fun _ => h⟩
    · rw [if_neg h]
      obtain ⟨h1, h2, h3⟩ := ih (inum + 1)
      exact ⟨by omega, by omega, fun hlt => h3 (by omega)⟩

/-- What `create` does: it fails and changes nothing, or it takes an inode number whose
cache entry is not valid and stores a valid empty inode in the cache and on disk. -/
theorem create_cases (m : Mounted) :
    m.create = (-1, m) ∨
    ∃ inum, inum < m.inodes ∧ (m.inode_table inum).Valid = 0 ∧
      m.create = ((inum : Int),
        (save_inode { m with inode_table := upd m.inode_table inum (Inode.mk 1 0 (fun _ => 0) 0) }
          inum (Inode.mk 1 0 (fun _ => 0) 0)).2) := by
  unfold Mounted.create
  simp only []
  by_cases hlt : ((create_scan m.inode_table (create_inodes m.disk.size).toNat 0 : Nat) : Int)
      < create_inodes m.disk.size
  · rw [if_pos hlt]
    right
    have hlt2 : create_scan m.inode_table (create_inodes m.disk.size).toNat 0
        < (create_inodes m.disk.size).toNat := by omega
    have hle : (create_inodes m.disk.size).toNat ≤ m.inodes := by
      unfold create_inodes Mounted.inodes u32
      simp only []
      have := Nat.mod_le (INODE_BLOCKS m.disk.size * INODES_PER_BLOCK) 4294967296
      split_ifs <;> omega
    obtain ⟨_, _, h3⟩ := create_scan_spec m.inode_table (create_inodes m.disk.size).toNat 0
    refine ⟨_, by omega, h3 (by omega), ?_⟩
    rw [save_inode_fst _ _ _ (by show _ < m.inodes; omega)]
    simp only [if_true]
    rfl
  · rw [if_neg hlt]
    left
    trivial

theorem create_inv (m : Mounted) (hI : Inv m) : Inv m.create.2 := by
  rcases create_cases m with h | ⟨inum, hn, hfree, h⟩
  · rw [h]; exact hI
  · have hnv : (m.inode inum).Valid = 0 := (hI.cache inum hn).mp hfree
    have hninv : ¬ m.valid inum := fun hv => hv.2 hnv
    obtain ⟨m', hm'⟩ : ∃ m' : Mounted,
        m' = { m with inode_table := upd m.inode_table inum (Inode.mk 1 0 (fun _ => 0) 0) } :=
      ⟨_, rfl⟩
    have ht : m'.inode_table = upd m.inode_table inum (Inode.mk 1 0 (fun _ => 0) 0) := by
      rw [hm']
    have hmp : m'.free_block_map = m.free_block_map := by rw [hm']
    have hd : m'.disk = m.disk := by rw [hm']
    rw [h]
    simp only []
    rw [← hm']
    clear hm' h
    have hn' : inum < m'.inodes := by unfold Mounted.inodes; rw [hd]; exact hn
    obtain ⟨f1, f2, f3, -, -⟩ := save_inode_frame m' inum (Inode.mk 1 0 (fun _ => 0) 0)
    obtain ⟨sV, sS, sI, sD⟩ := inode_save_same m' inum (Inode.mk 1 0 (fun _ => 0) 0) hn'
    have hino : ∀ n1, n1 ≠ inum → n1 < m.inodes →
        (save_inode m' inum (Inode.mk 1 0 (fun _ => 0) 0)).2.inode n1 = m.inode n1 := by
      intro n1 hne _
      rw [inode_save_other m' inum n1 _ hn' hne]
      exact inode_eq_of_data n1 (by rw [hd])
    have hdata : ∀ b, b ≠ 1 + inum / INODES_PER_BLOCK →
        (save_inode m' inum (Inode.mk 1 0 (fun _ => 0) 0)).2.disk.data b = m.disk.data b := by
      intro b hb
      rw [save_inode_data_other m' inum _ b hb, hd]
    have hsize : (save_inode m' inum (Inode.mk 1 0 (fun _ => 0) 0)).2.disk.size = m.disk.size := by
      show (save_inode m' inum _).2.disk.Blocks = m.disk.Blocks
      rw [f3, hd]
    have hT := inodes_congr hsize
    have hV1 : ((save_inode m' inum (Inode.mk 1 0 (fun _ => 0) 0)).2.inode inum).Valid = 1 := by
      rw [sV]; rfl
    have hp0 : ∀ s, (save_inode m' inum (Inode.mk 1 0 (fun _ => 0) 0)).2.pointer inum s = 0 := by
      intro s
      cases s with
      | direct k =>
        show ((save_inode m' inum _).2.inode inum).Direct k = 0
        rw [sD k]
        split_ifs
        · rfl
        · rfl
      | indirect =>
        show ((save_inode m' inum _).2.inode inum).Indirect = 0
        rw [sI]; rfl
      | entry k =>
        have : ((save_inode m' inum (Inode.mk 1 0 (fun _ => 0) 0)).2.inode inum).Indirect = 0 := by
          rw [sI]; rfl
        simp only [Mounted.pointer, this, if_true]
    have hvalid : ∀ n1, n1 ≠ inum →
        ((save_inode m' inum (Inode.mk 1 0 (fun _ => 0) 0)).2.valid n1 ↔ m.valid n1) := by
      intro n1 hne
      unfold Mounted.valid
      rw [hT]
      constructor
      · intro ⟨h1, h2⟩
        rw [hino n1 hne h1] at h2
        exact ⟨h1, h2⟩
      · intro ⟨h1, h2⟩
        rw [← hino n1 hne h1] at h2
        exact ⟨h1, h2⟩
    refine hI.transfer hsize ?_ ?_ ?_
    · intro n1 h1
      rw [f1, ht]
      by_cases hne : n1 = inum
      · rw [hne]
        simp only [upd_same, hV1]
      · rw [upd_other _ _ _ _ hne, hino n1 hne h1]
        exact hI.cache n1 h1
    · intro n1 hv1
      by_cases hne : n1 = inum
      · rw [hne]
        right
        refine ⟨?_, hp0⟩
        rw [sS]; rfl
      · left
        have hv := (hvalid n1 hne).mp hv1
        exact ⟨hv, hino n1 hne hv.1, pointer_frame hI hn hino hdata n1 hne hv⟩
    · intro b
      rw [f2, hmp, hI.exact b]
      apply or_congr Iff.rfl
      constructor
      · intro ⟨n1, s, hv, hs, hp, hb⟩
        have hne : n1 ≠ inum := fun h => hninv (h ▸ hv)
        exact ⟨n1, s, (hvalid n1 hne).mpr hv, hs,
          by rw [pointer_frame hI hn hino hdata n1 hne hv]; exact hp, hb⟩
      · intro ⟨n1, s, hv1, hs, hp, hb⟩
        have hne : n1 ≠ inum := by
          intro h
          rw [h, hp0 s] at hp
          exact hb hp.symm
        have hv := (hvalid n1 hne).mp hv1
        exact ⟨n1, s, hv, hs, by rw [← pointer_frame hI hn hino hdata n1 hne hv]; exact hp, hb⟩

/-! ### remove -/

theorem remove_fail (m : Mounted) (n : Nat) (h : ¬ m.valid n) : m.remove n = (false, m) := by
  unfold Mounted.remove
  by_cases hn : n ≥ m.inodes
  · rw [if_pos hn]
  · rw [if_neg hn]
    have hn1 : n < m.inodes := Nat.lt_of_not_ge hn
    simp only [load_inode_eq m n _ hn1]
    have : (m.inode n).Valid = 0 := by
      by_contra hc
      exact h ⟨hn1, hc⟩
    rw [if_pos this]

/-- The bitmap after the three `set_free_block_map` calls of `remove`. -/
theorem remove_map (m : Mounted) (n : Nat) (map3 : Nat → Nat)
    (h3 : map3 = if (m.inode n).Indirect ≠ 0 then
      set_free_block_map
        (set_free_block_map
          (set_free_block_map m.free_block_map (m.inode n).Direct POINTERS_PER_INODE 0)
          (fun _ => (m.inode n).Indirect) 1 0)
        (m.disk.read (m.inode n).Indirect).Pointers POINTERS_PER_BLOCK 0
      else
        set_free_block_map
          (set_free_block_map m.free_block_map (m.inode n).Direct POINTERS_PER_INODE 0)
          (fun _ => (m.inode n).Indirect) 1 0) (b : Nat) :
    ((∃ s, Slot.inRange s ∧ m.pointer n s = b ∧ b ≠ 0) → map3 b = 0) ∧
    ((∀ s, Slot.inRange s → m.pointer n s ≠ 0 → m.pointer n s ≠ b) →
      map3 b = m.free_block_map b) := by
  constructor
  · intro ⟨s, hs, hp, hb⟩
    have key : set_free_block_map
          (set_free_block_map m.free_block_map (m.inode n).Direct POINTERS_PER_INODE 0)
          (fun _ => (m.inode n).Indirect) 1 0 b = 0 ∨
        ∃ k, s = .entry k := by
      cases s with
      | direct k =>
        left
        apply set_free_block_map_keep
        exact set_free_block_map_hit _ _ _ _ _ ⟨k, hs, by rw [← hp] at hb; exact hb, hp⟩
      | indirect =>
        left
        exact set_free_block_map_hit _ _ _ _ _
          ⟨0, Nat.one_pos, by rw [← hp] at hb; exact hb, hp⟩
      | entry k => exact Or.inr ⟨k, rfl⟩
    rw [h3]
    by_cases hind : (m.inode n).Indirect ≠ 0
    · rw [if_pos hind]
      rcases key with h | ⟨k, hk⟩
      · exact set_free_block_map_keep _ _ _ _ _ h
      · subst hk
        have hp' : (m.disk.read (m.inode n).Indirect).Pointers k = b := by
          rw [← hp]
          simp only [Mounted.pointer, hind, if_false]
        exact set_free_block_map_hit _ _ _ _ _ ⟨k, hs, by rw [hp']; exact hb, hp'⟩
    · rw [if_neg hind]
      rcases key with h | ⟨k, hk⟩
      · exact h
      · subst hk
        exfalso
        have : (m.inode n).Indirect = 0 := by
          by_contra hc
          exact hind hc
        simp only [Mounted.pointer, this, if_true] at hp
        exact hb hp.symm
  · intro hmiss
    have h1 : set_free_block_map m.free_block_map (m.inode n).Direct POINTERS_PER_INODE 0 b
        = m.free_block_map b :=
      set_free_block_map_miss _ _ _ _ _ (fun i hi hne => hmiss (.direct i) hi hne)
    have h2 : set_free_block_map
          (set_free_block_map m.free_block_map (m.inode n).Direct POINTERS_PER_INODE 0)
          (fun _ => (m.inode n).Indirect) 1 0 b = m.free_block_map b := by
      have := set_free_block_map_miss
        (set_free_block_map m.free_block_map (m.inode n).Direct POINTERS_PER_INODE 0)
        (fun _ => (m.inode n).Indirect) 0 b 1 (fun i _ hne => hmiss .indirect trivial hne)
      rw [this]
      exact h1
    rw [h3]
    by_cases hind : (m.inode n).Indirect ≠ 0
    · rw [if_pos hind]
      rw [set_free_block_map_miss _ _ _ _ _ (fun i hi hne => ?_)]
      · exact h2
      · have := hmiss (.entry i) hi
        simp only [Mounted.pointer, hind, if_false] at this
        exact this hne
    · rw [if_neg hind]
      exact h2

theorem remove_eq (m : Mounted) (n : Nat) (hv : m.valid n) :
    ∃ map3, (∀ b,
      ((∃ s, Slot.inRange s ∧ m.pointer n s = b ∧ b ≠ 0) → map3 b = 0) ∧
      ((∀ s, Slot.inRange s → m.pointer n s ≠ 0 → m.pointer n s ≠ b) →
        map3 b = m.free_block_map b)) ∧
      m.remove n = save_inode
        { m with free_block_map := map3, inode_table := upd m.inode_table n Inode.zero }
        n Inode.zero := by
  refine ⟨_, fun b => remove_map m n _ rfl b, ?_⟩
  unfold Mounted.remove
  have hn : ¬ n ≥ m.inodes := Nat.not_le.mpr hv.1
  rw [if_neg hn]
  simp only [load_inode_eq m n _ hv.1]
  rw [if_neg hv.2]

theorem remove_inv (m : Mounted) (hI : Inv m) (n : Nat) : Inv (m.remove n).2 := by
  by_cases hv : m.valid n
  swap
  · rw [remove_fail m n hv]; exact hI
  obtain ⟨map3, hmap, h⟩ := remove_eq m n hv
  have hn := hv.1
  obtain ⟨m', hm'⟩ : ∃ m' : Mounted,
      m' = { m with free_block_map := map3, inode_table := upd m.inode_table n Inode.zero } :=
    ⟨_, rfl⟩
  have ht : m'.inode_table = upd m.inode_table n Inode.zero := by rw [hm']
  have hmp : m'.free_block_map = map3 := by rw [hm']
  have hd : m'.disk = m.disk := by rw [hm']
  rw [h, ← hm']
  clear hm' h
  have hn' : n < m'.inodes := by unfold Mounted.inodes; rw [hd]; exact hn
  obtain ⟨f1, f2, f3, -, -⟩ := save_inode_frame m' n Inode.zero
  obtain ⟨sV, -, -, -⟩ := inode_save_same m' n Inode.zero hn'
  have hino : ∀ n1, n1 ≠ n → n1 < m.inodes →
      (save_inode m' n Inode.zero).2.inode n1 = m.inode n1 := by
    intro n1 hne _
    rw [inode_save_other m' n n1 _ hn' hne]
    exact inode_eq_of_data n1 (by rw [hd])
  have hdata : ∀ b, b ≠ 1 + n / INODES_PER_BLOCK →
      (save_inode m' n Inode.zero).2.disk.data b = m.disk.data b := by
    intro b hb
    rw [save_inode_data_other m' n _ b hb, hd]
  have hsize : (save_inode m' n Inode.zero).2.disk.size = m.disk.size := by
    show (save_inode m' n _).2.disk.Blocks = m.disk.Blocks
    rw [f3, hd]
  have hT := inodes_congr hsize
  have hV0 : ((save_inode m' n Inode.zero).2.inode n).Valid = 0 := by
    rw [sV]; rfl
  have hvalid : ∀ n1, (save_inode m' n Inode.zero).2.valid n1 ↔ (n1 ≠ n ∧ m.valid n1) := by
    intro n1
    unfold Mounted.valid
    rw [hT]
    constructor
    · intro ⟨h1, h2⟩
      have hne : n1 ≠ n := by
        intro h
        rw [h] at h2
        exact h2 hV0
      rw [hino n1 hne h1] at h2
      exact ⟨hne, h1, h2⟩
    · intro ⟨hne, h1, h2⟩
      rw [← hino n1 hne h1] at h2
      exact ⟨h1, h2⟩
  refine hI.transfer hsize ?_ ?_ ?_
  · intro n1 h1
    rw [f1, ht]
    by_cases hne : n1 = n
    · rw [hne]
      simp only [upd_same, hV0]
      exact ⟨fun _ => trivial, fun _ => rfl⟩
    · rw [upd_other _ _ _ _ hne, hino n1 hne h1]
      exact hI.cache n1 h1
  · intro n1 hv1
    obtain ⟨hne, hv1'⟩ := (hvalid n1).mp hv1
    left
    exact ⟨hv1', hino n1 hne hv1'.1, pointer_frame hI hn hino hdata n1 hne hv1'⟩
  · intro b
    rw [f2, hmp]
    by_cases hb : ∃ s, Slot.inRange s ∧ m.pointer n s = b ∧ b ≠ 0
    · rw [(hmap b).1 hb]
      obtain ⟨s, hs, hp, hb0⟩ := hb
      have hr := hI.range n s hv hs (by rw [hp]; exact hb0)
      rw [hp] at hr
      constructor
      · intro h; exact absurd h (by decide)
      · intro h
        exfalso
        rcases h with h | ⟨n1, s1, hv1, hs1, hp1, _⟩
        · omega
        · obtain ⟨hne, hv1'⟩ := (hvalid n1).mp hv1
          rw [pointer_frame hI hn hino hdata n1 hne hv1'] at hp1
          have := hI.noalias n1 s1 n s hv1' hv hs1 hs (by rw [hp1, hp]) (by rw [hp1]; exact hb0)
          exact hne this.1
    · have hmiss : ∀ s, Slot.inRange s → m.pointer n s ≠ 0 → m.pointer n s ≠ b := by
        intro s hs hne he
        exact hb ⟨s, hs, he, by rw [← he]; exact hne⟩
      rw [(hmap b).2 hmiss, hI.exact b]
      apply or_congr Iff.rfl
      constructor
      · intro ⟨n1, s, hv1, hs, hp, hb0⟩
        have hne : n1 ≠ n := by
          intro h
          rw [h] at hp
          exact hb ⟨s, hs, hp, hb0⟩
        exact ⟨n1, s, (hvalid n1).mpr ⟨hne, hv1⟩, hs,
          by rw [pointer_frame hI hn hino hdata n1 hne hv1]; exact hp, hb0⟩
      · intro ⟨n1, s, hv1, hs, hp, hb0⟩
        obtain ⟨hne, hv1'⟩ := (hvalid n1).mp hv1
        exact ⟨n1, s, hv1', hs,
          by rw [← pointer_frame hI hn hino hdata n1 hne hv1']; exact hp, hb0⟩

/-! ### stat and read change nothing -/

theorem stat_state (m : Mounted) (n : Nat) : (m.stat n).2 = m := by
  unfold Mounted.stat
  simp only []
  split_ifs <;> rfl

/-! ## format and mount -/

theorem format_clear_spec (blk : Block) : ∀ k disk,
    (format_clear blk k disk).Blocks = disk.Blocks ∧
    ∀ b, (format_clear blk k disk).data b = if 1 ≤ b ∧ b ≤ k then blk else disk.data b := by
  intro k
  induction k with
  | zero =>
    intro disk
    refine ⟨rfl, fun b => ?_⟩
    have : ¬ (1 ≤ b ∧ b ≤ 0) := by omega
    rw [if_neg this]
    rfl
  | succ k ih =>
    intro disk
    simp only [format_clear]
    obtain ⟨h1, h2⟩ := ih (disk.write (k + 1) blk)
    refine ⟨h1, fun b => ?_⟩
    rw [h2 b]
    simp only [Disk.write]
    by_cases hb : b = k + 1
    · rw [hb, upd_same]
      have : 1 ≤ k + 1 ∧ k + 1 ≤ k + 1 := by omega
      rw [if_pos this]
      split_ifs <;> rfl
    · rw [upd_other _ _ _ _ hb]
      by_cases h : 1 ≤ b ∧ b ≤ k
      · rw [if_pos h, if_pos (by omega)]
      · rw [if_neg h, if_neg (by omega)]

theorem mount_inodes_invalid (disk : Disk) (blk : Block) (ibnum : Nat)
    (h : ∀ i, (blk.Inodes i).Valid = 0) : ∀ cnt s, mount_inodes disk blk ibnum cnt s = s := by
  intro cnt
  induction cnt with
  | zero => intro s; rfl
  | succ c ih =>
    intro s
    simp only [mount_inodes]
    have : ¬ ((blk.Inodes c).Valid ≠ 0 ∧ (blk.Inodes c).Size > 0) := fun hc => hc.1 (h c)
    rw [if_neg this]
    exact ih s

theorem mount_blocks_zero (disk : Disk) : ∀ k t map,
    (∀ b, 1 ≤ b → b ≤ k → disk.read b = zeroBlock) →
    mount_blocks disk k (t, map) = (t, fun b => if 1 ≤ b ∧ b ≤ k then 1 else map b) := by
  intro k
  induction k with
  | zero =>
    intro t map _
    simp only [mount_blocks]
    congr 1
    funext b
    have : ¬ (1 ≤ b ∧ b ≤ 0) := by omega
    rw [if_neg this]
  | succ k ih =>
    intro t map hz
    simp only [mount_blocks]
    rw [ih t map (fun b h1 h2 => hz b h1 (by omega))]
    simp only []
    rw [hz (k + 1) (by omega) (le_refl _)]
    rw [mount_inodes_invalid _ _ _ Inodes_zeroBlock_Valid]
    congr 1
    funext b
    by_cases hb : b = k + 1
    · rw [hb, upd_same, if_pos (by omega)]
    · rw [upd_other _ _ _ _ hb]
      by_cases h : 1 ≤ b ∧ b ≤ k
      · rw [if_pos h, if_pos (by omega)]
      · rw [if_neg h, if_neg (by omega)]

theorem Inodes_zeroBlock (i : Nat) : zeroBlock.Inodes i = Inode.zero := by
  apply inode_ext
  · exact getWord_zeroBlock _
  · exact getWord_zeroBlock _
  · intro k
    show (if k < POINTERS_PER_INODE then getWord zeroBlock (8 * i + 2 + k) else 0) = 0
    split_ifs
    · exact getWord_zeroBlock _
    · rfl
  · exact getWord_zeroBlock _

/-- The state after `format` and a successful `mount` of a device of at least two
blocks satisfies the invariant: no inode is valid, and the bitmap marks the blocks
`0 .. I`. -/
theorem init_inv (disk : Disk) (fs : FileSystem) (h2 : 2 ≤ disk.size)
    (hf : (format disk).1 = true)
    (hm : FileSystem.fresh.mount (format disk).2 = (true, fs)) :
    ∃ m : Mounted, fs = m.toFS ∧ Inv m ∧ m.disk.size = disk.size ∧
      (∀ n, m.inode_table n = Inode.zero) ∧ (∀ n, n < m.inodes → m.inode n = Inode.zero) ∧
      (∀ b, m.free_block_map b = if b ≤ INODE_BLOCKS disk.size then 1 else 0) := by
  unfold format at hf hm
  by_cases hmt : disk.mounted = true
  · rw [if_pos hmt] at hf
    exact absurd hf (by simp)
  rw [if_neg hmt] at hm
  simp only [] at hm
  clear hf
  obtain ⟨fd, hfd⟩ : ∃ fd : Disk, fd = format_clear zeroBlock
      (u32 ((18446744073709551615 + (disk.write 0 (zeroBlock.setSuper
        ⟨MAGIC_NUMBER, u32 disk.size, u32 (INODE_BLOCKS (u32 disk.size)),
          u32 (INODES_PER_BLOCK * u32 (INODE_BLOCKS (u32 disk.size)))⟩)).size)
        % 18446744073709551616))
      (disk.write 0 (zeroBlock.setSuper
        ⟨MAGIC_NUMBER, u32 disk.size, u32 (INODE_BLOCKS (u32 disk.size)),
          u32 (INODES_PER_BLOCK * u32 (INODE_BLOCKS (u32 disk.size)))⟩)) := ⟨_, rfl⟩
  rw [← hfd] at hm
  obtain ⟨hsz, hdat⟩ := format_clear_spec zeroBlock
      (u32 ((18446744073709551615 + (disk.write 0 (zeroBlock.setSuper
        ⟨MAGIC_NUMBER, u32 disk.size, u32 (INODE_BLOCKS (u32 disk.size)),
          u32 (INODES_PER_BLOCK * u32 (INODE_BLOCKS (u32 disk.size)))⟩)).size)
        % 18446744073709551616))
      (disk.write 0 (zeroBlock.setSuper
        ⟨MAGIC_NUMBER, u32 disk.size, u32 (INODE_BLOCKS (u32 disk.size)),
          u32 (INODES_PER_BLOCK * u32 (INODE_BLOCKS (u32 disk.size)))⟩))
  rw [← hfd] at hsz hdat
  have hsize : fd.size = disk.size := hsz
  have hsb : (fd.read 0).Super.Blocks = u32 disk.size ∧
      (fd.read 0).Super.InodeBlocks = u32 (INODE_BLOCKS (u32 disk.size)) := by
    have h0 := hdat 0
    rw [if_neg (by omega)] at h0
    simp only [Disk.read, h0, Disk.write, upd_same, Block.Super, Block.setSuper]
    constructor
    · rw [getWord_setWord_other _ _ _ _ (by decide), getWord_setWord_other _ _ _ _ (by decide),
        getWord_setWord_same]
      unfold u32; omega
    · rw [getWord_setWord_other _ _ _ _ (by decide), getWord_setWord_same]
      unfold u32; omega
  unfold FileSystem.mount at hm
  have hc : ¬ (FileSystem.fresh.currMountedDisk.map Disk.addr = some fd.addr) := by
    simp [FileSystem.fresh]
  rw [if_neg hc] at hm
  simp only [] at hm
  split_ifs at hm with hbad
  · exact absurd (congrArg Prod.fst hm) (by simp)
  have hB : u32 disk.size = disk.size := by
    by_contra hne
    apply hbad
    right; left
    rw [hsb.1, hsize]
    exact hne
  have hsmall : disk.size < 4294967296 := by
    rw [← hB]; exact u32_lt _
  have hIB := INODE_BLOCKS_eq disk.size hsmall
  have hIlt := INODE_BLOCKS_lt disk.size h2 hsmall
  have hIBw : (fd.read 0).Super.InodeBlocks = INODE_BLOCKS disk.size := by
    rw [hsb.2, hB]
    exact u32_of_lt (by omega)
  rw [hIBw] at hm
  have hcl : u32 ((18446744073709551615 + (disk.write 0 (zeroBlock.setSuper
        ⟨MAGIC_NUMBER, u32 disk.size, u32 (INODE_BLOCKS (u32 disk.size)),
          u32 (INODES_PER_BLOCK * u32 (INODE_BLOCKS (u32 disk.size)))⟩)).size)
        % 18446744073709551616) = disk.size - 1 := by
    show u32 ((18446744073709551615 + disk.size) % 18446744073709551616) = disk.size - 1
    unfold u32
    omega
  rw [hcl] at hdat
  have hzero : ∀ b, 1 ≤ b → b ≤ INODE_BLOCKS disk.size → fd.mount.read b = zeroBlock := by
    intro b h1 hb
    show fd.data b = zeroBlock
    rw [hdat b, if_pos (by omega)]
  rw [mount_blocks_zero fd.mount _ _ _ hzero] at hm
  have hfs := (congrArg Prod.snd hm).symm
  simp only [] at hfs
  refine ⟨⟨fd.mount, fun _ => Inode.zero,
    fun b => if 1 ≤ b ∧ b ≤ INODE_BLOCKS disk.size then 1 else upd (fun _ => 0) 0 1 b,
    (fd.read 0).Super.Inodes, (fd.read 0).Super.Blocks⟩,
    hfs, ?_, hsize, fun _ => rfl, ?_, ?_⟩
  rotate_left
  · intro n hn
    have hle := inodes_block_le _ n hn
    have hms : (Mounted.mk fd.mount (fun _ => Inode.zero)
        (fun b => if 1 ≤ b ∧ b ≤ INODE_BLOCKS disk.size then 1 else upd (fun _ => 0) 0 1 b)
        (fd.read 0).Super.Inodes (fd.read 0).Super.Blocks).disk.size
        = disk.size := hsize
    rw [hms] at hle
    have := hzero (1 + n / INODES_PER_BLOCK) (Nat.le_add_right 1 _) hle
    simp only [Mounted.inode]
    rw [this]
    exact Inodes_zeroBlock _
  · intro b
    show (if 1 ≤ b ∧ b ≤ INODE_BLOCKS disk.size then 1 else upd (fun _ => 0) 0 1 b)
      = if b ≤ INODE_BLOCKS disk.size then 1 else 0
    by_cases hb : 1 ≤ b
    · by_cases hb2 : b ≤ INODE_BLOCKS disk.size
      · rw [if_pos ⟨hb, hb2⟩, if_pos hb2]
      · rw [if_neg (fun h => hb2 h.2), if_neg hb2, upd_other _ _ _ _ (by omega)]
    · have h0 : b = 0 := by omega
      rw [if_neg (fun h => hb h.1), h0, upd_same, if_pos (Nat.zero_le _)]
  have hms : (Mounted.mk fd.mount (fun _ => Inode.zero)
      (fun b => if 1 ≤ b ∧ b ≤ INODE_BLOCKS disk.size then 1 else upd (fun _ => 0) 0 1 b)
      (fd.read 0).Super.Inodes (fd.read 0).Super.Blocks).disk.size
      = disk.size := hsize
  have hinval : ∀ n, ¬ (Mounted.mk fd.mount (fun _ => Inode.zero)
      (fun b => if 1 ≤ b ∧ b ≤ INODE_BLOCKS disk.size then 1 else upd (fun _ => 0) 0 1 b)
      (fd.read 0).Super.Inodes (fd.read 0).Super.Blocks).valid n := by
    intro n ⟨hn, hv⟩
    apply hv
    have hle := inodes_block_le _ n hn
    rw [hms] at hle
    have := hzero (1 + n / INODES_PER_BLOCK) (Nat.le_add_right 1 _) hle
    simp only [Mounted.inode]
    rw [this]
    exact Inodes_zeroBlock_Valid _
  refine ⟨by rw [hms]; exact hsmall, ?_, fun n s hv => absurd hv (hinval n), ?_,
    fun n s n' s' hv => absurd hv (hinval n), fun n k hv => absurd hv (hinval n),
    fun n hv => absurd hv (hinval n), fun n hv => absurd hv (hinval n)⟩
  · intro n hn
    have hle := inodes_block_le _ n hn
    rw [hms] at hle
    have := hzero (1 + n / INODES_PER_BLOCK) (Nat.le_add_right 1 _) hle
    simp only [Mounted.inode]
    rw [this]
    exact ⟨fun _ => Inodes_zeroBlock_Valid _, fun _ => rfl⟩
  · intro b
    rw [hms]
    simp only []
    constructor
    · intro h
      left
      by_cases hb : 1 ≤ b ∧ b ≤ INODE_BLOCKS disk.size
      · exact hb.2
      · rw [if_neg hb] at h
        by_cases h0 : b = 0
        · omega
        · rw [upd_other _ _ _ _ h0] at h
          exact absurd h (by decide)
    · intro h
      rcases h with h | ⟨n, _, hv, _⟩
      · by_cases hb : 1 ≤ b
        · rw [if_pos ⟨hb, h⟩]
        · rw [if_neg (by omega)]
          have : b = 0 := by omega
          rw [this, upd_same]
      · exact absurd hv (hinval n)

/-! ## Calls that fail or change nothing -/

theorem read_state (m : Mounted) (n : Nat) (buf : Buffer) (len off : Nat) :
    (m.read n buf len off).2.2 = m := by
  unfold Mounted.read
  simp only []
  split_ifs <;> rfl

theorem read_fail (m : Mounted) (n : Nat) (buf : Buffer) (len off : Nat) (hn : n < m.inodes)
    (hoff : (m.inode n).Size ≤ off) : m.read n buf len off = (-1, buf, m) := by
  unfold Mounted.read
  rw [if_neg (Nat.not_le.mpr hn)]
  simp only [load_inode_eq m n _ hn]
  rw [if_pos (Or.inr hoff)]

theorem write_zero (m : Mounted) (n : Nat) (data : Buffer) (off : Nat) :
    (m.write n data 0 off).2 = m := by
  unfold Mounted.write
  by_cases hn : n ≥ m.inodes
  · rw [if_pos hn]
  · rw [if_neg hn, if_pos rfl]

theorem write_fail (m : Mounted) (n : Nat) (data : Buffer) (len off : Nat) (hlen : len ≠ 0)
    (h : ¬ m.valid n ∨ (m.inode n).Size < off) :
    m.write n data len off = (-1, m) := by
  unfold Mounted.write
  by_cases hn : n ≥ m.inodes
  · rw [if_pos hn]
  rw [if_neg hn, if_neg hlen]
  have hn1 : n < m.inodes := Nat.lt_of_not_ge hn
  simp only [load_inode_eq m n _ hn1]
  have : (m.inode n).Valid = 0 ∨ off > (m.inode n).Size := by
    rcases h with h | h
    · left
      by_contra hc
      exact h ⟨hn1, hc⟩
    · exact Or.inr h
  rw [if_pos this]

/-- A `write` that passes the checks returns a byte count. -/
theorem write_result (m : Mounted) (n : Nat) (data : Buffer) (len off : Nat)
    (hv : m.valid n) (hlen : len ≠ 0) (hoff : off ≤ (m.inode n).Size) :
    ∃ w : Nat, (m.write n data len off).1 = (w : Int) := by
  unfold Mounted.write
  have h0 : ¬ n ≥ m.inodes := Nat.not_le.mpr hv.1
  have h1 : ¬ ((m.inode n).Valid = 0 ∨ off > (m.inode n).Size) := by
    intro h; rcases h with h | h
    · exact hv.2 h
    · omega
  simp only [h0, if_false, hlen, load_inode_eq m n _ hv.1, h1]
  by_cases ha : (i_write m (m.inode n).Direct POINTERS_PER_INODE len data off).1 = len
  · rw [if_pos ha]
    exact ⟨_, rfl⟩
  rw [if_neg ha]
  by_cases hind : (m.inode n).Indirect = 0
  · rw [if_pos hind]
    rcases allocate_cases (i_write m (m.inode n).Direct POINTERS_PER_INODE len data off).2.2
      with ⟨hnone, _⟩ | ⟨b, _, _, _, hsome⟩
    · rw [hnone]; exact ⟨_, rfl⟩
    · rw [hsome]; exact ⟨_, rfl⟩
  · rw [if_neg hind]
    exact ⟨_, rfl⟩

theorem write_unchanged (m : Mounted) (n : Nat) (data : Buffer) (len off : Nat)
    (h : (m.write n data len off).1 = -1) : (m.write n data len off).2 = m := by
  by_cases hlen : len = 0
  · rw [hlen]; exact write_zero m n data off
  by_cases hv : m.valid n
  · by_cases hoff : off ≤ (m.inode n).Size
    · obtain ⟨w, hw⟩ := write_result m n data len off hv hlen hoff
      rw [hw] at h
      omega
    · rw [write_fail m n data len off hlen (Or.inr (by omega))]
  · rw [write_fail m n data len off hlen (Or.inl hv)]

theorem write_inv (m : Mounted) (hI : Inv m) (n : Nat) (data : Buffer) (len off : Nat) :
    Inv (m.write n data len off).2 := by
  by_cases hlen : len = 0
  · rw [hlen, write_zero]; exact hI
  by_cases hv : m.valid n
  · by_cases hoff : off ≤ (m.inode n).Size
    · obtain ⟨w, _, _, hw, _⟩ := write_spec m hI n hv data len off hlen hoff
      exact hw.1
    · rw [write_fail m n data len off hlen (Or.inr (by omega))]; exact hI
  · rw [write_fail m n data len off hlen (Or.inl hv)]; exact hI

theorem remove_unchanged (m : Mounted) (n : Nat) (h : (m.remove n).1 = false) :
    (m.remove n).2 = m := by
  by_cases hv : m.valid n
  · obtain ⟨map3, _, he⟩ := remove_eq m n hv
    rw [he, save_inode_fst _ _ _ (by show n < m.inodes; exact hv.1)] at h
    exact absurd h (by simp)
  · rw [remove_fail m n hv]

theorem create_unchanged (m : Mounted) (h : m.create.1 = -1) : m.create.2 = m := by
  rcases create_cases m with hc | ⟨inum, _, _, hc⟩
  · rw [hc]
  · rw [hc] at h
    simp only [] at h
    omega

/-! ## Handles and mounted states -/

theorem toFS_inj {m m1 : Mounted} (h : m.toFS = m1.toFS) : m = m1 := by
  cases m; cases m1
  simp only [Mounted.toFS, FileSystem.mk.injEq, Option.some.injEq] at h
  obtain ⟨h1, h2, h3, h4, h5⟩ := h
  subst h1 h2 h3 h4 h5
  rfl

theorem toFS_create (m : Mounted) : m.toFS.create = (m.create.1, m.create.2.toFS) := rfl

theorem toFS_remove (m : Mounted) (n : Nat) :
    m.toFS.remove n = ((m.remove n).1, (m.remove n).2.toFS) := rfl

theorem toFS_stat (m : Mounted) (n : Nat) :
    m.toFS.stat n = ((m.stat n).1, (m.stat n).2.toFS) := rfl

theorem toFS_read (m : Mounted) (n : Nat) (buf : Buffer) (len off : Nat) :
    m.toFS.read n buf len off =
      ((m.read n buf len off).1, (m.read n buf len off).2.1, (m.read n buf len off).2.2.toFS) :=
  rfl

theorem toFS_write (m : Mounted) (n : Nat) (data : Buffer) (len off : Nat) :
    m.toFS.write n data len off = ((m.write n data len off).1, (m.write n data len off).2.toFS) :=
  rfl

/-- Every reachable handle is mounted, and its state satisfies the invariant. -/
theorem reach_inv (fs : FileSystem) (h : Reachable fs) : ∃ m : Mounted, fs = m.toFS ∧ Inv m := by
  induction h with
  | init disk fs h2 hf hm =>
    obtain ⟨m, h1, h2, _⟩ := init_inv disk fs h2 hf hm
    exact ⟨m, h1, h2⟩
  | call fs c _ ih =>
    obtain ⟨m, hfs, hI⟩ := ih
    rw [hfs]
    cases c with
    | create => exact ⟨m.create.2, rfl, create_inv m hI⟩
    | remove n => exact ⟨(m.remove n).2, rfl, remove_inv m hI n⟩
    | stat n => exact ⟨(m.stat n).2, rfl, by rw [stat_state]; exact hI⟩
    | read n buf len off =>
      exact ⟨(m.read n buf len off).2.2, rfl, by rw [read_state]; exact hI⟩
    | write n data len off =>
      exact ⟨(m.write n data len off).2, rfl, write_inv m hI n data len off⟩

theorem reach_mounted (m : Mounted) (h : Reachable m.toFS) : Inv m := by
  obtain ⟨m1, h1, h2⟩ := reach_inv _ h
  rw [toFS_inj h1]
  exact h2

theorem stat_valid (m : Mounted) (n : Nat) (hv : m.valid n) :
    m.stat n = (((m.inode n).Size : Int), m) := by
  unfold Mounted.stat
  rw [if_neg (Nat.not_le.mpr hv.1)]
  simp only [load_inode_eq m n _ hv.1]
  rw [if_neg hv.2]

/-! ## Example volumes are reachable -/

theorem mount_ok (disk : Disk) (h : (FileSystem.fresh.mount disk).1 = true) :
    FileSystem.fresh.mount disk = (true, (mountState disk).toFS) := by
  unfold FileSystem.mount at h ⊢
  have hc : ¬ (FileSystem.fresh.currMountedDisk.map Disk.addr = some disk.addr) := by
    simp [FileSystem.fresh]
  rw [if_neg hc] at h ⊢
  simp only [] at h ⊢
  by_cases hbad : (disk.read 0).Super.MagicNumber ≠ MAGIC_NUMBER ∨
      (disk.read 0).Super.Blocks ≠ disk.size ∨
      (disk.read 0).Super.InodeBlocks ≠ u32 (INODE_BLOCKS (disk.read 0).Super.Blocks) ∨
      (disk.read 0).Super.Inodes ≠ u32 ((disk.read 0).Super.InodeBlocks * INODES_PER_BLOCK)
  · rw [if_pos hbad] at h
    exact absurd h (by simp)
  · rw [if_neg hbad]
    rfl

theorem reach_create (m : Mounted) (h : Reachable m.toFS) : Reachable m.create.2.toFS :=
  Reachable.call _ .create h

theorem reach_remove (m : Mounted) (h : Reachable m.toFS) (n : Nat) :
    Reachable (m.remove n).2.toFS :=
  Reachable.call _ (.remove n) h

theorem reach_write (m : Mounted) (h : Reachable m.toFS) (n : Nat) (data : Buffer)
    (len off : Nat) : Reachable (m.write n data len off).2.toFS :=
  Reachable.call _ (.write n data len off) h

theorem reach_vol0 : Reachable vol0.toFS :=
  Reachable.init (rawDisk 10) _ (by decide) (by decide) (mount_ok _ (by decide))

theorem reach_vol1 : Reachable vol1.toFS := reach_create _ reach_vol0

theorem reach_vol2 : Reachable vol2.toFS := reach_write _ reach_vol1 _ _ _ _

theorem valid_vol1 : vol1.valid 0 := ⟨by decide, by decide⟩

set_option maxRecDepth 100000 in
theorem valid_vol2 : vol2.valid 0 := ⟨by decide, by decide⟩

/-! ## The contract of `read` and `write` on reachable states -/

/-- Claim C1 (round trip at offset 0): in every state reachable from format + mount, for
every valid inode `n` and byte sequence `S` of length `L ≥ 1`, if `write(n, S, L, 0)`
returns `L` then `read(n, out, L, 0)` returns `L` and the first `L` bytes of `out` are
those of `S`.  (A write that returns `L` has `L ≤ (5 + 1024) * 4096`, so no upper bound
on `L` is assumed.) -/
theorem round_trip_at_zero (m : Mounted) (hr : Reachable m.toFS) (n : Nat) (hv : m.valid n)
    (S out : Buffer) (L : Nat) (hL : 1 ≤ L)
    (hw : (m.toFS.write n S L 0).1 = (L : Int)) :
    ((m.toFS.write n S L 0).2.read n out L 0).1 = (L : Int) ∧
    ∀ i, i < L → ((m.toFS.write n S L 0).2.read n out L 0).2.1 i = S i := by
  have hI := reach_mounted m hr
  rw [toFS_write] at hw ⊢
  simp only [] at hw ⊢
  obtain ⟨w, hw1, _, hok, _⟩ := write_spec m hI n hv S L 0 (by omega) (Nat.zero_le _)
  have hwL : w = L := by
    have : (w : Int) = (L : Int) := hw1.symm.trans hw
    omega
  subst hwL
  obtain ⟨hI1, _, hval1, hSize, hbytes, _⟩ := hok
  have hv1 := (hval1 n).mpr hv
  have hcap := hI1.size_le n hv1
  rw [hSize] at hcap
  simp only [POINTERS_PER_INODE, POINTERS_PER_BLOCK, BLOCK_SIZE] at hcap
  obtain ⟨r1, _, r3⟩ := read_spec _ hI1 n hv1 out w 0 (by rw [hSize]; omega) (by omega)
  rw [toFS_read]
  simp only []
  have hmin : min w (((m.write n S w 0).2.inode n).Size - 0) = w := by
    rw [hSize]; omega
  rw [hmin] at r1 r3
  refine ⟨r1, fun i hi => ?_⟩
  rw [r3 i, if_pos hi]
  exact hbytes i hi

/-- Witness for C1: `write(0, "hello", 5, 0)` on a fresh ten-block volume with inode 0
created, followed by `read(0, buf, 5, 0)`. -/
theorem round_trip_at_zero_witness :
    (vol1.toFS.write 0 hello 5 0).1 = 5 ∧
    ((vol1.toFS.write 0 hello 5 0).2.read 0 bytesAA 5 0).1 = 5 ∧
    ∀ i, i < 5 → ((vol1.toFS.write 0 hello 5 0).2.read 0 bytesAA 5 0).2.1 i = hello i :=
  ⟨by decide, round_trip_at_zero vol1 reach_vol1 0 valid_vol1 hello bytesAA 5 (by decide)
    (by decide)⟩

/-- Claim C2 (appending extends the file): in every reachable state, for every valid
inode `n` (in particular an empty one) and byte sequences `S1`, `S2` of lengths
`L1, L2 ≥ 1`, if `write(n, S1, L1, 0)` returns `L1` and then `write(n, S2, L2, L1)`
returns `L2`, then `read(n, out, L1 + L2, 0)` returns `L1 + L2` and yields `S1 ++ S2`,
whatever the alignment of `L1` and wherever the second write falls with respect to the
direct/indirect boundary. -/
theorem append_extends_file (m : Mounted) (hr : Reachable m.toFS) (n : Nat) (hv : m.valid n)
    (S1 S2 out : Buffer) (L1 L2 : Nat) (h1 : 1 ≤ L1) (h2 : 1 ≤ L2)
    (hw1 : (m.toFS.write n S1 L1 0).1 = (L1 : Int))
    (hw2 : ((m.toFS.write n S1 L1 0).2.write n S2 L2 L1).1 = (L2 : Int)) :
    (((m.toFS.write n S1 L1 0).2.write n S2 L2 L1).2.read n out (L1 + L2) 0).1
      = ((L1 + L2 : Nat) : Int) ∧
    ∀ i, i < L1 + L2 →
      (((m.toFS.write n S1 L1 0).2.write n S2 L2 L1).2.read n out (L1 + L2) 0).2.1 i
        = if i < L1 then S1 i else S2 (i - L1) := by
  have hI := reach_mounted m hr
  rw [toFS_write] at hw1 hw2 ⊢
  simp only [] at hw1 hw2 ⊢
  obtain ⟨w, e1, _, hok, _⟩ := write_spec m hI n hv S1 L1 0 (by omega) (Nat.zero_le _)
  have hwL : w = L1 := by
    have : (w : Int) = (L1 : Int) := e1.symm.trans hw1
    omega
  subst hwL
  obtain ⟨hI1, _, hval1, hSize1, hbytes1, _⟩ := hok
  have hv1 := (hval1 n).mpr hv
  rw [toFS_write] at hw2 ⊢
  simp only [] at hw2 ⊢
  obtain ⟨w2, e2, _, hok2, _⟩ := write_spec _ hI1 n hv1 S2 L2 w (by omega)
    (by rw [hSize1]; omega)
  have hwL2 : w2 = L2 := by
    have : (w2 : Int) = (L2 : Int) := e2.symm.trans hw2
    omega
  subst hwL2
  obtain ⟨hI2, _, hval2, hSize2, hbytes2, hkeep2⟩ := hok2
  have hv2 := (hval2 n).mpr hv1
  have hcap := hI2.size_le n hv2
  rw [hSize2] at hcap
  simp only [POINTERS_PER_INODE, POINTERS_PER_BLOCK, BLOCK_SIZE] at hcap
  obtain ⟨r1, _, r3⟩ := read_spec _ hI2 n hv2 out (w + w2) 0 (by rw [hSize2]; omega)
    (by omega)
  rw [toFS_read]
  simp only []
  have hmin : min (w + w2) ((((m.write n S1 w 0).2.write n S2 w2 w).2.inode n).Size - 0)
      = w + w2 := by
    rw [hSize2]; omega
  rw [hmin] at r1 r3
  refine ⟨r1, fun i hi => ?_⟩
  rw [r3 i, if_pos hi, Nat.zero_add]
  by_cases hlt : i < w
  · rw [if_pos hlt, hkeep2 i hlt]
    have := hbytes1 i hlt
    rw [Nat.zero_add] at this
    exact this
  · rw [if_neg hlt]
    have := hbytes2 (i - w) (by omega)
    have e : w + (i - w) = i := by omega
    rw [e] at this
    exact this

set_option maxRecDepth 100000 in
/-- Witness for C2: 4096 bytes of `0xAA` at offset 0, then 4096 bytes of `0xBB` at
offset 4096, on a fresh ten-block volume; the two direct pointers are distinct. -/
theorem append_extends_file_witness :
    (vol1.toFS.write 0 bytesAA 4096 0).1 = 4096 ∧
    ((vol1.toFS.write 0 bytesAA 4096 0).2.write 0 bytesBB 4096 4096).1 = 4096 ∧
    ((((vol1.write 0 bytesAA 4096 0).2.write 0 bytesBB 4096 4096).2.inode 0).Direct 0 = 2 ∧
      (((vol1.write 0 bytesAA 4096 0).2.write 0 bytesBB 4096 4096).2.inode 0).Direct 1 = 3) ∧
    (((vol1.toFS.write 0 bytesAA 4096 0).2.write 0 bytesBB 4096 4096).2.read 0 hello
        (4096 + 4096) 0).1 = ((4096 + 4096 : Nat) : Int) ∧
    ∀ i, i < 4096 + 4096 →
      (((vol1.toFS.write 0 bytesAA 4096 0).2.write 0 bytesBB 4096 4096).2.read 0 hello
        (4096 + 4096) 0).2.1 i = if i < 4096 then bytesAA i else bytesBB (i - 4096) :=
  ⟨by decide, by decide, ⟨by decide, by decide⟩,
    append_extends_file vol1 reach_vol1 0 valid_vol1 bytesAA bytesBB hello 4096 4096
      (by decide) (by decide) (by decide) (by decide)⟩

/-- Claim C3 (size after write): in every reachable state, for every valid inode `n`,
`length ≥ 1` and `offset ≤ Size(n)`, `write(n, data, length, offset)` returns some
`w ≥ 0` and `stat(n)` afterwards returns exactly `offset + w`, whether `w = length`, or
`w < length` (also `w = 0`), or `offset + w` is below the previous size. -/
theorem size_after_write (m : Mounted) (hr : Reachable m.toFS) (n : Nat) (hv : m.valid n)
    (data : Buffer) (len off : Nat) (hlen : 1 ≤ len) (hoff : off ≤ (m.inode n).Size) :
    0 ≤ (m.toFS.write n data len off).1 ∧
    ((m.toFS.write n data len off).2.stat n).1
      = (off : Int) + (m.toFS.write n data len off).1 := by
  have hI := reach_mounted m hr
  rw [toFS_write]
  simp only []
  obtain ⟨w, e1, _, hok, _⟩ := write_spec m hI n hv data len off (by omega) hoff
  obtain ⟨_, _, hval1, hSize, _, _⟩ := hok
  have hv1 := (hval1 n).mpr hv
  rw [toFS_stat]
  simp only []
  rw [stat_valid _ n hv1, e1, hSize]
  exact ⟨by omega, by push_cast; rfl⟩

set_option maxRecDepth 100000 in
/-- Witness for C3: after `write(0, "hello", 5, 0)` on a fresh volume, `stat(0)` is 5. -/
theorem size_after_write_witness :
    (vol1.toFS.write 0 hello 5 0).1 = 5 ∧
    0 ≤ (vol1.toFS.write 0 hello 5 0).1 ∧
    ((vol1.toFS.write 0 hello 5 0).2.stat 0).1 = (0 : Int) + (vol1.toFS.write 0 hello 5 0).1 :=
  ⟨by decide, size_after_write vol1 reach_vol1 0 valid_vol1 hello 5 0 (by decide) (by decide)⟩

/-- Read boundary and clamp, where the sum `length + offset` does not wrap: in every
reachable state, for every valid inode `n` of size `s` and all `length`, `offset` with
`length + offset < 2^64`, `read(n, buf, length, offset)` returns -1 when `offset ≥ s`, and
when `offset < s` it returns `min(length, s - offset)` and copies exactly that many bytes
of the file, from `offset` on, to the start of `buf`, leaving the rest of `buf` alone. -/
theorem read_boundary_clamp (m : Mounted) (hr : Reachable m.toFS) (n : Nat) (hv : m.valid n)
    (buf : Buffer) (len off : Nat) (hsum : len + off < 18446744073709551616) :
    ((m.toFS.stat n).1 = ((m.inode n).Size : Int)) ∧
    ((m.inode n).Size ≤ off → (m.toFS.read n buf len off).1 = -1) ∧
    (off < (m.inode n).Size →
      (m.toFS.read n buf len off).1 = ((min len ((m.inode n).Size - off) : Nat) : Int) ∧
      ∀ j, (m.toFS.read n buf len off).2.1 j =
        if j < min len ((m.inode n).Size - off) then m.fileByte n (off + j) else buf j) := by
  have hI := reach_mounted m hr
  rw [toFS_read, toFS_stat]
  simp only []
  refine ⟨by rw [stat_valid m n hv], fun h => ?_, fun h => ?_⟩
  · rw [read_fail m n buf len off hv.1 h]
  · obtain ⟨r1, _, r3⟩ := read_spec m hI n hv buf len off h hsum
    exact ⟨r1, r3⟩

set_option maxRecDepth 100000 in
/-- On the volume holding `"hello"` in inode 0, a read of 10 bytes at offset 2 is clamped
to 3 bytes, and a read at offset 5 fails. -/
theorem read_boundary_clamp_witness :
    (vol2.inode 0).Size = 5 ∧
    ((vol2.toFS.stat 0).1 = ((vol2.inode 0).Size : Int)) ∧
    ((vol2.inode 0).Size ≤ 2 → (vol2.toFS.read 0 bytesAA 10 2).1 = -1) ∧
    (2 < (vol2.inode 0).Size →
      (vol2.toFS.read 0 bytesAA 10 2).1 = ((min 10 ((vol2.inode 0).Size - 2) : Nat) : Int) ∧
      ∀ j, (vol2.toFS.read 0 bytesAA 10 2).2.1 j =
        if j < min 10 ((vol2.inode 0).Size - 2) then vol2.fileByte 0 (2 + j) else bytesAA j) :=
  ⟨by decide, read_boundary_clamp vol2 reach_vol2 0 valid_vol2 bytesAA 10 2 (by decide)⟩

set_option maxRecDepth 1000000 in
set_option maxHeartbeats 4000000 in
/-- Claim C4, at the failing input: on the reachable ten-block volume whose inode 0 holds
8192 bytes, `read(0, buf, 2^64 - 4096, 4096)` has `offset < s` and
`min(length, s - offset) = 4096`, but the sum `length + offset` wraps to 0 in `size_t`, so
the clamp is skipped: the call copies the one block of the file from `offset` on to `buf`
and returns -1, not 4096. -/
theorem read_clamp_overflow :
    Reachable (vol1.write 0 bytesAA 8192 0).2.toFS ∧
    (vol1.write 0 bytesAA 8192 0).2.valid 0 ∧
    ((vol1.write 0 bytesAA 8192 0).2.inode 0).Size = 8192 ∧
    18446744073709547520 < 18446744073709551616 ∧
    usize (18446744073709547520 + 4096) = 0 ∧
    min 18446744073709547520 (((vol1.write 0 bytesAA 8192 0).2.inode 0).Size - 4096) = 4096 ∧
    ((vol1.write 0 bytesAA 8192 0).2.toFS.read 0 bytesBB 18446744073709547520 4096).1 = -1 ∧
    (∀ j, j < 4096 →
      ((vol1.write 0 bytesAA 8192 0).2.toFS.read 0 bytesBB 18446744073709547520 4096).2.1 j
        = 170) :=
  ⟨reach_write _ reach_vol1 _ _ _ _, ⟨by decide!, by decide!⟩, by decide!, by decide,
    by decide, by decide!, by decide!, by decide!⟩

/-- Claim C5 (write offset boundary): in every mounted state, for every valid inode `n`
of size `s` and every `length ≥ 1`, `write(n, data, length, offset)` returns -1 if
`offset > s`, and does not return -1 if `offset ≤ s`. -/
theorem write_offset_boundary (m : Mounted) (n : Nat) (hv : m.valid n) (data : Buffer)
    (len off : Nat) (hlen : 1 ≤ len) :
    ((m.inode n).Size < off → (m.toFS.write n data len off).1 = -1) ∧
    (off ≤ (m.inode n).Size → (m.toFS.write n data len off).1 ≠ -1) := by
  rw [toFS_write]
  simp only []
  constructor
  · intro h
    rw [write_fail m n data len off (by omega) (Or.inr h)]
  · intro h
    obtain ⟨w, hw⟩ := write_result m n data len off hv (by omega) h
    rw [hw]
    omega

/-- Witness for C5: on an empty inode, a write at offset 1 fails and a write at offset 0
does not. -/
theorem write_offset_boundary_witness :
    ((vol1.inode 0).Size < 1 → (vol1.toFS.write 0 hello 5 1).1 = -1) ∧
    (1 ≤ (vol1.inode 0).Size → (vol1.toFS.write 0 hello 5 1).1 ≠ -1) :=
  write_offset_boundary vol1 0 valid_vol1 hello 5 1 (by decide)

/-- Claim C6 (failure is atomic): for every handle, mounted or not, whenever `create`,
`stat`, `read` or `write` returns -1 or `remove` returns false, the handle (the device
contents and its write log, the bitmap and the inode cache) is exactly what it was before
the call; `read` and `stat` never change it at all. -/
theorem failure_is_atomic (fs : FileSystem) :
    (fs.create.1 = -1 → fs.create.2 = fs) ∧
    (∀ n, (fs.remove n).1 = false → (fs.remove n).2 = fs) ∧
    (∀ n, (fs.stat n).2 = fs) ∧
    (∀ n buf len off, (fs.read n buf len off).2.2 = fs) ∧
    (∀ n data len off, (fs.write n data len off).1 = -1 → (fs.write n data len off).2 = fs) := by
  rcases fs with ⟨_ | disk, _ | table, _ | map, tlen, mlen⟩
  case mk.some.some.some =>
    have e : FileSystem.mk (some disk) (some table) (some map) tlen mlen
        = (Mounted.mk disk table map tlen mlen).toFS := rfl
    rw [e]
    refine ⟨fun h => ?_, fun n h => ?_, fun n => ?_, fun n buf len off => ?_,
      fun n data len off h => ?_⟩
    · rw [toFS_create] at h ⊢
      simp only [] at h ⊢
      rw [create_unchanged _ h]
    · rw [toFS_remove] at h ⊢
      simp only [] at h ⊢
      rw [remove_unchanged _ n h]
    · rw [toFS_stat]
      simp only []
      rw [stat_state]
    · rw [toFS_read]
      simp only []
      rw [read_state]
    · rw [toFS_write] at h ⊢
      simp only [] at h ⊢
      rw [write_unchanged _ n data len off h]
  all_goals exact ⟨fun _ => rfl, fun _ _ => rfl, fun _ => rfl, fun _ _ _ _ => rfl,
    fun _ _ _ _ _ => rfl⟩

/-- Witness for C6: a write past the end of an empty file returns -1 and leaves the
handle as it was. -/
theorem failure_is_atomic_witness :
    (vol1.toFS.write 0 hello 5 1).1 = -1 ∧ (vol1.toFS.write 0 hello 5 1).2 = vol1.toFS :=
  ⟨by decide, (failure_is_atomic vol1.toFS).2.2.2.2 0 hello 5 1 (by decide)⟩

/-! ## Invariants of reachable states -/

/-- Claim C7 (bitmap exactness): in every state reachable from format + mount of a
device of at least two blocks, for every block `b` the bitmap cell `b` is 1 if and only
if `b ≤ I` or `b` is a nonzero Direct pointer, the nonzero Indirect pointer, or a nonzero
entry of the indirect pointer block of an inode that is valid on disk. -/
theorem bitmap_exactness (m : Mounted) (hr : Reachable m.toFS) (b : Nat) :
    m.free_block_map b = 1 ↔
      (b ≤ INODE_BLOCKS m.disk.size ∨
        ∃ n s, m.valid n ∧ Slot.inRange s ∧ m.pointer n s = b ∧ b ≠ 0) :=
  (reach_mounted m hr).exact b

set_option maxRecDepth 100000 in
/-- Witness for C7: on the volume holding `"hello"`, block 2 (the data block of inode 0)
is marked and block 3 is not. -/
theorem bitmap_exactness_witness :
    (vol2.free_block_map 2 = 1 ∧ vol2.free_block_map 3 = 0 ∧ vol2.pointer 0 (.direct 0) = 2) ∧
    (vol2.free_block_map 2 = 1 ↔
      (2 ≤ INODE_BLOCKS vol2.disk.size ∨
        ∃ n s, vol2.valid n ∧ Slot.inRange s ∧ vol2.pointer n s = 2 ∧ 2 ≠ 0)) :=
  ⟨⟨by decide, by decide, by decide⟩, bitmap_exactness vol2 reach_vol2 2⟩

/-- Claim C8 (no aliasing): in every reachable state, two slots (Direct entries,
Indirect pointers, entries of indirect pointer blocks) of inodes valid on disk that hold
the same nonzero block number are the same slot of the same inode. -/
theorem no_block_aliasing (m : Mounted) (hr : Reachable m.toFS) (n : Nat) (s : Slot)
    (n' : Nat) (s' : Slot) (hv : m.valid n) (hv' : m.valid n') (hs : Slot.inRange s)
    (hs' : Slot.inRange s') (he : m.pointer n s = m.pointer n' s')
    (hne : m.pointer n s ≠ 0) : n = n' ∧ s = s' :=
  (reach_mounted m hr).noalias n s n' s' hv hv' hs hs' he hne

set_option maxRecDepth 100000 in
/-- Witness for C8: the slot `Direct[0]` of inode 0 on the volume holding `"hello"`. -/
theorem no_block_aliasing_witness :
    vol2.pointer 0 (.direct 0) = 2 ∧ ((0 : Nat) = 0 ∧ Slot.direct 0 = Slot.direct 0) :=
  ⟨by decide, no_block_aliasing vol2 reach_vol2 0 (.direct 0) 0 (.direct 0) valid_vol2
    valid_vol2 (by show 0 < POINTERS_PER_INODE; decide)
    (by show 0 < POINTERS_PER_INODE; decide) rfl (by decide)⟩

/-- Claim C9 (pointer range): in every state reachable from format + mount of an
`N`-block device, every nonzero Direct entry, Indirect pointer and pointer-block entry
of an inode valid on disk lies in `[I + 1, N - 1]`, where `I`, the value of
`ceil((double)N * 0.1)`, is `ceil(N / 10)`. -/
theorem pointer_range_invariant (m : Mounted) (hr : Reachable m.toFS) (n : Nat) (s : Slot)
    (hv : m.valid n) (hs : Slot.inRange s) (hne : m.pointer n s ≠ 0) :
    INODE_BLOCKS m.disk.size = (m.disk.size + 9) / 10 ∧
    (m.disk.size + 9) / 10 + 1 ≤ m.pointer n s ∧ m.pointer n s ≤ m.disk.size - 1 := by
  have hI := reach_mounted m hr
  have h := hI.range n s hv hs hne
  have e := INODE_BLOCKS_eq m.disk.size hI.small
  rw [e] at h
  exact ⟨e, by omega, by omega⟩

set_option maxRecDepth 100000 in
/-- Witness for C9: the pointer `Direct[0] = 2` of inode 0 on the ten-block volume. -/
theorem pointer_range_invariant_witness :
    vol2.pointer 0 (.direct 0) = 2 ∧ vol2.disk.size = 10 ∧
    INODE_BLOCKS vol2.disk.size = (vol2.disk.size + 9) / 10 ∧
    (vol2.disk.size + 9) / 10 + 1 ≤ vol2.pointer 0 (.direct 0) ∧
    vol2.pointer 0 (.direct 0) ≤ vol2.disk.size - 1 :=
  ⟨by decide, by decide,
    pointer_range_invariant vol2 reach_vol2 0 (.direct 0) valid_vol2
      (by show 0 < POINTERS_PER_INODE; decide) (by decide)⟩

theorem format_mounted (disk : Disk) (h : disk.mounted = true) : format disk = (false, disk) := by
  unfold format
  rw [if_pos h]

/-- What `format` leaves on an unmounted device: the superblock words in block 0, and
zero blocks from block 1 up to the 32-bit value of `size() - 1`. -/
theorem format_unmounted (disk : Disk) (h : disk.mounted = false) :
    (format disk).1 = true ∧ (format disk).2.size = disk.size ∧
    (format disk).2.read 0 = zeroBlock.setSuper
      ⟨MAGIC_NUMBER, u32 disk.size, u32 (INODE_BLOCKS (u32 disk.size)),
        u32 (INODES_PER_BLOCK * u32 (INODE_BLOCKS (u32 disk.size)))⟩ ∧
    ∀ b, 1 ≤ b → b ≤ u32 ((18446744073709551615 + disk.size) % 18446744073709551616) →
      (format disk).2.read b = zeroBlock := by
  unfold format
  have hm : ¬ disk.mounted = true := by rw [h]; simp
  rw [if_neg hm]
  simp only []
  obtain ⟨hsz, hdat⟩ := format_clear_spec zeroBlock
      (u32 ((18446744073709551615 + (disk.write 0 (zeroBlock.setSuper
        ⟨MAGIC_NUMBER, u32 disk.size, u32 (INODE_BLOCKS (u32 disk.size)),
          u32 (INODES_PER_BLOCK * u32 (INODE_BLOCKS (u32 disk.size)))⟩)).size)
        % 18446744073709551616))
      (disk.write 0 (zeroBlock.setSuper
        ⟨MAGIC_NUMBER, u32 disk.size, u32 (INODE_BLOCKS (u32 disk.size)),
          u32 (INODES_PER_BLOCK * u32 (INODE_BLOCKS (u32 disk.size)))⟩))
  refine ⟨trivial, hsz, ?_, ?_⟩
  · show (format_clear _ _ _).data 0 = _
    rw [hdat 0, if_neg (by omega)]
    simp only [Disk.write, upd_same]
  · intro b h1 h2
    show (format_clear _ _ _).data b = _
    rw [hdat b, if_pos ⟨h1, h2⟩]

theorem Super_setSuper (b : Block) (s : SuperBlock) :
    (b.setSuper s).Super = ⟨u32 s.MagicNumber, u32 s.Blocks, u32 s.InodeBlocks, u32 s.Inodes⟩ := by
  simp only [Block.Super, Block.setSuper]
  rw [getWord_setWord_other _ _ _ _ (by decide), getWord_setWord_other _ _ _ _ (by decide),
    getWord_setWord_other _ _ _ _ (by decide), getWord_setWord_same,
    getWord_setWord_other _ _ _ _ (by decide), getWord_setWord_other _ _ _ _ (by decide),
    getWord_setWord_same, getWord_setWord_other _ _ _ _ (by decide), getWord_setWord_same,
    getWord_setWord_same]

theorem u32_u32 (x : Nat) : u32 (u32 x) = u32 x := by
  unfold u32; omega

/-- The superblock that `format` writes passes the validation of `mount` when the block
count fits in 32 bits. -/
theorem format_mount (disk : Disk) (h : disk.mounted = false) (hs : disk.size < 4294967296) :
    FileSystem.fresh.mount (format disk).2 = (true, (mountState (format disk).2).toFS) := by
  apply mount_ok
  obtain ⟨_, hsz, hsb, _⟩ := format_unmounted disk h
  unfold FileSystem.mount
  have hc : ¬ (FileSystem.fresh.currMountedDisk.map Disk.addr = some (format disk).2.addr) := by
    simp [FileSystem.fresh]
  rw [if_neg hc]
  simp only []
  rw [hsb, Super_setSuper, hsz]
  simp only [u32_u32]
  have hB : u32 disk.size = disk.size := u32_of_lt hs
  rw [hB]
  have hM : u32 MAGIC_NUMBER = MAGIC_NUMBER := by decide
  have hI := INODE_BLOCKS_eq disk.size hs
  have hIu : u32 (INODE_BLOCKS disk.size) = INODE_BLOCKS disk.size := u32_of_lt (by omega)
  rw [hM, hIu, Nat.mul_comm INODES_PER_BLOCK]
  have : ¬ (MAGIC_NUMBER ≠ MAGIC_NUMBER ∨ disk.size ≠ disk.size ∨
      INODE_BLOCKS disk.size ≠ INODE_BLOCKS disk.size ∨
      u32 (INODE_BLOCKS disk.size * INODES_PER_BLOCK)
        ≠ u32 (INODE_BLOCKS disk.size * INODES_PER_BLOCK)) := by
    intro h
    rcases h with h | h | h | h <;> exact h rfl
  rw [if_neg this]

/-- The state after `format` and `mount` of an unmounted device of `2 ≤ N < 2^32`
blocks: it is reachable, satisfies the invariant, has no valid inode, an all-zero inode
cache, and a bitmap that marks the blocks `0 .. I`. -/
theorem format_mount_state (disk : Disk) (h : disk.mounted = false) (h2 : 2 ≤ disk.size)
    (hs : disk.size < 4294967296) :
    Reachable (mountState (format disk).2).toFS ∧ Inv (mountState (format disk).2) ∧
    (mountState (format disk).2).disk.size = disk.size ∧
    (∀ n, (mountState (format disk).2).inode_table n = Inode.zero) ∧
    (∀ n, n < (mountState (format disk).2).inodes →
      (mountState (format disk).2).inode n = Inode.zero) ∧
    (∀ b, (mountState (format disk).2).free_block_map b
      = if b ≤ INODE_BLOCKS disk.size then 1 else 0) := by
  have hf := (format_unmounted disk h).1
  have hm := format_mount disk h hs
  obtain ⟨m, e, hI, r1, r2, r3, r4⟩ := init_inv disk _ h2 hf hm
  have := toFS_inj e
  rw [this]
  exact ⟨by rw [← e]; exact Reachable.init disk _ h2 hf hm, hI, r1, r2, r3, r4⟩

/-- Claim C11, amended: for every device of `N ≥ 1` blocks whose geometry fits the
32-bit words of the superblock (`128 * ceil(N / 10) < 2^32`), `format` returns false and
leaves the device, its write log included, as it was if the device is mounted; otherwise
it returns true and afterwards block 0 holds `MagicNumber = 0xF0F03410`, `Blocks = N`,
`InodeBlocks = ceil(N / 10)`, `Inodes = 128 * ceil(N / 10)`, and every block `1 .. N - 1`
consists of zero bytes. -/
theorem format_postcondition (disk : Disk) (hN : 1 ≤ disk.size)
    (hfit : 128 * ((disk.size + 9) / 10) < 4294967296) :
    (disk.mounted = true → format disk = (false, disk)) ∧
    (disk.mounted = false → (format disk).1 = true ∧
      ((format disk).2.read 0).Super.MagicNumber = 0xF0F03410 ∧
      ((format disk).2.read 0).Super.Blocks = disk.size ∧
      ((format disk).2.read 0).Super.InodeBlocks = (disk.size + 9) / 10 ∧
      ((format disk).2.read 0).Super.Inodes = 128 * ((disk.size + 9) / 10) ∧
      ∀ b, 1 ≤ b → b ≤ disk.size - 1 → ∀ j, (format disk).2.read b j = 0) := by
  refine ⟨format_mounted disk, fun h => ?_⟩
  obtain ⟨h1, _, hsb, hz⟩ := format_unmounted disk h
  have hs : disk.size < 4294967296 := by omega
  have hB : u32 disk.size = disk.size := u32_of_lt hs
  have hI := INODE_BLOCKS_eq disk.size hs
  have hIu : u32 ((disk.size + 9) / 10) = (disk.size + 9) / 10 := u32_of_lt (by omega)
  rw [hsb, Super_setSuper]
  simp only [u32_u32, hB, hI, hIu, INODES_PER_BLOCK]
  refine ⟨h1, by decide, trivial, trivial, u32_of_lt hfit, fun b hb1 hb2 j => ?_⟩
  have hc : u32 ((18446744073709551615 + disk.size) % 18446744073709551616) = disk.size - 1 := by
    unfold u32; omega
  rw [hz b hb1 (by rw [hc]; exact hb2)]
  rfl

/-- Witness for C11: the unmounted ten-block device. -/
theorem format_postcondition_witness :
    (rawDisk 10).mounted = false ∧
    ((rawDisk 10).mounted = true → format (rawDisk 10) = (false, rawDisk 10)) ∧
    ((rawDisk 10).mounted = false → (format (rawDisk 10)).1 = true ∧
      ((format (rawDisk 10)).2.read 0).Super.MagicNumber = 0xF0F03410 ∧
      ((format (rawDisk 10)).2.read 0).Super.Blocks = (rawDisk 10).size ∧
      ((format (rawDisk 10)).2.read 0).Super.InodeBlocks = ((rawDisk 10).size + 9) / 10 ∧
      ((format (rawDisk 10)).2.read 0).Super.Inodes = 128 * (((rawDisk 10).size + 9) / 10) ∧
      ∀ b, 1 ≤ b → b ≤ (rawDisk 10).size - 1 → ∀ j, (format (rawDisk 10)).2.read b j = 0) :=
  ⟨by decide, format_postcondition (rawDisk 10) (by decide) (by decide)⟩

/-- Counterexample to C11 as stated: on an unmounted device of 335544320 blocks,
`ceil(N / 10) = 33554432` and `128 * 33554432 = 2^32`, so the 32-bit word `Inodes` that
`format` writes is 0. -/
theorem format_postcondition_counterexample :
    (rawDisk 335544320).mounted = false ∧ 1 ≤ (rawDisk 335544320).size ∧
    ((format (rawDisk 335544320)).2.read 0).Super.Inodes = 0 ∧
    128 * (((rawDisk 335544320).size + 9) / 10) = 4294967296 := by
  refine ⟨rfl, by decide, ?_, by decide⟩
  rw [(format_unmounted (rawDisk 335544320) rfl).2.2.1, Super_setSuper]
  decide

/-! ## create -/

theorem create_scan_skipped (table : Nat → Inode) : ∀ k inum j,
    inum ≤ j → j < create_scan table k inum → (table j).Valid ≠ 0 := by
  intro k
  induction k with
  | zero =>
    intro inum j h1 h2
    simp only [create_scan] at h2
    omega
  | succ k ih =>
    intro inum j h1 h2
    simp only [create_scan] at h2
    by_cases h : (table inum).Valid = 0
    · rw [if_pos h] at h2
      omega
    · rw [if_neg h] at h2
      by_cases hj : j = inum
      · rw [hj]; exact h
      · exact ih (inum + 1) j (by omega) h2

theorem create_inodes_eq (N : Nat) (h : INODE_BLOCKS N * INODES_PER_BLOCK < 2147483648) :
    create_inodes N = ((INODE_BLOCKS N * INODES_PER_BLOCK : Nat) : Int) := by
  unfold create_inodes
  simp only []
  rw [u32_of_lt (by omega), if_pos h]

/-- On a volume with fewer than `2^31` inodes, `create` takes the lowest inode number
whose cache entry is not valid, or fails when every cache entry is valid. -/
theorem create_lowest (m : Mounted) (hT : m.inodes < 2147483648) :
    ((∀ n, n < m.inodes → (m.inode_table n).Valid ≠ 0) ∧ m.create = (-1, m)) ∨
    ∃ n, n < m.inodes ∧ (m.inode_table n).Valid = 0 ∧
      (∀ k, k < n → (m.inode_table k).Valid ≠ 0) ∧
      m.create = ((n : Int),
        (save_inode { m with inode_table := upd m.inode_table n (Inode.mk 1 0 (fun _ => 0) 0) }
          n (Inode.mk 1 0 (fun _ => 0) 0)).2) := by
  have hci : create_inodes m.disk.size = ((m.inodes : Nat) : Int) := create_inodes_eq _ hT
  obtain ⟨_, s2, s3⟩ := create_scan_spec m.inode_table m.inodes 0
  have s4 := create_scan_skipped m.inode_table m.inodes 0
  rw [Nat.zero_add] at s2 s3
  unfold Mounted.create
  simp only []
  rw [hci]
  simp only [Int.toNat_ofNat, Nat.cast_lt]
  by_cases hlt : create_scan m.inode_table m.inodes 0 < m.inodes
  · rw [if_pos hlt]
    right
    refine ⟨_, hlt, s3 hlt, fun k hk => s4 k (Nat.zero_le _) hk, ?_⟩
    rw [save_inode_fst _ _ _ (by show _ < m.inodes; exact hlt)]
    simp only [if_true]
    rfl
  · rw [if_neg hlt]
    left
    refine ⟨fun n hn => s4 n (Nat.zero_le _) (by omega), rfl⟩

/-! ## format, then mount, then create -/

theorem inodes_eq (m : Mounted) : m.inodes = INODE_BLOCKS m.disk.size * INODES_PER_BLOCK := rfl

theorem create_none (m : Mounted) (h : create_inodes m.disk.size ≤ 0) : m.create = (-1, m) := by
  unfold Mounted.create
  simp only []
  have : ¬ ((create_scan m.inode_table (create_inodes m.disk.size).toNat 0 : Nat) : Int)
      < create_inodes m.disk.size := by omega
  rw [if_neg this]

/-- Claim C12, amended: for every unmounted device of `N ≥ 2` blocks with
`T = 128 * ceil(N / 10) < 2^31`, `format` returns true, a following `mount` on a fresh
handle returns true, the first `create()` returns 0 and `stat(0)` then returns 0. -/
theorem format_then_mount (disk : Disk) (h : disk.mounted = false) (h2 : 2 ≤ disk.size)
    (hfit : 128 * ((disk.size + 9) / 10) < 2147483648) :
    (format disk).1 = true ∧ (FileSystem.fresh.mount (format disk).2).1 = true ∧
    (FileSystem.fresh.mount (format disk).2).2.create.1 = 0 ∧
    ((FileSystem.fresh.mount (format disk).2).2.create.2.stat 0).1 = 0 := by
  have hs : disk.size < 4294967296 := by omega
  have hm := format_mount disk h hs
  obtain ⟨_, _, hsz, htab, _, _⟩ := format_mount_state disk h h2 hs
  refine ⟨(format_unmounted disk h).1, by rw [hm], ?_⟩
  rw [hm]
  simp only []
  have hI := INODE_BLOCKS_eq disk.size hs
  have hT : (mountState (format disk).2).inodes = (disk.size + 9) / 10 * 128 := by
    unfold Mounted.inodes
    rw [hsz, hI]
    rfl
  have h0 : 0 < (mountState (format disk).2).inodes := by rw [hT]; omega
  rw [toFS_create]
  simp only []
  rcases create_lowest (mountState (format disk).2) (by rw [hT]; omega) with ⟨hall, _⟩ |
    ⟨n, hn, _, hlow, hc⟩
  · exact absurd (by rw [htab 0]; rfl) (hall 0 h0)
  · have hn0 : n = 0 := by
      by_contra hne
      exact hlow 0 (by omega) (by rw [htab 0]; rfl)
    subst hn0
    rw [hc]
    refine ⟨rfl, ?_⟩
    simp only []
    rw [toFS_stat]
    simp only []
    obtain ⟨sV, sS, _, _⟩ := inode_save_same
      { mountState (format disk).2 with inode_table := upd (mountState (format disk).2).inode_table 0 (Inode.mk 1 0 (fun _ => 0) 0) }
      0 (Inode.mk 1 0 (fun _ => 0) 0) h0
    obtain ⟨_, _, f3, _, _⟩ := save_inode_frame
      { mountState (format disk).2 with inode_table := upd (mountState (format disk).2).inode_table 0 (Inode.mk 1 0 (fun _ => 0) 0) }
      0 (Inode.mk 1 0 (fun _ => 0) 0)
    rw [stat_valid _ 0 ⟨by unfold Mounted.inodes Disk.size; rw [f3]; exact h0, by rw [sV]; decide⟩, sS]
    rfl

set_option maxRecDepth 100000 in
/-- Witness for C12: an unmounted device of 100 blocks, for which `I = 10` and
`T = 1280`. -/
theorem format_then_mount_witness :
    (INODE_BLOCKS (rawDisk 100).size = 10 ∧ big0.inodes = 1280) ∧
    (format (rawDisk 100)).1 = true ∧ (FileSystem.fresh.mount (format (rawDisk 100)).2).1 = true ∧
    (FileSystem.fresh.mount (format (rawDisk 100)).2).2.create.1 = 0 ∧
    ((FileSystem.fresh.mount (format (rawDisk 100)).2).2.create.2.stat 0).1 = 0 :=
  ⟨⟨by decide, by decide⟩, format_then_mount (rawDisk 100) (by decide) (by decide) (by decide)⟩

/-- Counterexample to C12 as stated: an unmounted device of 335544320 blocks is
formatted and mounted, but `T = 128 * 33554432 = 2^32` is 0 as a 32-bit count, and the
first `create()` returns -1. -/
theorem format_then_mount_counterexample :
    (rawDisk 335544320).mounted = false ∧ 2 ≤ (rawDisk 335544320).size ∧
    (format (rawDisk 335544320)).1 = true ∧
    (FileSystem.fresh.mount (format (rawDisk 335544320)).2).1 = true ∧
    (FileSystem.fresh.mount (format (rawDisk 335544320)).2).2.create.1 = -1 := by
  have hm := format_mount (rawDisk 335544320) rfl (by decide)
  obtain ⟨_, _, hsz, _⟩ := format_mount_state (rawDisk 335544320) rfl (by decide) (by decide)
  refine ⟨rfl, by decide, (format_unmounted (rawDisk 335544320) rfl).1, by rw [hm], ?_⟩
  rw [hm]
  simp only []
  rw [toFS_create, create_none _ (by rw [hsz]; decide)]

/-- Claim C14, at the failing input: on the volume made by `format` and `mount` of a
device of 167772160 blocks there are `T = 2^31` inodes and cache entry 0 is not valid,
yet `create()` returns -1, because `create` holds the inode count in an `int`, where it
is `-2^31`. -/
theorem create_int_overflow :
    FileSystem.fresh.mount (format (rawDisk 167772160)).2
      = (true, (mountState (format (rawDisk 167772160)).2).toFS) ∧
    (mountState (format (rawDisk 167772160)).2).inodes = 2147483648 ∧
    ((mountState (format (rawDisk 167772160)).2).inode_table 0).Valid = 0 ∧
    create_inodes (mountState (format (rawDisk 167772160)).2).disk.size = -2147483648 ∧
    (mountState (format (rawDisk 167772160)).2).toFS.create.1 = -1 := by
  have hm := format_mount (rawDisk 167772160) rfl (by decide)
  obtain ⟨_, _, hsz, htab, _⟩ := format_mount_state (rawDisk 167772160) rfl (by decide)
    (by decide)
  refine ⟨hm, ?_, by rw [htab 0]; rfl, by rw [hsz]; decide, ?_⟩
  · rw [inodes_eq, hsz]
    decide
  · rw [toFS_create, create_none _ (by rw [hsz]; decide)]

/-! ## mount validation -/

/-- Claim C13, amended: `mount(disk)` returns false and leaves the handle (bound device,
bitmap, inode cache) unchanged whenever `disk` is already the handle's bound device or
block 0 has `MagicNumber ≠ 0xF0F03410`, `Blocks ≠ N`, `InodeBlocks ≠ ceil(N / 10)`, or
`Inodes ≠ (InodeBlocks * 128) mod 2^32`; a fresh handle then stays unbound, and `create`,
`stat`, `read` and `write` on it return -1.  (A failed mount yields no new device value:
the device is not touched.) -/
theorem mount_validation (fs : FileSystem) (disk : Disk)
    (h : fs.currMountedDisk.map Disk.addr = some disk.addr ∨
      (disk.read 0).Super.MagicNumber ≠ 0xF0F03410 ∨
      (disk.read 0).Super.Blocks ≠ disk.size ∨
      (disk.read 0).Super.InodeBlocks ≠ (disk.size + 9) / 10 ∨
      (disk.read 0).Super.Inodes ≠ ((disk.read 0).Super.InodeBlocks * 128) % 4294967296) :
    fs.mount disk = (false, fs) ∧
    (fs = FileSystem.fresh →
      (fs.mount disk).2.create.1 = -1 ∧ (∀ n, ((fs.mount disk).2.stat n).1 = -1) ∧
      (∀ n buf len off, ((fs.mount disk).2.read n buf len off).1 = -1) ∧
      (∀ n data len off, ((fs.mount disk).2.write n data len off).1 = -1)) := by
  have key : fs.mount disk = (false, fs) := by
    unfold FileSystem.mount
    by_cases hb : fs.currMountedDisk.map Disk.addr = some disk.addr
    · rw [if_pos hb]
    · rw [if_neg hb]
      simp only []
      have hbad : (disk.read 0).Super.MagicNumber ≠ MAGIC_NUMBER ∨
          (disk.read 0).Super.Blocks ≠ disk.size ∨
          (disk.read 0).Super.InodeBlocks ≠ u32 (INODE_BLOCKS (disk.read 0).Super.Blocks) ∨
          (disk.read 0).Super.Inodes
            ≠ u32 ((disk.read 0).Super.InodeBlocks * INODES_PER_BLOCK) := by
        rcases h with h | h | h | h | h
        · exact absurd h hb
        · exact Or.inl h
        · exact Or.inr (Or.inl h)
        · by_cases hB : (disk.read 0).Super.Blocks = disk.size
          · right; right; left
            have hlt : disk.size < 4294967296 := by
              rw [← hB]; exact getWord_lt _ _
            rw [hB, INODE_BLOCKS_eq disk.size hlt, u32_of_lt (by omega)]
            exact h
          · exact Or.inr (Or.inl hB)
        · exact Or.inr (Or.inr (Or.inr h))
      rw [if_pos hbad]
  refine ⟨key, fun hf => ?_⟩
  rw [key, hf]
  exact ⟨rfl, fun _ => rfl, fun _ _ _ _ => rfl, fun _ _ _ _ => rfl⟩

set_option maxRecDepth 100000 in
/-- Witness for C13: a formatted ten-block device whose magic number was overwritten. -/
theorem mount_validation_witness :
    (flippedDisk.read 0).Super.MagicNumber ≠ 0xF0F03410 ∧
    FileSystem.fresh.mount flippedDisk = (false, FileSystem.fresh) ∧
    (FileSystem.fresh = FileSystem.fresh →
      (FileSystem.fresh.mount flippedDisk).2.create.1 = -1 ∧
      (∀ n, ((FileSystem.fresh.mount flippedDisk).2.stat n).1 = -1) ∧
      (∀ n buf len off, ((FileSystem.fresh.mount flippedDisk).2.read n buf len off).1 = -1) ∧
      (∀ n data len off, ((FileSystem.fresh.mount flippedDisk).2.write n data len off).1 = -1)) :=
  ⟨by decide, mount_validation FileSystem.fresh flippedDisk (Or.inr (Or.inl (by decide)))⟩

set_option maxRecDepth 100000 in
/-- Counterexample to C13 as stated: on an image of 335544320 blocks whose superblock
has `InodeBlocks = 33554432` and `Inodes = 0`, `Inodes ≠ InodeBlocks * 128`, yet `mount`
returns true: the product the code compares with is formed in 32 bits. -/
theorem mount_validation_counterexample :
    (wrapImage.read 0).Super.Inodes ≠ (wrapImage.read 0).Super.InodeBlocks * 128 ∧
    (FileSystem.fresh.mount wrapImage).1 = true :=
  ⟨by decide, by decide⟩

/-! ## remove -/

theorem stat_invalid (m : Mounted) (n : Nat) (h : ¬ m.valid n) : m.stat n = (-1, m) := by
  unfold Mounted.stat
  by_cases hn : n ≥ m.inodes
  · rw [if_pos hn]
  · rw [if_neg hn]
    have hn1 : n < m.inodes := Nat.lt_of_not_ge hn
    simp only [load_inode_eq m n _ hn1]
    have : (m.inode n).Valid = 0 := by
      by_contra hc
      exact h ⟨hn1, hc⟩
    rw [if_pos this]

/-- Claim C15 (remove releases everything): in every mounted state, in particular every
reachable one, for every inode `n` valid on disk, `remove(n)` returns true; afterwards
`stat(n)` returns -1, the bitmap cell of every block that `n` referenced (a nonzero
Direct entry, the nonzero Indirect pointer, a nonzero entry of its pointer block) is 0,
and every other bitmap cell is unchanged. -/
theorem remove_releases (m : Mounted) (n : Nat) (hv : m.valid n) :
    (m.toFS.remove n).1 = true ∧ ((m.toFS.remove n).2.stat n).1 = -1 ∧
    ∀ b, ((∃ s, Slot.inRange s ∧ m.pointer n s = b ∧ b ≠ 0) →
        (m.remove n).2.free_block_map b = 0) ∧
      ((¬ ∃ s, Slot.inRange s ∧ m.pointer n s = b ∧ b ≠ 0) →
        (m.remove n).2.free_block_map b = m.free_block_map b) := by
  obtain ⟨map3, hmap, he⟩ := remove_eq m n hv
  have hn : n < (Mounted.mk m.disk (upd m.inode_table n Inode.zero) map3 m.inode_table_len m.free_block_map_len).inodes := hv.1
  rw [toFS_remove]
  simp only []
  rw [toFS_stat]
  simp only []
  rw [he]
  obtain ⟨_, f2, _⟩ := save_inode_frame
    { m with free_block_map := map3, inode_table := upd m.inode_table n Inode.zero } n Inode.zero
  obtain ⟨sV, _⟩ := inode_save_same
    { m with free_block_map := map3, inode_table := upd m.inode_table n Inode.zero } n Inode.zero hn
  refine ⟨save_inode_fst _ _ _ hn, ?_, fun b => ?_⟩
  · rw [stat_invalid _ n (fun h => h.2 (by rw [sV]; rfl))]
  · rw [f2]
    refine ⟨(hmap b).1, fun h => (hmap b).2 (fun s hs hne he => h ⟨s, hs, he, ?_⟩)⟩
    rw [← he]
    exact hne

set_option maxRecDepth 1000000 in
set_option maxHeartbeats 4000000 in
/-- Witness for C15: on a fresh 100-block volume a write of `5 * 4096 + 10` bytes to
inode 0 takes the direct blocks 11 .. 15, the pointer block 16 and the data block 17;
`remove(0)` clears these seven cells, the next `create()` returns 0, and the same write
takes the same seven blocks again. -/
theorem remove_releases_witness :
    ((∀ k, k < 5 → (big2.inode 0).Direct k = 11 + k) ∧ (big2.inode 0).Indirect = 16 ∧
      big2.pointer 0 (.entry 0) = 17 ∧ big2.pointer 0 (.entry 1) = 0) ∧
    ((∀ b, b < 18 → 11 ≤ b → big2.free_block_map b = 1 ∧ (big2.remove 0).2.free_block_map b = 0) ∧
      (big2.remove 0).2.create.1 = 0 ∧
      (∀ k, k < 5 →
        (((big2.remove 0).2.create.2.write 0 bytesBB (5 * 4096 + 10) 0).2.inode 0).Direct k
          = 11 + k) ∧
      (((big2.remove 0).2.create.2.write 0 bytesBB (5 * 4096 + 10) 0).2.inode 0).Indirect = 16 ∧
      ((big2.remove 0).2.create.2.write 0 bytesBB (5 * 4096 + 10) 0).2.pointer 0 (.entry 0)
        = 17) ∧
    (big2.toFS.remove 0).1 = true ∧ ((big2.toFS.remove 0).2.stat 0).1 = -1 ∧
    ∀ b, ((∃ s, Slot.inRange s ∧ big2.pointer 0 s = b ∧ b ≠ 0) →
        (big2.remove 0).2.free_block_map b = 0) ∧
      ((¬ ∃ s, Slot.inRange s ∧ big2.pointer 0 s = b ∧ b ≠ 0) →
        (big2.remove 0).2.free_block_map b = big2.free_block_map b) :=
  ⟨by decide!, by decide!, remove_releases big2 0 ⟨by decide, by decide⟩⟩

/-! ## The order of the device writes of `write` -/

/-- Claim C17, amended: in every `write` call on a reachable state that passes the
checks, the device writes are, in this order: writes of blocks of the data region
(the data blocks filled by the slot walks), then the write of the inode block of the
owning inode, and then, when the call goes through the indirect phase, one write of the
indirect pointer block.  The pointer block is thus written back after the inode block,
not before it. -/
theorem write_order (m : Mounted) (hr : Reachable m.toFS) (n : Nat) (hv : m.valid n)
    (data : Buffer) (len off : Nat) (hlen : 1 ≤ len) (hoff : off ≤ (m.inode n).Size) :
    ∃ pre post, (m.write n data len off).2.disk.log
        = m.disk.log ++ pre ++ (1 + n / INODES_PER_BLOCK) :: post ∧
      (∀ b, b ∈ pre → INODE_BLOCKS m.disk.size < b ∧ b < m.disk.size) ∧
      (post = [] ∨ post = [((m.write n data len off).2.inode n).Indirect]) ∧
      (POINTERS_PER_INODE * BLOCK_SIZE < off + len →
        ((m.write n data len off).2.inode n).Indirect ≠ 0 →
        post = [((m.write n data len off).2.inode n).Indirect]) := by
  obtain ⟨_, _, _, _, _, hlog⟩ :=
    write_spec m (reach_mounted m hr) n hv data len off (by omega) hoff
  exact hlog

set_option maxRecDepth 1000000 in
set_option maxHeartbeats 4000000 in
/-- Witness for C17: a write of `5 * 4096 + 10` bytes to the empty inode 0 of the
ten-block volume. -/
theorem write_order_witness :
    (vol1.inode 0).Size = 0 ∧
    ∃ pre post, (vol1.write 0 bytesAA (5 * 4096 + 10) 0).2.disk.log
        = vol1.disk.log ++ pre ++ (1 + 0 / INODES_PER_BLOCK) :: post ∧
      (∀ b, b ∈ pre → INODE_BLOCKS vol1.disk.size < b ∧ b < vol1.disk.size) ∧
      (post = [] ∨ post = [((vol1.write 0 bytesAA (5 * 4096 + 10) 0).2.inode 0).Indirect]) ∧
      (POINTERS_PER_INODE * BLOCK_SIZE < 0 + (5 * 4096 + 10) →
        ((vol1.write 0 bytesAA (5 * 4096 + 10) 0).2.inode 0).Indirect ≠ 0 →
        post = [((vol1.write 0 bytesAA (5 * 4096 + 10) 0).2.inode 0).Indirect]) :=
  ⟨by decide, write_order vol1 reach_vol1 0 valid_vol1 bytesAA (5 * 4096 + 10) 0 (by decide)
    (by decide)⟩

set_option maxRecDepth 1000000 in
set_option maxHeartbeats 4000000 in
/-- Counterexample to C17 as stated: a write of `5 * 4096 + 10` bytes to the empty inode
0 of the ten-block volume returns 20490 and goes through the indirect phase; it writes
the data blocks 2, 3, 4, 5, 6 and 8, then the inode block 1, and last the indirect
pointer block 7. -/
theorem write_order_counterexample :
    (vol1.write 0 bytesAA (5 * 4096 + 10) 0).1 = 20490 ∧
    ((vol1.write 0 bytesAA (5 * 4096 + 10) 0).2.inode 0).Indirect = 7 ∧
    1 + 0 / INODES_PER_BLOCK = 1 ∧
    (vol1.write 0 bytesAA (5 * 4096 + 10) 0).2.disk.log
      = vol1.disk.log ++ [2, 3, 4, 5, 6, 8, 1, 7] := by
  decide!

/-! ## The content of a newly allocated block -/

/-- Claim C18, amended (new blocks keep their device content): in every state reachable
from format + mount, when `write(n, data, length, offset)` installs a block `b` in a slot
of the file that was empty before the call (logical block `k`, a direct pointer or an
entry of the pointer block), the block starts at or after `offset`, and with `w` the
value the call returns, every byte `q < 4096` of `b` on the device after the call is
the caller's byte `data[k * 4096 + q - offset]` when its position `k * 4096 + q` is
below `offset + w`, and otherwise the byte that block `b` held on the device before the
call: the scratch buffer of a new block is read from the device, not zeroed. -/
theorem new_block_keeps_content (m : Mounted) (hr : Reachable m.toFS) (n : Nat)
    (data : Buffer) (len off k : Nat) (hk : k < POINTERS_PER_INODE + POINTERS_PER_BLOCK)
    (hempty : m.pointer n (logical k) = 0)
    (hnew : (m.write n data len off).2.pointer n (logical k) ≠ 0) :
    ∃ w : Nat, m.toFS.write n data len off = ((w : Int), (m.write n data len off).2.toFS) ∧
      off ≤ k * BLOCK_SIZE ∧
      ∀ q, q < BLOCK_SIZE →
        (m.write n data len off).2.disk.data
            ((m.write n data len off).2.pointer n (logical k)) q =
          if k * BLOCK_SIZE + q < off + w then data (k * BLOCK_SIZE + q - off)
          else m.disk.data ((m.write n data len off).2.pointer n (logical k)) q := by
  have hI := reach_mounted m hr
  have same : (m.write n data len off).2 = m → False := by
    intro h
    rw [h] at hnew
    exact hnew hempty
  by_cases hlen : len = 0
  · exact absurd (by rw [hlen]; exact write_zero m n data off) same
  by_cases hv : m.valid n
  · by_cases hoff : off ≤ (m.inode n).Size
    · obtain ⟨w, hw, _, hok, _, _, hkeep⟩ := write_spec_full m hI n hv data len off hlen hoff
      have hcov := hI.covered n k hv
      simp only [BLOCK_SIZE] at hcov
      have hoffk : off ≤ k * 4096 := by
        by_contra hc
        exact hcov (by omega) hempty
      refine ⟨w, ?_, hoffk, fun q hq => ?_⟩
      · rw [toFS_write, hw]
      · have hq1 : q < 4096 := hq
        simp only [BLOCK_SIZE]
        by_cases hin : k * 4096 + q < off + w
        · rw [if_pos hin]
          have := hok.2.2.2.2.1 (k * 4096 + q - off) (by omega)
          rw [fileByte_eq] at this
          have e1 : (off + (k * 4096 + q - off)) / 4096 = k := by omega
          have e2 : (off + (k * 4096 + q - off)) % 4096 = q := by omega
          rw [e1, e2] at this
          exact this
        · rw [if_neg hin]
          exact hkeep k hk hnew q hq (by simp only [BLOCK_SIZE]; omega)
    · exact absurd (by rw [write_fail m n data len off hlen (Or.inr (by omega))]) same
  · exact absurd (by rw [write_fail m n data len off hlen (Or.inl hv)]) same

theorem reach_stale : Reachable stale.toFS :=
  reach_create _ (reach_remove _ (reach_write _ reach_vol1 _ _ _ _) _)

set_option maxRecDepth 1000000 in
set_option maxHeartbeats 4000000 in
/-- Witness for C18: `write(0, "hello", 5, 0)` on a volume whose free block 2 still holds
the bytes `0xAA` of a removed file installs block 2 in the empty slot `Direct[0]`;
byte 100 of block 2 is not among the five bytes written, and is `0xAA` before and after. -/
theorem new_block_keeps_content_witness :
    (stale.pointer 0 (logical 0) = 0 ∧ (stale.write 0 hello 5 0).2.pointer 0 (logical 0) = 2 ∧
      stale.disk.data 2 100 = 170 ∧ (stale.write 0 hello 5 0).2.disk.data 2 100 = 170) ∧
    ∃ w : Nat, stale.toFS.write 0 hello 5 0 = ((w : Int), (stale.write 0 hello 5 0).2.toFS) ∧
      0 ≤ 0 * BLOCK_SIZE ∧
      ∀ q, q < BLOCK_SIZE →
        (stale.write 0 hello 5 0).2.disk.data
            ((stale.write 0 hello 5 0).2.pointer 0 (logical 0)) q =
          if 0 * BLOCK_SIZE + q < 0 + w then hello (0 * BLOCK_SIZE + q - 0)
          else stale.disk.data ((stale.write 0 hello 5 0).2.pointer 0 (logical 0)) q :=
  ⟨by decide!, new_block_keeps_content stale reach_stale 0 hello 5 0 0 (by decide)
    (by decide!) (by decide!)⟩

set_option maxRecDepth 1000000 in
set_option maxHeartbeats 4000000 in
/-- Counterexample to C18 as stated: on the ten-block volume, block 2 held a file of
`0xAA` bytes that was removed.  `write(0, "hello", 5, 0)` to the new empty inode 0 finds
`Direct[0]` empty and is given block 2 by the allocator; afterwards byte 100 of block 2,
outside the five bytes written, is `0xAA`, not 0. -/
theorem new_block_keeps_content_counterexample :
    stale.free_block_map 2 = 0 ∧ (stale.inode 0).Direct 0 = 0 ∧
    (stale.write 0 hello 5 0).1 = 5 ∧ ((stale.write 0 hello 5 0).2.inode 0).Direct 0 = 2 ∧
    (stale.write 0 hello 5 0).2.disk.data 2 100 = 170 := by
  decide!

/-! ## The inode cache after `mount` -/

theorem mount_true_super (disk : Disk) (h : (FileSystem.fresh.mount disk).1 = true) :
    disk.size < 4294967296 ∧ (disk.read 0).Super.InodeBlocks = INODE_BLOCKS disk.size := by
  unfold FileSystem.mount at h
  have hc : ¬ (FileSystem.fresh.currMountedDisk.map Disk.addr = some disk.addr) := by
    simp [FileSystem.fresh]
  rw [if_neg hc] at h
  simp only [] at h
  by_cases hbad : (disk.read 0).Super.MagicNumber ≠ MAGIC_NUMBER ∨
      (disk.read 0).Super.Blocks ≠ disk.size ∨
      (disk.read 0).Super.InodeBlocks ≠ u32 (INODE_BLOCKS (disk.read 0).Super.Blocks) ∨
      (disk.read 0).Super.Inodes ≠ u32 ((disk.read 0).Super.InodeBlocks * INODES_PER_BLOCK)
  · rw [if_pos hbad] at h
    exact absurd h (by simp)
  · have hB : (disk.read 0).Super.Blocks = disk.size := by
      by_contra hne
      exact hbad (Or.inr (Or.inl hne))
    have hIB : (disk.read 0).Super.InodeBlocks = u32 (INODE_BLOCKS (disk.read 0).Super.Blocks) := by
      by_contra hne
      exact hbad (Or.inr (Or.inr (Or.inl hne)))
    have hlt : disk.size < 4294967296 := by
      rw [← hB]; exact getWord_lt _ _
    refine ⟨hlt, ?_⟩
    rw [hIB, hB, INODE_BLOCKS_eq disk.size hlt]
    exact u32_of_lt (by omega)

/-- The words `Blocks` and `Inodes` of a superblock that passes the validation of
`mount`. -/
theorem mount_true_words (disk : Disk) (h : (FileSystem.fresh.mount disk).1 = true) :
    (disk.read 0).Super.Blocks = disk.size ∧
    (disk.read 0).Super.Inodes = u32 (INODE_BLOCKS disk.size * INODES_PER_BLOCK) := by
  obtain ⟨_, hIB⟩ := mount_true_super disk h
  unfold FileSystem.mount at h
  have hc : ¬ (FileSystem.fresh.currMountedDisk.map Disk.addr = some disk.addr) := by
    simp [FileSystem.fresh]
  rw [if_neg hc] at h
  simp only [] at h
  by_cases hbad : (disk.read 0).Super.MagicNumber ≠ MAGIC_NUMBER ∨
      (disk.read 0).Super.Blocks ≠ disk.size ∨
      (disk.read 0).Super.InodeBlocks ≠ u32 (INODE_BLOCKS (disk.read 0).Super.Blocks) ∨
      (disk.read 0).Super.Inodes ≠ u32 ((disk.read 0).Super.InodeBlocks * INODES_PER_BLOCK)
  · rw [if_pos hbad] at h
    exact absurd h (by simp)
  · refine ⟨?_, ?_⟩
    · by_contra hne
      exact hbad (Or.inr (Or.inl hne))
    · rw [← hIB]
      by_contra hne
      exact hbad (Or.inr (Or.inr (Or.inr hne)))

theorem save_inode_lens (m : Mounted) (n : Nat) (node : Inode) :
    (save_inode m n node).2.inode_table_len = m.inode_table_len ∧
    (save_inode m n node).2.free_block_map_len = m.free_block_map_len := by
  unfold save_inode
  split_ifs
  · exact ⟨rfl, rfl⟩
  · exact ⟨rfl, rfl⟩

theorem update_inode_lens (m : Mounted) (n : Nat) (node : Inode) (size : Nat) :
    (update_inode m n node size).inode_table_len = m.inode_table_len ∧
    (update_inode m n node size).free_block_map_len = m.free_block_map_len := by
  rw [update_inode_eq]
  exact save_inode_lens _ _ _

theorem create_lens (m : Mounted) :
    m.create.2.inode_table_len = m.inode_table_len ∧
    m.create.2.free_block_map_len = m.free_block_map_len := by
  rcases create_cases m with hc | ⟨inum, _, _, hc⟩
  · rw [hc]; exact ⟨rfl, rfl⟩
  · rw [hc]
    exact save_inode_lens _ _ _

theorem remove_lens (m : Mounted) (n : Nat) :
    (m.remove n).2.inode_table_len = m.inode_table_len ∧
    (m.remove n).2.free_block_map_len = m.free_block_map_len := by
  by_cases hv : m.valid n
  · obtain ⟨map3, _, he⟩ := remove_eq m n hv
    rw [he]
    exact save_inode_lens _ _ _
  · rw [remove_fail m n hv]; exact ⟨rfl, rfl⟩

theorem i_write_loop_lens (len : Nat) (data : Buffer) (off : Nat) :
    ∀ k d w ptrs m,
      (i_write_loop len data off k d w ptrs m).2.2.inode_table_len = m.inode_table_len ∧
      (i_write_loop len data off k d w ptrs m).2.2.free_block_map_len = m.free_block_map_len := by
  intro k
  induction k with
  | zero => intro _ _ _ _; exact ⟨rfl, rfl⟩
  | succ k ih =>
    intro d w ptrs m
    rw [i_write_loop]
    by_cases hskip : off ≥ (d + 1) * BLOCK_SIZE
    · rw [if_pos hskip]; exact ih _ _ _ _
    rw [if_neg hskip]
    simp only []
    by_cases h0 : ptrs d ≠ 0
    · rw [if_pos h0]
      simp only []
      split_ifs
      · exact ih _ _ _ _
      · exact ⟨rfl, rfl⟩
      · exact ⟨rfl, rfl⟩
      · exact ih _ _ _ _
    · rw [if_neg h0]
      rcases allocate_cases m with ⟨hnone, _⟩ | ⟨b, _, _, _, hsome⟩
      · rw [hnone]; exact ⟨rfl, rfl⟩
      · rw [hsome]
        simp only []
        split_ifs
        · exact ih _ _ _ _
        · exact ⟨rfl, rfl⟩
        · exact ⟨rfl, rfl⟩
        · exact ih _ _ _ _

theorem write_lens (m : Mounted) (n : Nat) (data : Buffer) (len off : Nat) :
    (m.write n data len off).2.inode_table_len = m.inode_table_len ∧
    (m.write n data len off).2.free_block_map_len = m.free_block_map_len := by
  unfold Mounted.write
  by_cases hn : n ≥ m.inodes
  · rw [if_pos hn]; exact ⟨rfl, rfl⟩
  rw [if_neg hn]
  by_cases hlen : len = 0
  · rw [if_pos hlen]; exact ⟨rfl, rfl⟩
  rw [if_neg hlen]
  simp only []
  generalize (load_inode m n Inode.zero).2 = ino
  by_cases hbad : ino.Valid = 0 ∨ off > ino.Size
  · rw [if_pos hbad]; exact ⟨rfl, rfl⟩
  rw [if_neg hbad]
  simp only [i_write]
  have L1 := i_write_loop_lens len data off POINTERS_PER_INODE 0 0 ino.Direct m
  generalize i_write_loop len data off POINTERS_PER_INODE 0 0 ino.Direct m = r1 at L1 ⊢
  obtain ⟨w1, D1, m1⟩ := r1
  simp only at L1 ⊢
  by_cases hfull : w1 = len
  · rw [if_pos hfull]
    obtain ⟨u1, u2⟩ := update_inode_lens m1 n { ino with Direct := D1 } (off + len)
    exact ⟨u1.trans L1.1, u2.trans L1.2⟩
  rw [if_neg hfull]
  by_cases hind : ino.Indirect = 0
  · rw [if_pos hind]
    rcases allocate_cases m1 with ⟨hnone, _⟩ | ⟨b, _, _, _, hsome⟩
    · rw [hnone]
      simp only []
      obtain ⟨u1, u2⟩ := update_inode_lens m1 n { ino with Direct := D1 } (off + w1)
      exact ⟨u1.trans L1.1, u2.trans L1.2⟩
    · rw [hsome]
      simp only []
      have L2 := i_write_loop_lens (len - w1) (shift data w1)
        (if off > POINTERS_PER_INODE * BLOCK_SIZE then off - POINTERS_PER_INODE * BLOCK_SIZE else 0)
        POINTERS_PER_BLOCK 0 0 zeroBlock.Pointers
        { m1 with free_block_map := upd m1.free_block_map b 1 }
      generalize i_write_loop (len - w1) (shift data w1)
        (if off > POINTERS_PER_INODE * BLOCK_SIZE then off - POINTERS_PER_INODE * BLOCK_SIZE else 0)
        POINTERS_PER_BLOCK 0 0 zeroBlock.Pointers
        { m1 with free_block_map := upd m1.free_block_map b 1 } = r2 at L2 ⊢
      obtain ⟨u1, u2⟩ := update_inode_lens r2.2.2 n
        { ino with Direct := D1, Indirect := u32 b } (off + (w1 + r2.1))
      exact ⟨u1.trans (L2.1.trans L1.1), u2.trans (L2.2.trans L1.2)⟩
  · rw [if_neg hind]
    simp only []
    have L2 := i_write_loop_lens (len - w1) (shift data w1)
      (if off > POINTERS_PER_INODE * BLOCK_SIZE then off - POINTERS_PER_INODE * BLOCK_SIZE else 0)
      POINTERS_PER_BLOCK 0 0 (m1.disk.read ino.Indirect).Pointers m1
    generalize i_write_loop (len - w1) (shift data w1)
      (if off > POINTERS_PER_INODE * BLOCK_SIZE then off - POINTERS_PER_INODE * BLOCK_SIZE else 0)
      POINTERS_PER_BLOCK 0 0 (m1.disk.read ino.Indirect).Pointers m1 = r2 at L2 ⊢
    obtain ⟨u1, u2⟩ := update_inode_lens r2.2.2 n { ino with Direct := D1 }
      (off + (w1 + r2.1))
    exact ⟨u1.trans (L2.1.trans L1.1), u2.trans (L2.2.trans L1.2)⟩

/-- On every reachable handle the inode cache has as many entries as the 32-bit word
`Inodes` of the superblock says, `T` modulo `2^32`, and the bitmap has `N` cells. -/
theorem reach_lens_fs (fs : FileSystem) (h : Reachable fs) :
    ∃ m : Mounted, fs = m.toFS ∧ m.inode_table_len = u32 m.inodes ∧
      m.free_block_map_len = m.disk.size := by
  induction h with
  | init disk fs h2 hf hm =>
    have hok : (FileSystem.fresh.mount (format disk).2).1 = true := by rw [hm]
    have he := mount_ok _ hok
    obtain ⟨w1, w2⟩ := mount_true_words _ hok
    refine ⟨mountState (format disk).2, ?_, w2, w1⟩
    rw [he] at hm
    exact (congrArg Prod.snd hm).symm
  | call fs c hr ih =>
    obtain ⟨m, hfs, l1, l2⟩ := ih
    have hI : Inv m := reach_mounted m (by rw [← hfs]; exact hr)
    rw [hfs]
    cases c with
    | create =>
      have hsz : m.create.2.disk.size = m.disk.size := by
        rcases create_cases m with hc | ⟨inum, _, _, hc⟩
        · rw [hc]
        · rw [hc]
          exact (save_inode_frame _ inum _).2.2.1
      refine ⟨m.create.2, rfl, ?_, ?_⟩
      · rw [(create_lens m).1, l1, inodes_congr hsz]
      · rw [(create_lens m).2, l2, hsz]
    | remove n =>
      have hsz : (m.remove n).2.disk.size = m.disk.size := by
        by_cases hv : m.valid n
        · obtain ⟨map3, _, he⟩ := remove_eq m n hv
          rw [he]
          exact (save_inode_frame _ n _).2.2.1
        · rw [remove_fail m n hv]
      refine ⟨(m.remove n).2, rfl, ?_, ?_⟩
      · rw [(remove_lens m n).1, l1, inodes_congr hsz]
      · rw [(remove_lens m n).2, l2, hsz]
    | stat n =>
      refine ⟨m, ?_, l1, l2⟩
      show (m.toFS.stat n).2 = m.toFS
      rw [toFS_stat, stat_state]
    | read n buf len off =>
      refine ⟨m, ?_, l1, l2⟩
      show (m.toFS.read n buf len off).2.2 = m.toFS
      rw [toFS_read, read_state]
    | write n data len off =>
      have hsz : (m.write n data len off).2.disk.size = m.disk.size := by
        by_cases hlen : len = 0
        · rw [hlen, write_zero]
        by_cases hv : m.valid n
        · by_cases hoff : off ≤ (m.inode n).Size
          · obtain ⟨w, _, _, hw, _⟩ := write_spec m hI n hv data len off hlen hoff
            exact hw.2.1
          · rw [write_fail m n data len off hlen (Or.inr (by omega))]
        · rw [write_fail m n data len off hlen (Or.inl hv)]
      refine ⟨(m.write n data len off).2, rfl, ?_, ?_⟩
      · rw [(write_lens m n data len off).1, l1, inodes_congr hsz]
      · rw [(write_lens m n data len off).2, l2, hsz]

theorem reach_lens (m : Mounted) (h : Reachable m.toFS) :
    m.inode_table_len = u32 m.inodes ∧ m.free_block_map_len = m.disk.size := by
  obtain ⟨m1, e, l⟩ := reach_lens_fs _ h
  rw [toFS_inj e]
  exact l

theorem mountState_table_len (disk : Disk) :
    (mountState disk).inode_table_len = (disk.read 0).Super.Inodes := rfl

theorem read_invalid (m : Mounted) (n : Nat) (buf : Buffer) (len off : Nat) (h : ¬ m.valid n) :
    m.read n buf len off = (-1, buf, m) := by
  unfold Mounted.read
  by_cases hn : n ≥ m.inodes
  · rw [if_pos hn]
  · rw [if_neg hn]
    have hn1 : n < m.inodes := Nat.lt_of_not_ge hn
    simp only [load_inode_eq m n _ hn1]
    have : (m.inode n).Valid = 0 := by
      by_contra hc
      exact h ⟨hn1, hc⟩
    rw [if_pos (Or.inl this)]

/-- The walk of `i_read` depends on the device only through the blocks its pointers name. -/
theorem i_read_loop_congr (m m1 : Mounted) (ptrs : Nat → Nat) (len off base : Nat) :
    ∀ k d r out,
      (∀ j, d ≤ j → j < d + k → ptrs j ≠ 0 → m1.disk.data (ptrs j) = m.disk.data (ptrs j)) →
      i_read_loop m1 ptrs len off base k d r out = i_read_loop m ptrs len off base k d r out := by
  intro k
  induction k with
  | zero => intro d r out _; rfl
  | succ k ih =>
    intro d r out h
    have ih1 : ∀ r out, i_read_loop m1 ptrs len off base k (d + 1) r out =
        i_read_loop m ptrs len off base k (d + 1) r out :=
      fun r out => ih (d + 1) r out (fun j h1 h2 => h j (by omega) (by omega))
    simp only [i_read_loop]
    by_cases hp : ptrs d ≠ 0
    · rw [if_pos hp, if_pos hp]
      simp only [Disk.read, h d (Nat.le_refl d) (by omega) hp, ih1]
    · rw [if_neg hp, if_neg hp]
      exact ih1 r out

/-- The value and the bytes of `read` depend on the state only through the inode and the
blocks that its slots name. -/
theorem read_congr (m m1 : Mounted) (k : Nat) (hk : k < m.inodes) (hk1 : k < m1.inodes)
    (hino : m1.inode k = m.inode k)
    (hdir : ∀ j, j < POINTERS_PER_INODE → (m.inode k).Direct j ≠ 0 →
      m1.disk.data ((m.inode k).Direct j) = m.disk.data ((m.inode k).Direct j))
    (hind : (m.inode k).Indirect ≠ 0 →
      m1.disk.data (m.inode k).Indirect = m.disk.data (m.inode k).Indirect)
    (hent : (m.inode k).Indirect ≠ 0 → ∀ j, j < POINTERS_PER_BLOCK →
      (m.disk.data (m.inode k).Indirect).Pointers j ≠ 0 →
      m1.disk.data ((m.disk.data (m.inode k).Indirect).Pointers j) =
        m.disk.data ((m.disk.data (m.inode k).Indirect).Pointers j))
    (buf : Buffer) (l o : Nat) :
    (m1.read k buf l o).1 = (m.read k buf l o).1 ∧
    (m1.read k buf l o).2.1 = (m.read k buf l o).2.1 := by
  have e1 : ∀ len out base off,
      i_read m1 (m.inode k).Direct POINTERS_PER_INODE len out base off =
        i_read m (m.inode k).Direct POINTERS_PER_INODE len out base off := by
    intro len out base off
    exact i_read_loop_congr m m1 _ len off base _ 0 0 out
      (fun j _ h2 h3 => hdir j (by omega) h3)
  unfold Mounted.read
  rw [if_neg (Nat.not_le.mpr hk), if_neg (Nat.not_le.mpr hk1)]
  simp only [load_inode_eq m k _ hk, load_inode_eq m1 k _ hk1, hino, e1]
  by_cases h0 : (m.inode k).Indirect = 0
  · simp only [h0, if_true]
    split_ifs <;> exact ⟨rfl, rfl⟩
  · have e2 : ∀ len out base off,
        i_read m1 (m.disk.data (m.inode k).Indirect).Pointers POINTERS_PER_BLOCK len out base off =
          i_read m (m.disk.data (m.inode k).Indirect).Pointers POINTERS_PER_BLOCK len out base
            off := by
      intro len out base off
      exact i_read_loop_congr m m1 _ len off base _ 0 0 out
        (fun j _ h2 h3 => hent h0 j (by omega) h3)
    simp only [Disk.read, hind h0, e2]
    split_ifs <;> exact ⟨rfl, rfl⟩

/-- A state change that leaves an inode `k`, its slots and the blocks in its slots alone
does not change what `stat` and `read` return for `k`. -/
theorem frame_stat_read (m m1 : Mounted) (hI : Inv m) (hI1 : Inv m1) (n : Nat)
    (hvn : m.valid n)
    (hvalid : ∀ n1, m1.valid n1 ↔ m.valid n1) (hfr : WriteFrame m n m1) (k : Nat)
    (hk : k ≠ n) :
    (m1.stat k).1 = (m.stat k).1 ∧
    ∀ buf l o, (m1.read k buf l o).1 = (m.read k buf l o).1 ∧
      (m1.read k buf l o).2.1 = (m.read k buf l o).2.1 := by
  by_cases hkv : m.valid k
  · have hkv1 := (hvalid k).mpr hkv
    have hvn1 := (hvalid n).mpr hvn
    have hino := hfr.1 k hk hkv.1
    -- a block held in a slot of `k` is not changed
    have hblock : ∀ s, Slot.inRange s → m.pointer k s ≠ 0 → m1.pointer k s = m.pointer k s →
        m1.disk.data (m.pointer k s) = m.disk.data (m.pointer k s) := by
      intro s hs hne hp
      rcases hfr.2.2.2 (m.pointer k s) with h | h | ⟨s', hs', hp', _⟩
      · exact h
      · have h1 := (hI.range k s hkv hs hne).1
        have h2 := inodes_block_le m n hvn.1
        omega
      · exfalso
        have := hI1.noalias k s n s' hkv1 hvn1 hs hs' (by rw [hp, hp']) (by rw [hp]; exact hne)
        exact hk this.1
    have hptr : ∀ s, m1.pointer k s = m.pointer k s := by
      apply pointer_congr hino
      intro hind
      exact hblock .indirect trivial hind (by simp only [Mounted.pointer, hino])
    refine ⟨by rw [stat_valid m1 k hkv1, stat_valid m k hkv, hino], fun buf l o => ?_⟩
    refine read_congr m m1 k hkv.1 hkv1.1 hino ?_ ?_ ?_ buf l o
    · intro j hj hne
      exact hblock (.direct j) hj hne (hptr _)
    · intro hne
      exact hblock .indirect trivial hne (hptr _)
    · intro hne j hj hne2
      have e : m.pointer k (.entry j) = (m.disk.data (m.inode k).Indirect).Pointers j := by
        simp only [Mounted.pointer, Disk.read, if_neg hne]
      have := hblock (.entry j) hj (by rw [e]; exact hne2) (hptr _)
      rw [e] at this
      exact this
  · have hkv1 : ¬ m1.valid k := fun h => hkv ((hvalid k).mp h)
    refine ⟨by rw [stat_invalid m1 k hkv1, stat_invalid m k hkv], fun buf l o => ?_⟩
    rw [read_invalid m k buf l o hkv, read_invalid m1 k buf l o hkv1]
    exact ⟨rfl, rfl⟩

/-- Claim C20 (write does not disturb other files): in every state reachable from
format + mount, for every `write(n, data, length, offset)`, whatever it returns, and
every inumber `k ≠ n`, `stat(k)` and the return value and the bytes of every
`read(k, buf, len, off)` are the same after the call as before it. -/
theorem write_other_files (m : Mounted) (hr : Reachable m.toFS) (n : Nat) (data : Buffer)
    (len off : Nat) (k : Nat) (hk : k ≠ n) :
    ((m.toFS.write n data len off).2.stat k).1 = (m.toFS.stat k).1 ∧
    ∀ buf l o,
      ((m.toFS.write n data len off).2.read k buf l o).1 = (m.toFS.read k buf l o).1 ∧
      ((m.toFS.write n data len off).2.read k buf l o).2.1 = (m.toFS.read k buf l o).2.1 := by
  have hI := reach_mounted m hr
  rw [toFS_write]
  simp only [toFS_stat, toFS_read]
  have same : (m.write n data len off).2 = m →
      ((m.write n data len off).2.stat k).1 = (m.stat k).1 ∧
      ∀ buf l o,
        ((m.write n data len off).2.read k buf l o).1 = (m.read k buf l o).1 ∧
        ((m.write n data len off).2.read k buf l o).2.1 = (m.read k buf l o).2.1 := by
    intro h
    rw [h]
    exact ⟨rfl, fun _ _ _ => ⟨rfl, rfl⟩⟩
  by_cases hlen : len = 0
  · exact same (by rw [hlen]; exact write_zero m n data off)
  by_cases hv : m.valid n
  · by_cases hoff : off ≤ (m.inode n).Size
    · obtain ⟨w, _, _, hok, hfr, _⟩ := write_spec m hI n hv data len off hlen hoff
      exact frame_stat_read m _ hI hok.1 n hv hok.2.2.1 hfr k hk
    · exact same (by rw [write_fail m n data len off hlen (Or.inr (by omega))])
  · exact same (by rw [write_fail m n data len off hlen (Or.inl hv)])

set_option maxRecDepth 1000000 in
set_option maxHeartbeats 4000000 in
/-- Witness for C20: on the volume that holds `"hello"` in inode 0, with a second inode
1 made by `create()`, a write to inode 1 leaves `stat(0)` and `read(0, ..)` as they
were. -/
theorem write_other_files_witness :
    (vol2.create.1 = 1 ∧ (vol2.create.2.toFS.write 1 bytesBB 4096 0).1 = 4096) ∧
    ((vol2.create.2.toFS.write 1 bytesBB 4096 0).2.stat 0).1 = (vol2.create.2.toFS.stat 0).1 ∧
    ∀ buf l o,
      ((vol2.create.2.toFS.write 1 bytesBB 4096 0).2.read 0 buf l o).1
        = (vol2.create.2.toFS.read 0 buf l o).1 ∧
      ((vol2.create.2.toFS.write 1 bytesBB 4096 0).2.read 0 buf l o).2.1
        = (vol2.create.2.toFS.read 0 buf l o).2.1 :=
  ⟨by decide!, write_other_files vol2.create.2 (reach_create _ reach_vol2) 1 bytesBB 4096 0 0
    (by decide)⟩

/-! ## Filling a volume with appends of one block -/

theorem loop_skip (len : Nat) (data : Buffer) (off : Nat) : ∀ k d w ptrs m,
    (d + k) * 4096 ≤ off → i_write_loop len data off k d w ptrs m = (w, ptrs, m) := by
  intro k
  induction k with
  | zero => intro d w ptrs m _; rfl
  | succ k ih =>
    intro d w ptrs m h
    rw [i_write_loop]
    have : off ≥ (d + 1) * BLOCK_SIZE := by simp only [BLOCK_SIZE]; omega
    rw [if_pos this]
    exact ih (d + 1) w ptrs m (by omega)

theorem loop_skip_add (len : Nat) (data : Buffer) (off : Nat) (k2 : Nat) : ∀ k1 d w ptrs m,
    (d + k1) * 4096 ≤ off →
    i_write_loop len data off (k1 + k2) d w ptrs m
      = i_write_loop len data off k2 (d + k1) w ptrs m := by
  intro k1
  induction k1 with
  | zero => intro d w ptrs m _; rw [Nat.zero_add]; rfl
  | succ k1 ih =>
    intro d w ptrs m h
    have e : k1 + 1 + k2 = (k1 + k2) + 1 := by omega
    rw [e, i_write_loop]
    have : off ≥ (d + 1) * BLOCK_SIZE := by simp only [BLOCK_SIZE]; omega
    rw [if_pos this, ih (d + 1) w ptrs m (by omega)]
    have e2 : d + 1 + k1 = d + (k1 + 1) := by omega
    rw [e2]

/-- One iteration of the slot walk for a write of one whole block at the start of slot
`d`. -/
theorem loop_one (data : Buffer) (k d : Nat) (ptrs : Nat → Nat) (m : Mounted)
    (hN : m.disk.size ≤ 4294967296) :
    i_write_loop 4096 data (d * 4096) (k + 1) d 0 ptrs m =
      match acquire ptrs d m with
      | none => (0, ptrs, m)
      | some (p1, m1) => (4096, p1, put_block m1 (p1 d) 0 data 0 4096) := by
  rw [i_write_loop_succ 4096 data (d * 4096) k d 0 ptrs m hN (by simp [BLOCK_SIZE]) (by decide)]
  have h1 : ¬ d * 4096 ≥ (d + 1) * BLOCK_SIZE := by simp only [BLOCK_SIZE]; omega
  rw [if_neg h1]
  cases acquire ptrs d m with
  | none => rfl
  | some r =>
    obtain ⟨p1, m1⟩ := r
    simp only []
    have h2 : 4096 - 0 ≤ (d + 1) * BLOCK_SIZE - (d * 4096 + 0) := by
      simp only [BLOCK_SIZE]; omega
    rw [if_pos h2]
    have e : d * 4096 + 0 - d * BLOCK_SIZE = 0 := by simp only [BLOCK_SIZE]; omega
    rw [e]

theorem allocate_scan_first (map : Nat → Nat) (P : Nat)
    (hmap : ∀ b, map b = if b ≤ P then 1 else 0) : ∀ k bnum, bnum ≤ P + 1 →
    allocate_scan map k bnum = if bnum + k ≤ P + 1 then none else some (P + 1) := by
  intro k
  induction k with
  | zero =>
    intro bnum hb
    simp only [allocate_scan]
    rw [if_pos (by omega)]
  | succ k ih =>
    intro bnum hb
    rw [allocate_scan, hmap bnum]
    by_cases h : bnum ≤ P
    · rw [if_pos h, if_neg (by decide), ih (bnum + 1) (by omega)]
      by_cases h2 : bnum + 1 + k ≤ P + 1
      · rw [if_pos h2, if_pos (by omega)]
      · rw [if_neg h2, if_neg (by omega)]
    · rw [if_neg h, if_pos rfl, if_neg (by omega)]
      have : bnum = P + 1 := by omega
      rw [this]

/-- First fit on a bitmap whose marked cells are exactly the blocks `0 .. P`: the
allocator hands out block `P + 1` when the device has it, and fails otherwise. -/
theorem allocate_first_fit (m : Mounted) (P : Nat)
    (hmap : ∀ b, m.free_block_map b = if b ≤ P then 1 else 0)
    (hP : INODE_BLOCKS m.disk.size ≤ P) :
    allocate_free_block m =
      if P + 1 < m.disk.size then
        (some (P + 1), { m with free_block_map := upd m.free_block_map (P + 1) 1 })
      else (none, m) := by
  unfold allocate_free_block
  simp only []
  rw [allocate_scan_first _ P hmap _ _ (by omega)]
  by_cases h : P + 1 < m.disk.size
  · rw [if_pos h, if_neg (by omega)]
  · rw [if_neg h, if_pos (by omega)]

theorem write_eq_direct (m : Mounted) (n : Nat) (data : Buffer) (len off : Nat)
    (hn : n < m.inodes) (hval : (m.inode n).Valid ≠ 0) (hoff : off ≤ (m.inode n).Size)
    (hlen : len ≠ 0) (D1 : Nat → Nat) (m1 : Mounted)
    (hr1 : i_write_loop len data off 5 0 0 (m.inode n).Direct m = (len, D1, m1)) :
    m.write n data len off =
      ((len : Int), update_inode m1 n { m.inode n with Direct := D1 } (off + len)) := by
  unfold Mounted.write
  have h0 : ¬ n ≥ m.inodes := by omega
  have h1 : ¬ ((m.inode n).Valid = 0 ∨ off > (m.inode n).Size) := by
    intro h; rcases h with h | h
    · exact hval h
    · omega
  simp only [h0, if_false, hlen, load_inode_eq m n _ hn, h1, i_write, POINTERS_PER_INODE, hr1,
    if_true]

theorem write_eq_indirect (m : Mounted) (n : Nat) (data : Buffer) (len off : Nat)
    (hn : n < m.inodes) (hval : (m.inode n).Valid ≠ 0) (hoff : off ≤ (m.inode n).Size)
    (hlen : len ≠ 0) (w1 : Nat) (D1 : Nat → Nat) (m1 : Mounted)
    (hr1 : i_write_loop len data off 5 0 0 (m.inode n).Direct m = (w1, D1, m1))
    (hw1 : w1 ≠ len) (hind : (m.inode n).Indirect ≠ 0) (w2 : Nat) (E2 : Nat → Nat)
    (m3 : Mounted)
    (hr2 : i_write_loop (len - w1) (shift data w1)
        (if off > 5 * 4096 then off - 5 * 4096 else 0) 1024 0 0
        (m1.disk.read (m.inode n).Indirect).Pointers m1 = (w2, E2, m3)) :
    m.write n data len off =
      (((w1 + w2 : Nat) : Int),
        { update_inode m3 n { m.inode n with Direct := D1 } (off + (w1 + w2)) with
          disk := (update_inode m3 n { m.inode n with Direct := D1 } (off + (w1 + w2))).disk.write
            (m.inode n).Indirect ((m1.disk.read (m.inode n).Indirect).setPointers E2) }) := by
  unfold Mounted.write
  have h0 : ¬ n ≥ m.inodes := by omega
  have h1 : ¬ ((m.inode n).Valid = 0 ∨ off > (m.inode n).Size) := by
    intro h; rcases h with h | h
    · exact hval h
    · omega
  simp only [h0, if_false, hlen, load_inode_eq m n _ hn, h1, i_write, POINTERS_PER_INODE,
    POINTERS_PER_BLOCK, BLOCK_SIZE, hr1]
  rw [if_neg hw1, if_neg hind]
  simp only [hr2]

theorem write_eq_grow (m : Mounted) (n : Nat) (data : Buffer) (len off : Nat)
    (hn : n < m.inodes) (hval : (m.inode n).Valid ≠ 0) (hoff : off ≤ (m.inode n).Size)
    (hlen : len ≠ 0) (w1 : Nat) (D1 : Nat → Nat) (m1 : Mounted)
    (hr1 : i_write_loop len data off 5 0 0 (m.inode n).Direct m = (w1, D1, m1))
    (hw1 : w1 ≠ len) (hind : (m.inode n).Indirect = 0) (ib : Nat) (m2 : Mounted)
    (ha : allocate_free_block m1 = (some ib, m2)) (w2 : Nat) (E2 : Nat → Nat)
    (m3 : Mounted)
    (hr2 : i_write_loop (len - w1) (shift data w1)
        (if off > 5 * 4096 then off - 5 * 4096 else 0) 1024 0 0
        zeroBlock.Pointers m2 = (w2, E2, m3)) :
    m.write n data len off =
      (((w1 + w2 : Nat) : Int),
        { update_inode m3 n { m.inode n with Direct := D1, Indirect := u32 ib }
            (off + (w1 + w2)) with
          disk := (update_inode m3 n { m.inode n with Direct := D1, Indirect := u32 ib }
            (off + (w1 + w2))).disk.write (u32 ib) (zeroBlock.setPointers E2) }) := by
  unfold Mounted.write
  have h0 : ¬ n ≥ m.inodes := by omega
  have h1 : ¬ ((m.inode n).Valid = 0 ∨ off > (m.inode n).Size) := by
    intro h; rcases h with h | h
    · exact hval h
    · omega
  simp only [h0, if_false, hlen, load_inode_eq m n _ hn, h1, i_write, POINTERS_PER_INODE,
    POINTERS_PER_BLOCK, BLOCK_SIZE, hr1]
  rw [if_neg hw1, if_pos hind, ha]
  simp only [hr2]

theorem acquire_empty (ptrs : Nat → Nat) (d : Nat) (m : Mounted) (P : Nat)
    (hp : ptrs d = 0) (hmap : ∀ b, m.free_block_map b = if b ≤ P then 1 else 0)
    (hP : INODE_BLOCKS m.disk.size ≤ P) :
    acquire ptrs d m =
      if P + 1 < m.disk.size then
        some (upd ptrs d (P + 1), { m with free_block_map := upd m.free_block_map (P + 1) 1 })
      else none := by
  unfold acquire
  rw [if_neg (by rw [hp]; exact fun h => h rfl), allocate_first_fit m P hmap hP]
  by_cases h : P + 1 < m.disk.size
  · rw [if_pos h, if_pos h]
  · rw [if_neg h, if_neg h]

/-- An append of one block into an empty slot `d`, on a bitmap whose marked cells are the
blocks `0 .. P`: the slot gets block `P + 1`. -/
theorem loop_fill (data : Buffer) (k d : Nat) (ptrs : Nat → Nat) (m : Mounted) (P : Nat)
    (hN : m.disk.size ≤ 4294967296)
    (hp : ptrs d = 0) (hmap : ∀ b, m.free_block_map b = if b ≤ P then 1 else 0)
    (hP : INODE_BLOCKS m.disk.size ≤ P) (hroom : P + 1 < m.disk.size) :
    i_write_loop 4096 data (d * 4096) (k + 1) d 0 ptrs m =
      (4096, upd ptrs d (P + 1),
        put_block { m with free_block_map := upd m.free_block_map (P + 1) 1 } (P + 1) 0 data 0
          4096) := by
  rw [loop_one data k d ptrs m hN, acquire_empty ptrs d m P hp hmap hP, if_pos hroom]
  simp only [upd_same]

theorem loop_stuck (data : Buffer) (k d : Nat) (ptrs : Nat → Nat) (m : Mounted) (P : Nat)
    (hN : m.disk.size ≤ 4294967296)
    (hp : ptrs d = 0) (hmap : ∀ b, m.free_block_map b = if b ≤ P then 1 else 0)
    (hP : INODE_BLOCKS m.disk.size ≤ P) (hfull : ¬ P + 1 < m.disk.size) :
    i_write_loop 4096 data (d * 4096) (k + 1) d 0 ptrs m = (0, ptrs, m) := by
  rw [loop_one data k d ptrs m hN, acquire_empty ptrs d m P hp hmap hP, if_neg hfull]

theorem filled_inodes (N j : Nat) (m : Mounted) (hF : Filled N j m) (hI : 0 < INODE_BLOCKS N) :
    0 < m.inodes := by
  unfold Mounted.inodes
  rw [hF.1]
  exact Nat.mul_pos hI (by decide)

/-- An append of one block to a file of `j < 5` blocks. -/
theorem fill_direct (N j : Nat) (m : Mounted) (buf : Buffer) (hF : Filled N j m)
    (hN : N ≤ 4294967296) (hI : 0 < INODE_BLOCKS N) (hj : j < 5)
    (hroom : INODE_BLOCKS N + j + 1 < N) :
    (m.write 0 buf 4096 (j * 4096)).1 = 4096 ∧
      Filled N (j + 1) (m.write 0 buf 4096 (j * 4096)).2 := by
  have hn := filled_inodes N j m hF hI
  obtain ⟨hsz, hmap, hval, hsize, hdir, hind, -⟩ := hF
  have hc : (if 5 < j then 1 else 0) = 0 := if_neg (by omega)
  rw [hc, Nat.add_zero] at hmap
  have hr1 : i_write_loop 4096 buf (j * 4096) 5 0 0 (m.inode 0).Direct m =
      (4096, upd (m.inode 0).Direct j (INODE_BLOCKS N + j + 1),
        put_block { m with free_block_map := upd m.free_block_map (INODE_BLOCKS N + j + 1) 1 }
          (INODE_BLOCKS N + j + 1) 0 buf 0 4096) := by
    have h1 := loop_skip_add 4096 buf (j * 4096) ((4 - j) + 1) j 0 0 (m.inode 0).Direct m
      (by omega)
    have e : j + ((4 - j) + 1) = 5 := by omega
    rw [e, Nat.zero_add] at h1
    rw [h1]
    exact loop_fill buf (4 - j) j _ m (INODE_BLOCKS N + j) (by rw [hsz]; exact hN)
      (by rw [hdir j hj, if_neg (Nat.lt_irrefl j)]) hmap (by rw [hsz]; omega)
      (by rw [hsz]; exact hroom)
  rw [write_eq_direct m 0 buf 4096 (j * 4096) hn hval (by omega) (by decide) _ _ hr1]
  refine ⟨rfl, ?_⟩
  simp only []
  obtain ⟨f1, -, f3⟩ := update_inode_frame
    (put_block { m with free_block_map := upd m.free_block_map (INODE_BLOCKS N + j + 1) 1 }
      (INODE_BLOCKS N + j + 1) 0 buf 0 4096) 0
    { m.inode 0 with Direct := upd (m.inode 0).Direct j (INODE_BLOCKS N + j + 1) }
    (j * 4096 + 4096)
  obtain ⟨s1, s2, s3, s4⟩ := update_inode_same
    (put_block { m with free_block_map := upd m.free_block_map (INODE_BLOCKS N + j + 1) 1 }
      (INODE_BLOCKS N + j + 1) 0 buf 0 4096) 0
    { m.inode 0 with Direct := upd (m.inode 0).Direct j (INODE_BLOCKS N + j + 1) }
    (j * 4096 + 4096) hn
  obtain ⟨l1, l2, l3, -⟩ := inode_lt m 0
  refine ⟨?_, ?_, ?_, ?_, ?_, ?_, ?_⟩
  · rw [f3]; exact hsz
  · intro b
    rw [f1]
    show upd m.free_block_map (INODE_BLOCKS N + j + 1) 1 b = _
    have hc2 : (if 5 < j + 1 then 1 else 0) = 0 := if_neg (by omega)
    rw [hc2, Nat.add_zero, upd_apply, hmap b]
    by_cases hb : b = INODE_BLOCKS N + j + 1
    · rw [if_pos hb, if_pos (by omega)]
    · rw [if_neg hb]
      by_cases hb2 : b ≤ INODE_BLOCKS N + j
      · rw [if_pos hb2, if_pos (by omega)]
      · rw [if_neg hb2, if_neg (by omega)]
  · rw [s1]
    show u32 (m.inode 0).Valid ≠ 0
    rw [u32_of_lt l1]; exact hval
  · rw [s2]
    have e : j * 4096 + 4096 = (j + 1) * 4096 := by omega
    rw [e]
    exact u32_of_lt (by omega)
  · intro k hk
    rw [s4 k, if_pos (by show k < 5; exact hk)]
    show u32 (upd (m.inode 0).Direct j (INODE_BLOCKS N + j + 1) k) = _
    rw [upd_apply]
    by_cases hkj : k = j
    · rw [if_pos hkj, if_pos (by omega), u32_of_lt (by omega)]
      omega
    · rw [if_neg hkj, hdir k hk]
      by_cases hlt : k < j
      · rw [if_pos hlt, if_pos (by omega), u32_of_lt (by omega)]
      · rw [if_neg hlt, if_neg (by omega)]
        rfl
  · rw [s3]
    show u32 (m.inode 0).Indirect = _
    rw [hind, if_neg (by omega), if_neg (by omega)]
    rfl
  · intro h
    omega

theorem marked_upd (map : Nat → Nat) (P : Nat) (hmap : ∀ b, map b = if b ≤ P then 1 else 0) :
    ∀ b, upd map (P + 1) 1 b = if b ≤ P + 1 then 1 else 0 := by
  intro b
  rw [upd_apply, hmap b]
  by_cases hb : b = P + 1
  · rw [if_pos hb, if_pos (by omega)]
  · rw [if_neg hb]
    by_cases hb2 : b ≤ P
    · rw [if_pos hb2, if_pos (by omega)]
    · rw [if_neg hb2, if_neg (by omega)]

/-- The state at the end of a `write` that went through the indirect block: the inode
record is the one saved, and the pointer block holds the entries written last. -/
theorem write_tail (m3 : Mounted) (node : Inode) (sz ib : Nat) (blk : Block) (E : Nat → Nat)
    (hn : 0 < m3.inodes) (hib : 1 < ib) :
    ({ update_inode m3 0 node sz with
        disk := (update_inode m3 0 node sz).disk.write ib (blk.setPointers E) } : Mounted).disk.size
      = m3.disk.size ∧
    ({ update_inode m3 0 node sz with
        disk := (update_inode m3 0 node sz).disk.write ib (blk.setPointers E) } : Mounted).free_block_map
      = m3.free_block_map ∧
    (({ update_inode m3 0 node sz with
        disk := (update_inode m3 0 node sz).disk.write ib (blk.setPointers E) } : Mounted).inode 0).Valid
      = u32 node.Valid ∧
    (({ update_inode m3 0 node sz with
        disk := (update_inode m3 0 node sz).disk.write ib (blk.setPointers E) } : Mounted).inode 0).Size
      = u32 sz ∧
    (({ update_inode m3 0 node sz with
        disk := (update_inode m3 0 node sz).disk.write ib (blk.setPointers E) } : Mounted).inode 0).Indirect
      = u32 node.Indirect ∧
    (∀ k, k < 5 → (({ update_inode m3 0 node sz with
        disk := (update_inode m3 0 node sz).disk.write ib (blk.setPointers E) } : Mounted).inode 0).Direct k
      = u32 (node.Direct k)) ∧
    (∀ k, k < 1024 → (({ update_inode m3 0 node sz with
        disk := (update_inode m3 0 node sz).disk.write ib (blk.setPointers E) } : Mounted).disk.read
          ib).Pointers k = u32 (E k)) := by
  obtain ⟨f1, -, f3⟩ := update_inode_frame m3 0 node sz
  obtain ⟨s1, s2, s3, s4⟩ := update_inode_same m3 0 node sz hn
  have hi : ({ update_inode m3 0 node sz with
        disk := (update_inode m3 0 node sz).disk.write ib (blk.setPointers E) } : Mounted).inode 0
      = (update_inode m3 0 node sz).inode 0 := by
    apply inode_eq_of_data
    show upd (update_inode m3 0 node sz).disk.data ib (blk.setPointers E) (1 + 0 / INODES_PER_BLOCK)
      = _
    rw [upd_other]
    simp only [INODES_PER_BLOCK]
    omega
  refine ⟨f3, f1, ?_, ?_, ?_, ?_, ?_⟩
  · rw [hi, s1]
  · rw [hi, s2]
  · rw [hi, s3]
  · intro k hk
    rw [hi, s4 k, if_pos (by show k < 5; exact hk)]
  · intro k hk
    show getWord (upd (update_inode m3 0 node sz).disk.data ib (blk.setPointers E) ib) k = _
    rw [upd_same]
    exact getWord_setPointers blk E k hk

/-- The sixth append: the allocator hands out the pointer block, then the data block. -/
theorem fill_grow (N : Nat) (m : Mounted) (buf : Buffer) (hF : Filled N 5 m)
    (hN : N ≤ 4294967296) (hI : 0 < INODE_BLOCKS N) (hroom : INODE_BLOCKS N + 7 < N) :
    (m.write 0 buf 4096 (5 * 4096)).1 = 4096 ∧
      Filled N 6 (m.write 0 buf 4096 (5 * 4096)).2 := by
  have hn := filled_inodes N 5 m hF hI
  obtain ⟨hsz, hmap, hval, hsize, hdir, hind, -⟩ := hF
  have hc : (if 5 < 5 then 1 else 0) = 0 := rfl
  rw [hc, Nat.add_zero] at hmap
  rw [if_neg (by decide)] at hind
  have hr1 : i_write_loop 4096 buf (5 * 4096) 5 0 0 (m.inode 0).Direct m =
      (0, (m.inode 0).Direct, m) := loop_skip 4096 buf (5 * 4096) 5 0 0 _ m (by omega)
  have ha : allocate_free_block m = (some (INODE_BLOCKS N + 5 + 1),
      { m with free_block_map := upd m.free_block_map (INODE_BLOCKS N + 5 + 1) 1 }) := by
    rw [allocate_first_fit m (INODE_BLOCKS N + 5) hmap (by rw [hsz]; omega),
      if_pos (by rw [hsz]; omega)]
  have hmap2 := marked_upd m.free_block_map (INODE_BLOCKS N + 5) hmap
  have hr2 : i_write_loop (4096 - 0) (shift buf 0)
      (if 5 * 4096 > 5 * 4096 then 5 * 4096 - 5 * 4096 else 0) 1024 0 0 zeroBlock.Pointers
      { m with free_block_map := upd m.free_block_map (INODE_BLOCKS N + 5 + 1) 1 } =
      (4096, upd zeroBlock.Pointers 0 (INODE_BLOCKS N + 5 + 1 + 1),
        put_block
          { m with
            free_block_map :=
              upd (upd m.free_block_map (INODE_BLOCKS N + 5 + 1) 1) (INODE_BLOCKS N + 5 + 1 + 1) 1 }
          (INODE_BLOCKS N + 5 + 1 + 1) 0 (shift buf 0) 0 4096) := by
    have h := loop_fill (shift buf 0) 1023 0 zeroBlock.Pointers
      { m with free_block_map := upd m.free_block_map (INODE_BLOCKS N + 5 + 1) 1 }
      (INODE_BLOCKS N + 5 + 1) (by show m.disk.size ≤ _; rw [hsz]; exact hN)
      (getWord_zeroBlock 0) hmap2 (by show INODE_BLOCKS m.disk.size ≤ _; rw [hsz]; omega)
      (by show _ < m.disk.size; rw [hsz]; omega)
    rw [Nat.zero_mul] at h
    exact h
  rw [write_eq_grow m 0 buf 4096 (5 * 4096) hn hval (by omega) (by decide) 0 _ m hr1
    (by decide) hind _ _ ha _ _ _ hr2]
  refine ⟨rfl, ?_⟩
  simp only []
  have hib : u32 (INODE_BLOCKS N + 5 + 1) = INODE_BLOCKS N + 6 := u32_of_lt (by omega)
  rw [hib]
  obtain ⟨t1, t2, t3, t4, t5, t6, t7⟩ := write_tail
    (put_block
      { m with
        free_block_map :=
          upd (upd m.free_block_map (INODE_BLOCKS N + 5 + 1) 1) (INODE_BLOCKS N + 5 + 1 + 1) 1 }
      (INODE_BLOCKS N + 5 + 1 + 1) 0 (shift buf 0) 0 4096)
    { m.inode 0 with Direct := (m.inode 0).Direct, Indirect := INODE_BLOCKS N + 6 }
    (5 * 4096 + (0 + 4096)) (INODE_BLOCKS N + 6) zeroBlock
    (upd zeroBlock.Pointers 0 (INODE_BLOCKS N + 5 + 1 + 1)) hn (by omega)
  obtain ⟨l1, l2, l3, l4⟩ := inode_lt m 0
  refine ⟨?_, ?_, ?_, ?_, ?_, ?_, ?_⟩
  · rw [t1]; exact hsz
  · intro b
    rw [t2]
    show upd (upd m.free_block_map (INODE_BLOCKS N + 5 + 1) 1) (INODE_BLOCKS N + 5 + 1 + 1) 1 b = _
    rw [marked_upd _ (INODE_BLOCKS N + 5 + 1) hmap2 b]
    have e : (if 5 < 6 then 1 else 0) = 1 := rfl
    rw [e]
  · rw [t3]
    show u32 (m.inode 0).Valid ≠ 0
    rw [u32_of_lt l1]; exact hval
  · rw [t4]
    rfl
  · intro k hk
    rw [t6 k hk]
    show u32 ((m.inode 0).Direct k) = _
    rw [u32_of_lt (l4 k), hdir k hk, if_pos hk, if_pos (by omega)]
  · rw [t5]
    show u32 (INODE_BLOCKS N + 6) = _
    rw [if_pos (by decide)]
    exact u32_of_lt (by omega)
  · intro _ k hk
    rw [t7 k hk, upd_apply]
    by_cases hk0 : k = 0
    · rw [if_pos hk0, if_pos (by omega), u32_of_lt (by omega)]
      omega
    · rw [if_neg hk0, if_neg (by omega)]
      show u32 (getWord zeroBlock k) = 0
      rw [getWord_zeroBlock]
      rfl

/-- An append of one block to a file that already has its pointer block, while the
device has a free block. -/
theorem fill_indirect (N j : Nat) (m : Mounted) (buf : Buffer) (hF : Filled N j m)
    (hN : N ≤ 4294967296) (hI : 0 < INODE_BLOCKS N) (hj : 5 < j) (hj2 : j < 1029)
    (hroom : INODE_BLOCKS N + j + 2 < N) :
    (m.write 0 buf 4096 (j * 4096)).1 = 4096 ∧
      Filled N (j + 1) (m.write 0 buf 4096 (j * 4096)).2 := by
  have hn := filled_inodes N j m hF hI
  obtain ⟨hsz, hmap, hval, hsize, hdir, hind, hent⟩ := hF
  have hc : (if 5 < j then 1 else 0) = 1 := if_pos hj
  rw [hc] at hmap
  rw [if_pos hj] at hind
  have hent2 : ∀ k, k < 1024 → (m.disk.read (m.inode 0).Indirect).Pointers k =
      if k + 5 < j then INODE_BLOCKS N + 7 + k else 0 := by
    rw [hind]; exact hent hj
  have hr1 : i_write_loop 4096 buf (j * 4096) 5 0 0 (m.inode 0).Direct m =
      (0, (m.inode 0).Direct, m) := loop_skip 4096 buf (j * 4096) 5 0 0 _ m (by omega)
  have hr2 : i_write_loop (4096 - 0) (shift buf 0)
      (if j * 4096 > 5 * 4096 then j * 4096 - 5 * 4096 else 0) 1024 0 0
      (m.disk.read (m.inode 0).Indirect).Pointers m =
      (4096, upd (m.disk.read (m.inode 0).Indirect).Pointers (j - 5) (INODE_BLOCKS N + j + 1 + 1),
        put_block
          { m with free_block_map := upd m.free_block_map (INODE_BLOCKS N + j + 1 + 1) 1 }
          (INODE_BLOCKS N + j + 1 + 1) 0 (shift buf 0) 0 4096) := by
    have e : (if j * 4096 > 5 * 4096 then j * 4096 - 5 * 4096 else 0) = (j - 5) * 4096 := by
      rw [if_pos (by omega)]; omega
    rw [e, Nat.sub_zero]
    have h1 := loop_skip_add 4096 (shift buf 0) ((j - 5) * 4096) ((1023 - (j - 5)) + 1) (j - 5)
      0 0 (m.disk.read (m.inode 0).Indirect).Pointers m (by omega)
    have e2 : (j - 5) + ((1023 - (j - 5)) + 1) = 1024 := by omega
    rw [e2, Nat.zero_add] at h1
    rw [h1]
    exact loop_fill (shift buf 0) (1023 - (j - 5)) (j - 5) _ m (INODE_BLOCKS N + j + 1)
      (by rw [hsz]; exact hN)
      (by rw [hent2 (j - 5) (by omega), if_neg (by omega)]) hmap (by rw [hsz]; omega)
      (by rw [hsz]; omega)
  rw [write_eq_indirect m 0 buf 4096 (j * 4096) hn hval (by omega) (by decide) 0 _ m hr1
    (by decide) (by rw [hind]; omega) _ _ _ hr2]
  refine ⟨rfl, ?_⟩
  simp only []
  rw [hind]
  obtain ⟨t1, t2, t3, t4, t5, t6, t7⟩ := write_tail
    (put_block
      { m with free_block_map := upd m.free_block_map (INODE_BLOCKS N + j + 1 + 1) 1 }
      (INODE_BLOCKS N + j + 1 + 1) 0 (shift buf 0) 0 4096)
    { m.inode 0 with Direct := (m.inode 0).Direct, Indirect := INODE_BLOCKS N + 6 }
    (j * 4096 + (0 + 4096)) (INODE_BLOCKS N + 6) (m.disk.read (INODE_BLOCKS N + 6))
    (upd (m.disk.read (INODE_BLOCKS N + 6)).Pointers (j - 5) (INODE_BLOCKS N + j + 1 + 1)) hn
    (by omega)
  obtain ⟨l1, l2, l3, l4⟩ := inode_lt m 0
  rw [hind] at hent2
  refine ⟨?_, ?_, ?_, ?_, ?_, ?_, ?_⟩
  · rw [t1]; exact hsz
  · intro b
    rw [t2]
    show upd m.free_block_map (INODE_BLOCKS N + j + 1 + 1) 1 b = _
    rw [marked_upd _ (INODE_BLOCKS N + j + 1) hmap b, if_pos (by omega : 5 < j + 1)]
    have e : INODE_BLOCKS N + (j + 1) + 1 = INODE_BLOCKS N + j + 1 + 1 := by omega
    rw [e]
  · rw [t3]
    show u32 (m.inode 0).Valid ≠ 0
    rw [u32_of_lt l1]; exact hval
  · rw [t4]
    have e : j * 4096 + (0 + 4096) = (j + 1) * 4096 := by omega
    rw [e]
    exact u32_of_lt (by omega)
  · intro k hk
    rw [t6 k hk]
    show u32 ((m.inode 0).Direct k) = _
    rw [u32_of_lt (l4 k), hdir k hk, if_pos (by omega), if_pos (by omega)]
  · rw [t5]
    show u32 (INODE_BLOCKS N + 6) = _
    rw [if_pos (by omega)]
    exact u32_of_lt (by omega)
  · intro _ k hk
    rw [t7 k hk, upd_apply]
    by_cases hk0 : k = j - 5
    · rw [if_pos hk0, if_pos (by omega), u32_of_lt (by omega)]
      omega
    · rw [if_neg hk0, hent2 k hk]
      by_cases hlt : k + 5 < j
      · rw [if_pos hlt, if_pos (by omega), u32_of_lt (by omega)]
      · rw [if_neg hlt, if_neg (by omega)]
        rfl

/-- An append to a file that has its pointer block when no block is free, or when the
file has all its 1029 blocks: nothing is written. -/
theorem fill_stop (N j : Nat) (m : Mounted) (buf : Buffer) (hF : Filled N j m)
    (hN : N ≤ 4294967296) (hI : 0 < INODE_BLOCKS N) (hj : 5 < j) (hj2 : j ≤ 1029)
    (hfull : N ≤ INODE_BLOCKS N + j + 2) :
    (m.write 0 buf 4096 (j * 4096)).1 = 0 ∧
      ((m.write 0 buf 4096 (j * 4096)).2.stat 0).1 = ((j * 4096 : Nat) : Int) := by
  have hn := filled_inodes N j m hF hI
  obtain ⟨hsz, hmap, hval, hsize, hdir, hind, hent⟩ := hF
  have hc : (if 5 < j then 1 else 0) = 1 := if_pos hj
  rw [hc] at hmap
  rw [if_pos hj] at hind
  have hent2 : ∀ k, k < 1024 → (m.disk.read (m.inode 0).Indirect).Pointers k =
      if k + 5 < j then INODE_BLOCKS N + 7 + k else 0 := by
    rw [hind]; exact hent hj
  have hr1 : i_write_loop 4096 buf (j * 4096) 5 0 0 (m.inode 0).Direct m =
      (0, (m.inode 0).Direct, m) := loop_skip 4096 buf (j * 4096) 5 0 0 _ m (by omega)
  have hr2 : i_write_loop (4096 - 0) (shift buf 0)
      (if j * 4096 > 5 * 4096 then j * 4096 - 5 * 4096 else 0) 1024 0 0
      (m.disk.read (m.inode 0).Indirect).Pointers m =
      (0, (m.disk.read (m.inode 0).Indirect).Pointers, m) := by
    have e : (if j * 4096 > 5 * 4096 then j * 4096 - 5 * 4096 else 0) = (j - 5) * 4096 := by
      rw [if_pos (by omega)]; omega
    rw [e, Nat.sub_zero]
    by_cases hlast : j = 1029
    · exact loop_skip 4096 (shift buf 0) ((j - 5) * 4096) 1024 0 0 _ m (by omega)
    · have h1 := loop_skip_add 4096 (shift buf 0) ((j - 5) * 4096) ((1023 - (j - 5)) + 1)
        (j - 5) 0 0 (m.disk.read (m.inode 0).Indirect).Pointers m (by omega)
      have e2 : (j - 5) + ((1023 - (j - 5)) + 1) = 1024 := by omega
      rw [e2, Nat.zero_add] at h1
      rw [h1]
      exact loop_stuck (shift buf 0) (1023 - (j - 5)) (j - 5) _ m (INODE_BLOCKS N + j + 1)
        (by rw [hsz]; exact hN)
        (by rw [hent2 (j - 5) (by omega), if_neg (by omega)]) hmap (by rw [hsz]; omega)
        (by rw [hsz]; omega)
  rw [write_eq_indirect m 0 buf 4096 (j * 4096) hn hval (by omega) (by decide) 0 _ m hr1
    (by decide) (by rw [hind]; omega) _ _ _ hr2]
  refine ⟨rfl, ?_⟩
  simp only []
  obtain ⟨t1, -, t3, t4, -⟩ := write_tail m
    { m.inode 0 with Direct := (m.inode 0).Direct }
    (j * 4096 + (0 + 0)) (m.inode 0).Indirect (m.disk.read (m.inode 0).Indirect)
    (m.disk.read (m.inode 0).Indirect).Pointers hn (by rw [hind]; omega)
  obtain ⟨l1, -⟩ := inode_lt m 0
  rw [stat_valid _ 0 ⟨by rw [inodes_congr t1]; exact hn, by
    rw [t3]
    show u32 (m.inode 0).Valid ≠ 0
    rw [u32_of_lt l1]; exact hval⟩]
  simp only []
  rw [t4]
  have e : j * 4096 + (0 + 0) = j * 4096 := by omega
  rw [e, u32_of_lt (by omega)]

/-- An append of one block while two blocks are free succeeds and leaves the volume
filled one block further. -/
theorem fill_step (N j : Nat) (m : Mounted) (buf : Buffer) (hF : Filled N j m)
    (hN : N ≤ 4294967296) (hI : 0 < INODE_BLOCKS N) (hj2 : j < 1029)
    (hroom : INODE_BLOCKS N + j + 2 < N) :
    (m.write 0 buf 4096 (j * 4096)).1 = 4096 ∧
      Filled N (j + 1) (m.write 0 buf 4096 (j * 4096)).2 := by
  rcases Nat.lt_trichotomy j 5 with h | h | h
  · exact fill_direct N j m buf hF hN hI h (by omega)
  · subst h
    exact fill_grow N m buf hF hN hI (by omega)
  · exact fill_indirect N j m buf hF hN hI h hj2 hroom

/-- The volume after `format`, `mount` and the first `create`: inode 0 is an empty
file. -/
theorem fill_start (disk : Disk) (h : disk.mounted = false) (h2 : 2 ≤ disk.size)
    (hs : disk.size < 16777216) :
    (format disk).1 = true ∧
    FileSystem.fresh.mount (format disk).2 = (true, (mountState (format disk).2).toFS) ∧
    ∃ m1, (mountState (format disk).2).create = (0, m1) ∧ Filled disk.size 0 m1 := by
  have hs2 : disk.size < 4294967296 := by omega
  obtain ⟨-, -, hsz, htab, -, hmap⟩ := format_mount_state disk h h2 hs2
  refine ⟨(format_unmounted disk h).1, format_mount disk h hs2, ?_⟩
  have hIe := INODE_BLOCKS_eq disk.size hs2
  have hin : (mountState (format disk).2).inodes = (disk.size + 9) / 10 * 128 := by
    unfold Mounted.inodes
    rw [hsz, hIe]
    rfl
  have hn : 0 < (mountState (format disk).2).inodes := by rw [hin]; omega
  rcases create_lowest (mountState (format disk).2) (by rw [hin]; omega) with ⟨hall, -⟩ |
    ⟨n, -, -, hlow, hc⟩
  · exfalso
    apply hall 0 hn
    rw [htab 0]
    rfl
  · have hn0 : n = 0 := by
      rcases Nat.eq_zero_or_pos n with h0 | h0
      · exact h0
      · exfalso
        apply hlow 0 h0
        rw [htab 0]
        rfl
    subst hn0
    refine ⟨_, hc, ?_⟩
    obtain ⟨-, f2, f3, -⟩ := save_inode_frame
      { mountState (format disk).2 with
        inode_table := upd (mountState (format disk).2).inode_table 0 (Inode.mk 1 0 (fun _ => 0) 0) }
      0 (Inode.mk 1 0 (fun _ => 0) 0)
    obtain ⟨s1, s2, s3, s4⟩ := inode_save_same
      { mountState (format disk).2 with
        inode_table := upd (mountState (format disk).2).inode_table 0 (Inode.mk 1 0 (fun _ => 0) 0) }
      0 (Inode.mk 1 0 (fun _ => 0) 0) hn
    refine ⟨?_, ?_, ?_, ?_, ?_, ?_, ?_⟩
    · exact f3.trans hsz
    · intro b
      rw [f2]
      show (mountState (format disk).2).free_block_map b = _
      rw [hmap b]
      rfl
    · rw [s1]
      decide
    · rw [s2]
      rfl
    · intro k hk
      rw [s4 k, if_pos (by show k < 5; exact hk), if_neg (by omega)]
      rfl
    · rw [s3]
      rfl
    · intro h5
      omega

/-- The handle after `k` appends, while at least two blocks stay free. -/
theorem fill_many (N : Nat) (m1 : Mounted) (buf : Buffer) (hF : Filled N 0 m1)
    (hN : N ≤ 4294967296) (hI : 0 < INODE_BLOCKS N) :
    ∀ k, k ≤ 1029 → INODE_BLOCKS N + k + 1 < N →
      ∃ mk, appendBlocks m1.toFS buf k = mk.toFS ∧ Filled N k mk := by
  intro k
  induction k with
  | zero => intro _ _; exact ⟨m1, rfl, hF⟩
  | succ k ih =>
    intro hk hroom
    obtain ⟨mk, he, hFk⟩ := ih (by omega) (by omega)
    obtain ⟨-, hs⟩ := fill_step N k mk buf hFk hN hI (by omega) (by omega)
    refine ⟨(mk.write 0 buf 4096 (k * 4096)).2, ?_, hs⟩
    show ((appendBlocks m1.toFS buf k).write 0 buf BLOCK_SIZE (k * BLOCK_SIZE)).2 = _
    rw [he, toFS_write]
    rfl

/-- Claim C16 (disk-full accounting): on an unmounted device of `N` blocks whose
data-block count `D = N - 1 - ceil(N/10)` satisfies `7 ≤ D ≤ 1030`, `format` and `mount`
succeed and `create()` returns 0; then the appends `write(0, buf, 4096, k * 4096)` for
`k = 0, 1, ..` return 4096 for each of the first `D - 1` calls, the next call returns 0,
and `stat(0)` then returns `(N - 1 - ceil(N/10) - 1) * 4096`. -/
theorem disk_full_accounting (disk : Disk) (buf : Buffer) (h : disk.mounted = false)
    (hlo : 7 ≤ disk.size - 1 - (disk.size + 9) / 10)
    (hhi : disk.size - 1 - (disk.size + 9) / 10 ≤ 1030) :
    (format disk).1 = true ∧ (FileSystem.fresh.mount (format disk).2).1 = true ∧
    (FileSystem.fresh.mount (format disk).2).2.create.1 = 0 ∧
    (∀ k, k < disk.size - 1 - (disk.size + 9) / 10 - 1 →
      ((appendBlocks (FileSystem.fresh.mount (format disk).2).2.create.2 buf k).write 0 buf 4096
        (k * 4096)).1 = 4096) ∧
    ((appendBlocks (FileSystem.fresh.mount (format disk).2).2.create.2 buf
        (disk.size - 1 - (disk.size + 9) / 10 - 1)).write 0 buf 4096
      ((disk.size - 1 - (disk.size + 9) / 10 - 1) * 4096)).1 = 0 ∧
    (((appendBlocks (FileSystem.fresh.mount (format disk).2).2.create.2 buf
        (disk.size - 1 - (disk.size + 9) / 10 - 1)).write 0 buf 4096
      ((disk.size - 1 - (disk.size + 9) / 10 - 1) * 4096)).2.stat 0).1
      = (((disk.size - 1 - (disk.size + 9) / 10 - 1) * 4096 : Nat) : Int) := by
  have hs : disk.size < 16777216 := by omega
  have hIe := INODE_BLOCKS_eq disk.size (by omega)
  obtain ⟨hf, hm, m1, hc, hF⟩ := fill_start disk h (by omega) hs
  have hI : 0 < INODE_BLOCKS disk.size := by rw [hIe]; omega
  have hmany := fill_many disk.size m1 buf hF (by omega) hI
  rw [hm]
  simp only []
  rw [toFS_create, hc]
  simp only []
  refine ⟨hf, trivial, trivial, ?_, ?_⟩
  · intro k hk
    obtain ⟨mk, he, hFk⟩ := hmany k (by omega) (by rw [hIe]; omega)
    rw [he, toFS_write]
    exact (fill_step disk.size k mk buf hFk (by omega) hI (by omega) (by rw [hIe]; omega)).1
  · obtain ⟨mk, he, hFk⟩ := hmany (disk.size - 1 - (disk.size + 9) / 10 - 1) (by omega)
      (by rw [hIe]; omega)
    rw [he, toFS_write]
    simp only []
    rw [toFS_stat]
    exact fill_stop disk.size _ mk buf hFk (by omega) hI (by omega) (by omega)
      (by rw [hIe]; omega)

/-- Witness for C16: an unmounted device of 100 blocks, for which `D = 89`: 88 appends
return 4096, the next returns 0, and the file has 360448 bytes. -/
theorem disk_full_accounting_witness :
    ((rawDisk 100).mounted = false ∧
      (rawDisk 100).size - 1 - ((rawDisk 100).size + 9) / 10 = 89) ∧
    (format (rawDisk 100)).1 = true ∧ (FileSystem.fresh.mount (format (rawDisk 100)).2).1 = true ∧
    (FileSystem.fresh.mount (format (rawDisk 100)).2).2.create.1 = 0 ∧
    (∀ k, k < 88 →
      ((appendBlocks (FileSystem.fresh.mount (format (rawDisk 100)).2).2.create.2 bytesAA k).write
        0 bytesAA 4096 (k * 4096)).1 = 4096) ∧
    ((appendBlocks (FileSystem.fresh.mount (format (rawDisk 100)).2).2.create.2 bytesAA 88).write
      0 bytesAA 4096 (88 * 4096)).1 = 0 ∧
    (((appendBlocks (FileSystem.fresh.mount (format (rawDisk 100)).2).2.create.2 bytesAA 88).write
      0 bytesAA 4096 (88 * 4096)).2.stat 0).1 = 360448 :=
  ⟨⟨rfl, by decide⟩, disk_full_accounting (rawDisk 100) bytesAA rfl (by decide) (by decide)⟩

/-! ## Indices stay in bounds -/

/-- Every reachable handle is mounted on a device of at least two blocks, and its state
satisfies the invariant. -/
theorem reach_size (fs : FileSystem) (h : Reachable fs) :
    ∃ m : Mounted, fs = m.toFS ∧ Inv m ∧ 2 ≤ m.disk.size := by
  induction h with
  | init disk fs h2 hf hm =>
    obtain ⟨m, h1, hI, hs, _⟩ := init_inv disk fs h2 hf hm
    exact ⟨m, h1, hI, by rw [hs]; exact h2⟩
  | call fs c _ ih =>
    obtain ⟨m, hfs, hI, h2⟩ := ih
    rw [hfs]
    cases c with
    | create =>
      refine ⟨m.create.2, rfl, create_inv m hI, ?_⟩
      rcases create_cases m with hc | ⟨inum, _, _, hc⟩
      · rw [hc]; exact h2
      · rw [hc]
        have := (save_inode_frame
          { m with inode_table := upd m.inode_table inum (Inode.mk 1 0 (fun _ => 0) 0) } inum
          (Inode.mk 1 0 (fun _ => 0) 0)).2.2.1
        show 2 ≤ (save_inode _ inum _).2.disk.Blocks
        rw [this]
        exact h2
    | remove n =>
      refine ⟨(m.remove n).2, rfl, remove_inv m hI n, ?_⟩
      by_cases hv : m.valid n
      · obtain ⟨map3, _, he⟩ := remove_eq m n hv
        rw [he]
        have := (save_inode_frame
          { m with free_block_map := map3, inode_table := upd m.inode_table n Inode.zero } n
          Inode.zero).2.2.1
        show 2 ≤ (save_inode _ n _).2.disk.Blocks
        rw [this]
        exact h2
      · rw [remove_fail m n hv]; exact h2
    | stat n =>
      refine ⟨m, ?_, hI, h2⟩
      show (m.toFS.stat n).2 = m.toFS
      rw [toFS_stat, stat_state]
    | read n buf len off =>
      refine ⟨m, ?_, hI, h2⟩
      show (m.toFS.read n buf len off).2.2 = m.toFS
      rw [toFS_read, read_state]
    | write n data len off =>
      refine ⟨(m.write n data len off).2, rfl, write_inv m hI n data len off, ?_⟩
      by_cases hlen : len = 0
      · rw [hlen, write_zero]; exact h2
      by_cases hv : m.valid n
      · by_cases hoff : off ≤ (m.inode n).Size
        · obtain ⟨w, _, _, hw, _⟩ := write_spec m hI n hv data len off hlen hoff
          rw [hw.2.1]; exact h2
        · rw [write_fail m n data len off hlen (Or.inr (by omega))]; exact h2
      · rw [write_fail m n data len off hlen (Or.inl hv)]; exact h2

theorem load_inode_uses_ok (m : Mounted) (n : Nat) (h2 : 2 ≤ m.disk.size)
    (hs : m.disk.size < 4294967296) (T : Nat) :
    ∀ a ∈ load_inode_uses m n, a.inBounds m.disk.size T := by
  intro a ha
  unfold load_inode_uses at ha
  by_cases hn : n ≥ m.inodes
  · rw [if_pos hn] at ha; exact absurd ha (List.not_mem_nil a)
  · rw [if_neg hn] at ha
    rw [List.mem_singleton] at ha
    subst ha
    have h1 := inodes_block_le m n (Nat.lt_of_not_ge hn)
    have h3 := INODE_BLOCKS_lt m.disk.size h2 hs
    show 1 + n / INODES_PER_BLOCK < m.disk.size
    omega

theorem save_inode_uses_ok (m : Mounted) (n : Nat) (h2 : 2 ≤ m.disk.size)
    (hs : m.disk.size < 4294967296) (T : Nat) :
    ∀ a ∈ save_inode_uses m n, a.inBounds m.disk.size T := by
  intro a ha
  unfold save_inode_uses at ha
  by_cases hn : n ≥ m.inodes
  · rw [if_pos hn] at ha; exact absurd ha (List.not_mem_nil a)
  · rw [if_neg hn] at ha
    have h1 := inodes_block_le m n (Nat.lt_of_not_ge hn)
    have h3 := INODE_BLOCKS_lt m.disk.size h2 hs
    simp only [List.mem_cons, List.mem_singleton, List.not_mem_nil, or_false] at ha
    rcases ha with ha | ha
    · subst ha
      show 1 + n / INODES_PER_BLOCK < m.disk.size
      omega
    · subst ha
      show 1 + n / INODES_PER_BLOCK < m.disk.size
      omega

theorem set_free_block_map_uses_ok (pointer : Nat → Nat) (N T : Nat) : ∀ len,
    (∀ i, i < len → pointer i ≠ 0 → pointer i < N) →
    ∀ a ∈ set_free_block_map_uses pointer len, a.inBounds N T := by
  intro len
  induction len with
  | zero => intro _ a ha; exact absurd ha (List.not_mem_nil a)
  | succ i ih =>
    intro hp a ha
    rw [set_free_block_map_uses, List.mem_append] at ha
    rcases ha with ha | ha
    · exact ih (fun j hj => hp j (by omega)) a ha
    · by_cases h0 : pointer i ≠ 0
      · rw [if_pos h0, List.mem_singleton] at ha
        subst ha
        exact hp i (by omega) h0
      · rw [if_neg h0] at ha
        exact absurd ha (List.not_mem_nil a)

theorem create_scan_uses_ok (table : Nat → Inode) (N T : Nat) : ∀ k inum, inum + k ≤ T →
    ∀ a ∈ create_scan_uses table k inum, a.inBounds N T := by
  intro k
  induction k with
  | zero => intro _ _ a ha; exact absurd ha (List.not_mem_nil a)
  | succ k ih =>
    intro inum h a ha
    rw [create_scan_uses, List.mem_cons] at ha
    rcases ha with ha | ha
    · subst ha
      show inum < T
      omega
    · by_cases hv : (table inum).Valid = 0
      · rw [if_pos hv] at ha; exact absurd ha (List.not_mem_nil a)
      · rw [if_neg hv] at ha
        exact ih (inum + 1) (by omega) a ha

theorem i_read_loop_uses_ok (ptrs : Nat → Nat) (len off : Nat) (N T : Nat) : ∀ k d rb,
    (∀ j, d ≤ j → j < d + k → ptrs j ≠ 0 → ptrs j < N) →
    ∀ a ∈ i_read_loop_uses ptrs len off k d rb, a.inBounds N T := by
  intro k
  induction k with
  | zero => intro _ _ _ a ha; exact absurd ha (List.not_mem_nil a)
  | succ k ih =>
    intro d rb hp a ha
    have hrec : ∀ rb1, ∀ a ∈ i_read_loop_uses ptrs len off k (d + 1) rb1, a.inBounds N T :=
      fun rb1 => ih (d + 1) rb1 (fun j h1 h2 => hp j (by omega) (by omega))
    rw [i_read_loop_uses] at ha
    by_cases h0 : ptrs d ≠ 0
    · have hd : Access.inBounds N T (.devRead (ptrs d)) := hp d (le_refl d) (by omega) h0
      rw [if_pos h0] at ha
      simp only [] at ha
      split_ifs at ha
      · exact hrec _ a ha
      · rcases List.mem_cons.mp ha with ha | ha
        · rw [ha]; exact hd
        · exact hrec _ a ha
      · rw [List.mem_singleton.mp ha]; exact hd
      · rw [List.mem_singleton.mp ha]; exact hd
      · rcases List.mem_cons.mp ha with ha | ha
        · rw [ha]; exact hd
        · exact hrec _ a ha
    · rw [if_neg h0] at ha
      exact hrec _ a ha

theorem allocate_scan_uses_ok (map : Nat → Nat) (N T : Nat) : ∀ k bnum, bnum + k ≤ N →
    ∀ a ∈ allocate_scan_uses map k bnum, a.inBounds N T := by
  intro k
  induction k with
  | zero => intro _ _ a ha; exact absurd ha (List.not_mem_nil a)
  | succ k ih =>
    intro bnum h a ha
    rw [allocate_scan_uses] at ha
    have hb : Access.inBounds N T (.bitmap bnum) := by
      show bnum < N
      omega
    by_cases h0 : map bnum = 0
    · rw [if_pos h0] at ha
      simp only [List.mem_cons, List.mem_singleton, List.not_mem_nil, or_false] at ha
      rcases ha with ha | ha
      · rw [ha]; exact hb
      · rw [ha]; exact hb
    · rw [if_neg h0] at ha
      rcases List.mem_cons.mp ha with ha | ha
      · rw [ha]; exact hb
      · exact ih (bnum + 1) (by omega) a ha

theorem allocate_free_block_uses_ok (m : Mounted) (T : Nat) :
    ∀ a ∈ allocate_free_block_uses m, a.inBounds m.disk.size T := by
  unfold allocate_free_block_uses
  simp only []
  by_cases h : INODE_BLOCKS m.disk.size + 1 ≤ m.disk.size
  · exact allocate_scan_uses_ok _ _ T _ _ (by omega)
  · have : m.disk.size - (INODE_BLOCKS m.disk.size + 1) = 0 := by omega
    rw [this]
    intro a ha
    exact absurd ha (List.not_mem_nil a)

theorem u32_le (x : Nat) : u32 x ≤ x := Nat.mod_le x 4294967296

/-- The slot walk of `i_write` stays in bounds when the nonzero pointers it starts from
are block numbers of the device. -/
theorem i_write_loop_uses_ok (len : Nat) (data : Buffer) (off : Nat) (N T : Nat) :
    ∀ k d w ptrs m, m.disk.size = N →
    (∀ j, d ≤ j → j < d + k → ptrs j ≠ 0 → ptrs j < N) →
    ∀ a ∈ i_write_loop_uses len data off k d w ptrs m, a.inBounds N T := by
  intro k
  induction k with
  | zero => intro _ _ _ _ _ _ a ha; exact absurd ha (List.not_mem_nil a)
  | succ k ih =>
    intro d w ptrs m hsz hp a ha
    rw [i_write_loop_uses] at ha
    by_cases hskip : off ≥ (d + 1) * BLOCK_SIZE
    · rw [if_pos hskip] at ha
      exact ih (d + 1) w ptrs m hsz (fun j h1 h2 => hp j (by omega) (by omega)) a ha
    rw [if_neg hskip] at ha
    simp only [] at ha
    have halloc := allocate_free_block_uses_ok m T
    rw [hsz] at halloc
    by_cases h0 : ptrs d ≠ 0
    · have hd : ptrs d < N := hp d (le_refl d) (by omega) h0
      have hrec : ∀ w1 blk, ∀ a ∈ i_write_loop_uses len data off k (d + 1) w1 ptrs
          { m with disk := m.disk.write (ptrs d) blk }, a.inBounds N T :=
        fun w1 blk => ih (d + 1) w1 ptrs _ hsz (fun j h1 h2 => hp j (by omega) (by omega))
      rw [if_pos h0] at ha
      simp only [] at ha
      split_ifs at ha
      · simp only [List.singleton_append, List.mem_cons] at ha
        rcases ha with ha | ha | ha
        · rw [ha]; exact hd
        · rw [ha]; exact hd
        · exact hrec _ _ a ha
      · simp only [List.singleton_append, List.mem_cons, List.mem_singleton, List.not_mem_nil,
          or_false] at ha
        rcases ha with ha | ha
        · rw [ha]; exact hd
        · rw [ha]; exact hd
      · simp only [List.singleton_append, List.mem_cons, List.mem_singleton, List.not_mem_nil,
          or_false] at ha
        rcases ha with ha | ha
        · rw [ha]; exact hd
        · rw [ha]; exact hd
      · simp only [List.singleton_append, List.mem_cons] at ha
        rcases ha with ha | ha | ha
        · rw [ha]; exact hd
        · rw [ha]; exact hd
        · exact hrec _ _ a ha
    · rw [if_neg h0] at ha
      rcases allocate_cases m with ⟨hnone, _⟩ | ⟨b, _, hb2, _, hsome⟩
      · rw [hnone] at ha
        exact halloc a ha
      · rw [hsome] at ha
        simp only [] at ha
        rw [hsz] at hb2
        have hr : Access.inBounds N T (.devRead b) := hb2
        have hw : Access.inBounds N T (.devWrite (upd ptrs d (u32 b) d)) := by
          rw [upd_same]
          exact Nat.lt_of_le_of_lt (u32_le b) hb2
        have hrec : ∀ w1 blk, ∀ a ∈ i_write_loop_uses len data off k (d + 1) w1
            (upd ptrs d (u32 b))
            { ({ m with free_block_map := upd m.free_block_map b 1 } : Mounted) with
              disk := m.disk.write (upd ptrs d (u32 b) d) blk }, a.inBounds N T :=
          fun w1 blk => ih (d + 1) w1 _ _ hsz (fun j h1 h2 hne => by
            rw [upd_other _ _ _ _ (by omega)] at hne ⊢
            exact hp j (by omega) (by omega) hne)
        split_ifs at ha
        · simp only [List.append_assoc, List.singleton_append, List.mem_append,
            List.mem_cons] at ha
          rcases ha with ha | ha | ha | ha
          · exact halloc a ha
          · rw [ha]; exact hr
          · rw [ha]; exact hw
          · exact hrec _ _ a ha
        · simp only [List.append_assoc, List.singleton_append, List.mem_append, List.mem_cons,
            List.mem_singleton, List.not_mem_nil, or_false] at ha
          rcases ha with ha | ha | ha
          · exact halloc a ha
          · rw [ha]; exact hr
          · rw [ha]; exact hw
        · simp only [List.append_assoc, List.singleton_append, List.mem_append, List.mem_cons,
            List.mem_singleton, List.not_mem_nil, or_false] at ha
          rcases ha with ha | ha | ha
          · exact halloc a ha
          · rw [ha]; exact hr
          · rw [ha]; exact hw
        · simp only [List.append_assoc, List.singleton_append, List.mem_append,
            List.mem_cons] at ha
          rcases ha with ha | ha | ha | ha
          · exact halloc a ha
          · rw [ha]; exact hr
          · rw [ha]; exact hw
          · exact hrec _ _ a ha

theorem direct_in_range {m : Mounted} (hI : Inv m) {n : Nat} (hv : m.valid n) :
    ∀ k, k < 5 → (m.inode n).Direct k ≠ 0 → (m.inode n).Direct k < m.disk.size :=
  fun k hk hne => (hI.range n (.direct k) hv hk hne).2

theorem indirect_in_range {m : Mounted} (hI : Inv m) {n : Nat} (hv : m.valid n)
    (hne : (m.inode n).Indirect ≠ 0) : (m.inode n).Indirect < m.disk.size :=
  (hI.range n .indirect hv trivial hne).2

theorem entry_in_range {m : Mounted} (hI : Inv m) {n : Nat} (hv : m.valid n)
    (hind : (m.inode n).Indirect ≠ 0) :
    ∀ k, k < 1024 → (m.disk.read (m.inode n).Indirect).Pointers k ≠ 0 →
      (m.disk.read (m.inode n).Indirect).Pointers k < m.disk.size := by
  intro k hk hne
  have e := pointer_entry_of_ne m n k hind
  have := hI.range n (.entry k) hv hk (by rw [e]; exact hne)
  rw [e] at this
  exact this.2

theorem stat_uses_ok (m : Mounted) (hI : Inv m) (h2 : 2 ≤ m.disk.size) (n : Nat) :
    ∀ a ∈ m.stat_uses n, a.inBounds m.disk.size m.inodes := by
  intro a ha
  unfold Mounted.stat_uses at ha
  by_cases hn : n ≥ m.inodes
  · rw [if_pos hn] at ha; exact absurd ha (List.not_mem_nil a)
  · rw [if_neg hn] at ha
    rcases List.mem_cons.mp ha with ha | ha
    · rw [ha]
      show n < m.inodes
      omega
    · exact load_inode_uses_ok m n h2 hI.small _ a ha

theorem create_uses_ok (m : Mounted) (hI : Inv m) (h2 : 2 ≤ m.disk.size) :
    ∀ a ∈ m.create_uses, a.inBounds m.disk.size m.inodes := by
  intro a ha
  have hle : (create_inodes m.disk.size).toNat ≤ m.inodes := by
    unfold create_inodes Mounted.inodes u32
    simp only []
    have := Nat.mod_le (INODE_BLOCKS m.disk.size * INODES_PER_BLOCK) 4294967296
    split_ifs <;> omega
  unfold Mounted.create_uses at ha
  simp only [] at ha
  rw [List.mem_append, List.mem_append] at ha
  rcases ha with (ha | ha) | ha
  · exact load_inode_uses_ok m 0 h2 hI.small _ a ha
  · exact create_scan_uses_ok _ _ _ _ 0 (by omega) a ha
  · by_cases hlt : ((create_scan m.inode_table (create_inodes m.disk.size).toNat 0 : Nat) : Int)
        < create_inodes m.disk.size
    · rw [if_pos hlt] at ha
      have hc : Access.inBounds m.disk.size m.inodes
          (.cache (create_scan m.inode_table (create_inodes m.disk.size).toNat 0)) := by
        show create_scan m.inode_table (create_inodes m.disk.size).toNat 0 < m.inodes
        omega
      rcases List.mem_append.mp ha with ha | ha
      · simp only [List.mem_cons, List.mem_singleton, List.not_mem_nil, or_false, or_self] at ha
        rw [ha]; exact hc
      · exact save_inode_uses_ok _ _ h2 hI.small _ a ha
    · rw [if_neg hlt] at ha
      exact absurd ha (List.not_mem_nil a)

theorem remove_uses_ok (m : Mounted) (hI : Inv m) (h2 : 2 ≤ m.disk.size) (n : Nat) :
    ∀ a ∈ m.remove_uses n, a.inBounds m.disk.size m.inodes := by
  intro a ha
  unfold Mounted.remove_uses at ha
  by_cases hn : n ≥ m.inodes
  · rw [if_pos hn] at ha; exact absurd ha (List.not_mem_nil a)
  rw [if_neg hn] at ha
  have hn1 : n < m.inodes := Nat.lt_of_not_ge hn
  have hc : Access.inBounds m.disk.size m.inodes (.cache n) := hn1
  simp only [load_inode_eq m n _ hn1] at ha
  rcases List.mem_cons.mp ha with ha | ha
  · rw [ha]; exact hc
  rcases List.mem_append.mp ha with ha | ha
  · exact load_inode_uses_ok m n h2 hI.small _ a ha
  by_cases hval : (m.inode n).Valid = 0
  · rw [if_pos hval] at ha; exact absurd ha (List.not_mem_nil a)
  rw [if_neg hval] at ha
  have hv : m.valid n := ⟨hn1, hval⟩
  simp only [List.mem_append] at ha
  rcases ha with (((ha | ha) | ha) | ha) | ha
  · exact set_free_block_map_uses_ok _ _ _ _ (direct_in_range hI hv) a ha
  · exact set_free_block_map_uses_ok _ _ _ 1
      (fun _ _ hne => indirect_in_range hI hv hne) a ha
  · by_cases hind : (m.inode n).Indirect ≠ 0
    · rw [if_pos hind] at ha
      rcases List.mem_cons.mp ha with ha | ha
      · rw [ha]; exact indirect_in_range hI hv hind
      · exact set_free_block_map_uses_ok _ _ _ _ (entry_in_range hI hv hind) a ha
    · rw [if_neg hind] at ha; exact absurd ha (List.not_mem_nil a)
  · simp only [List.mem_cons, List.mem_singleton, List.not_mem_nil, or_false, or_self] at ha
    rw [ha]; exact hc
  · exact save_inode_uses_ok _ n h2 hI.small _ a ha

theorem read_uses_ok (m : Mounted) (hI : Inv m) (h2 : 2 ≤ m.disk.size) (n : Nat)
    (data : Buffer) (len off : Nat) :
    ∀ a ∈ m.read_uses n data len off, a.inBounds m.disk.size m.inodes := by
  intro a ha
  unfold Mounted.read_uses at ha
  by_cases hn : n ≥ m.inodes
  · rw [if_pos hn] at ha; exact absurd ha (List.not_mem_nil a)
  rw [if_neg hn] at ha
  have hn1 : n < m.inodes := Nat.lt_of_not_ge hn
  simp only [load_inode_eq m n _ hn1] at ha
  rcases List.mem_append.mp ha with ha | ha
  · exact load_inode_uses_ok m n h2 hI.small _ a ha
  by_cases hbad : (m.inode n).Valid = 0 ∨ off ≥ (m.inode n).Size
  · rw [if_pos hbad] at ha; exact absurd ha (List.not_mem_nil a)
  rw [if_neg hbad] at ha
  have hv : m.valid n := ⟨hn1, fun h => hbad (Or.inl h)⟩
  simp only [i_read_uses, POINTERS_PER_INODE, POINTERS_PER_BLOCK] at ha
  generalize (if usize (len + off) > (m.inode n).Size then (m.inode n).Size - off else len)
    = length1 at ha
  by_cases h0 : length1 = 0
  · rw [if_pos h0] at ha; exact absurd ha (List.not_mem_nil a)
  rw [if_neg h0] at ha
  rcases List.mem_append.mp ha with ha | ha
  · exact i_read_loop_uses_ok _ _ _ _ _ 5 0 0
      (fun j _ hj hne => direct_in_range hI hv j (by omega) hne) a ha
  by_cases hfull : (i_read m (m.inode n).Direct 5 length1 data 0 off).1 = length1
  · rw [if_pos hfull] at ha; exact absurd ha (List.not_mem_nil a)
  rw [if_neg hfull] at ha
  rcases List.mem_append.mp ha with ha | ha
  · exact load_inode_uses_ok m n h2 hI.small _ a ha
  by_cases hind : (m.inode n).Indirect = 0
  · rw [if_pos hind] at ha; exact absurd ha (List.not_mem_nil a)
  rw [if_neg hind] at ha
  rcases List.mem_cons.mp ha with ha | ha
  · rw [ha]; exact indirect_in_range hI hv hind
  · exact i_read_loop_uses_ok _ _ _ _ _ 1024 0 0
      (fun j _ hj hne => entry_in_range hI hv hind j (by omega) hne) a ha

theorem i_write_loop_blocks (len : Nat) (data : Buffer) (off : Nat) :
    ∀ k d w ptrs m, (i_write_loop len data off k d w ptrs m).2.2.disk.size = m.disk.size := by
  intro k
  induction k with
  | zero => intro _ _ _ _; rfl
  | succ k ih =>
    intro d w ptrs m
    rw [i_write_loop]
    by_cases hskip : off ≥ (d + 1) * BLOCK_SIZE
    · rw [if_pos hskip]; exact ih _ _ _ _
    rw [if_neg hskip]
    simp only []
    by_cases h0 : ptrs d ≠ 0
    · rw [if_pos h0]
      simp only []
      split_ifs
      · rw [ih]; rfl
      · rfl
      · rfl
      · rw [ih]; rfl
    · rw [if_neg h0]
      rcases allocate_cases m with ⟨hnone, _⟩ | ⟨b, _, _, _, hsome⟩
      · rw [hnone]
      · rw [hsome]
        simp only []
        split_ifs
        · rw [ih]; rfl
        · rfl
        · rfl
        · rw [ih]; rfl

/-- The direct slot walk of a `write` to a valid inode leaves the indirect pointer block
of that inode as it was. -/
theorem indirect_block_kept (m : Mounted) (hI : Inv m) (n : Nat) (hv : m.valid n)
    (data : Buffer) (len off : Nat) (hlen : 0 < len) (hind : (m.inode n).Indirect ≠ 0) :
    (i_write_loop len data off 5 0 0 (m.inode n).Direct m).2.2.disk.data (m.inode n).Indirect
      = m.disk.data (m.inode n).Indirect := by
  have hN : m.disk.size ≤ 4294967296 := Nat.le_of_lt hI.small
  have hpos0 : off + 0 = max off (0 * BLOCK_SIZE) := by simp
  have W1 := i_write_loop_walk len data off 5 0 0 (m.inode n).Direct m hN hpos0 hlen
  simp only [Nat.zero_add] at W1
  generalize i_write_loop len data off 5 0 0 (m.inode n).Direct m = r1 at W1 ⊢
  obtain ⟨w1, D1, m1⟩ := r1
  simp only at W1 ⊢
  have G1 : Grow (INODE_BLOCKS m.disk.size) m.disk.size (m.pointer n) m.free_block_map
      (slotsOf D1 (m.inode n).Indirect (fun k => m.pointer n (.entry k))) m1.free_block_map :=
    Grow.of_walk W1 Slot.direct (fun i j h => by injection h) (fun j => Iff.rfl) _ _
      (fun j => rfl) (fun j => rfl)
      (fun s hs => by
        cases s with
        | direct k => exact absurd rfl (hs k)
        | indirect => rfl
        | entry k => rfl)
  have hok1 := G1.keep (hI.slotsOK hv)
  rcases W1.data (m.inode n).Indirect with h | ⟨_, j, _, hj, _, hjb⟩
  · exact h
  · have := hok1.2 (.direct j) .indirect hj trivial hjb (by show D1 j ≠ 0; rw [hjb]; exact hind)
    injection this

theorem update_inode_uses_ok (m : Mounted) (n N : Nat) (hsz : m.disk.size = N) (h2 : 2 ≤ N)
    (hs : N < 4294967296) (hn : n < m.inodes) :
    ∀ a ∈ update_inode_uses m n, a.inBounds N m.inodes := by
  intro a ha
  unfold update_inode_uses at ha
  rcases List.mem_cons.mp ha with ha | ha
  · rw [ha]; exact hn
  · have := save_inode_uses_ok m n (by rw [hsz]; exact h2) (by rw [hsz]; exact hs) m.inodes a ha
    rw [hsz] at this
    exact this

theorem write_uses_ok (m : Mounted) (hI : Inv m) (h2 : 2 ≤ m.disk.size) (n : Nat)
    (data : Buffer) (len off : Nat) :
    ∀ a ∈ m.write_uses n data len off, a.inBounds m.disk.size m.inodes := by
  intro a ha
  unfold Mounted.write_uses at ha
  by_cases hn : n ≥ m.inodes
  · rw [if_pos hn] at ha; exact absurd ha (List.not_mem_nil a)
  rw [if_neg hn] at ha
  have hn1 : n < m.inodes := Nat.lt_of_not_ge hn
  by_cases hlen : len = 0
  · rw [if_pos hlen] at ha; exact absurd ha (List.not_mem_nil a)
  rw [if_neg hlen] at ha
  simp only [load_inode_eq m n _ hn1] at ha
  rcases List.mem_append.mp ha with ha | ha
  · exact load_inode_uses_ok m n h2 hI.small _ a ha
  by_cases hbad : (m.inode n).Valid = 0 ∨ off > (m.inode n).Size
  · rw [if_pos hbad] at ha; exact absurd ha (List.not_mem_nil a)
  rw [if_neg hbad] at ha
  have hv : m.valid n := ⟨hn1, fun h => hbad (Or.inl h)⟩
  simp only [i_write, i_write_uses, POINTERS_PER_INODE, POINTERS_PER_BLOCK, BLOCK_SIZE] at ha
  have hu1 := i_write_loop_uses_ok len data off m.disk.size m.inodes 5 0 0 (m.inode n).Direct m
    rfl (fun j _ hj hne => direct_in_range hI hv j (by omega) hne)
  have hsz1 := i_write_loop_blocks len data off 5 0 0 (m.inode n).Direct m
  have hkept := indirect_block_kept m hI n hv data len off (Nat.pos_of_ne_zero hlen)
  generalize i_write_loop len data off 5 0 0 (m.inode n).Direct m = r1 at ha hsz1 hkept
  obtain ⟨w1, D1, m1⟩ := r1
  simp only at ha hsz1 hkept
  have hn2 : n < m1.inodes := by rw [inodes_congr hsz1]; exact hn1
  have hup1 : ∀ a ∈ update_inode_uses m1 n, a.inBounds m.disk.size m.inodes := by
    have := update_inode_uses_ok m1 n m.disk.size hsz1 h2 hI.small hn2
    rw [inodes_congr hsz1] at this
    exact this
  have halloc1 : ∀ a ∈ allocate_free_block_uses m1, a.inBounds m.disk.size m.inodes := by
    have := allocate_free_block_uses_ok m1 m.inodes
    rw [hsz1] at this
    exact this
  by_cases hfull : w1 = len
  · rw [if_pos hfull] at ha
    rcases List.mem_append.mp ha with ha | ha
    · exact hu1 a ha
    · exact hup1 a ha
  rw [if_neg hfull] at ha
  by_cases hind : (m.inode n).Indirect = 0
  · rw [if_pos hind] at ha
    rcases allocate_cases m1 with ⟨hnone, _⟩ | ⟨b, _, hb2, _, hsome⟩
    · rw [hnone] at ha
      simp only [List.mem_append] at ha
      rcases ha with (ha | ha) | ha
      · exact hu1 a ha
      · exact halloc1 a ha
      · exact hup1 a ha
    · rw [hsome] at ha
      simp only [] at ha
      rw [hsz1] at hb2
      have hsz3 := i_write_loop_blocks (len - w1) (shift data w1)
        (if off > 5 * 4096 then off - 5 * 4096 else 0) 1024 0 0 zeroBlock.Pointers
        { m1 with free_block_map := upd m1.free_block_map b 1 }
      have hu2 := i_write_loop_uses_ok (len - w1) (shift data w1)
        (if off > 5 * 4096 then off - 5 * 4096 else 0) m.disk.size m.inodes 1024 0 0
        zeroBlock.Pointers { m1 with free_block_map := upd m1.free_block_map b 1 } hsz1
        (fun j _ _ hne => absurd (getWord_zeroBlock j) hne)
      generalize i_write_loop (len - w1) (shift data w1)
        (if off > 5 * 4096 then off - 5 * 4096 else 0) 1024 0 0 zeroBlock.Pointers
        { m1 with free_block_map := upd m1.free_block_map b 1 } = r2 at ha hsz3
      have hsz3 : r2.2.2.disk.size = m.disk.size := hsz3.trans hsz1
      simp only [List.mem_append, List.mem_singleton] at ha
      rcases ha with (((ha | ha) | ha) | ha) | ha
      · exact hu1 a ha
      · exact halloc1 a ha
      · exact hu2 a ha
      · have := update_inode_uses_ok r2.2.2 n m.disk.size hsz3 h2 hI.small
          (by rw [inodes_congr hsz3]; exact hn1)
        rw [inodes_congr hsz3] at this
        exact this a ha
      · rw [ha]
        exact Nat.lt_of_le_of_lt (u32_le b) hb2
  · rw [if_neg hind] at ha
    simp only [] at ha
    have hir := indirect_in_range hI hv hind
    have hpb : m1.disk.read (m.inode n).Indirect = m.disk.read (m.inode n).Indirect :=
      hkept hind
    rw [hpb] at ha
    have hsz3 := i_write_loop_blocks (len - w1) (shift data w1)
      (if off > 5 * 4096 then off - 5 * 4096 else 0) 1024 0 0
      (m.disk.read (m.inode n).Indirect).Pointers m1
    have hu2 := i_write_loop_uses_ok (len - w1) (shift data w1)
      (if off > 5 * 4096 then off - 5 * 4096 else 0) m.disk.size m.inodes 1024 0 0
      (m.disk.read (m.inode n).Indirect).Pointers m1 hsz1
      (fun j _ hj hne => entry_in_range hI hv hind j (by omega) hne)
    generalize i_write_loop (len - w1) (shift data w1)
      (if off > 5 * 4096 then off - 5 * 4096 else 0) 1024 0 0
      (m.disk.read (m.inode n).Indirect).Pointers m1 = r2 at ha hsz3
    have hsz3 : r2.2.2.disk.size = m.disk.size := hsz3.trans hsz1
    simp only [List.mem_append, List.mem_singleton] at ha
    rcases ha with (((ha | ha) | ha) | ha) | ha
    · exact hu1 a ha
    · rw [ha]; exact hir
    · exact hu2 a ha
    · have := update_inode_uses_ok r2.2.2 n m.disk.size hsz3 h2 hI.small
        (by rw [inodes_congr hsz3]; exact hn1)
      rw [inodes_congr hsz3] at this
      exact this a ha
    · rw [ha]; exact hir

/-- Claim C21, amended (indices stay in bounds): every handle reachable from format +
mount of a device of at least two blocks is mounted on a device of `N ≥ 2` blocks with
`T = 128 * ceil(N / 10)` inodes and a bitmap of `N` cells, and for every call of
`create`, `remove`, `stat`, `read` or `write`, whatever its arguments, every block number
the call passes to the device's `read` or `write` is `< N`, every index into the bitmap
it uses is `< N`, and every index into the inode cache it uses is `< T`; when
`T < 2^32` the inode cache has `T` entries, so every index the call uses is within the
device, within the bitmap and within the inode cache. -/
theorem indices_in_bounds (fs : FileSystem) (h : Reachable fs) (c : Call) :
    ∃ m : Mounted, fs = m.toFS ∧ 2 ≤ m.disk.size ∧
      m.inodes = 128 * ((m.disk.size + 9) / 10) ∧
      m.free_block_map_len = m.disk.size ∧
      (∀ a ∈ fs.uses c, a.inBounds m.disk.size m.inodes) ∧
      (128 * ((m.disk.size + 9) / 10) < 4294967296 →
        m.inode_table_len = m.inodes ∧
        ∀ a ∈ fs.uses c, a.inBounds m.free_block_map_len m.inode_table_len) := by
  obtain ⟨m, hfs, hI, h2⟩ := reach_size fs h
  have hT : m.inodes = 128 * ((m.disk.size + 9) / 10) := by
    unfold Mounted.inodes
    rw [INODE_BLOCKS_eq _ hI.small]
    exact Nat.mul_comm _ _
  have hl := reach_lens m (hfs ▸ h)
  have hall : ∀ a ∈ fs.uses c, a.inBounds m.disk.size m.inodes := by
    rw [hfs]
    cases c with
    | create => exact create_uses_ok m hI h2
    | remove n => exact remove_uses_ok m hI h2 n
    | stat n => exact stat_uses_ok m hI h2 n
    | read n data len off => exact read_uses_ok m hI h2 n data len off
    | write n data len off => exact write_uses_ok m hI h2 n data len off
  refine ⟨m, hfs, h2, hT, hl.2, hall, fun hlt => ?_⟩
  have e : m.inode_table_len = m.inodes := by
    rw [hl.1]
    exact u32_of_lt (by rw [hT]; exact hlt)
  rw [e, hl.2]
  exact ⟨rfl, hall⟩

set_option maxRecDepth 1000000 in
set_option maxHeartbeats 4000000 in
/-- Witness for C21: on the ten-block volume with the empty inode 0 (`N = 10`,
`T = 128`, a bitmap of 10 cells and an inode cache of 128 entries),
`write(0, "hello", 5, 0)` reads the inode block 1, tests and marks bitmap cell 2, reads
and writes block 2, stores cache entry 0, and reads and writes the inode block 1. -/
theorem indices_in_bounds_witness :
    (vol1.disk.size = 10 ∧ vol1.inodes = 128 ∧ vol1.free_block_map_len = 10 ∧
      vol1.inode_table_len = 128 ∧
      vol1.toFS.uses (.write 0 hello 5 0) =
        [.devRead 1, .bitmap 2, .bitmap 2, .devRead 2, .devWrite 2, .cache 0, .devRead 1,
          .devWrite 1]) ∧
    ∀ a ∈ vol1.toFS.uses (.write 0 hello 5 0),
      a.inBounds vol1.free_block_map_len vol1.inode_table_len := by
  refine ⟨by decide!, ?_⟩
  obtain ⟨m, hfs, _, _, _, _, hb⟩ :=
    indices_in_bounds vol1.toFS reach_vol1 (.write 0 hello 5 0)
  have hm : vol1 = m := toFS_inj hfs
  subst hm
  exact (hb (by decide!)).2

/-! ## The uses agree with the write log of the device -/

theorem writesOf_append (l1 l2 : List Access) :
    writesOf (l1 ++ l2) = writesOf l1 ++ writesOf l2 := by
  induction l1 with
  | nil => rfl
  | cons a l ih =>
    cases a with
    | devRead b => exact ih
    | devWrite b =>
      show b :: writesOf (l ++ l2) = b :: writesOf l ++ writesOf l2
      rw [ih]; rfl
    | bitmap i => exact ih
    | cache i => exact ih

theorem writesOf_allocate_scan (map : Nat → Nat) : ∀ k bnum,
    writesOf (allocate_scan_uses map k bnum) = [] := by
  intro k
  induction k with
  | zero => intro _; rfl
  | succ k ih =>
    intro bnum
    rw [allocate_scan_uses]
    by_cases h : map bnum = 0
    · rw [if_pos h]; rfl
    · rw [if_neg h]; exact ih (bnum + 1)

theorem writesOf_allocate (m : Mounted) : writesOf (allocate_free_block_uses m) = [] :=
  writesOf_allocate_scan _ _ _

theorem writesOf_load (m : Mounted) (n : Nat) : writesOf (load_inode_uses m n) = [] := by
  unfold load_inode_uses
  split_ifs <;> rfl

theorem writesOf_set (pointer : Nat → Nat) : ∀ len,
    writesOf (set_free_block_map_uses pointer len) = [] := by
  intro len
  induction len with
  | zero => rfl
  | succ i ih =>
    rw [set_free_block_map_uses, writesOf_append, ih]
    split_ifs <;> rfl

theorem writesOf_create_scan (table : Nat → Inode) : ∀ k inum,
    writesOf (create_scan_uses table k inum) = [] := by
  intro k
  induction k with
  | zero => intro _; rfl
  | succ k ih =>
    intro inum
    rw [create_scan_uses]
    by_cases h : (table inum).Valid = 0
    · rw [if_pos h]; rfl
    · rw [if_neg h]; exact ih (inum + 1)

theorem writesOf_i_read (ptrs : Nat → Nat) (len off : Nat) : ∀ k d rb,
    writesOf (i_read_loop_uses ptrs len off k d rb) = [] := by
  intro k
  induction k with
  | zero => intro _ _; rfl
  | succ k ih =>
    intro d rb
    rw [i_read_loop_uses]
    simp only []
    split_ifs
    · exact ih _ _
    · exact ih _ _
    · rfl
    · rfl
    · exact ih _ _
    · exact ih _ _

theorem save_inode_logged (m : Mounted) (n : Nat) (node : Inode) :
    (save_inode m n node).2.disk.log = m.disk.log ++ writesOf (save_inode_uses m n) := by
  unfold save_inode save_inode_uses
  by_cases hn : n ≥ m.inodes
  · rw [if_pos hn, if_pos hn]
    exact (List.append_nil _).symm
  · rw [if_neg hn, if_neg hn]
    rfl

/-- The device writes of the slot walk of `i_write` are the writes among its uses. -/
theorem i_write_loop_logged (len : Nat) (data : Buffer) (off : Nat) :
    ∀ k d w ptrs m, (i_write_loop len data off k d w ptrs m).2.2.disk.log
      = m.disk.log ++ writesOf (i_write_loop_uses len data off k d w ptrs m) := by
  intro k
  induction k with
  | zero => intro _ _ _ m; exact (List.append_nil _).symm
  | succ k ih =>
    intro d w ptrs m
    rw [i_write_loop, i_write_loop_uses]
    by_cases hskip : off ≥ (d + 1) * BLOCK_SIZE
    · rw [if_pos hskip, if_pos hskip]; exact ih _ _ _ _
    rw [if_neg hskip, if_neg hskip]
    simp only []
    by_cases h0 : ptrs d ≠ 0
    · rw [if_pos h0, if_pos h0]
      simp only []
      split_ifs
      · rw [ih]
        simp only [List.singleton_append, writesOf, Disk.write, List.append_assoc]
      · simp only [List.singleton_append, writesOf, Disk.write]
      · simp only [List.singleton_append, writesOf, Disk.write]
      · rw [ih]
        simp only [List.singleton_append, writesOf, Disk.write, List.append_assoc]
    · rw [if_neg h0, if_neg h0]
      rcases allocate_cases m with ⟨hnone, _⟩ | ⟨b, _, _, _, hsome⟩
      · rw [hnone]
        simp only []
        rw [writesOf_allocate, List.append_nil]
      · rw [hsome]
        simp only []
        split_ifs
        · rw [ih]
          simp only [writesOf_append, writesOf_allocate, writesOf, Disk.write, List.append_assoc,
            List.nil_append, List.singleton_append]
        · simp only [writesOf_append, writesOf_allocate, writesOf, Disk.write, List.nil_append]
        · simp only [writesOf_append, writesOf_allocate, writesOf, Disk.write, List.nil_append]
        · rw [ih]
          simp only [writesOf_append, writesOf_allocate, writesOf, Disk.write, List.append_assoc,
            List.nil_append, List.singleton_append]

theorem update_inode_logged (m : Mounted) (n : Nat) (node : Inode) (size : Nat) :
    (update_inode m n node size).disk.log = m.disk.log ++ writesOf (update_inode_uses m n) := by
  rw [update_inode_eq, save_inode_logged]
  rfl

theorem create_logged (m : Mounted) :
    m.create.2.disk.log = m.disk.log ++ writesOf m.create_uses := by
  unfold Mounted.create Mounted.create_uses
  simp only []
  rw [writesOf_append, writesOf_append, writesOf_load, writesOf_create_scan]
  by_cases hlt : ((create_scan m.inode_table (create_inodes m.disk.size).toNat 0 : Nat) : Int)
      < create_inodes m.disk.size
  · rw [if_pos hlt, if_pos hlt, writesOf_append]
    simp only [writesOf, List.nil_append]
    split_ifs
    · exact save_inode_logged _ _ _
    · exact save_inode_logged _ _ _
  · rw [if_neg hlt, if_neg hlt]
    exact (List.append_nil _).symm

theorem writesOf_guarded_read (c : Prop) [Decidable c] (b : Nat) (l : List Access)
    (h : writesOf l = []) : writesOf (if c then .devRead b :: l else []) = [] := by
  split_ifs
  · exact h
  · rfl

theorem remove_logged (m : Mounted) (n : Nat) :
    (m.remove n).2.disk.log = m.disk.log ++ writesOf (m.remove_uses n) := by
  unfold Mounted.remove Mounted.remove_uses
  by_cases hn : n ≥ m.inodes
  · rw [if_pos hn, if_pos hn]
    exact (List.append_nil _).symm
  rw [if_neg hn, if_neg hn]
  simp only []
  by_cases hval : (load_inode m n (m.inode_table n)).2.Valid = 0
  · rw [if_pos hval, if_pos hval]
    simp only [writesOf, List.append_eq, writesOf_append, writesOf_load, List.append_nil]
  · rw [if_neg hval, if_neg hval, save_inode_logged]
    simp only [writesOf, List.append_eq, writesOf_append, writesOf_load, writesOf_set,
      List.nil_append]
    rw [writesOf_guarded_read _ _ _ (writesOf_set _ _)]
    simp only [List.append_nil, List.nil_append]

theorem stat_logged (m : Mounted) (n : Nat) : writesOf (m.stat_uses n) = [] := by
  unfold Mounted.stat_uses
  split_ifs
  · rfl
  · exact writesOf_load m n

theorem read_logged (m : Mounted) (n : Nat) (data : Buffer) (len off : Nat) :
    writesOf (m.read_uses n data len off) = [] := by
  unfold Mounted.read_uses
  simp only [i_read_uses]
  split_ifs <;>
    simp only [writesOf, writesOf_append, writesOf_load, writesOf_i_read, List.append_nil]

theorem write_logged (m : Mounted) (n : Nat) (data : Buffer) (len off : Nat) :
    (m.write n data len off).2.disk.log = m.disk.log ++ writesOf (m.write_uses n data len off) := by
  unfold Mounted.write Mounted.write_uses
  by_cases hn : n ≥ m.inodes
  · rw [if_pos hn, if_pos hn]
    exact (List.append_nil _).symm
  rw [if_neg hn, if_neg hn]
  by_cases hlen : len = 0
  · rw [if_pos hlen, if_pos hlen]
    exact (List.append_nil _).symm
  rw [if_neg hlen, if_neg hlen]
  simp only []
  generalize (load_inode m n Inode.zero).2 = ino
  rw [writesOf_append, writesOf_load, List.nil_append]
  by_cases hbad : ino.Valid = 0 ∨ off > ino.Size
  · rw [if_pos hbad, if_pos hbad]
    exact (List.append_nil _).symm
  rw [if_neg hbad, if_neg hbad]
  simp only [i_write, i_write_uses]
  have L1 := i_write_loop_logged len data off POINTERS_PER_INODE 0 0 ino.Direct m
  generalize i_write_loop_uses len data off POINTERS_PER_INODE 0 0 ino.Direct m = u1 at L1 ⊢
  generalize i_write_loop len data off POINTERS_PER_INODE 0 0 ino.Direct m = r1 at L1 ⊢
  obtain ⟨w1, D1, m1⟩ := r1
  simp only at L1 ⊢
  by_cases hfull : w1 = len
  · rw [if_pos hfull, if_pos hfull, writesOf_append, update_inode_logged, L1,
      List.append_assoc]
  rw [if_neg hfull, if_neg hfull]
  by_cases hind : ino.Indirect = 0
  · rw [if_pos hind, if_pos hind]
    rcases allocate_cases m1 with ⟨hnone, _⟩ | ⟨b, _, _, _, hsome⟩
    · rw [hnone]
      simp only []
      rw [writesOf_append, writesOf_append, writesOf_allocate, update_inode_logged, L1,
        List.append_nil, List.append_assoc]
    · rw [hsome]
      simp only []
      have L2 := i_write_loop_logged (len - w1) (shift data w1)
        (if off > POINTERS_PER_INODE * BLOCK_SIZE then off - POINTERS_PER_INODE * BLOCK_SIZE else 0)
        POINTERS_PER_BLOCK 0 0 zeroBlock.Pointers
        { m1 with free_block_map := upd m1.free_block_map b 1 }
      generalize i_write_loop_uses (len - w1) (shift data w1)
        (if off > POINTERS_PER_INODE * BLOCK_SIZE then off - POINTERS_PER_INODE * BLOCK_SIZE else 0)
        POINTERS_PER_BLOCK 0 0 zeroBlock.Pointers
        { m1 with free_block_map := upd m1.free_block_map b 1 } = u2 at L2 ⊢
      generalize i_write_loop (len - w1) (shift data w1)
        (if off > POINTERS_PER_INODE * BLOCK_SIZE then off - POINTERS_PER_INODE * BLOCK_SIZE else 0)
        POINTERS_PER_BLOCK 0 0 zeroBlock.Pointers
        { m1 with free_block_map := upd m1.free_block_map b 1 } = r2 at L2 ⊢
      show (update_inode r2.2.2 n _ _).disk.log ++ [u32 b] = _
      rw [update_inode_logged, L2]
      simp only [update_inode_uses, List.append_eq, writesOf_append, writesOf_allocate, writesOf,
        List.append_nil, List.nil_append, List.append_assoc]
      rw [← List.append_assoc m.disk.log, ← L1]
  · rw [if_neg hind, if_neg hind]
    simp only []
    have L2 := i_write_loop_logged (len - w1) (shift data w1)
      (if off > POINTERS_PER_INODE * BLOCK_SIZE then off - POINTERS_PER_INODE * BLOCK_SIZE else 0)
      POINTERS_PER_BLOCK 0 0 (m1.disk.read ino.Indirect).Pointers m1
    generalize i_write_loop_uses (len - w1) (shift data w1)
      (if off > POINTERS_PER_INODE * BLOCK_SIZE then off - POINTERS_PER_INODE * BLOCK_SIZE else 0)
      POINTERS_PER_BLOCK 0 0 (m1.disk.read ino.Indirect).Pointers m1 = u2 at L2 ⊢
    generalize i_write_loop (len - w1) (shift data w1)
      (if off > POINTERS_PER_INODE * BLOCK_SIZE then off - POINTERS_PER_INODE * BLOCK_SIZE else 0)
      POINTERS_PER_BLOCK 0 0 (m1.disk.read ino.Indirect).Pointers m1 = r2 at L2 ⊢
    show (update_inode r2.2.2 n _ _).disk.log ++ [ino.Indirect] = _
    rw [update_inode_logged, L2]
    simp only [update_inode_uses, List.append_eq, writesOf_append, writesOf, List.append_nil,
      List.append_assoc, List.nil_append]
    rw [← List.append_assoc m.disk.log, ← L1]

/-- The uses agree with the state model: the device writes among the uses of a call are,
in order, the writes the call appends to the write log of the device. -/
theorem uses_writes_logged (m : Mounted) (c : Call) :
    ∃ m1 : Mounted, m.toFS.call c = m1.toFS ∧
      m1.disk.log = m.disk.log ++ writesOf (m.toFS.uses c) := by
  cases c with
  | create => exact ⟨m.create.2, rfl, create_logged m⟩
  | remove n => exact ⟨(m.remove n).2, rfl, remove_logged m n⟩
  | stat n =>
    refine ⟨m, ?_, ?_⟩
    · show (m.toFS.stat n).2 = m.toFS
      rw [toFS_stat, stat_state]
    · show m.disk.log = m.disk.log ++ writesOf (m.stat_uses n)
      rw [stat_logged, List.append_nil]
  | read n data len off =>
    refine ⟨m, ?_, ?_⟩
    · show (m.toFS.read n data len off).2.2 = m.toFS
      rw [toFS_read, read_state]
    · show m.disk.log = m.disk.log ++ writesOf (m.read_uses n data len off)
      rw [read_logged, List.append_nil]
  | write n data len off => exact ⟨(m.write n data len off).2, rfl, write_logged m n data len off⟩

/-! ## The bound `T` and the length of the inode cache -/

theorem stat_uses_eq (m : Mounted) (n : Nat) (h : n < m.inodes) :
    m.stat_uses n = [.cache n, .devRead (1 + n / INODES_PER_BLOCK)] := by
  unfold Mounted.stat_uses load_inode_uses
  rw [if_neg (Nat.not_le.mpr h), if_neg (Nat.not_le.mpr h)]

theorem toFS_uses_stat (m : Mounted) (n : Nat) : m.toFS.uses (.stat n) = m.stat_uses n := rfl

theorem mountState_read (disk : Disk) (b : Nat) : (mountState disk).disk.read b = disk.read b :=
  rfl

set_option maxRecDepth 100000 in
/-- Counterexample to C21 as stated.  The inode cache is allocated with the 32-bit word
`Inodes` of the superblock, which is `T mod 2^32`.  On the volume made by `format` and
`mount` of a device of 335544320 blocks, `T = 128 * ceil(N / 10) = 2^32`, the inode cache
has 0 entries, and `stat(0)` uses the cache index 0, which is below `T` and outside the
cache. -/
theorem indices_in_bounds_counterexample :
    Reachable (mountState (format (rawDisk 335544320)).2).toFS ∧
    (mountState (format (rawDisk 335544320)).2).disk.size = 335544320 ∧
    (mountState (format (rawDisk 335544320)).2).inodes = 4294967296 ∧
    (mountState (format (rawDisk 335544320)).2).inode_table_len = 0 ∧
    (mountState (format (rawDisk 335544320)).2).toFS.uses (.stat 0)
      = [.cache 0, .devRead 1] ∧
    ¬ (Access.cache 0).inBounds (mountState (format (rawDisk 335544320)).2).disk.size
      (mountState (format (rawDisk 335544320)).2).inode_table_len := by
  obtain ⟨hr, _, hsz, _⟩ := format_mount_state (rawDisk 335544320) rfl (by decide) (by decide)
  have hT : (mountState (format (rawDisk 335544320)).2).inodes = 4294967296 := by
    rw [inodes_eq, hsz]
    decide
  have hlen : (mountState (format (rawDisk 335544320)).2).inode_table_len = 0 := by
    rw [mountState_table_len, (format_unmounted (rawDisk 335544320) rfl).2.2.1, Super_setSuper]
    decide
  refine ⟨hr, hsz, hT, hlen, ?_, ?_⟩
  · rw [toFS_uses_stat, stat_uses_eq _ 0 (by rw [hT]; decide)]
    rfl
  · rw [hlen]
    intro h
    exact Nat.lt_irrefl 0 h

end SFS
